import Mathlib

/-!
tds2idapy: loader for NE executables with Turbo Debugger Symbols.

A shallow embedding of `src/tools/tds2idapy.cpp`.

Conventions of the embedding:

* a file is a list of bytes with a read position and an end-of-file
  indicator, as a C `FILE*` opened on a regular file for binary reading;
* `std::vector` is `List`, `std::string` is a list of bytes (`Name`);
* the packed (`#pragma pack(1)`), little-endian structures are records of
  natural numbers, decoded from their bytes at the offsets the packing gives;
* methods that change the object take the object and return the new one;
* `int` is 32 bits wide and `long` is 64 bits wide (LP64);
* reading a vector outside its bounds, which the source leaves undefined,
  yields a zeroed entry (an empty string for the name pool).
-/

namespace OpenChasm

/-! ## Bytes and packed little-endian fields -/

/-- An octet of the input. -/
abbrev Byte := Fin 256

/-- A `std::string`: a sequence of `char`. -/
abbrev Name := List Byte

/-- Value of the byte at offset `i` of a buffer (0 past its end). -/
def byteAt (bs : List Byte) (i : Nat) : Nat := (bs.getD i 0).val

/-- The little-endian `uint16_t` stored at offset `i`. -/
def wordAt (bs : List Byte) (i : Nat) : Nat := byteAt bs i + 256 * byteAt bs (i + 1)

/-- The little-endian `uint32_t` stored at offset `i`. -/
def dwordAt (bs : List Byte) (i : Nat) : Nat := wordAt bs i + 65536 * wordAt bs (i + 2)

/-- Conversion of an integer to `int` (32-bit two's complement wrap-around). -/
def toInt32 (n : Int) : Int := (n + 2147483648) % 4294967296 - 2147483648

/-! ## class File -/

/-- State of an opened `File`: the bytes of the underlying file, the position
of the stream and its end-of-file indicator. -/
structure File where
  data : List Byte
  pos : Nat
  eof : Bool
deriving DecidableEq, Repr

/-- Origin argument of `fseek`. -/
inductive Origin where
  | SEEK_SET
  | SEEK_CUR
deriving DecidableEq, Repr

namespace File

/-- A stream freshly opened on the given bytes. -/
def ofBytes (data : List Byte) : File := { data := data, pos := 0, eof := false }

/-- `File::read`: `fread` of `length` bytes; succeeds only when exactly `length`
bytes were obtained. A short read consumes what is left and sets the
end-of-file indicator. -/
def read (f : File) (length : Nat) : Option (List Byte) × File :=
  let got := (f.data.drop f.pos).take length
  if got.length = length then
    (some got, { f with pos := f.pos + length })
  else
    (none, { f with pos := f.pos + got.length, eof := true })

/-- `File::seek`: `fseek`; fails for a negative resulting position, otherwise
moves the position (possibly past the end) and clears the end-of-file
indicator. -/
def seek (f : File) (offset : Int) (origin : Origin) : Bool × File :=
  let target : Int :=
    match origin with
    | Origin.SEEK_SET => offset
    | Origin.SEEK_CUR => (f.pos : Int) + offset
  if target < 0 then (false, f)
  else (true, { f with pos := target.toNat, eof := false })

/-- `File::readChar`: `fgetc`; `none` stands for `EOF`, which differs from
every byte value, and sets the end-of-file indicator. -/
def readChar (f : File) : Option Byte × File :=
  match f.data.get? f.pos with
  | some b => (some b, { f with pos := f.pos + 1 })
  | none => (none, { f with eof := true })

/-- `File::isEOF`: `feof`. -/
def isEOF (f : File) : Bool := f.eof

end File

/-! ## struct Executable -/

namespace Executable

/-- `Executable::OldHeader` (64 bytes). -/
structure OldHeader where
  signature : Nat
  bytesInLastBlock : Nat
  blocksInFile : Nat
  numRelocs : Nat
  header_paragraphs : Nat
  minExtraParagraphs : Nat
  maxExtraParagraphs : Nat
  ss : Nat
  sp : Nat
  checksum : Nat
  ip : Nat
  cs : Nat
  relocTableOffset : Nat
  overlay_number : Nat
  reserved : List Byte
  newHeaderOffset : Nat
deriving DecidableEq, Repr

/-- `sizeof(OldHeader)`. -/
def OldHeader.size : Nat := 64

/-- `OldHeader()`: all bytes zero. -/
def OldHeader.zero : OldHeader :=
  { signature := 0, bytesInLastBlock := 0, blocksInFile := 0, numRelocs := 0,
    header_paragraphs := 0, minExtraParagraphs := 0, maxExtraParagraphs := 0,
    ss := 0, sp := 0, checksum := 0, ip := 0, cs := 0, relocTableOffset := 0,
    overlay_number := 0, reserved := List.replicate 32 0, newHeaderOffset := 0 }

/-- The header whose packed image is `bs`. -/
def OldHeader.decode (bs : List Byte) : OldHeader :=
  { signature := wordAt bs 0, bytesInLastBlock := wordAt bs 2, blocksInFile := wordAt bs 4,
    numRelocs := wordAt bs 6, header_paragraphs := wordAt bs 8,
    minExtraParagraphs := wordAt bs 10, maxExtraParagraphs := wordAt bs 12,
    ss := wordAt bs 14, sp := wordAt bs 16, checksum := wordAt bs 18, ip := wordAt bs 20,
    cs := wordAt bs 22, relocTableOffset := wordAt bs 24, overlay_number := wordAt bs 26,
    reserved := (bs.drop 28).take 32, newHeaderOffset := dwordAt bs 60 }

/-- `Executable::NewHeader` (64 bytes). -/
structure NewHeader where
  signature : Nat
  linkerVersion : Nat
  linkerRevision : Nat
  entryTableOffset : Nat
  entryTableLength : Nat
  crc : Nat
  flags : Nat
  autoDataSegment : Nat
  initHeapSize : Nat
  initStackSize : Nat
  entryPoint : Nat
  stackPoint : Nat
  segmentCount : Nat
  moduleReferenceCount : Nat
  nonResidentNameSize : Nat
  segmentOffset : Nat
  resourceOffset : Nat
  residentNameOffset : Nat
  moduleReferenceOffset : Nat
  importNameOffset : Nat
  nonResidentNameOffset : Nat
  movableEntryCount : Nat
  sectorAlignmentShift : Nat
  resourceCount : Nat
  loaderType : Nat
  unused : List Byte
deriving DecidableEq, Repr

/-- `sizeof(NewHeader)`. -/
def NewHeader.size : Nat := 64

/-- `NewHeader()`: all bytes zero. -/
def NewHeader.zero : NewHeader :=
  { signature := 0, linkerVersion := 0, linkerRevision := 0, entryTableOffset := 0,
    entryTableLength := 0, crc := 0, flags := 0, autoDataSegment := 0, initHeapSize := 0,
    initStackSize := 0, entryPoint := 0, stackPoint := 0, segmentCount := 0,
    moduleReferenceCount := 0, nonResidentNameSize := 0, segmentOffset := 0,
    resourceOffset := 0, residentNameOffset := 0, moduleReferenceOffset := 0,
    importNameOffset := 0, nonResidentNameOffset := 0, movableEntryCount := 0,
    sectorAlignmentShift := 0, resourceCount := 0, loaderType := 0,
    unused := List.replicate 9 0 }

/-- The header whose packed image is `bs`. -/
def NewHeader.decode (bs : List Byte) : NewHeader :=
  { signature := wordAt bs 0, linkerVersion := byteAt bs 2, linkerRevision := byteAt bs 3,
    entryTableOffset := wordAt bs 4, entryTableLength := wordAt bs 6, crc := dwordAt bs 8,
    flags := wordAt bs 12, autoDataSegment := wordAt bs 14, initHeapSize := wordAt bs 16,
    initStackSize := wordAt bs 18, entryPoint := dwordAt bs 20, stackPoint := dwordAt bs 24,
    segmentCount := wordAt bs 28, moduleReferenceCount := wordAt bs 30,
    nonResidentNameSize := wordAt bs 32, segmentOffset := wordAt bs 34,
    resourceOffset := wordAt bs 36, residentNameOffset := wordAt bs 38,
    moduleReferenceOffset := wordAt bs 40, importNameOffset := wordAt bs 42,
    nonResidentNameOffset := dwordAt bs 44, movableEntryCount := wordAt bs 48,
    sectorAlignmentShift := wordAt bs 50, resourceCount := wordAt bs 52,
    loaderType := byteAt bs 54, unused := (bs.drop 55).take 9 }

/-- `Executable::Segment` (8 bytes). -/
structure Segment where
  sectorOffset : Nat
  length : Nat
  flags : Nat
  allocationSize : Nat
deriving DecidableEq, Repr

/-- `sizeof(Executable::Segment)`. -/
def Segment.size : Nat := 8

/-- `Segment()`: all bytes zero. -/
def Segment.zero : Segment := { sectorOffset := 0, length := 0, flags := 0, allocationSize := 0 }

/-- The segment record whose packed image is `bs`. -/
def Segment.decode (bs : List Byte) : Segment :=
  { sectorOffset := wordAt bs 0, length := wordAt bs 2, flags := wordAt bs 4,
    allocationSize := wordAt bs 6 }

end Executable

/-- `struct Executable`. -/
structure Executable where
  oldHeader : Executable.OldHeader
  newHeader : Executable.NewHeader
  segments : List Executable.Segment
deriving DecidableEq, Repr

namespace Executable

/-- A default-constructed `Executable`. -/
def init : Executable :=
  { oldHeader := OldHeader.zero, newHeader := NewHeader.zero, segments := [] }

/-- `Executable::loadOldHeader`. (A failed `fread` leaves the header as it was
in the model.) -/
def loadOldHeader (e : Executable) (input : File) : Bool × Executable × File :=
  match input.read OldHeader.size with
  | (none, input) => (false, e, input)
  | (some bs, input) =>
    let e := { e with oldHeader := OldHeader.decode bs }
    if 0x5A4D ≠ e.oldHeader.signature then (false, e, input)
    else (true, e, input)

/-- `Executable::loadNewHeader`. -/
def loadNewHeader (e : Executable) (input : File) : Bool × Executable × File :=
  let newHeaderOffset : Int := (e.oldHeader.newHeaderOffset : Int)
  match input.seek newHeaderOffset Origin.SEEK_SET with
  | (false, input) => (false, e, input)
  | (true, input) =>
    match input.read NewHeader.size with
    | (none, input) => (false, e, input)
    | (some bs, input) =>
      let e := { e with newHeader := NewHeader.decode bs }
      if 0x454E ≠ e.newHeader.signature then (false, e, input)
      else (true, e, input)

/-- The `for` loop of `Executable::loadSegments`, with `n` iterations left. -/
def loadSegmentsLoop : Nat → List Segment → File → Bool × List Segment × File
  | 0, segments, input => (true, segments, input)
  | n + 1, segments, input =>
    match input.read Segment.size with
    | (none, input) => (false, segments, input)
    | (some bs, input) => loadSegmentsLoop n (segments ++ [Segment.decode bs]) input

/-- `Executable::loadSegments`. -/
def loadSegments (e : Executable) (input : File) : Bool × Executable × File :=
  let segments := e.segments ++ [Segment.zero]
  match loadSegmentsLoop e.newHeader.segmentCount segments input with
  | (ok, segments, input) => (ok, { e with segments := segments }, input)

/-- The value `loadDebugInfo` gives to `tdsOffset`: the segments are scanned
from the last one backwards for one with a positive sector offset and a
positive length. Both operands of `<<` are promoted to `int`, so the shift
and the sum are 32-bit operations. The language leaves a shift count of 32 or
more, and overflow, undefined; the model follows the compiled program: the
32-bit shift instruction takes the count modulo 32 and the results wrap
around. The `int` value is then widened to the `long` that `seek` receives. -/
def tdsOffset (sectorAlignmentShift : Nat) (segments : List Segment) : Int :=
  match segments.reverse.find? (fun s => decide (s.sectorOffset > 0) && decide (s.length > 0)) with
  | some segment =>
    toInt32 (toInt32 ((segment.sectorOffset : Int) * 2 ^ (sectorAlignmentShift % 32))
      + (segment.length : Int))
  | none => 0

/-- `DEBUG_INFO_HEADER`: "NB02" and twelve 0xFF bytes. -/
def DEBUG_INFO_HEADER : List Byte :=
  [0x4E, 0x42, 0x30, 0x32, 0xFF, 0xFF, 0xFF, 0xFF,
   0xFF, 0xFF, 0xFF, 0xFF, 0xFF, 0xFF, 0xFF, 0xFF]

/-- `Executable::loadDebugInfo`. -/
def loadDebugInfo (e : Executable) (input : File) : Bool × Executable × File :=
  let tdsOffset := tdsOffset e.newHeader.sectorAlignmentShift e.segments
  match input.seek tdsOffset Origin.SEEK_SET with
  | (false, input) => (false, e, input)
  | (true, input) =>
    match input.read DEBUG_INFO_HEADER.length with
    | (none, input) => (false, e, input)
    | (some buffer, input) =>
      if DEBUG_INFO_HEADER ≠ buffer then (false, e, input)
      else (true, e, input)

/-- `Executable::load`: the four steps, each run only when the previous ones
succeeded. -/
def load (e : Executable) (file : File) : Bool × Executable × File :=
  match loadOldHeader e file with
  | (false, e, file) => (false, e, file)
  | (true, e, file) =>
    match loadNewHeader e file with
    | (false, e, file) => (false, e, file)
    | (true, e, file) =>
      match loadSegments e file with
      | (false, e, file) => (false, e, file)
      | (true, e, file) => loadDebugInfo e file

/-- A file of 136 bytes whose new header holds the sector alignment shift 33:
an old header (`MZ`, the debug-info signature in its bytes 20..35, new header
at 64), a new header (`NE`, one segment, shift 33) and the segment (sector
offset 6, length 8). The shift by 33 is carried out as a shift by 1, so that
`tdsOffset` is 6 * 2 + 8 = 20. -/
def wideShiftInput : List Byte :=
  [0x4D, 0x5A] ++ List.replicate 18 0 ++ DEBUG_INFO_HEADER ++ List.replicate 24 0
  ++ [64, 0, 0, 0]
  ++ ([0x4E, 0x45] ++ List.replicate 26 0 ++ [1, 0] ++ List.replicate 20 0 ++ [33, 0]
    ++ List.replicate 12 0)
  ++ [6, 0, 8, 0, 0, 0, 0, 0]

end Executable

/-! ## struct TDS: the packed records -/

namespace TDS

/-- `TDS::Symbol` (9 bytes). -/
structure Symbol where
  name : Nat
  type : Nat
  offset : Nat
  segment : Nat
  flags : Nat
deriving DecidableEq, Repr

/-- `Symbol()`: all bytes zero. -/
def Symbol.zero : Symbol := { name := 0, type := 0, offset := 0, segment := 0, flags := 0 }

/-- The symbol whose packed image is `bs`. -/
def Symbol.decode (bs : List Byte) : Symbol :=
  { name := wordAt bs 0, type := wordAt bs 2, offset := wordAt bs 4, segment := wordAt bs 6,
    flags := byteAt bs 8 }

/-- `TDS::Module` (16 bytes). -/
structure Module where
  name : Nat
  language : Nat
  flags : Nat
  symbolIndex : Nat
  symbolCount : Nat
  sourceIndex : Nat
  sourceCount : Nat
  correlationIndex : Nat
  correlationCount : Nat
deriving DecidableEq, Repr

/-- `Module()`: all bytes zero. -/
def Module.zero : Module :=
  { name := 0, language := 0, flags := 0, symbolIndex := 0, symbolCount := 0,
    sourceIndex := 0, sourceCount := 0, correlationIndex := 0, correlationCount := 0 }

/-- The module whose packed image is `bs`. -/
def Module.decode (bs : List Byte) : Module :=
  { name := wordAt bs 0, language := byteAt bs 2, flags := byteAt bs 3,
    symbolIndex := wordAt bs 4, symbolCount := wordAt bs 6, sourceIndex := wordAt bs 8,
    sourceCount := wordAt bs 10, correlationIndex := wordAt bs 12,
    correlationCount := wordAt bs 14 }

/-- `TDS::Source` (6 bytes). -/
structure Source where
  name : Nat
  date : Nat
deriving DecidableEq, Repr

/-- `Source()`: all bytes zero. -/
def Source.zero : Source := { name := 0, date := 0 }

/-- The source record whose packed image is `bs`. -/
def Source.decode (bs : List Byte) : Source := { name := wordAt bs 0, date := dwordAt bs 2 }

/-- `TDS::Line` (4 bytes). -/
structure Line where
  line : Nat
  offset : Nat
deriving DecidableEq, Repr

/-- `Line()`: all bytes zero. -/
def Line.zero : Line := { line := 0, offset := 0 }

/-- The line record whose packed image is `bs`. -/
def Line.decode (bs : List Byte) : Line := { line := wordAt bs 0, offset := wordAt bs 2 }

/-- `TDS::Scope` (12 bytes). -/
structure Scope where
  index : Nat
  count : Nat
  parentScope : Nat
  symbol : Nat
  offset : Nat
  length : Nat
deriving DecidableEq, Repr

/-- `Scope()`: all bytes zero. -/
def Scope.zero : Scope :=
  { index := 0, count := 0, parentScope := 0, symbol := 0, offset := 0, length := 0 }

/-- The scope whose packed image is `bs`. -/
def Scope.decode (bs : List Byte) : Scope :=
  { index := wordAt bs 0, count := wordAt bs 2, parentScope := wordAt bs 4,
    symbol := wordAt bs 6, offset := wordAt bs 8, length := wordAt bs 10 }

/-- `TDS::Segment` (16 bytes). -/
structure Segment where
  moduleIndex : Nat
  codeSegment : Nat
  codeOffset : Nat
  codeLength : Nat
  scopeIndex : Nat
  scopeCount : Nat
  correlationIndex : Nat
  correlationCount : Nat
deriving DecidableEq, Repr

/-- `Segment()`: all bytes zero. -/
def Segment.zero : Segment :=
  { moduleIndex := 0, codeSegment := 0, codeOffset := 0, codeLength := 0, scopeIndex := 0,
    scopeCount := 0, correlationIndex := 0, correlationCount := 0 }

/-- The TDS segment whose packed image is `bs`. -/
def Segment.decode (bs : List Byte) : Segment :=
  { moduleIndex := wordAt bs 0, codeSegment := wordAt bs 2, codeOffset := wordAt bs 4,
    codeLength := wordAt bs 6, scopeIndex := wordAt bs 8, scopeCount := wordAt bs 10,
    correlationIndex := wordAt bs 12, correlationCount := wordAt bs 14 }

/-- `TDS::Correlation` (8 bytes). -/
structure Correlation where
  segmentIndex : Nat
  fileIndex : Nat
  lineIndex : Nat
  lineCount : Nat
deriving DecidableEq, Repr

/-- `Correlation()`: all bytes zero. -/
def Correlation.zero : Correlation :=
  { segmentIndex := 0, fileIndex := 0, lineIndex := 0, lineCount := 0 }

/-- The correlation whose packed image is `bs`. -/
def Correlation.decode (bs : List Byte) : Correlation :=
  { segmentIndex := wordAt bs 0, fileIndex := wordAt bs 2, lineIndex := wordAt bs 4,
    lineCount := wordAt bs 6 }

/-- `TDS::Type` (8 bytes); `Type` itself is a reserved word of Lean. -/
structure TypeRecord where
  id : Nat
  name : Nat
  size : Nat
  recordByte : Nat
  recordWord : Nat
deriving DecidableEq, Repr

/-- `Type()`: all bytes zero. -/
def TypeRecord.zero : TypeRecord := { id := 0, name := 0, size := 0, recordByte := 0, recordWord := 0 }

/-- The type record whose packed image is `bs`. -/
def TypeRecord.decode (bs : List Byte) : TypeRecord :=
  { id := byteAt bs 0, name := wordAt bs 1, size := wordAt bs 3, recordByte := byteAt bs 5,
    recordWord := wordAt bs 6 }

/-- `TDS::Member` (5 bytes). -/
structure Member where
  info : Nat
  name : Nat
  type : Nat
deriving DecidableEq, Repr

/-- `Member()`: all bytes zero. -/
def Member.zero : Member := { info := 0, name := 0, type := 0 }

/-- The member whose packed image is `bs`. -/
def Member.decode (bs : List Byte) : Member :=
  { info := byteAt bs 0, name := wordAt bs 1, type := wordAt bs 3 }

/-- `TDS::ScopeClass` (4 bytes). -/
structure ScopeClass where
  index : Nat
  count : Nat
deriving DecidableEq, Repr

/-- `ScopeClass()`: all bytes zero. -/
def ScopeClass.zero : ScopeClass := { index := 0, count := 0 }

/-- The scope-class record whose packed image is `bs`. -/
def ScopeClass.decode (bs : List Byte) : ScopeClass :=
  { index := wordAt bs 0, count := wordAt bs 2 }

/-- `TDS::ModuleClass` (8 bytes). -/
structure ModuleClass where
  classIndex : Nat
  classCount : Nat
  overloadIndex : Nat
  overloadCount : Nat
deriving DecidableEq, Repr

/-- `ModuleClass()`: all bytes zero. -/
def ModuleClass.zero : ModuleClass :=
  { classIndex := 0, classCount := 0, overloadIndex := 0, overloadCount := 0 }

/-- The module-class record whose packed image is `bs`. -/
def ModuleClass.decode (bs : List Byte) : ModuleClass :=
  { classIndex := wordAt bs 0, classCount := wordAt bs 2, overloadIndex := wordAt bs 4,
    overloadCount := wordAt bs 6 }

/-- `TDS::Header` (64 bytes). -/
structure Header where
  magic : Nat
  version : Nat
  poolSize : Nat
  nameCount : Nat
  typeCount : Nat
  memberCount : Nat
  symbolCount : Nat
  globalSymbolCount : Nat
  moduleCount : Nat
  localSymbolCount : Nat
  scopeCount : Nat
  lineCount : Nat
  sourceCount : Nat
  segmentCount : Nat
  correlationCount : Nat
  unused1 : List Byte
  dataCount : Nat
  unused2 : List Byte
  classCount : Nat
  globalClassCount : Nat
  parentEntryCount : Nat
  overloadEntryCount : Nat
  scopeClassCount : Nat
  moduleClassCount : Nat
  coverageCount : Nat
  unused3 : List Byte
deriving DecidableEq, Repr

/-- `sizeof(TDS::Header)`. -/
def Header.size : Nat := 64

/-- `Header()`: all bytes zero. -/
def Header.zero : Header :=
  { magic := 0, version := 0, poolSize := 0, nameCount := 0, typeCount := 0, memberCount := 0,
    symbolCount := 0, globalSymbolCount := 0, moduleCount := 0, localSymbolCount := 0,
    scopeCount := 0, lineCount := 0, sourceCount := 0, segmentCount := 0,
    correlationCount := 0, unused1 := List.replicate 11 0, dataCount := 0,
    unused2 := List.replicate 3 0, classCount := 0, globalClassCount := 0,
    parentEntryCount := 0, overloadEntryCount := 0, scopeClassCount := 0,
    moduleClassCount := 0, coverageCount := 0, unused3 := List.replicate 2 0 }

/-- The TDS header whose packed image is `bs`. -/
def Header.decode (bs : List Byte) : Header :=
  { magic := wordAt bs 0, version := wordAt bs 2, poolSize := dwordAt bs 4,
    nameCount := wordAt bs 8, typeCount := wordAt bs 10, memberCount := wordAt bs 12,
    symbolCount := wordAt bs 14, globalSymbolCount := wordAt bs 16,
    moduleCount := wordAt bs 18, localSymbolCount := wordAt bs 20, scopeCount := wordAt bs 22,
    lineCount := wordAt bs 24, sourceCount := wordAt bs 26, segmentCount := wordAt bs 28,
    correlationCount := wordAt bs 30, unused1 := (bs.drop 32).take 11,
    dataCount := wordAt bs 43, unused2 := (bs.drop 45).take 3, classCount := wordAt bs 48,
    globalClassCount := wordAt bs 50, parentEntryCount := wordAt bs 52,
    overloadEntryCount := wordAt bs 54, scopeClassCount := wordAt bs 56,
    moduleClassCount := wordAt bs 58, coverageCount := wordAt bs 60,
    unused3 := (bs.drop 62).take 2 }

/-- What the template `TDS::load<Entry>` uses of a record kind: `sizeof(Entry)`,
the zeroed `Entry()`, the record held by `sizeof(Entry)` packed bytes, and the
specialisation `Header::count<Entry>()`. -/
class Entry (α : Type) where
  size : Nat
  zero : α
  decode : List Byte → α
  count : Header → Nat

instance : Entry Symbol := ⟨9, Symbol.zero, Symbol.decode, fun h => h.symbolCount⟩
instance : Entry Module := ⟨16, Module.zero, Module.decode, fun h => h.moduleCount⟩
instance : Entry Source := ⟨6, Source.zero, Source.decode, fun h => h.sourceCount⟩
instance : Entry Line := ⟨4, Line.zero, Line.decode, fun h => h.lineCount⟩
instance : Entry Scope := ⟨12, Scope.zero, Scope.decode, fun h => h.scopeCount⟩
instance : Entry Segment := ⟨16, Segment.zero, Segment.decode, fun h => h.segmentCount⟩
instance : Entry Correlation :=
  ⟨8, Correlation.zero, Correlation.decode, fun h => h.correlationCount⟩
instance : Entry TypeRecord :=
  ⟨8, TypeRecord.zero, TypeRecord.decode, fun h => h.typeCount⟩
instance : Entry Member := ⟨5, Member.zero, Member.decode, fun h => h.memberCount⟩
instance : Entry ScopeClass :=
  ⟨4, ScopeClass.zero, ScopeClass.decode, fun h => h.scopeClassCount⟩
instance : Entry ModuleClass :=
  ⟨8, ModuleClass.zero, ModuleClass.decode, fun h => h.moduleClassCount⟩

end TDS

/-- `struct TDS`. -/
structure TDS where
  executable : Executable
  header : TDS.Header
  symbols : List TDS.Symbol
  modules : List TDS.Module
  sources : List TDS.Source
  lines : List TDS.Line
  scopes : List TDS.Scope
  segments : List TDS.Segment
  correlations : List TDS.Correlation
  types : List TDS.TypeRecord
  members : List TDS.Member
  scopeClasses : List TDS.ScopeClass
  moduleClasses : List TDS.ModuleClass
  names : List Name
deriving DecidableEq, Repr

namespace TDS

/-- A default-constructed `TDS`. -/
def init : TDS :=
  { executable := Executable.init, header := Header.zero, symbols := [], modules := [],
    sources := [], lines := [], scopes := [], segments := [], correlations := [],
    types := [], members := [], scopeClasses := [], moduleClasses := [], names := [] }

/-- The `for` loop of `TDS::load<Entry>`, with `n` iterations left. -/
def loadTableLoop {α : Type} [Entry α] : Nat → List α → File → Bool × List α × File
  | 0, output, input => (true, output, input)
  | n + 1, output, input =>
    match input.read (Entry.size α) with
    | (none, input) => (false, output, input)
    | (some bs, input) => loadTableLoop n (output ++ [Entry.decode bs]) input

/-- `TDS::load<Entry>(File&, std::vector<Entry>&)`: the generic table loader. -/
def loadTable {α : Type} [Entry α] (header : Header) (input : File) (output : List α) :
    Bool × List α × File :=
  let count := Entry.count α header
  let output := output ++ [Entry.zero]
  loadTableLoop count output input

/-- The inner `while` loop of `TDS::loadNames`: bytes are appended to `name`
until a NUL or `EOF` is read. `none` when the fuel runs out. -/
def readName : Nat → Name → File → Option (Name × File)
  | 0, _, _ => none
  | fuel + 1, name, input =>
    match input.readChar with
    | (none, input) => some (name, input)
    | (some ch, input) =>
      if ch = 0 then some (name, input)
      else readName fuel (name ++ [ch]) input

/-- The outer `for (;;)` loop of `TDS::loadNames`. `none` when the fuel runs
out. -/
def loadNamesLoop : Nat → List Name → File → Option (List Name × File)
  | 0, _, _ => none
  | fuel + 1, names, input =>
    match readName (input.data.length - input.pos + 1) [] input with
    | none => none
    | some (name, input) =>
      if name.isEmpty || input.isEOF then some (names, input)
      else loadNamesLoop fuel (names ++ [name]) input

/-- `TDS::loadNames`. Every iteration of either loop that does not leave the
loop consumes a byte, so the fuel given here (one more than the number of
unread bytes) is never used up: the result is never `none`. -/
def loadNames (t : TDS) (input : File) : Option (TDS × File) :=
  let names := t.names ++ [[]]
  match loadNamesLoop (input.data.length - input.pos + 1) names input with
  | none => none
  | some (names, input) => some ({ t with names := names }, input)

/-- The name pool as the specification words it, not taken from the source:
the strings of a byte stream that are terminated by a NUL byte, in order.
`cur` holds the bytes of the string being read; a last string that is cut off
by the end of the stream is not listed. -/
def specTerminatedStrings : Name → List Byte → List Name
  | _, [] => []
  | cur, b :: rest =>
    if b = 0 then cur :: specTerminatedStrings [] rest
    else specTerminatedStrings (cur ++ [b]) rest

/-- The name pool as the specification words it, not taken from the source:
the empty string, then the maximal leading run of non-empty NUL-terminated
strings of the stream. -/
def specNamePool (bytes : List Byte) : List Name :=
  [] :: (specTerminatedStrings [] bytes).takeWhile (fun name => !name.isEmpty)

/-- Serialisation of pool entries as the specification words it ("NUL-joined"),
not taken from the source, which never writes a pool: the entries with one NUL
byte between each two of them. -/
def specSerialize (names : List Name) : List Byte := List.intercalate [0] names

/-! ### Type records and the type iterator -/

/-- `Type::isBasic`. -/
def TypeRecord.isBasic (t : TypeRecord) : Bool :=
  decide (0 = t.id) || (decide (t.id ≥ 4) && decide (t.id ≤ 12))

/-- `Type::isPascalString`. -/
def TypeRecord.isPascalString (t : TypeRecord) : Bool := decide (3 = t.id)

/-- `Type::isArray`. -/
def TypeRecord.isArray (t : TypeRecord) : Bool := decide (0x1C = t.id)

/-- `Type::isStruct`. -/
def TypeRecord.isStruct (t : TypeRecord) : Bool := decide (0x1E = t.id)

/-- `Type::isEnum`. -/
def TypeRecord.isEnum (t : TypeRecord) : Bool := decide (0x29 = t.id)

/-- `Type::hasExtendedTypeInfo`. -/
def TypeRecord.hasExtendedTypeInfo (t : TypeRecord) : Bool :=
  t.isBasic || t.isArray || t.isEnum

/-- `TDS::TypeIterator`: the table `m_types` points to, and `m_index`. -/
structure TypeIterator where
  types : List TypeRecord
  index : Nat
deriving DecidableEq, Repr

namespace TypeIterator

/-- The constructor `TypeIterator(types)`. -/
def init (types : List TypeRecord) : TypeIterator := { types := types, index := 1 }

/-- `TypeIterator::type`; `none` is the null pointer. -/
def type (it : TypeIterator) : Option TypeRecord :=
  if it.index < it.types.length then it.types.get? it.index else none

/-- `TypeIterator::hasNext`. -/
def hasNext (it : TypeIterator) : Bool := decide (it.index < it.types.length)

/-- `TypeIterator::operator++`. -/
def advance (it : TypeIterator) : TypeIterator :=
  if it.index ≥ it.types.length then it
  else
    match it.type with
    | none => it
    | some type =>
      let it := if type.hasExtendedTypeInfo then { it with index := it.index + 1 } else it
      { it with index := it.index + 1 }

/-- The successive states of a cursor used as the consumers do,
`for (i = ...; i.hasNext(); ++i)`, from the state `it` on. The index grows
at every step, so `types.size()` steps exhaust any cursor. -/
def walk : Nat → TypeIterator → List TypeIterator
  | 0, _ => []
  | fuel + 1, it => if it.hasNext then it :: walk fuel it.advance else []

/-- The table slots that `operator++` passes over: the indices inside the table
that lie strictly between the cursor before and after the step. -/
def jumped (it : TypeIterator) : List Nat :=
  (List.range' (it.index + 1) (it.advance.index - (it.index + 1))).filter
    (fun j => decide (j < it.types.length))

/-- The indices a fresh cursor over `types` presents until it is exhausted. -/
def visited (types : List TypeRecord) : List Nat :=
  (walk types.length (init types)).map (fun it => it.index)

/-- The indices a fresh cursor over `types` passes over until it is exhausted. -/
def skipped (types : List TypeRecord) : List Nat :=
  (walk types.length (init types)).flatMap jumped

end TypeIterator

/-- `TDS::typeIterator`. -/
def typeIterator (t : TDS) : TypeIterator := TypeIterator.init t.types

/-- `TDS::isGlobalSymbol`. -/
def isGlobalSymbol (t : TDS) (symbolIndex : Nat) : Bool :=
  let symbol := t.symbols.getD symbolIndex Symbol.zero
  decide (0 ≠ symbol.segment)
    && (decide (symbol.segment < t.executable.segments.length)
      || (decide (symbol.offset < t.names.length) && decide (0 ≠ symbol.offset)))

/-! ### Post-processing of the loaded tables -/

/-- The bytes of a string literal of the source (all of them ASCII). -/
def ascii (s : String) : Name := s.toList.map (fun c => Fin.ofNat c.toNat)

/-- `std::string::c_str()` as read by `%s`: the bytes before the first NUL. -/
def cstr (s : Name) : Name := s.takeWhile (fun b => decide (b ≠ 0))

/-- What `%u` prints. -/
def decimal (n : Nat) : Name := (Nat.toDigits 10 n).map (fun c => Fin.ofNat c.toNat)

/-- `RESERVED_NAMES`. There is no comma between `"SS"` and `"AH"` in the
source, so the two literals are one array entry, `"SSAH"`. -/
def RESERVED_NAMES : List Name :=
  [ascii "VGA",
   ascii "AX", ascii "BX", ascii "CX", ascii "DX", ascii "BP", ascii "SI", ascii "DI",
   ascii "CS", ascii "DS", ascii "ES", ascii "SSAH",
   ascii "AL", ascii "BH", ascii "BL", ascii "CH", ascii "CL", ascii "DH", ascii "DL"]

/-- `TDS::renameReservedWords`. -/
def renameReservedWords (t : TDS) : TDS :=
  let reservedNames := RESERVED_NAMES
  { t with names := t.names.map (fun name =>
      if name ∈ reservedNames then ascii "$" ++ name else name) }

/-- The string `snprintf(buffer, sizeof buffer, "%s$%u", name.c_str(), counter)`
leaves in the 256-byte `buffer`: at most 255 characters are kept. -/
def formatNewName (name : Name) (counter : Nat) : Name :=
  (cstr name ++ ascii "$" ++ decimal counter).take 255

/-- The `do ... while` loop of `TDS::makeGlobalSymbolsUnique`, from the given
value of `counter` (an `unsigned`, so that it wraps at 2^32). `none` when the
fuel runs out. -/
def findNewName (uniqueSymbols : List Name) (name : Name) : Nat → Nat → Option Name
  | 0, _ => none
  | fuel + 1, counter =>
    let newName := formatNewName name counter
    if newName ∈ uniqueSymbols then
      findNewName uniqueSymbols name fuel ((counter + 1) % 4294967296)
    else some newName

/-- The capacity of a `std::vector` that had the capacity `capacity` and was
then filled by `push_back` up to `size` elements: `push_back` on a full vector
doubles the capacity (the growth of the GNU C++ library), so this is the first
of `capacity`, `2 * capacity`, `4 * capacity`, ... that holds `size` elements. -/
def grownCapacity : Nat → Nat → Nat → Nat
  | 0, capacity, _ => capacity
  | fuel + 1, capacity, size =>
    if size ≤ capacity then capacity else grownCapacity fuel (2 * capacity) size

/-- The capacity of the vector `names` inside `TDS::load`: `loadNames` calls
`names.reserve(header.nameCount + 1)` on the empty vector, and every entry is
added by `push_back`. -/
def namesCapacity (t : TDS) : Nat :=
  grownCapacity t.names.length (t.header.nameCount + 1) t.names.length

/-- The body of the `for` loop of `TDS::makeGlobalSymbolsUnique` for symbol `i`.
There is no result (`none`) in two cases. The `do ... while` loop does not
change `uniqueSymbols`, so after 2^32 iterations `counter` is 0 again and the
loop is where it started: it never ends. And `name` is a reference to the
element `names[symbol.name]`: when the vector is full (its size is its
capacity), `names.push_back(newName)` moves the elements to a new block, the
reference dangles, and `uniqueSymbols.insert(name)` at the end of the body
reads through it, which the language leaves undefined. When the vector has
room, `name` still refers to the name of the symbol. -/
def makeGlobalSymbolUnique (t : TDS) (uniqueSymbols : List Name) (i : Nat) :
    Option (TDS × List Name) :=
  if !isGlobalSymbol t i then some (t, uniqueSymbols)
  else
    let symbol := t.symbols.getD i Symbol.zero
    let name := t.names.getD symbol.name []
    if name ∈ uniqueSymbols then
      match findNewName uniqueSymbols name 4294967296 0 with
      | none => none
      | some newName =>
        if t.names.length = namesCapacity t then none
        else
          let symbol := { symbol with name := t.names.length % 65536 }
          let t := { t with symbols := t.symbols.set i symbol, names := t.names ++ [newName] }
          some (t, (uniqueSymbols.insert newName).insert name)
    else some (t, uniqueSymbols.insert name)

/-- The `for` loop of `TDS::makeGlobalSymbolsUnique`, with `n` iterations left
and the loop variable at `i`. -/
def makeGlobalSymbolsUniqueLoop : Nat → Nat → TDS → List Name → Option TDS
  | 0, _, t, _ => some t
  | n + 1, i, t, uniqueSymbols =>
    match makeGlobalSymbolUnique t uniqueSymbols i with
    | none => none
    | some (t, uniqueSymbols) => makeGlobalSymbolsUniqueLoop n (i + 1) t uniqueSymbols

/-- `TDS::makeGlobalSymbolsUnique`; `none` when it has no result: a search for
a new name never ends, or the dangling reference is read. -/
def makeGlobalSymbolsUnique (t : TDS) : Option TDS :=
  makeGlobalSymbolsUniqueLoop (t.symbols.length - 1) 1 t []

/-- The two fields `findNameForType` reads of an `Item` (a symbol or a member). -/
class Item (α : Type) where
  name : α → Nat
  type : α → Nat

instance : Item Symbol := ⟨Symbol.name, Symbol.type⟩
instance : Item Member := ⟨Member.name, Member.type⟩

/-- The `for` loop of `TDS::findNameForType` over the items still to visit. -/
def findNameForTypeLoop {α : Type} [Item α] (t : TDS) (typeIndex : Nat) : List α → Name
  | [] => []
  | item :: rest =>
    if typeIndex = Item.type item then
      t.names.getD (Item.name item) [] ++ ascii "$Type"
    else
      let symbolType := t.types.getD (Item.type item) TypeRecord.zero
      if symbolType.isArray && decide (typeIndex = symbolType.recordWord) then
        t.names.getD (Item.name item) [] ++ ascii "$Element"
      else findNameForTypeLoop t typeIndex rest

/-- `TDS::findNameForType`: the items from index 1 on are searched. -/
def findNameForType {α : Type} [Item α] (t : TDS) (collection : List α) (typeIndex : Nat) :
    Name :=
  findNameForTypeLoop t typeIndex (collection.drop 1)

/-- `types[index].name = static_cast<uint16_t>(names.size()); names.push_back(name)`. -/
def assignTypeName (t : TDS) (index : Nat) (name : Name) : TDS :=
  { t with
    types := t.types.modify (fun type => { type with name := t.names.length % 65536 }) index,
    names := t.names ++ [name] }

/-- The loop of `TDS::assignMissingTypeNames` with the iterator at `index`; the
iterator reads the type table of the object through its pointer. `none` when
the fuel runs out. -/
def assignMissingTypeNamesLoop : Nat → Nat → TDS → Option TDS
  | 0, _, _ => none
  | fuel + 1, index, t =>
    let i : TypeIterator := { types := t.types, index := index }
    if !i.hasNext then some t
    else
      let type := i.type.getD TypeRecord.zero
      let t :=
        if decide (0 ≠ type.name) || !(type.isStruct || type.isEnum) then t
        else
          let index := i.index
          let name := findNameForType t t.symbols index
          let name := if name.isEmpty then findNameForType t t.members index else name
          if !name.isEmpty then assignTypeName t index name else t
      let i : TypeIterator := { i with types := t.types }
      assignMissingTypeNamesLoop fuel i.advance.index t

/-- `TDS::assignMissingTypeNames`. The index of the iterator grows at every
step, so the loop ends within `types.size()` iterations. -/
def assignMissingTypeNames (t : TDS) : Option TDS :=
  assignMissingTypeNamesLoop (t.types.length + 1) (typeIterator t).index t

/-- Replacement of the first element equal to `old`, as done through the
iterator `std::find` returns. -/
def replaceFirst (old new : Name) : List Name → List Name
  | [] => []
  | name :: rest => if name = old then new :: rest else name :: replaceFirst old new rest

/-- The loop of `TDS::applyPS10Specific` with the iterator at `index`. `none`
when the fuel runs out. -/
def applyPS10SpecificLoop : Nat → Nat → TDS → Option TDS
  | 0, _, _ => none
  | fuel + 1, index, t =>
    let i : TypeIterator := { types := t.types, index := index }
    if !i.hasNext then some t
    else
      let type := i.type.getD TypeRecord.zero
      let t :=
        if decide (0 ≠ type.name) || !type.isStruct || decide (4 ≠ type.size) then t
        else assignTypeName t i.index (ascii "Free_vert$Element")
      let i : TypeIterator := { i with types := t.types }
      applyPS10SpecificLoop fuel i.advance.index t

/-- `TDS::applyPS10Specific`. -/
def applyPS10Specific (t : TDS) : Option TDS :=
  let t := { t with names := replaceFirst (ascii "A$Type") (ascii "$PPoint") t.names }
  applyPS10SpecificLoop (t.types.length + 1) (typeIterator t).index t

/-! ### TDS::load -/

/-- The call `load(file, symbols)` of `TDS::load`: the generic loader on the table
`symbols` of the object. -/
def loadSymbols (t : TDS) (file : File) : Bool × TDS × File :=
  match loadTable t.header file t.symbols with
  | (ok, symbols, file) => (ok, { t with symbols := symbols }, file)

/-- The call `load(file, modules)` of `TDS::load`: the generic loader on the table
`modules` of the object. -/
def loadModules (t : TDS) (file : File) : Bool × TDS × File :=
  match loadTable t.header file t.modules with
  | (ok, modules, file) => (ok, { t with modules := modules }, file)

/-- The call `load(file, sources)` of `TDS::load`: the generic loader on the table
`sources` of the object. -/
def loadSources (t : TDS) (file : File) : Bool × TDS × File :=
  match loadTable t.header file t.sources with
  | (ok, sources, file) => (ok, { t with sources := sources }, file)

/-- The call `load(file, lines)` of `TDS::load`: the generic loader on the table
`lines` of the object. -/
def loadLines (t : TDS) (file : File) : Bool × TDS × File :=
  match loadTable t.header file t.lines with
  | (ok, lines, file) => (ok, { t with lines := lines }, file)

/-- The call `load(file, scopes)` of `TDS::load`: the generic loader on the table
`scopes` of the object. -/
def loadScopes (t : TDS) (file : File) : Bool × TDS × File :=
  match loadTable t.header file t.scopes with
  | (ok, scopes, file) => (ok, { t with scopes := scopes }, file)

/-- The call `load(file, segments)` of `TDS::load`: the generic loader on the table
`segments` of the object. -/
def loadSegments (t : TDS) (file : File) : Bool × TDS × File :=
  match loadTable t.header file t.segments with
  | (ok, segments, file) => (ok, { t with segments := segments }, file)

/-- The call `load(file, correlations)` of `TDS::load`: the generic loader on the table
`correlations` of the object. -/
def loadCorrelations (t : TDS) (file : File) : Bool × TDS × File :=
  match loadTable t.header file t.correlations with
  | (ok, correlations, file) => (ok, { t with correlations := correlations }, file)

/-- The call `load(file, types)` of `TDS::load`: the generic loader on the table
`types` of the object. -/
def loadTypes (t : TDS) (file : File) : Bool × TDS × File :=
  match loadTable t.header file t.types with
  | (ok, types, file) => (ok, { t with types := types }, file)

/-- The call `load(file, members)` of `TDS::load`: the generic loader on the table
`members` of the object. -/
def loadMembers (t : TDS) (file : File) : Bool × TDS × File :=
  match loadTable t.header file t.members with
  | (ok, members, file) => (ok, { t with members := members }, file)

/-- The call `load(file, scopeClasses)` of `TDS::load`: the generic loader on the table
`scopeClasses` of the object. -/
def loadScopeClasses (t : TDS) (file : File) : Bool × TDS × File :=
  match loadTable t.header file t.scopeClasses with
  | (ok, scopeClasses, file) => (ok, { t with scopeClasses := scopeClasses }, file)

/-- The call `load(file, moduleClasses)` of `TDS::load`: the generic loader on the table
`moduleClasses` of the object. -/
def loadModuleClasses (t : TDS) (file : File) : Bool × TDS × File :=
  match loadTable t.header file t.moduleClasses with
  | (ok, moduleClasses, file) => (ok, { t with moduleClasses := moduleClasses }, file)

/-- Short-circuit evaluation of `a && b` for calls on the object: `next` runs
only when the calls before it returned true, on the state they left. -/
def andThen (r : Bool × TDS × File) (next : TDS → File → Bool × TDS × File) :
    Bool × TDS × File :=
  match r with
  | (false, t, file) => (false, t, file)
  | (true, t, file) => next t file

/-- The chain `!load(file, symbols) || ... || !load(file, moduleClasses)` of
`TDS::load`, negated: the eleven tables are loaded in this order, stopping at
the first failure. -/
def loadTables (t : TDS) (file : File) : Bool × TDS × File :=
  let r := loadSymbols t file
  let r := andThen r loadModules
  let r := andThen r loadSources
  let r := andThen r loadLines
  let r := andThen r loadScopes
  let r := andThen r loadSegments
  let r := andThen r loadCorrelations
  let r := andThen r loadTypes
  let r := andThen r loadMembers
  let r := andThen r loadScopeClasses
  andThen r loadModuleClasses

/-- A property used in the proofs: the call `step` succeeds exactly when the `n`
bytes its header asks for are left, and then it has advanced the stream by
these bytes and kept the header. -/
def ReadsBytes (n : Header → Nat) (step : TDS → File → Bool × TDS × File) : Prop :=
  ∀ (t : TDS) (f : File),
    ((step t f).1 = true ↔ n t.header ≤ f.data.length - f.pos)
    ∧ ((step t f).1 = true →
        (step t f).2.2 = { f with pos := f.pos + n t.header }
        ∧ (step t f).2.1.header = t.header)

/-- The number of bytes of the records a header declares: for each of the eleven
tables, in the order `TDS::load` reads them, the count of the header times the
packed size of the record. -/
def Header.recordBytes (h : Header) : Nat :=
  h.symbolCount * 9 + h.moduleCount * 16 + h.sourceCount * 6 + h.lineCount * 4
    + h.scopeCount * 12 + h.segmentCount * 16 + h.correlationCount * 8 + h.typeCount * 8
    + h.memberCount * 5 + h.scopeClassCount * 4 + h.moduleClassCount * 8

/-- The four passes `TDS::load` runs after `loadNames`; `none` when one of them
has no result. -/
def postProcess (t : TDS) : Option TDS :=
  (makeGlobalSymbolsUnique (renameReservedWords t)).bind
    (fun t => (assignMissingTypeNames t).bind applyPS10Specific)

/-- The first part of `TDS::load(filename)` on the object `t`, up to the seek
over the data block: every `return false` of `TDS::load` is in this part. The
argument is the `File` opened on `filename`, `none` when it could not be
opened. The result is the object and the file positioned at the name pool,
`none` when `return false` was reached. -/
def loadStructure (t : TDS) (file : Option File) : TDS × Option File :=
  match file with
  | none => (t, none)
  | some file =>
    match t.executable.load file with
    | (false, executable, _) => ({ t with executable := executable }, none)
    | (true, executable, file) =>
      let t := { t with executable := executable }
      match file.read Header.size with
      | (none, _) => (t, none)
      | (some bs, file) =>
        let t := { t with header := Header.decode bs }
        match loadTables t file with
        | (false, t, _) => (t, none)
        | (true, t, file) =>
          match file.seek (t.header.dataCount : Int) Origin.SEEK_CUR with
          | (false, _) => (t, none)
          | (true, file) => (t, some file)

/-- `TDS::load(filename)` on the object `t`: the part that can fail, then
`loadNames`, the four passes and `return true`. The result is the value
returned together with the object; it is `none` when the call has no result
(one of the passes has none). -/
def load (t : TDS) (file : Option File) : Option (Bool × TDS) :=
  match loadStructure t file with
  | (t, none) => some (false, t)
  | (t, some file) =>
    match loadNames t file with
    | none => none
    | some (t, _) =>
      match postProcess t with
      | none => none
      | some t => some (true, t)

/-- A well-formed input of 490 bytes: an old header (`MZ`, new header at 64), a
new header (`NE`, one segment, sector alignment shift 7), the segment (sector
offset 1, length 8, so that the debug information starts at 136), the
debug-info signature, a TDS header that declares two symbols and nothing
else, the two symbols (both in segment 1, both named by pool entry 1), and a
name pool holding one name of 255 letters `A`. -/
def longNameInput : List Byte :=
  [0x4D, 0x5A] ++ List.replicate 58 0 ++ [64, 0, 0, 0]
  ++ ([0x4E, 0x45] ++ List.replicate 26 0 ++ [1, 0] ++ List.replicate 20 0 ++ [7, 0]
    ++ List.replicate 12 0)
  ++ [1, 0, 8, 0, 0, 0, 0, 0]
  ++ Executable.DEBUG_INFO_HEADER
  ++ (List.replicate 14 0 ++ [2, 0] ++ List.replicate 48 0)
  ++ [1, 0, 0, 0, 0, 0, 1, 0, 0]
  ++ [1, 0, 0, 0, 0, 0, 1, 0, 0]
  ++ (List.replicate 255 0x41 ++ [0])

/-! ### Type strings -/

/-- The packed 8-byte image of a `TDS::Type`, as the `raw...` accessors read it. -/
def TypeRecord.encode (t : TypeRecord) : List Byte :=
  [Fin.ofNat t.id, Fin.ofNat t.name, Fin.ofNat (t.name / 256), Fin.ofNat t.size,
   Fin.ofNat (t.size / 256), Fin.ofNat t.recordByte, Fin.ofNat t.recordWord,
   Fin.ofNat (t.recordWord / 256)]

/-- `Type::rawByte`. -/
def TypeRecord.rawByte (t : TypeRecord) (index : Nat) : Nat := byteAt t.encode index

/-- `Type::rawWord`. -/
def TypeRecord.rawWord (t : TypeRecord) (index : Nat) : Nat := wordAt t.encode (2 * index)

/-- `Type::rawDoubleWord`. -/
def TypeRecord.rawDoubleWord (t : TypeRecord) (index : Nat) : Nat :=
  dwordAt t.encode (4 * index)

/-- `Type::rawQuadWord`. -/
def TypeRecord.rawQuadWord (t : TypeRecord) : Nat :=
  dwordAt t.encode 0 + 4294967296 * dwordAt t.encode 4

/-- What `%X` prints: uppercase hexadecimal without leading zeros. -/
def hexUpper (n : Nat) : Name :=
  (Nat.toDigits 16 n).map
    (fun c => Fin.ofNat (if 97 ≤ c.toNat then c.toNat - 32 else c.toNat))

/-- `TYPE_NAMES` of `GetTypeString`. -/
def TYPE_NAMES : List Name :=
  [ascii "void",
   ascii "BASIC literal string",
   ascii "BASIC dynamic string",
   ascii "PASCAL string",
   ascii "signed char",
   ascii "signed int",
   ascii "signed long",
   ascii "signed quad",
   ascii "unsigned char",
   ascii "unsigned int",
   ascii "unsigned long",
   ascii "unsigned quad",
   ascii "PASCAL character",
   ascii "float",
   ascii "PASCAL 6-byte real",
   ascii "double",
   ascii "long double",
   ascii "4-byte BCD",
   ascii "8-byte BCD",
   ascii "10-byte BCD",
   ascii "cobol BCD",
   ascii "near pointer ",
   ascii "far pointer ",
   ascii "segment pointer ",
   ascii "near386",
   ascii "far386",
   ascii "c array",
   ascii "very large array",
   ascii "PASCAL array",
   ascii "BASIC array descriptor",
   ascii "struct",
   ascii "union",
   ascii "very large struct",
   ascii "very large union",
   ascii "enum",
   ascii "function ",
   ascii "label",
   ascii "set",
   ascii "PASCAL text file",
   ascii "PASCAL binary file",
   ascii "PASCAL boolean",
   ascii "PASCAL enum",
   ascii "raw pword",
   ascii "raw tbyte",
   ascii "prototype",
   ascii "special function",
   ascii "class",
   ascii "-- Unknown type 2F --",
   ascii "handle pointer",
   ascii "-- Unknown type 31 --",
   ascii "-- Unknown type 32 --",
   ascii "member pointer",
   ascii "near reference pointer ",
   ascii "far reference pointer ",
   ascii "Word Boolean",
   ascii "Long Boolean",
   ascii "new member ptr",
   ascii "-- Unknown type 39 --",
   ascii "-- Unknown type 3A --",
   ascii "-- Unknown type 3B --",
   ascii "-- Unknown type 3C --",
   ascii "-- Unknown type 3D --",
   ascii "Global Handle",
   ascii "Local Handle"]

/-- `GetTypeString`. -/
def GetTypeString (id : Nat) : Name :=
  if id < TYPE_NAMES.length then TYPE_NAMES.getD id [] else ascii "Bad Type ID"

/-- `GetRange`; the text is what `snprintf` leaves in the 256-byte buffer. -/
def GetRange (type extended : TypeRecord) (range : Nat) : Name :=
  if extended.rawQuadWord = range then []
  else
    (ascii "Range <" ++ hexUpper (extended.rawDoubleWord 0) ++ ascii ","
      ++ hexUpper (extended.rawDoubleWord 1) ++ ascii ">  Parent "
      ++ hexUpper (type.rawWord 3)).take 255

/-- `MODEL_NAMES` of `GetMemoryModel`. -/
def MODEL_NAMES : List Name :=
  [ascii "near C ",
   ascii "near PASCAL ",
   ascii "-- unused lang 2 -- ",
   ascii "interrupt ",
   ascii "far C ",
   ascii "far PASCAL ",
   ascii "-- unused lang 6 -- ",
   ascii "interrupt "]

/-- `GetMemoryModel`. -/
def GetMemoryModel (type : TypeRecord) : Name := MODEL_NAMES.getD (type.recordByte &&& 7) []

/-- `TDS::functionTypeString`; `typeString` is the renderer it calls for the
type returned, which gives `none` when that call does not return. -/
def functionTypeString (typeString : Nat → Option Name) (type : TypeRecord) : Option Name :=
  let result : Name := []
  let result := if type.recordByte &&& 0x40 ≠ 0 then result ++ ascii "nested " else result
  let result := result ++ GetMemoryModel type
  let result := if type.recordByte &&& 0x80 ≠ 0 then result ++ ascii "varargs " else result
  let result := result ++ ascii "returns "
  if 0 = type.recordWord then some (result ++ ascii "Unknown")
  else (typeString type.recordWord).map (fun returned => result ++ returned)

/-- `TDS::typeString`, with a bound on the depth of the calls: `none` when the
bound is reached. The source has no such bound (its comment says `TODO: check
for recursive types`), so a call returns the string `s` when some bound
gives `some s`, and does not return when every bound gives `none`. -/
def typeString (t : TDS) : Nat → Nat → Option Name
  | 0, _ => none
  | depth + 1, typeIndex =>
    if t.types.length ≤ typeIndex then some []
    else
      let type := t.types.getD typeIndex TypeRecord.zero
      let typeID := type.id
      let result := GetTypeString typeID
      if t.names.length ≤ type.name then some result
      else
        let name := t.names.getD type.name []
        let result := if !name.isEmpty then result ++ (ascii " '" ++ name ++ ascii "' ") else result
        let extended :=
          if t.types.length - 1 > typeIndex then t.types.getD (typeIndex + 1) TypeRecord.zero
          else TypeRecord.zero
        let addChars : Name := []
        let ended : Option (Name × Name) :=
          if typeID = 3 then
            some (result, (ascii "max " ++ hexUpper (type.recordByte % 256) ++ ascii " ").take 255)
          else if typeID = 4 then some (result ++ GetRange type extended 0x0000007FFFFFFF80, addChars)
          else if typeID = 5 then some (result ++ GetRange type extended 0x00007FFFFFFF8000, addChars)
          else if typeID = 6 then some (result ++ GetRange type extended 0x7FFFFFFF80000000, addChars)
          else if typeID = 8 then some (result ++ GetRange type extended 0x000000FF00000000, addChars)
          else if typeID = 9 then some (result ++ GetRange type extended 0x0000FFFF00000000, addChars)
          else if typeID = 10 then some (result ++ GetRange type extended 0xFFFFFFFF00000000, addChars)
          else if typeID = 22 ∨ typeID = 25 ∨ typeID = 53 then
            (typeString t depth type.recordWord).map (fun pointee =>
              (result ++ ((if 0 = type.recordByte then [] else ascii "huge ") ++ pointee), addChars))
          else if typeID = 35 then
            (functionTypeString (typeString t depth) type).map (fun text => (result ++ text, addChars))
          else some (result, addChars)
        ended.map (fun r => r.1 ++ r.2)

/-! ### The script generator -/

/-- A `uint16_t` converted to `int16_t`. -/
def toInt16 (n : Nat) : Int :=
  if n % 65536 < 32768 then ((n % 65536 : Nat) : Int) else ((n % 65536 : Nat) : Int) - 65536

/-- What `%i` and `%hi` print. -/
def decimalInt (n : Int) : Name :=
  if n < 0 then ascii "-" ++ decimal (-n).toNat else decimal n.toNat

/-- What `%04hx` prints: the low 16 bits in lowercase hexadecimal, with zeros
in front up to 4 digits. -/
def hexLower4 (n : Nat) : Name :=
  let digits : Name := (Nat.toDigits 16 (n % 65536)).map (fun c => Fin.ofNat c.toNat)
  List.replicate (4 - digits.length) 48 ++ digits

/-- One call that writes to `output`, with the values of its arguments (those
given to `%s` as C strings): the `fprintf` calls of the generator by the
command they print, `text` for `fputs` and `fwrite`. -/
inductive Command where
  | add_enum (typeName : Name)
  | make_struc (typeName : Name)
  | add_enum_member (memberName : Name) (value : Nat)
  | make_struc_member (memberName : Name) (offset : Nat) (typeName : Name) (memberSize : Nat)
      (elementSize : Int) (typeFlags : Name)
  | make_import (importedName name type : Name)
  | make_data (segment offset : Nat) (name type : Name) (size : Nat)
  | make_func (segment offset : Nat) (name type : Name)
  | make_local (offset : Int) (name type : Name)
  | make_src_line (codeSegment offset line : Nat)
  | make_src_file (codeSegment startOffset endOffset : Nat) (filename : Name)
  | text (bytes : Name)
deriving DecidableEq, Repr

/-- The bytes a call writes: the format strings of the generator. -/
def Command.print : Command → Name
  | .add_enum typeName => ascii "enum = add_enum(BADADDR, \"" ++ typeName ++ ascii "\", 0)\n"
  | .make_struc typeName => ascii "struc = make_struc(\"" ++ typeName ++ ascii "\")\n"
  | .add_enum_member memberName value =>
    ascii "add_enum_member(enum, '" ++ memberName ++ ascii "', " ++ decimal (value % 65536)
      ++ ascii ")\n"
  | .make_struc_member memberName offset typeName memberSize elementSize typeFlags =>
    ascii "make_struc_member(struc, '" ++ memberName ++ ascii "', " ++ decimal (offset % 65536)
      ++ ascii ", '" ++ typeName ++ ascii "', " ++ decimal (memberSize % 65536) ++ ascii ", "
      ++ decimalInt elementSize ++ ascii ", " ++ typeFlags ++ ascii ")\n"
  | .make_import importedName name type =>
    ascii "make_import(\"" ++ importedName ++ ascii "\", \"" ++ name ++ ascii "\", \"" ++ type
      ++ ascii "\")\n"
  | .make_data segment offset name type size =>
    ascii "make_data(" ++ decimal (segment % 65536) ++ ascii ", 0x" ++ hexLower4 offset
      ++ ascii ", \"" ++ name ++ ascii "\", \"" ++ type ++ ascii "\", "
      ++ decimal (size % 65536) ++ ascii ")\n"
  | .make_func segment offset name type =>
    ascii "func = make_func(" ++ decimal (segment % 65536) ++ ascii ", 0x" ++ hexLower4 offset
      ++ ascii ", \"" ++ name ++ ascii "\", \"" ++ type ++ ascii "\")\n"
  | .make_local offset name type =>
    ascii "make_local(func, " ++ decimalInt offset ++ ascii ", \"" ++ name ++ ascii "\", \""
      ++ type ++ ascii "\")\n"
  | .make_src_line codeSegment offset line =>
    ascii "make_src_line(" ++ decimal (codeSegment % 65536) ++ ascii ", 0x" ++ hexLower4 offset
      ++ ascii ", " ++ decimal (line % 65536) ++ ascii ")\n"
  | .make_src_file codeSegment startOffset endOffset filename =>
    ascii "make_src_file(" ++ decimal (codeSegment % 65536) ++ ascii ", 0x"
      ++ hexLower4 startOffset ++ ascii ", 0x" ++ hexLower4 endOffset ++ ascii ", \""
      ++ filename ++ ascii "\")\n"
  | .text bytes => bytes

/-- `GeneratePS10Specifics`: one `fputs` of a fixed text. -/
def GeneratePS10Specifics : List Command :=
  [.text (ascii "make_func(2, 0x2070, '$CspRndrInit', '')\n"
    ++ ascii "make_func(3, 0x3756, '$CsDemoInit', '')\n"
    ++ ascii "make_func(4, 0x32cb, '$Cs3dm2Init', '')\n"
    ++ ascii "make_func(5, 0x84ea, '$CsActInit', '')\n"
    ++ ascii "make_func(6, 0x6ff8, '$CspUtlInit', '')\n"
    ++ ascii "make_func(7, 0x2cdd, '$CsMenuInit', '')\n"
    ++ ascii "make_func(8, 0x6b43, '$CspBioInit', '')\n"
    ++ ascii "make_func(9, 0x2685, '$SoundIPInit', '')\n"
    ++ ascii "\n")]

/-- `GetTypeName`, with a bound on the depth of the calls (an array type calls
it again for its element type): `none` when the bound is reached. The string
returned is read up to its first NUL. -/
def GetTypeName (t : TDS) : Nat → Nat → Option Name
  | 0, _ => none
  | depth + 1, typeIndex =>
    let type := t.types.getD typeIndex TypeRecord.zero
    if type.id = 3 then some (ascii "char")
    else if type.id = 4 then some (ascii "int8_t")
    else if type.id = 5 then some (ascii "int16_t")
    else if type.id = 6 then some (ascii "int32_t")
    else if type.id = 7 then some (ascii "int64_t")
    else if type.id = 8 then some (ascii "uint8_t")
    else if type.id = 9 then some (ascii "uint16_t")
    else if type.id = 10 then some (ascii "uint32_t")
    else if type.id = 11 then some (ascii "uint64_t")
    else if type.id = 12 then some (ascii "char")
    else if type.id = 13 then some (ascii "float")
    else if type.id = 14 then some (ascii "real_t")
    else if type.id = 15 then some (ascii "double")
    else if type.id = 16 then some (ascii "long double")
    else if type.id = 0x1C then
      let elementType := (t.types.getD (typeIndex + 1) TypeRecord.zero).rawWord 0
      GetTypeName t depth elementType
    else some (cstr (t.names.getD type.name []))

/-- `GetTypeFlags`, with a bound on the depth of the calls: `none` when the
bound is reached. -/
def GetTypeFlags (t : TDS) : Nat → Nat → Option Name
  | 0, _ => none
  | depth + 1, typeIndex =>
    let type := t.types.getD typeIndex TypeRecord.zero
    if type.id = 3 then some (ascii "FF_ASCI")
    else if type.id = 4 ∨ type.id = 8 ∨ type.id = 12 then some (ascii "FF_BYTE")
    else if type.id = 5 ∨ type.id = 9 then some (ascii "FF_WORD")
    else if type.id = 6 ∨ type.id = 10 then some (ascii "FF_DWRD")
    else if type.id = 7 ∨ type.id = 11 then some (ascii "FF_QWRD")
    else if type.id = 0x1C then
      let elementType := (t.types.getD (typeIndex + 1) TypeRecord.zero).rawWord 0
      GetTypeFlags t depth elementType
    else if type.id = 0x1E then some (ascii "FF_STRU")
    else some (ascii "0")

/-- `GetElementSize`. -/
def GetElementSize (t : TDS) (typeIndex : Nat) : Int :=
  let type := t.types.getD typeIndex TypeRecord.zero
  if type.id = 3 then 1
  else if type.id = 0x1C then
    let elementType := (t.types.getD (typeIndex + 1) TypeRecord.zero).rawWord 0
    ((t.types.getD elementType TypeRecord.zero).size : Int)
  else -1

/-- The loop over the members of `GenerateTypes`, on the members from `j` on,
with the value of `offset`. `none` when a call made for a member does not
return within `depth`. -/
def GenerateTypesMembers (t : TDS) (depth : Nat) (isEnum : Bool) :
    List Member → Nat → Option (List Command)
  | [], _ => some []
  | member :: rest, offset =>
    if 0x40 = member.info then some []
    else
      let memberName := cstr (t.names.getD member.name [])
      let memberSize := if isEnum then 0 else (t.types.getD member.type TypeRecord.zero).size
      let command : Option Command :=
        if isEnum then some (.add_enum_member memberName member.type)
        else
          match GetTypeName t depth member.type, GetTypeFlags t depth member.type with
          | some typeName, some typeFlags =>
            some (.make_struc_member memberName offset typeName memberSize
              (GetElementSize t member.type) typeFlags)
          | _, _ => none
      match command with
      | none => none
      | some command =>
        if 0x80 = member.info then some [command]
        else
          (GenerateTypesMembers t depth isEnum rest ((offset + memberSize) % 65536)).map
            (fun commands => command :: commands)

/-- The body of the loop over the types of `GenerateTypes`, with the iterator `i`. -/
def GenerateType (t : TDS) (depth : Nat) (i : TypeIterator) : Option (List Command) :=
  let type := i.type.getD TypeRecord.zero
  if !type.isStruct && !type.isEnum then some []
  else
    let typeName := cstr (t.names.getD type.name [])
    let isEnum := type.isEnum
    let first : Command := if isEnum then .add_enum typeName else .make_struc typeName
    let startIndex :=
      if isEnum then (t.types.getD (i.index + 1) TypeRecord.zero).rawWord 2 else type.recordWord
    (GenerateTypesMembers t depth isEnum (t.members.drop startIndex) 0).map
      (fun commands => first :: commands)

/-- The loop over the types of `GenerateTypes`, on the iterator states still to
come. -/
def GenerateTypesLoop (t : TDS) (depth : Nat) : List TypeIterator → Option (List Command)
  | [] => some []
  | i :: rest =>
    match GenerateType t depth i with
    | none => none
    | some commands => (GenerateTypesLoop t depth rest).map (fun more => commands ++ more)

/-- `GenerateTypes`: the types the iterator presents (`TypeIterator.walk`), then
an empty line. -/
def GenerateTypes (t : TDS) (depth : Nat) : Option (List Command) :=
  (GenerateTypesLoop t depth (TypeIterator.walk t.types.length (typeIterator t))).map
    (fun commands => commands ++ [.text (ascii "\n")])

/-- The loop over `j` of `GenerateSymbols` for one scope, on the values of `j`
still to come. -/
def GenerateLocals (t : TDS) (depth : Nat) (scope : Scope) : List Nat → Option (List Command)
  | [] => some []
  | j :: rest =>
    let localIndex := (scope.index + j) % 65536
    let localSymbol := t.symbols.getD localIndex Symbol.zero
    if (decide (0 = localSymbol.segment) && decide (0 = localSymbol.offset))
        || isGlobalSymbol t localIndex then
      GenerateLocals t depth scope rest
    else
      match typeString t depth localSymbol.type with
      | none => none
      | some localType =>
        (GenerateLocals t depth scope rest).map (fun commands =>
          Command.make_local (toInt16 localSymbol.offset) (cstr (t.names.getD localSymbol.name []))
            (cstr localType) :: commands)

/-- The loop over the scopes of `GenerateSymbols` for the symbol `i`, on the
scopes still to come. -/
def GenerateScopes (t : TDS) (depth : Nat) (i : Nat) : List Scope → Option (List Command)
  | [] => some []
  | scope :: rest =>
    if i ≠ scope.symbol then GenerateScopes t depth i rest
    else
      match GenerateLocals t depth scope (List.range scope.count) with
      | none => none
      | some commands => (GenerateScopes t depth i rest).map (fun more => commands ++ more)

/-- The body of the loop over the symbols of `GenerateSymbols`, for the symbol `i`. -/
def GenerateSymbol (t : TDS) (depth : Nat) (i : Nat) : Option (List Command) :=
  let symbol := t.symbols.getD i Symbol.zero
  if !isGlobalSymbol t i then some []
  else
    match typeString t depth symbol.type with
    | none => none
    | some typeStr =>
      let name := cstr (t.names.getD symbol.name [])
      let type := cstr typeStr
      if symbol.segment &&& 0x4000 ≠ 0 then
        let importedName :=
          (cstr (t.names.getD symbol.offset []) ++ ascii "_"
            ++ decimal (symbol.segment &&& 0x3FFF)).take 63
        some [.make_import importedName name type]
      else if (t.executable.segments.getD symbol.segment Executable.Segment.zero).flags &&& 1 ≠ 0
      then
        some [.make_data symbol.segment symbol.offset name type
          (t.types.getD symbol.type TypeRecord.zero).size]
      else
        (GenerateScopes t depth i t.scopes).map (fun commands =>
          Command.make_func symbol.segment symbol.offset name type :: commands)

/-- The loop over the symbols of `GenerateSymbols`, on the indices still to come. -/
def GenerateSymbolsLoop (t : TDS) (depth : Nat) : List Nat → Option (List Command)
  | [] => some []
  | i :: rest =>
    match GenerateSymbol t depth i with
    | none => none
    | some commands => (GenerateSymbolsLoop t depth rest).map (fun more => commands ++ more)

/-- `GenerateSymbols`: the symbols from index 1 on, then an empty line. -/
def GenerateSymbols (t : TDS) (depth : Nat) : Option (List Command) :=
  (GenerateSymbolsLoop t depth (List.range' 1 (t.symbols.length - 1))).map
    (fun commands => commands ++ [.text (ascii "\n")])

/-- `EraseSubString`: the first occurrence of `sub` is taken out. -/
def EraseSubString (sub : Name) : Name → Name
  | [] => []
  | b :: rest =>
    if sub.isPrefixOf (b :: rest) then (b :: rest).drop sub.length
    else b :: EraseSubString sub rest

/-- The loop over the lines of `GenerateSources`, with the `uint16_t` variable
at `j`, the bound `corr.lineIndex + corr.lineCount` (an `int`), and the
values of `startOffset` and `endOffset`. The result is the commands and
the two offsets. The loop can only end at one of the 65536 values of `j`:
`none`, when the fuel (65536 at the start) runs out, means that it never
ends. -/
def GenerateLines (t : TDS) (codeSegment bound : Nat) :
    Nat → Nat → Nat → Nat → Option (List Command × Nat × Nat)
  | 0, _, _, _ => none
  | fuel + 1, j, startOffset, endOffset =>
    if j < bound then
      let line := t.lines.getD j Line.zero
      let startOffset := if 65535 = startOffset then line.offset else startOffset
      let endOffset := line.offset
      (GenerateLines t codeSegment bound fuel ((j + 1) % 65536) startOffset endOffset).map
        (fun r => (Command.make_src_line codeSegment line.offset line.line :: r.1, r.2))
    else some ([], startOffset, endOffset)

/-- The body of the loop over the correlations of `GenerateSources`. -/
def GenerateSource (t : TDS) (corr : Correlation) : Option (List Command) :=
  let segment := t.segments.getD corr.segmentIndex Segment.zero
  let srcFile := t.sources.getD corr.fileIndex Source.zero
  match GenerateLines t segment.codeSegment (corr.lineIndex + corr.lineCount) 65536
      corr.lineIndex 65535 0 with
  | none => none
  | some (commands, startOffset, endOffset) =>
    let filename := t.names.getD srcFile.name []
    let filename := EraseSubString (ascii "CHASM.SRC\\") filename
    let filename := EraseSubString (ascii "\\BP\\PROPAS\\") filename
    let endOffset := if endOffset < 65535 then endOffset + 1 else endOffset
    some (commands
      ++ [.make_src_file segment.codeSegment startOffset endOffset (cstr filename),
          .text (ascii "\n")])

/-- The loop over the correlations of `GenerateSources`, on the records still to
come. -/
def GenerateSourcesLoop (t : TDS) : List Correlation → Option (List Command)
  | [] => some []
  | corr :: rest =>
    match GenerateSource t corr with
    | none => none
    | some commands => (GenerateSourcesLoop t rest).map (fun more => commands ++ more)

/-- `GenerateSources`: the correlations from index 1 on. -/
def GenerateSources (t : TDS) : Option (List Command) :=
  GenerateSourcesLoop t (t.correlations.drop 1)

/-- `GenerateScript`. The array `tds2ida_py` (the header `tds2ida.py.h`) is a
parameter. `none` when one of the generators does not return within `depth`. -/
def GenerateScript (tds2ida_py : Name) (t : TDS) (depth : Nat) : Option (List Command) :=
  match GenerateTypes t depth, GenerateSymbols t depth, GenerateSources t with
  | some types, some symbols, some sources =>
    some ([.text tds2ida_py] ++ GeneratePS10Specifics ++ types ++ symbols ++ sources
      ++ [.text (ascii "refresh_idaview_anyway()\n")])
  | _, _, _ => none

/-- The bytes written to `output`. -/
def printScript (commands : List Command) : Name := commands.flatMap Command.print

/-! ### Statements of the specification -/

/-- The number a string of decimal digits denotes. -/
def decimalValue (digits : Name) : Nat :=
  digits.foldl (fun value digit => 10 * value + (digit.val - 48)) 0

/-- Following the spec: the least `k` such that `s + "$" + decimal(k)` is not in
the seen set. Among the `seen.length + 1` strings for `k` up to `seen.length`
at least one is not in the set, so the search is over these. -/
def specLeastUnused (seen : List Name) (s : Name) : Nat :=
  ((List.range (seen.length + 1)).find?
    (fun k => decide (s ++ ascii "$" ++ decimal k ∉ seen))).getD 0

/-- Following the spec: what `makeGlobalSymbolsUnique` does for symbol `i`, on
the model and the seen set. -/
def specUniqueStep (state : TDS × List Name) (i : Nat) : TDS × List Name :=
  let t := state.1
  let seen := state.2
  if isGlobalSymbol t i = false then (t, seen)
  else
    let s := t.names.getD (t.symbols.getD i Symbol.zero).name []
    if s ∉ seen then (t, seen.insert s)
    else
      let new := s ++ ascii "$" ++ decimal (specLeastUnused seen s)
      ({ t with
         symbols := t.symbols.modify (fun symbol => { symbol with name := t.names.length }) i,
         names := t.names ++ [new] },
       seen.insert new)

/-- Following the spec: the symbols 1..n are processed in index order, from an
empty seen set. -/
def specUniqueRun (t : TDS) : TDS × List Name :=
  (List.range' 1 (t.symbols.length - 1)).foldl specUniqueStep (t, [])

/-- Following the spec: the entry that names the type `typeIndex`, the
lowest-index one (index at least 1) whose type is `typeIndex` or an array
whose `recordWord` is `typeIndex`. -/
def specOwner {α : Type} [Item α] (t : TDS) (collection : List α) (typeIndex : Nat) :
    Option α :=
  (collection.drop 1).find? (fun item =>
    decide (Item.type item = typeIndex)
      || ((t.types.getD (Item.type item) TypeRecord.zero).isArray
        && decide ((t.types.getD (Item.type item) TypeRecord.zero).recordWord = typeIndex)))

/-- Following the spec: the name an owner gives, its own name and `$Type` for a
direct reference (tested first), `$Element` otherwise. -/
def specOwnerName {α : Type} [Item α] (t : TDS) (typeIndex : Nat) (item : α) : Name :=
  t.names.getD (Item.name item) []
    ++ (if Item.type item = typeIndex then ascii "$Type" else ascii "$Element")

/-- Following the spec: the name synthesized for the type `typeIndex`, from the
symbol table, else from the member table, else none. -/
def specTypeName (t : TDS) (typeIndex : Nat) : Option Name :=
  match specOwner t t.symbols typeIndex with
  | some symbol => some (specOwnerName t typeIndex symbol)
  | none => (specOwner t t.members typeIndex).map (specOwnerName t typeIndex)

/-- Following the spec: what `assignMissingTypeNames` does at a visited index. -/
def specAssignStep (t : TDS) (index : Nat) : TDS :=
  let type := t.types.getD index TypeRecord.zero
  if type.name = 0 ∧ (type.id = 0x1E ∨ type.id = 0x29) then
    match specTypeName t index with
    | some name =>
      { t with
        types := t.types.modify (fun type => { type with name := t.names.length }) index,
        names := t.names ++ [name] }
    | none => t
  else t

/-- Following the spec: the indices the walker visits are processed in order. -/
def specAssign (t : TDS) : TDS := (TypeIterator.visited t.types).foldl specAssignStep t

/-- Following the spec: the value whose low 32 bits are `minimum` and whose high
32 bits are `maximum`, both in 32-bit two's complement. -/
def specFullRange (minimum maximum : Int) : Nat :=
  (minimum % 4294967296).toNat + 4294967296 * (maximum % 4294967296).toNat

/-- The members of a type for which a command is emitted, from the members at
its start index on: the run that ends before the first member whose `info`
is 0x40, or with the first member whose `info` is 0x80, or at the end of the
table. -/
def specEmittedMembers : List Member → List Member
  | [] => []
  | member :: rest =>
    if member.info = 0x40 then []
    else if member.info = 0x80 then [member]
    else member :: specEmittedMembers rest

/-- Following the spec: the minimum of the byte offsets of a slice of lines. -/
def specMinOffset (offsets : List Nat) : Nat := offsets.foldl min (offsets.headD 0)

/-- Following the spec: the maximum of the byte offsets of a slice of lines. -/
def specMaxOffset (offsets : List Nat) : Nat := offsets.foldl max 0

/-- Following the spec: a table of `count` records that were decoded from
consecutive byte ranges of the packed record size, the first one starting at
byte `start` of the stream, after the zeroed record 0. -/
def specTable (α : Type) [Entry α] (data : List Byte) (start count : Nat) : List α :=
  Entry.zero :: (List.range count).map (fun k =>
    Entry.decode ((data.drop (start + k * Entry.size α)).take (Entry.size α)))

/-- Following the spec: the type `typeString` goes on to from the type at
`typeIndex`: the type at `recordWord` for a type of the table of kind 22, 25
or 53, and for a function (kind 35) whose `recordWord` is not 0. -/
def specReference (t : TDS) (typeIndex : Nat) : Option Nat :=
  if typeIndex < t.types.length then
    let type := t.types.getD typeIndex TypeRecord.zero
    if type.id = 22 ∨ type.id = 25 ∨ type.id = 53 then some type.recordWord
    else if type.id = 35 ∧ type.recordWord ≠ 0 then some type.recordWord
    else none
  else none

/-- Following the spec: the index reached from `typeIndex` by `k` references,
`none` when there are fewer than `k` references to follow. -/
def specFollow (t : TDS) : Nat → Nat → Option Nat
  | 0, typeIndex => some typeIndex
  | k + 1, typeIndex => (specReference t typeIndex).bind (specFollow t k)

/-- Following the spec: the reference relation has no cycle, that is, no index
is reached from itself by one reference or more. -/
def specAcyclic (t : TDS) : Prop :=
  ∀ typeIndex k, specFollow t (k + 1) typeIndex ≠ some typeIndex

/-- Following the spec: the test of `applyPS10Specific` on a type, an anonymous
struct of size 4. -/
def specFallbackType (type : TypeRecord) : Bool :=
  decide (type.name = 0) && type.isStruct && decide (type.size = 4)

/-- Following the spec: the local indices `scope.index + j` of the scopes of
symbol `i`, in scope order then `j` order, whose symbol does not have both
segment and offset 0 and is not global. -/
def specLocalIndices (t : TDS) (i : Nat) : List Nat :=
  (t.scopes.filter (fun scope => decide (scope.symbol = i))).flatMap (fun scope =>
    ((List.range scope.count).map (fun j => scope.index + j)).filter (fun localIndex =>
      !(decide ((t.symbols.getD localIndex Symbol.zero).segment = 0)
          && decide ((t.symbols.getD localIndex Symbol.zero).offset = 0))
        && !isGlobalSymbol t localIndex))

/-- Following the spec: what a pass may change. The model `u` has the
structural tables of `t`, with the same entries in the same order, except for
the field `name` of the symbols and of the types; its name pool is not
shorter, and entry 0 of the pool is the empty string when it is in `t`. -/
def PassFrame (t u : TDS) : Prop :=
  u.symbols.map (fun symbol => { symbol with name := 0 })
    = t.symbols.map (fun symbol => { symbol with name := 0 })
  ∧ u.modules = t.modules ∧ u.sources = t.sources ∧ u.lines = t.lines
  ∧ u.scopes = t.scopes ∧ u.segments = t.segments ∧ u.correlations = t.correlations
  ∧ u.types.map (fun type => { type with name := 0 })
    = t.types.map (fun type => { type with name := 0 })
  ∧ u.members = t.members ∧ u.scopeClasses = t.scopeClasses
  ∧ u.moduleClasses = t.moduleClasses
  ∧ t.names.length ≤ u.names.length
  ∧ (t.names.head? = some [] → u.names.head? = some [])

/-! ### Inputs -/

/-- An executable with one segment after the placeholder, a pool `["", "a"]` and
three symbols named by pool entry 1: symbol 1 in segment 5 with offset 2,
symbols 2 and 3 in segment 1. The header declares four names, so that the
vector `names` has room for five strings. -/
def reclassifiedInput : TDS :=
  { TDS.init with
    executable :=
      { Executable.init with
        segments := [Executable.Segment.zero, Executable.Segment.zero] },
    header := { Header.zero with nameCount := 4 },
    symbols := [Symbol.zero, ⟨1, 0, 2, 5, 0⟩, ⟨1, 0, 0, 1, 0⟩, ⟨1, 0, 0, 1, 0⟩],
    names := [[], ascii "a"] }

/-- A pool `"", A...A, f` whose entry 1 has 70 letters `A`, and one symbol named
`f`, of type 0, with segment 0x4003 (imported) and offset 1: an import of
ordinal 3 from the module named by entry 1. -/
def longImportInput : TDS :=
  { TDS.init with
    symbols := [Symbol.zero, ⟨2, 0, 1, 0x4003, 0⟩],
    types := [TypeRecord.zero],
    names := [[], List.replicate 70 0x41, ascii "f"] }

/-- An executable with a data segment 1 and a code segment 2; a function `main`
(symbol 1, type 1, in segment 2 at 0x20) with one scope of three locals, the
symbols 2, 3 and 4: `loc` at offset 0xFFFE, a symbol with segment and offset
0, and the global symbol `origin` of segment 1. -/
def localsInput : TDS :=
  { TDS.init with
    executable :=
      { Executable.init with
        segments := [Executable.Segment.zero, ⟨1, 8, 1, 8⟩, ⟨2, 8, 0, 8⟩] },
    symbols := [Symbol.zero, ⟨1, 1, 0x20, 2, 0⟩, ⟨2, 2, 0xFFFE, 0, 0⟩, ⟨2, 2, 0, 0, 0⟩,
      ⟨3, 2, 16, 1, 0⟩],
    scopes := [Scope.zero, ⟨2, 3, 0, 1, 0, 0⟩],
    types := [TypeRecord.zero, ⟨35, 0, 0, 0, 0⟩, ⟨13, 0, 4, 0, 0⟩],
    names := [[], ascii "main", ascii "loc", ascii "origin"] }

/-- A type table with `signed int` (index 1, with its extended slot), a struct
`S` (index 3) whose members start at member 1, and a `PASCAL string` of size
256 (index 4); the members `x` (info 0x41, type 1) and `s` (info 0x80, type
4). -/
def memberFlagsInput : TDS :=
  { TDS.init with
    types := [TypeRecord.zero, ⟨5, 0, 2, 0, 0⟩, ⟨0, 0x80, 0xFFFF, 0x7F, 0⟩,
      ⟨0x1E, 1, 258, 0, 1⟩, ⟨3, 0, 256, 255, 0⟩],
    members := [Member.zero, ⟨0x41, 2, 1⟩, ⟨0x80, 3, 4⟩],
    names := [[], ascii "S", ascii "x", ascii "s"] }

/-- A struct `P` (type 4, members from member 1 on) with the members `a`, `b`,
`c` and `d`, whose types have the sizes 2, 40000, 30000 and 2; the last one
has `info` 0x80. -/
def offsetsInput : TDS :=
  { TDS.init with
    types := [TypeRecord.zero, ⟨13, 0, 2, 0, 0⟩, ⟨13, 0, 40000, 0, 0⟩, ⟨13, 0, 30000, 0, 0⟩,
      ⟨0x1E, 1, 4, 0, 1⟩],
    members := [Member.zero, ⟨0, 2, 1⟩, ⟨0, 3, 2⟩, ⟨0, 4, 3⟩, ⟨0x80, 5, 1⟩],
    names := [[], ascii "P", ascii "a", ascii "b", ascii "c", ascii "d"] }

/-- One correlation record for the lines 1 and 2 of the line table, whose byte
offsets are 5 and 3, of the source file `A.PAS` and the TDS segment 1, which
is code segment 2. -/
def unsortedLinesInput : TDS :=
  { TDS.init with
    segments := [Segment.zero, ⟨0, 2, 0, 0, 0, 0, 0, 0⟩],
    sources := [Source.zero, ⟨1, 0⟩],
    lines := [Line.zero, ⟨10, 5⟩, ⟨11, 3⟩],
    correlations := [Correlation.zero, ⟨1, 1, 1, 2⟩],
    names := [[], ascii "CHASM.SRC\\A.PAS"] }

/-- A well-formed input of 276 bytes: an old header (`MZ`, new header at 64), a
new header (`NE`, one segment, sector alignment shift 7), the segment (sector
offset 1, length 8, flags 1: a data segment), the debug-info signature at 136,
a TDS header that declares one symbol, three types and two members, the symbol
(name 4, type 3, offset 0x10, segment 1), the types (`signed int` of size 2,
its extended slot with the full range, a struct of size 4 with name 1 and
members from member 1 on), the members (`x` with info 0, `y` with info 0x80,
both of type 1), and the name pool `Point`, `x`, `y`, `origin`. -/
def pointInput : List Byte :=
  [0x4D, 0x5A] ++ List.replicate 58 0 ++ [64, 0, 0, 0]
  ++ ([0x4E, 0x45] ++ List.replicate 26 0 ++ [1, 0] ++ List.replicate 20 0 ++ [7, 0]
    ++ List.replicate 12 0)
  ++ [1, 0, 8, 0, 1, 0, 0, 0]
  ++ Executable.DEBUG_INFO_HEADER
  ++ (List.replicate 8 0 ++ [4, 0] ++ [3, 0] ++ [2, 0] ++ [1, 0] ++ List.replicate 48 0)
  ++ [4, 0, 3, 0, 0x10, 0, 1, 0, 0]
  ++ [5, 0, 0, 2, 0, 0, 0, 0]
  ++ [0x00, 0x80, 0xFF, 0xFF, 0xFF, 0x7F, 0, 0]
  ++ [0x1E, 1, 0, 4, 0, 0, 1, 0]
  ++ [0, 2, 0, 1, 0]
  ++ [0x80, 3, 0, 1, 0]
  ++ (ascii "Point" ++ [0] ++ ascii "x" ++ [0] ++ ascii "y" ++ [0] ++ ascii "origin" ++ [0])

/-- The model `TDS::load` makes of `pointInput`: the headers are the decoded
bytes 0..63, 64..127 and 152..215 of the input. -/
def pointModel : TDS :=
  { TDS.init with
    executable :=
      { oldHeader := Executable.OldHeader.decode (pointInput.take 64),
        newHeader := Executable.NewHeader.decode ((pointInput.drop 64).take 64),
        segments := [Executable.Segment.zero, ⟨1, 8, 1, 0⟩] },
    header := Header.decode ((pointInput.drop 152).take 64),
    symbols := [Symbol.zero, ⟨4, 3, 0x10, 1, 0⟩],
    types := [TypeRecord.zero, ⟨5, 0, 2, 0, 0⟩, ⟨0, 0xFF80, 0xFFFF, 0x7F, 0⟩,
      ⟨0x1E, 1, 4, 0, 1⟩],
    members := [Member.zero, ⟨0, 2, 1⟩, ⟨0x80, 3, 1⟩],
    modules := [Module.zero], sources := [Source.zero], lines := [Line.zero],
    scopes := [Scope.zero], segments := [Segment.zero], correlations := [Correlation.zero],
    scopeClasses := [ScopeClass.zero], moduleClasses := [ModuleClass.zero],
    names := [[], ascii "Point", ascii "x", ascii "y", ascii "origin"] }

/-- A well-formed input of 359 bytes in which every table has a record and
the header declares three bytes of data before the name pool: the headers of
`pointInput`, but with the sector alignment shift 39 (carried out as a shift
by 7, so that the debug information again starts at 1 * 2^7 + 8 = 136) and a
TDS header that declares five names, three types, two members and one record
of every other kind; then the symbol, a module, a source file, a line (line 10
at offset 0x10), a scope, a segment, a correlation record, the three types,
the two members, a scope class and a module class; the data bytes `ABC`; and
the name pool `Point`, `x`, `y`, `origin`, `A.PAS`. -/
def layoutInput : List Byte :=
  [0x4D, 0x5A] ++ List.replicate 58 0 ++ [64, 0, 0, 0]
  ++ ([0x4E, 0x45] ++ List.replicate 26 0 ++ [1, 0] ++ List.replicate 20 0 ++ [39, 0]
    ++ List.replicate 12 0)
  ++ [1, 0, 8, 0, 1, 0, 0, 0]
  ++ Executable.DEBUG_INFO_HEADER
  ++ (List.replicate 8 0 ++ [5, 0] ++ [3, 0] ++ [2, 0] ++ [1, 0] ++ [0, 0] ++ [1, 0] ++ [0, 0]
    ++ [1, 0] ++ [1, 0] ++ [1, 0] ++ [1, 0] ++ [1, 0] ++ List.replicate 11 0 ++ [3, 0]
    ++ List.replicate 11 0 ++ [1, 0] ++ [1, 0] ++ List.replicate 4 0)
  ++ [4, 0, 3, 0, 0x10, 0, 1, 0, 0]
  ++ [5, 0, 0, 0, 1, 0, 1, 0, 1, 0, 1, 0, 1, 0, 1, 0]
  ++ [5, 0, 0, 0, 0, 0]
  ++ [10, 0, 0x10, 0]
  ++ [1, 0, 0, 0, 0, 0, 1, 0, 0x10, 0, 4, 0]
  ++ [1, 0, 1, 0, 0, 0, 0x20, 0, 1, 0, 1, 0, 1, 0, 1, 0]
  ++ [1, 0, 1, 0, 1, 0, 1, 0]
  ++ [5, 0, 0, 2, 0, 0, 0, 0]
  ++ [0x00, 0x80, 0xFF, 0xFF, 0xFF, 0x7F, 0, 0]
  ++ [0x1E, 1, 0, 4, 0, 0, 1, 0]
  ++ [0, 2, 0, 1, 0]
  ++ [0x80, 3, 0, 1, 0]
  ++ [1, 0, 1, 0]
  ++ [1, 0, 1, 0, 0, 0, 0, 0]
  ++ [0x41, 0x42, 0x43]
  ++ (ascii "Point" ++ [0] ++ ascii "x" ++ [0] ++ ascii "y" ++ [0] ++ ascii "origin" ++ [0]
    ++ ascii "A.PAS" ++ [0])

/-- The model `TDS::load` makes of `layoutInput`: the headers are the decoded
bytes 0..63, 64..127 and 152..215 of the input. -/
def layoutModel : TDS :=
  { TDS.init with
    executable :=
      { oldHeader := Executable.OldHeader.decode (layoutInput.take 64),
        newHeader := Executable.NewHeader.decode ((layoutInput.drop 64).take 64),
        segments := [Executable.Segment.zero, ⟨1, 8, 1, 0⟩] },
    header := Header.decode ((layoutInput.drop 152).take 64),
    symbols := [Symbol.zero, ⟨4, 3, 0x10, 1, 0⟩],
    modules := [Module.zero, ⟨5, 0, 0, 1, 1, 1, 1, 1, 1⟩],
    sources := [Source.zero, ⟨5, 0⟩],
    lines := [Line.zero, ⟨10, 0x10⟩],
    scopes := [Scope.zero, ⟨1, 0, 0, 1, 0x10, 4⟩],
    segments := [Segment.zero, ⟨1, 1, 0, 0x20, 1, 1, 1, 1⟩],
    correlations := [Correlation.zero, ⟨1, 1, 1, 1⟩],
    types := [TypeRecord.zero, ⟨5, 0, 2, 0, 0⟩, ⟨0, 0xFF80, 0xFFFF, 0x7F, 0⟩,
      ⟨0x1E, 1, 4, 0, 1⟩],
    members := [Member.zero, ⟨0, 2, 1⟩, ⟨0x80, 3, 1⟩],
    scopeClasses := [ScopeClass.zero, ⟨1, 1⟩],
    moduleClasses := [ModuleClass.zero, ⟨1, 1, 0, 0⟩],
    names := [[], ascii "Point", ascii "x", ascii "y", ascii "origin", ascii "A.PAS"] }

/-- A well-formed input of 247 bytes: the headers of `longNameInput`, a TDS
header that declares two names and three symbols, the symbols (all in segment
1; the first two named by pool entry 1, the third by entry 0, the empty
string), and the name pool `a`, `b`. -/
def danglingInput : List Byte :=
  [0x4D, 0x5A] ++ List.replicate 58 0 ++ [64, 0, 0, 0]
  ++ ([0x4E, 0x45] ++ List.replicate 26 0 ++ [1, 0] ++ List.replicate 20 0 ++ [7, 0]
    ++ List.replicate 12 0)
  ++ [1, 0, 8, 0, 0, 0, 0, 0]
  ++ Executable.DEBUG_INFO_HEADER
  ++ (List.replicate 8 0 ++ [2, 0] ++ List.replicate 4 0 ++ [3, 0] ++ List.replicate 48 0)
  ++ [1, 0, 0, 0, 0, 0, 1, 0, 0]
  ++ [1, 0, 0, 0, 0, 0, 1, 0, 0]
  ++ [0, 0, 0, 0, 0, 0, 1, 0, 0]
  ++ (ascii "a" ++ [0] ++ ascii "b" ++ [0])

/-- The model `TDS::load` has when the passes begin on `danglingInput`: the
headers are the decoded bytes 0..63, 64..127 and 152..215 of the input. The
vector `names`, reserved for three strings, holds three. -/
def danglingModel : TDS :=
  { TDS.init with
    executable :=
      { oldHeader := Executable.OldHeader.decode (danglingInput.take 64),
        newHeader := Executable.NewHeader.decode ((danglingInput.drop 64).take 64),
        segments := [Executable.Segment.zero, ⟨1, 8, 0, 0⟩] },
    header := Header.decode ((danglingInput.drop 152).take 64),
    symbols := [Symbol.zero, ⟨1, 0, 0, 1, 0⟩, ⟨1, 0, 0, 1, 0⟩, ⟨0, 0, 0, 1, 0⟩],
    modules := [Module.zero], sources := [Source.zero], lines := [Line.zero],
    scopes := [Scope.zero], segments := [Segment.zero], correlations := [Correlation.zero],
    types := [TypeRecord.zero], members := [Member.zero],
    scopeClasses := [ScopeClass.zero], moduleClasses := [ModuleClass.zero],
    names := [[], ascii "a", ascii "b"] }

/-- The model `TDS::load` has when the passes begin on `longNameInput`: an
executable with one segment after the placeholder, two symbols in segment 1
named by pool entry 1, and the pool `"", A...A` whose entry 1 has 255 letters. -/
def longNameModel : TDS :=
  { TDS.init with
    executable :=
      { Executable.init with
        segments := [Executable.Segment.zero, ⟨1, 8, 0, 0⟩] },
    symbols := [Symbol.zero, ⟨1, 0, 0, 1, 0⟩, ⟨1, 0, 0, 1, 0⟩],
    names := [[], List.replicate 255 0x41] }

/-- The bytes of `pointInput` but for the symbol record, whose offset is 1 and
whose segment is 5: the executable has the segments 0 and 1 only. -/
def strayInput : List Byte :=
  pointInput.take 216 ++ [4, 0, 3, 0, 1, 0, 5, 0, 0] ++ pointInput.drop 225

/-- A line table of 65536 entries (the placeholder and 65535 lines, the most a
header can declare) and one correlation whose slice is the last line, index
65535. -/
def fullLinesInput : TDS :=
  { TDS.init with
    lines := List.replicate 65536 Line.zero,
    correlations := [Correlation.zero, ⟨0, 0, 65535, 1⟩] }

/-- A symbol in segment 5 with offset 2, named by entry 1 and of type 1, an
anonymous struct of size 4; an executable with one segment after the
placeholder, and the pool `"", a`. -/
def appendingInput : TDS :=
  { TDS.init with
    executable :=
      { Executable.init with
        segments := [Executable.Segment.zero, Executable.Segment.zero] },
    symbols := [Symbol.zero, ⟨1, 1, 2, 5, 0⟩],
    types := [TypeRecord.zero, ⟨0x1E, 0, 4, 0, 0⟩],
    names := [[], ascii "a"] }

/-- A far pointer (index 1) to a function (index 2) that returns a
`signed char` (index 3, with its extended slot), and the pool `""`. -/
def chainInput : TDS :=
  { TDS.init with
    types := [TypeRecord.zero, ⟨22, 0, 4, 0, 2⟩, ⟨35, 0, 0, 0, 3⟩, ⟨4, 0, 1, 0, 0⟩,
      ⟨0x80, 0xFFFF, 0x7FFF, 0, 0⟩],
    names := [[]] }

/-- A pool of 65536 entries (the empty string and 65535 times `n`) and two
symbols in segment 1, both named by entry 1. The header declares two names:
the vector `names`, reserved for three strings and doubled as the pool is
read, has room for 98304. -/
def fullPoolSymbolsInput : TDS :=
  { TDS.init with
    executable :=
      { Executable.init with
        segments := [Executable.Segment.zero, Executable.Segment.zero] },
    header := { Header.zero with nameCount := 2 },
    symbols := [Symbol.zero, ⟨1, 0, 0, 1, 0⟩, ⟨1, 0, 0, 1, 0⟩],
    names := [] :: List.replicate 65535 (ascii "n") }

/-- A pool of 65536 entries (the empty string and 65535 times `n`) and one
anonymous struct of size 4, at index 1. -/
def fullPoolStructInput : TDS :=
  { TDS.init with
    types := [TypeRecord.zero, ⟨0x1E, 0, 4, 0, 0⟩],
    names := [] :: List.replicate 65535 (ascii "n") }

/-- A pool of 65536 entries (the empty string and 65535 times `n`), a symbol
named by entry 1 whose type is the struct at index 1, which has no name. -/
def fullPoolInput : TDS :=
  { TDS.init with
    symbols := [Symbol.zero, ⟨1, 1, 0, 0, 0⟩],
    types := [TypeRecord.zero, ⟨0x1E, 0, 0, 0, 0⟩],
    names := [] :: List.replicate 65535 (ascii "n") }

end TDS

/-! # Theorems -/

/-! ## File -/

namespace File

/-- A read of `n` bytes succeeds when `n` bytes are left: it yields them and moves on. -/
theorem read_of_le (f : File) (n : Nat) (h : n ≤ f.data.length - f.pos) :
    f.read n = (some ((f.data.drop f.pos).take n), { f with pos := f.pos + n }) := by
  unfold read
  have : ((f.data.drop f.pos).take n).length = n := by
    rw [List.length_take, List.length_drop]
    omega
  simp only [this, if_true]

/-- A read of `n` bytes fails when fewer than `n` bytes are left. -/
theorem read_of_lt (f : File) (n : Nat) (h : f.data.length - f.pos < n) :
    (f.read n).1 = none := by
  unfold read
  have : ((f.data.drop f.pos).take n).length ≠ n := by
    rw [List.length_take, List.length_drop]
    omega
  simp only [this, if_false]

/-- An absolute seek to a natural-number offset succeeds. -/
theorem seek_set_natCast (f : File) (n : Nat) :
    f.seek (n : Int) Origin.SEEK_SET = (true, { f with pos := n, eof := false }) := by
  unfold seek
  simp

/-- A relative seek by a natural-number offset succeeds. -/
theorem seek_cur_natCast (f : File) (n : Nat) :
    f.seek (n : Int) Origin.SEEK_CUR = (true, { f with pos := f.pos + n, eof := false }) := by
  unfold seek
  have h : ¬ ((f.pos : Int) + (n : Int) < 0) := by omega
  simp only [h, if_false]
  rfl

end File

/-- Bytes of a slice are the bytes of the buffer it was cut from. -/
theorem byteAt_take_drop (data : List Byte) (p n i : Nat) (h : i < n) :
    byteAt ((data.drop p).take n) i = byteAt data (p + i) := by
  unfold byteAt
  simp only [List.getD_eq_getElem?_getD]
  rw [List.getElem?_take_of_lt h, List.getElem?_drop]

/-- Words of a slice are the words of the buffer it was cut from. -/
theorem wordAt_take_drop (data : List Byte) (p n i : Nat) (h : i + 1 < n) :
    wordAt ((data.drop p).take n) i = wordAt data (p + i) := by
  unfold wordAt
  rw [byteAt_take_drop data p n i (by omega), byteAt_take_drop data p n (i + 1) h]
  rfl

/-- Double words of a slice are the double words of the buffer it was cut from. -/
theorem dwordAt_take_drop (data : List Byte) (p n i : Nat) (h : i + 3 < n) :
    dwordAt ((data.drop p).take n) i = dwordAt data (p + i) := by
  unfold dwordAt
  rw [wordAt_take_drop data p n i (by omega), wordAt_take_drop data p n (i + 2) (by omega)]
  rfl

/-- A little-endian word has a given value exactly when its two bytes are the
two bytes of that value. -/
theorem wordAt_eq_iff (data : List Byte) (p : Nat) (a b : Byte) (h : p + 2 ≤ data.length) :
    wordAt data p = a.val + 256 * b.val ↔ (data.drop p).take 2 = [a, b] := by
  have h0 : p < data.length := by omega
  have h1 : p + 1 < data.length := by omega
  have e : (data.drop p).take 2 = [data[p], data[p + 1]] := by
    rw [List.drop_eq_getElem_cons h0, List.drop_eq_getElem_cons h1]
    rfl
  rw [e]
  unfold wordAt byteAt
  simp only [List.getD_eq_getElem?_getD, List.getElem?_eq_getElem h0,
    List.getElem?_eq_getElem h1, Option.getD_some, List.cons.injEq, and_true]
  constructor
  · intro hv
    have ha := a.isLt
    have hb := b.isLt
    have hc := (data[p]).isLt
    have hd := (data[p + 1]).isLt
    exact ⟨Fin.ext (by omega), Fin.ext (by omega)⟩
  · rintro ⟨rfl, rfl⟩
    rfl

/-- An `int` conversion leaves a value of the non-negative `int` range as it is. -/
theorem toInt32_of_range (n : Int) (h0 : 0 ≤ n) (h1 : n < 2147483648) : toInt32 n = n := by
  unfold toInt32
  omega

/-! ## Executable -/

namespace Executable

/-- The segment loop appends the next `n` records when enough bytes are left. -/
theorem loadSegmentsLoop_of_le :
    ∀ (n : Nat) (segments : List Segment) (input : File),
      n * Segment.size ≤ input.data.length - input.pos →
      loadSegmentsLoop n segments input
        = (true,
            segments ++ (List.range n).map (fun k =>
              Segment.decode ((input.data.drop (input.pos + k * Segment.size)).take Segment.size)),
            { input with pos := input.pos + n * Segment.size }) := by
  intro n
  induction n with
  | zero =>
    intro segments input _
    simp [loadSegmentsLoop]
  | succ n ih =>
    intro segments input h
    have hs : Segment.size ≤ input.data.length - input.pos := by
      simp only [Segment.size] at h ⊢
      omega
    unfold loadSegmentsLoop
    rw [File.read_of_le input _ hs]
    simp only
    rw [ih]
    · simp only [List.range_succ_eq_map, List.map_cons, List.map_map, List.append_assoc,
        List.singleton_append, Nat.zero_mul, Nat.add_zero, Prod.mk.injEq, true_and]
      refine ⟨?_, ?_⟩
      · congr 2
        apply List.map_congr_left
        intro k _
        simp only [Function.comp, Nat.succ_eq_add_one, Segment.size]
        have : input.pos + 8 + k * 8 = input.pos + (k + 1) * 8 := by omega
        rw [this]
      · congr 1
        simp only [Segment.size]
        omega
    · simp only [Segment.size] at h ⊢
      omega

/-- The segment loop fails when too few bytes are left. -/
theorem loadSegmentsLoop_of_lt :
    ∀ (n : Nat) (segments : List Segment) (input : File),
      input.data.length - input.pos < n * Segment.size →
      (loadSegmentsLoop n segments input).1 = false := by
  intro n
  induction n with
  | zero =>
    intro segments input h
    simp at h
  | succ n ih =>
    intro segments input h
    unfold loadSegmentsLoop
    by_cases hs : Segment.size ≤ input.data.length - input.pos
    · rw [File.read_of_le input _ hs]
      simp only
      apply ih
      simp only [Segment.size] at h hs ⊢
      omega
    · have hn := File.read_of_lt input Segment.size (by omega)
      cases hr : input.read Segment.size with
      | mk r f =>
        rw [hr] at hn
        simp only at hn
        subst hn
        rfl

/-- Result of `loadOldHeader` when the header is readable and signed `MZ`. -/
theorem loadOldHeader_true (e : Executable) (f : File)
    (h1 : OldHeader.size ≤ f.data.length - f.pos)
    (h2 : (OldHeader.decode ((f.data.drop f.pos).take OldHeader.size)).signature = 0x5A4D) :
    loadOldHeader e f
      = (true, { e with oldHeader := OldHeader.decode ((f.data.drop f.pos).take OldHeader.size) },
          { f with pos := f.pos + OldHeader.size }) := by
  unfold loadOldHeader
  rw [File.read_of_le f _ h1]
  simp only [h2, ne_eq, not_true_eq_false, if_false]

/-- `loadOldHeader` fails when the header is short or not signed `MZ`. -/
theorem loadOldHeader_false (e : Executable) (f : File)
    (h : ¬ (OldHeader.size ≤ f.data.length - f.pos
      ∧ (OldHeader.decode ((f.data.drop f.pos).take OldHeader.size)).signature = 0x5A4D)) :
    (loadOldHeader e f).1 = false := by
  unfold loadOldHeader
  by_cases h1 : OldHeader.size ≤ f.data.length - f.pos
  · rw [File.read_of_le f _ h1]
    have h2 : ¬ (OldHeader.decode ((f.data.drop f.pos).take OldHeader.size)).signature = 0x5A4D :=
      fun h2 => h ⟨h1, h2⟩
    simp only [ne_eq]
    rw [if_pos (fun hc => h2 hc.symm)]
  · have hn := File.read_of_lt f OldHeader.size (by omega)
    cases hr : f.read OldHeader.size with
    | mk r g =>
      rw [hr] at hn
      simp only at hn
      subst hn
      rfl

/-- Result of `loadNewHeader` when the header is readable and signed `NE`. -/
theorem loadNewHeader_true (e : Executable) (f : File)
    (h1 : NewHeader.size ≤ f.data.length - e.oldHeader.newHeaderOffset)
    (h2 : (NewHeader.decode
      ((f.data.drop e.oldHeader.newHeaderOffset).take NewHeader.size)).signature = 0x454E) :
    loadNewHeader e f
      = (true,
          { e with newHeader := (NewHeader.decode
              ((f.data.drop e.oldHeader.newHeaderOffset).take NewHeader.size)) },
          { f with pos := e.oldHeader.newHeaderOffset + NewHeader.size, eof := false }) := by
  unfold loadNewHeader
  simp only
  rw [File.seek_set_natCast]
  simp only
  rw [File.read_of_le _ _ (by simpa using h1)]
  simp only [h2, ne_eq, not_true_eq_false, if_false]

/-- `loadNewHeader` fails when the header is short or not signed `NE`. -/
theorem loadNewHeader_false (e : Executable) (f : File)
    (h : ¬ (NewHeader.size ≤ f.data.length - e.oldHeader.newHeaderOffset
      ∧ (NewHeader.decode
        ((f.data.drop e.oldHeader.newHeaderOffset).take NewHeader.size)).signature = 0x454E)) :
    (loadNewHeader e f).1 = false := by
  unfold loadNewHeader
  simp only
  rw [File.seek_set_natCast]
  simp only
  by_cases h1 : NewHeader.size ≤ f.data.length - e.oldHeader.newHeaderOffset
  · rw [File.read_of_le _ _ (by simpa using h1)]
    have h2 : ¬ (NewHeader.decode
        ((f.data.drop e.oldHeader.newHeaderOffset).take NewHeader.size)).signature = 0x454E :=
      fun h2 => h ⟨h1, h2⟩
    simp only [ne_eq]
    rw [if_pos (fun hc => h2 hc.symm)]
  · have hn := File.read_of_lt
      { f with pos := e.oldHeader.newHeaderOffset, eof := false } NewHeader.size
      (by simpa using h1)
    cases hr : File.read { f with pos := e.oldHeader.newHeaderOffset, eof := false }
        NewHeader.size with
    | mk r g =>
      rw [hr] at hn
      simp only at hn
      subst hn
      rfl

/-- Result of `loadSegments` when all segment records are readable. -/
theorem loadSegments_true (e : Executable) (f : File)
    (h : e.newHeader.segmentCount * Segment.size ≤ f.data.length - f.pos) :
    loadSegments e f
      = (true,
          { e with segments := (e.segments ++ [Segment.zero]
              ++ (List.range e.newHeader.segmentCount).map (fun k =>
                Segment.decode ((f.data.drop (f.pos + k * Segment.size)).take Segment.size))) },
          { f with pos := f.pos + e.newHeader.segmentCount * Segment.size }) := by
  unfold loadSegments
  simp only
  rw [loadSegmentsLoop_of_le _ _ _ h]

/-- `loadSegments` fails when a segment record is short. -/
theorem loadSegments_false (e : Executable) (f : File)
    (h : ¬ e.newHeader.segmentCount * Segment.size ≤ f.data.length - f.pos) :
    (loadSegments e f).1 = false := by
  have := loadSegmentsLoop_of_lt e.newHeader.segmentCount (e.segments ++ [Segment.zero]) f
    (by omega)
  unfold loadSegments
  simp only
  cases hr : loadSegmentsLoop e.newHeader.segmentCount (e.segments ++ [Segment.zero]) f with
  | mk b r =>
    rw [hr] at this
    simp only at this
    subst this
    rfl

/-- When `loadDebugInfo` succeeds. -/
theorem loadDebugInfo_fst (e : Executable) (f : File) :
    (loadDebugInfo e f).1 = true ↔
      0 ≤ tdsOffset e.newHeader.sectorAlignmentShift e.segments
      ∧ (tdsOffset e.newHeader.sectorAlignmentShift e.segments).toNat + 16 ≤ f.data.length
      ∧ (f.data.drop (tdsOffset e.newHeader.sectorAlignmentShift e.segments).toNat).take 16
          = DEBUG_INFO_HEADER := by
  unfold loadDebugInfo
  simp only
  generalize tdsOffset e.newHeader.sectorAlignmentShift e.segments = t
  by_cases ht : t < 0
  · have : File.seek f t Origin.SEEK_SET = (false, f) := by
      unfold File.seek
      simp [ht]
    rw [this]
    simp only [Bool.false_eq_true, false_iff, not_and]
    intro h
    omega
  · have : File.seek f t Origin.SEEK_SET = (true, { f with pos := t.toNat, eof := false }) := by
      unfold File.seek
      simp [ht]
    rw [this]
    simp only
    have hlen : DEBUG_INFO_HEADER.length = 16 := rfl
    by_cases h16 : 16 ≤ f.data.length - t.toNat
    · rw [hlen, File.read_of_le _ _ (by simpa using h16)]
      simp only [ne_eq]
      by_cases heq : DEBUG_INFO_HEADER = (f.data.drop t.toNat).take 16
      · rw [if_neg (by simpa using heq)]
        simp only [true_iff]
        exact ⟨by omega, by omega, heq.symm⟩
      · rw [if_pos heq]
        simp only [Bool.false_eq_true, false_iff, not_and]
        intro _ _ hc
        exact heq hc.symm
    · have hn := File.read_of_lt { f with pos := t.toNat, eof := false } 16
        (by simpa using h16)
      rw [hlen]
      cases hr : File.read { f with pos := t.toNat, eof := false } 16 with
      | mk r g =>
        rw [hr] at hn
        simp only at hn
        subst hn
        simp only [Bool.false_eq_true, false_iff, not_and]
        intro _ hc
        omega

/-- The result of `load` is the conjunction `&&` of the four steps, each
applied to what the previous one left. -/
theorem load_fst (e : Executable) (f : File) :
    (load e f).1 = true ↔
      (loadOldHeader e f).1 = true
      ∧ (loadNewHeader (loadOldHeader e f).2.1 (loadOldHeader e f).2.2).1 = true
      ∧ (loadSegments
          (loadNewHeader (loadOldHeader e f).2.1 (loadOldHeader e f).2.2).2.1
          (loadNewHeader (loadOldHeader e f).2.1 (loadOldHeader e f).2.2).2.2).1 = true
      ∧ (loadDebugInfo
          (loadSegments
            (loadNewHeader (loadOldHeader e f).2.1 (loadOldHeader e f).2.2).2.1
            (loadNewHeader (loadOldHeader e f).2.1 (loadOldHeader e f).2.2).2.2).2.1
          (loadSegments
            (loadNewHeader (loadOldHeader e f).2.1 (loadOldHeader e f).2.2).2.1
            (loadNewHeader (loadOldHeader e f).2.1 (loadOldHeader e f).2.2).2.2).2.2).1 = true := by
  unfold load
  rcases h1 : loadOldHeader e f with ⟨b1, e1, f1⟩
  cases b1
  · simp
  · simp only [true_and]
    rcases h2 : loadNewHeader e1 f1 with ⟨b2, e2, f2⟩
    cases b2
    · simp
    · simp only [true_and]
      rcases h3 : loadSegments e2 f2 with ⟨b3, e3, f3⟩
      cases b3
      · simp
      · simp only [true_and]

/-- When `loadOldHeader` succeeds. -/
theorem loadOldHeader_fst (e : Executable) (f : File) :
    (loadOldHeader e f).1 = true ↔
      OldHeader.size ≤ f.data.length - f.pos
      ∧ (OldHeader.decode ((f.data.drop f.pos).take OldHeader.size)).signature = 0x5A4D := by
  constructor
  · intro h
    by_contra hc
    rw [loadOldHeader_false e f hc] at h
    cases h
  · rintro ⟨h1, h2⟩
    rw [loadOldHeader_true e f h1 h2]

/-- When `loadNewHeader` succeeds. -/
theorem loadNewHeader_fst (e : Executable) (f : File) :
    (loadNewHeader e f).1 = true ↔
      NewHeader.size ≤ f.data.length - e.oldHeader.newHeaderOffset
      ∧ (NewHeader.decode
        ((f.data.drop e.oldHeader.newHeaderOffset).take NewHeader.size)).signature = 0x454E := by
  constructor
  · intro h
    by_contra hc
    rw [loadNewHeader_false e f hc] at h
    cases h
  · rintro ⟨h1, h2⟩
    rw [loadNewHeader_true e f h1 h2]

/-- When `loadSegments` succeeds. -/
theorem loadSegments_fst (e : Executable) (f : File) :
    (loadSegments e f).1 = true ↔
      e.newHeader.segmentCount * Segment.size ≤ f.data.length - f.pos := by
  constructor
  · intro h
    by_contra hc
    rw [loadSegments_false e f hc] at h
    cases h
  · intro h
    rw [loadSegments_true e f h]

/-- Claim C2. `Executable::load` on a byte stream returns true exactly when: 64
bytes are readable at offset 0 and the first two are `M`, `Z`; 64 bytes are
readable at the offset held little-endian in bytes 0x3C..0x3F and their first
two are `N`, `E`; `segmentCount` (word 28 of the new header) records of 8 bytes
are readable right after the new header; and the 16 bytes at `tdsOffset` (not
negative, computed from the shift in word 50 of the new header and the
segments read) are `NB02` followed by twelve 0xFF bytes. -/
theorem load_true_iff (data : List Byte) :
    (load init (File.ofBytes data)).1 = true ↔
      64 ≤ data.length ∧ data.take 2 = [0x4D, 0x5A]
      ∧ (let newHeaderOffset := dwordAt data 0x3C
        newHeaderOffset + 64 ≤ data.length
        ∧ (data.drop newHeaderOffset).take 2 = [0x4E, 0x45]
        ∧ (let segmentCount := wordAt data (newHeaderOffset + 28)
          let sectorAlignmentShift := wordAt data (newHeaderOffset + 50)
          let segments := Segment.zero :: (List.range segmentCount).map (fun k =>
            Segment.decode ((data.drop (newHeaderOffset + 64 + k * 8)).take 8))
          let offset := tdsOffset sectorAlignmentShift segments
          newHeaderOffset + 64 + segmentCount * 8 ≤ data.length
          ∧ 0 ≤ offset
          ∧ offset.toNat + 16 ≤ data.length
          ∧ (data.drop offset.toNat).take 16 = DEBUG_INFO_HEADER)) := by
  rw [load_fst, loadOldHeader_fst]
  simp only [File.ofBytes, OldHeader.size, NewHeader.size, Segment.size, Nat.sub_zero,
    List.drop_zero]
  have hMZ : (0x5A4D : Nat) = (0x4D : Byte).val + 256 * (0x5A : Byte).val := by decide
  have hNE : (0x454E : Nat) = (0x4E : Byte).val + 256 * (0x45 : Byte).val := by decide
  have hsig1 : (OldHeader.decode (data.take 64)).signature = wordAt data 0 := by
    have := wordAt_take_drop data 0 64 0 (by omega)
    simpa [OldHeader.decode] using this
  have hoff : (OldHeader.decode (data.take 64)).newHeaderOffset = dwordAt data 0x3C := by
    have := dwordAt_take_drop data 0 64 60 (by omega)
    simpa [OldHeader.decode] using this
  rw [and_assoc]
  refine and_congr_right (fun h64 => ?_)
  rw [hsig1, hMZ, wordAt_eq_iff data 0 _ _ (by omega), List.drop_zero]
  refine and_congr_right (fun hmz => ?_)
  have hold : (OldHeader.decode (data.take 64)).signature = 0x5A4D := by
    rw [hsig1, hMZ, wordAt_eq_iff data 0 _ _ (by omega), List.drop_zero]
    exact hmz
  rw [loadOldHeader_true init { data := data, pos := 0, eof := false }
    (by simpa [OldHeader.size] using h64) (by simpa [OldHeader.size] using hold)]
  simp only [OldHeader.size, List.drop_zero, Nat.zero_add]
  rw [loadNewHeader_fst]
  simp only [NewHeader.size, hoff]
  obtain ⟨off, hoffeq⟩ : ∃ off, off = dwordAt data 0x3C := ⟨_, rfl⟩
  rw [← hoffeq] at hoff ⊢
  have hsig2 : (NewHeader.decode ((data.drop off).take 64)).signature = wordAt data off := by
    have := wordAt_take_drop data off 64 0 (by omega)
    simpa [NewHeader.decode] using this
  have hcnt : (NewHeader.decode ((data.drop off).take 64)).segmentCount
      = wordAt data (off + 28) := by
    have := wordAt_take_drop data off 64 28 (by omega)
    simpa [NewHeader.decode] using this
  have hshift : (NewHeader.decode ((data.drop off).take 64)).sectorAlignmentShift
      = wordAt data (off + 50) := by
    have := wordAt_take_drop data off 64 50 (by omega)
    simpa [NewHeader.decode] using this
  by_cases hlen : off + 64 ≤ data.length
  · have hlen' : 64 ≤ data.length - off := by omega
    simp only [hlen, hlen', true_and]
    rw [hsig2, hNE, wordAt_eq_iff data off _ _ (by omega)]
    refine and_congr_right (fun hne => ?_)
    have hnew : (NewHeader.decode ((data.drop off).take 64)).signature = 0x454E := by
      rw [hsig2, hNE, wordAt_eq_iff data off _ _ (by omega)]
      exact hne
    rw [loadNewHeader_true _ _ (by simpa [NewHeader.size, hoff] using hlen')
      (by simpa [NewHeader.size, hoff] using hnew)]
    simp only [NewHeader.size, hoff]
    rw [loadSegments_fst]
    simp only [Segment.size, hcnt]
    obtain ⟨cnt, hcnteq⟩ : ∃ cnt, cnt = wordAt data (off + 28) := ⟨_, rfl⟩
    rw [← hcnteq] at hcnt ⊢
    by_cases hseg : off + 64 + cnt * 8 ≤ data.length
    · have hseg' : cnt * 8 ≤ data.length - (off + 64) := by omega
      simp only [hseg, hseg', true_and]
      rw [loadSegments_true _ _ (by simpa [Segment.size, hcnt] using hseg')]
      rw [loadDebugInfo_fst]
      simp only [Segment.size, hcnt, hshift, init, List.nil_append, List.singleton_append]
    · have hseg' : ¬ cnt * 8 ≤ data.length - (off + 64) := by omega
      simp only [hseg, hseg', false_and]
  · have hlen' : ¬ 64 ≤ data.length - off := by omega
    simp only [hlen, hlen', false_and]

set_option maxRecDepth 16384 in
/-- Claim C2 at `wideShiftInput`, whose sector alignment shift is 33: the four
conditions hold with `tdsOffset` = 6 * 2^1 + 8 = 20, where bytes 20..35 hold the
signature, and `Executable::load` returns true. -/
theorem load_true_iff_witness :
    (load init (File.ofBytes wideShiftInput)).1 = true
    ∧ tdsOffset 33 [Segment.zero, ⟨6, 8, 0, 0⟩] = 20 :=
  ⟨(load_true_iff wideShiftInput).mpr (by decide), by decide⟩

/-- Scanning backwards finds the last element that satisfies the test. -/
theorem find?_reverse_of_last {α : Type} (p : α → Bool) :
    ∀ (l : List α) (i : Nat) (hi : i < l.length), p (l.get ⟨i, hi⟩) = true →
      (∀ j (hj : j < l.length), i < j → p (l.get ⟨j, hj⟩) = false) →
      l.reverse.find? p = some (l.get ⟨i, hi⟩) := by
  intro l
  induction l with
  | nil => intro i hi; simp at hi
  | cons a l ih =>
    intro i hi hp hlast
    rw [List.reverse_cons, List.find?_append]
    cases i with
    | zero =>
      have hnone : l.reverse.find? p = none := by
        rw [List.find?_eq_none]
        intro x hx
        rw [List.mem_reverse] at hx
        obtain ⟨k, hk, rfl⟩ := List.getElem_of_mem hx
        have := hlast (k + 1) (by simp; omega) (by omega)
        simpa using this
      rw [hnone]
      simp only [List.get_eq_getElem, List.getElem_cons_zero] at hp
      simp [hp]
    | succ i =>
      have hl : i < l.length := by simpa using hi
      have := ih i hl (by simpa using hp) (by
        intro j hj hij
        have := hlast (j + 1) (by simp; omega) (by omega)
        simpa using this)
      rw [this]
      simp

/-- Scanning backwards finds nothing when no element satisfies the test. -/
theorem find?_reverse_none {α : Type} (p : α → Bool) (l : List α)
    (h : ∀ x ∈ l, p x = false) : l.reverse.find? p = none := by
  rw [List.find?_eq_none]
  intro x hx
  rw [List.mem_reverse] at hx
  simp [h x hx]

/-- The zeroed placeholder segment is never the segment the scan selects. -/
theorem tdsOffset_cons_zero (shift : Nat) (segments : List Segment) :
    tdsOffset shift (Segment.zero :: segments) = tdsOffset shift segments := by
  unfold tdsOffset
  rw [List.reverse_cons, List.find?_append]
  cases h : segments.reverse.find?
      (fun s => decide (s.sectorOffset > 0) && decide (s.length > 0)) with
  | none => simp [Segment.zero]
  | some s => simp

/-- Claim C3. For a loaded segment list (the zeroed placeholder followed by the
real segments): when segment `i` has a nonzero sector offset and a nonzero
length, no later segment has both, and `sectorOffset * 2^shift + length` is
below 2^31, then `i` is not the placeholder and `tdsOffset` is that value;
`tdsOffset` is 0 when no segment has both fields nonzero; and the placeholder
never takes part in the choice. -/
theorem tdsOffset_contract (shift : Nat) (real : List Segment) :
    (∀ (i : Nat) (hi : i < (Segment.zero :: real).length),
        ((Segment.zero :: real).get ⟨i, hi⟩).sectorOffset ≠ 0 →
        ((Segment.zero :: real).get ⟨i, hi⟩).length ≠ 0 →
        (∀ j (hj : j < (Segment.zero :: real).length), i < j →
          ((Segment.zero :: real).get ⟨j, hj⟩).sectorOffset = 0
          ∨ ((Segment.zero :: real).get ⟨j, hj⟩).length = 0) →
        ((Segment.zero :: real).get ⟨i, hi⟩).sectorOffset * 2 ^ shift
          + ((Segment.zero :: real).get ⟨i, hi⟩).length < 2 ^ 31 →
        1 ≤ i
        ∧ tdsOffset shift (Segment.zero :: real)
          = ((((Segment.zero :: real).get ⟨i, hi⟩).sectorOffset * 2 ^ shift
              + ((Segment.zero :: real).get ⟨i, hi⟩).length : Nat) : Int))
    ∧ ((∀ s ∈ Segment.zero :: real, s.sectorOffset = 0 ∨ s.length = 0) →
        tdsOffset shift (Segment.zero :: real) = 0)
    ∧ tdsOffset shift (Segment.zero :: real) = tdsOffset shift real := by
  refine ⟨?_, ?_, tdsOffset_cons_zero shift real⟩
  · intro i hi h1 h2 hlast hlt
    refine ⟨?_, ?_⟩
    · cases i with
      | zero => simp [Segment.zero] at h1
      | succ i => omega
    · have hfind := find?_reverse_of_last
        (fun s : Segment => decide (s.sectorOffset > 0) && decide (s.length > 0))
        (Segment.zero :: real) i hi
        (by simp only [Bool.and_eq_true, decide_eq_true_eq]; omega)
        (by
          intro j hj hij
          simp only [Bool.and_eq_false_iff, decide_eq_false_iff_not]
          rcases hlast j hj hij with h | h
          · exact Or.inl (by omega)
          · exact Or.inr (by omega))
      unfold tdsOffset
      rw [hfind]
      simp only
      generalize ((Segment.zero :: real).get ⟨i, hi⟩).sectorOffset = so at *
      generalize ((Segment.zero :: real).get ⟨i, hi⟩).length = len at *
      have hshift : shift % 32 = shift := by
        apply Nat.mod_eq_of_lt
        by_contra hge
        have h32 : (2 : Nat) ^ 32 ≤ 2 ^ shift :=
          Nat.pow_le_pow_right (by decide) (Nat.le_of_not_lt hge)
        have hso : 2 ^ shift ≤ so * 2 ^ shift := Nat.le_mul_of_pos_left _ (by omega)
        have h31 : (2 : Nat) ^ 31 < 2 ^ 32 := by norm_num
        omega
      rw [hshift]
      have hpow : (so * 2 ^ shift + len : Nat) < 2147483648 := by
        have : (2 : Nat) ^ 31 = 2147483648 := by norm_num
        omega
      have hcast : ((so : Int) * 2 ^ shift) = ((so * 2 ^ shift : Nat) : Int) := by
        push_cast; rfl
      have hin : toInt32 ((so * 2 ^ shift : Nat) : Int) = ((so * 2 ^ shift : Nat) : Int) :=
        toInt32_of_range _ (Int.ofNat_nonneg _) (by omega)
      have hout : toInt32 (((so * 2 ^ shift : Nat) : Int) + (len : Int))
          = ((so * 2 ^ shift : Nat) : Int) + (len : Int) :=
        toInt32_of_range _ (by omega) (by omega)
      rw [hcast, hin, hout]
      push_cast
      rfl
  · intro h
    unfold tdsOffset
    rw [find?_reverse_none]
    intro s hs
    rcases h s hs with h | h <;> simp [h]

/-- Claim C3 at a concrete segment list: of the two real segments the first is
the last one with both fields nonzero, and the offset is 1 * 2^7 + 8. -/
theorem tdsOffset_contract_witness :
    tdsOffset 7 (Segment.zero :: [⟨1, 8, 0, 0⟩, ⟨0, 5, 0, 0⟩]) = ((1 * 2 ^ 7 + 8 : Nat) : Int) :=
  ((tdsOffset_contract 7 [⟨1, 8, 0, 0⟩, ⟨0, 5, 0, 0⟩]).1 1 (by decide) (by decide) (by decide)
    (by
      intro j hj hij
      have h2 : j = 2 := by
        simp only [List.length_cons, List.length_nil] at hj
        omega
      subst h2
      exact Or.inl rfl)
    (by decide)).2

end Executable

/-! ## The TDS tables -/

namespace TDS

/-- The records the loop of the generic loader appends when enough bytes are left. -/
theorem loadTableLoop_of_le {α : Type} [Entry α] :
    ∀ (n : Nat) (output : List α) (input : File),
      n * Entry.size α ≤ input.data.length - input.pos →
      loadTableLoop n output input
        = (true,
            output ++ (List.range n).map (fun k =>
              Entry.decode ((input.data.drop (input.pos + k * Entry.size α)).take (Entry.size α))),
            { input with pos := input.pos + n * Entry.size α }) := by
  intro n
  induction n with
  | zero =>
    intro output input _
    simp [loadTableLoop]
  | succ n ih =>
    intro output input h
    have hs : Entry.size α ≤ input.data.length - input.pos := by
      have : Entry.size α ≤ (n + 1) * Entry.size α := Nat.le_mul_of_pos_left _ (Nat.succ_pos n)
      omega
    have hmul : (n + 1) * Entry.size α = n * Entry.size α + Entry.size α := Nat.succ_mul _ _
    unfold loadTableLoop
    rw [File.read_of_le input _ hs]
    simp only
    rw [ih]
    · simp only [List.range_succ_eq_map, List.map_cons, List.map_map, List.append_assoc,
        List.singleton_append, Nat.zero_mul, Nat.add_zero, Prod.mk.injEq, true_and]
      refine ⟨?_, ?_⟩
      · congr 2
        apply List.map_congr_left
        intro k _
        simp only [Function.comp, Nat.succ_eq_add_one]
        have : input.pos + Entry.size α + k * Entry.size α
            = input.pos + (k + 1) * Entry.size α := by
          rw [Nat.succ_mul]; omega
        rw [this]
      · congr 1
        omega
    · simp only
      omega

/-- The loop of the generic loader fails when too few bytes are left. -/
theorem loadTableLoop_of_lt {α : Type} [Entry α] :
    ∀ (n : Nat) (output : List α) (input : File),
      input.data.length - input.pos < n * Entry.size α →
      (loadTableLoop n output input).1 = false := by
  intro n
  induction n with
  | zero =>
    intro output input h
    simp at h
  | succ n ih =>
    intro output input h
    have hmul : (n + 1) * Entry.size α = n * Entry.size α + Entry.size α := Nat.succ_mul _ _
    unfold loadTableLoop
    by_cases hs : Entry.size α ≤ input.data.length - input.pos
    · rw [File.read_of_le input _ hs]
      simp only
      apply ih
      simp only
      omega
    · have hn := File.read_of_lt input (Entry.size α) (by omega)
      cases hr : input.read (Entry.size α) with
      | mk r f =>
        rw [hr] at hn
        simp only at hn
        subst hn
        rfl

/-- Claim C4. For every record kind, when the generic loader `TDS::load<Entry>`
succeeds on an empty table, the table has `count + 1` entries, entry 0 is the
zeroed placeholder, entry `i` (1 <= i <= count) is the record decoded from the
`i`-th run of `sizeof(Entry)` bytes of the stream, and the stream has advanced
past the records; the loader returns false when fewer than `count` records'
worth of bytes is left (and true otherwise); and `count` is the header field
of the kind. -/
theorem loadTable_contract {α : Type} [Entry α] (header : Header) (input : File) :
    (∀ (table : List α) (rest : File), loadTable header input [] = (true, table, rest) →
        table.length = Entry.count α header + 1
        ∧ table.get? 0 = some Entry.zero
        ∧ (∀ i, 1 ≤ i → i ≤ Entry.count α header →
            table.get? i = some (Entry.decode
              ((input.data.drop (input.pos + (i - 1) * Entry.size α)).take (Entry.size α))))
        ∧ rest = { input with pos := input.pos + Entry.count α header * Entry.size α })
    ∧ (input.data.length - input.pos < Entry.count α header * Entry.size α →
        (loadTable header input ([] : List α)).1 = false)
    ∧ (Entry.count α header * Entry.size α ≤ input.data.length - input.pos →
        (loadTable header input ([] : List α)).1 = true)
    ∧ (Entry.count Symbol header = header.symbolCount
      ∧ Entry.count Module header = header.moduleCount
      ∧ Entry.count Source header = header.sourceCount
      ∧ Entry.count Line header = header.lineCount
      ∧ Entry.count Scope header = header.scopeCount
      ∧ Entry.count Segment header = header.segmentCount
      ∧ Entry.count Correlation header = header.correlationCount
      ∧ Entry.count TypeRecord header = header.typeCount
      ∧ Entry.count Member header = header.memberCount
      ∧ Entry.count ScopeClass header = header.scopeClassCount
      ∧ Entry.count ModuleClass header = header.moduleClassCount) := by
  refine ⟨?_, ?_, ?_, ⟨rfl, rfl, rfl, rfl, rfl, rfl, rfl, rfl, rfl, rfl, rfl⟩⟩
  · intro table rest h
    by_cases hle : Entry.count α header * Entry.size α ≤ input.data.length - input.pos
    · unfold loadTable at h
      simp only at h
      rw [loadTableLoop_of_le _ _ _ hle] at h
      simp only [Prod.mk.injEq, true_and] at h
      obtain ⟨h1, h2⟩ := h
      subst h1
      refine ⟨by simp, by simp, ?_, h2.symm⟩
      intro i hi1 hi2
      obtain ⟨k, rfl⟩ : ∃ k, i = k + 1 := ⟨i - 1, by omega⟩
      simp only [List.nil_append, List.singleton_append, List.get?_cons_succ,
        Nat.add_sub_cancel]
      rw [List.get?_eq_getElem?, List.getElem?_map, List.getElem?_range (by omega)]
      rfl
    · have := @loadTableLoop_of_lt α _ (Entry.count α header) ([] ++ [Entry.zero]) input
        (by omega)
      unfold loadTable at h
      simp only at h
      rw [h] at this
      cases this
  · intro h
    exact loadTableLoop_of_lt _ _ _ h
  · intro h
    unfold loadTable
    simp only
    rw [loadTableLoop_of_le _ _ _ h]

/-- Claim C4 at a concrete input: two line records are read from eight bytes. -/
theorem loadTable_contract_witness :
    loadTable { Header.zero with lineCount := 2 }
        { data := [1, 0, 2, 0, 3, 0, 4, 0], pos := 0, eof := false } ([] : List Line)
      = (true, [Line.zero, ⟨1, 2⟩, ⟨3, 4⟩],
          { data := [1, 0, 2, 0, 3, 0, 4, 0], pos := 8, eof := false })
    ∧ ([Line.zero, ⟨1, 2⟩, ⟨3, 4⟩] : List Line).length
      = Entry.count Line { Header.zero with lineCount := 2 } + 1 :=
  ⟨by decide,
    ((loadTable_contract { Header.zero with lineCount := 2 }
      { data := [1, 0, 2, 0, 3, 0, 4, 0], pos := 0, eof := false }).1
      [Line.zero, ⟨1, 2⟩, ⟨3, 4⟩]
      { data := [1, 0, 2, 0, 3, 0, 4, 0], pos := 8, eof := false } (by decide)).1⟩

/-! ## The name pool -/

/-- The element at the position where a list is cut, and the rest after it. -/
theorem get?_of_drop_eq_cons {α : Type} (l : List α) (n : Nat) (b : α) (rest : List α)
    (h : l.drop n = b :: rest) : l.get? n = some b ∧ l.drop (n + 1) = rest := by
  constructor
  · have := List.head?_drop l n
    rw [h] at this
    simpa using this.symm
  · have := List.tail_drop l n
    rw [h] at this
    simpa using this.symm

/-- The inner loop of `loadNames`, given enough fuel: it appends the bytes up to
the first NUL or the end of the stream, and it stops behind the NUL or, with
the end-of-file indicator set, at the end of the stream. -/
theorem readName_spec :
    ∀ (rest : List Byte) (data : List Byte) (pos : Nat) (eof : Bool) (fuel : Nat) (name : Name),
      data.drop pos = rest → rest.length < fuel →
      readName fuel name { data := data, pos := pos, eof := eof }
        = some (name ++ rest.takeWhile (fun b => decide (b ≠ 0)),
            if rest.dropWhile (fun b => decide (b ≠ 0)) = [] then
              { data := data, pos := pos + rest.length, eof := true }
            else
              { data := data,
                pos := pos + (rest.takeWhile (fun b => decide (b ≠ 0))).length + 1,
                eof := eof }) := by
  intro rest
  induction rest with
  | nil =>
    intro data pos eof fuel name hd hf
    obtain ⟨fuel, rfl⟩ : ∃ k, fuel = k + 1 := ⟨fuel - 1, by simp at hf; omega⟩
    have hnone : data.get? pos = none := by
      rw [List.get?_eq_none]
      exact List.drop_eq_nil_iff.mp hd
    simp only [readName, File.readChar, hnone]
    simp
  | cons b rest ih =>
    intro data pos eof fuel name hd hf
    obtain ⟨fuel, rfl⟩ : ∃ k, fuel = k + 1 := ⟨fuel - 1, by simp at hf; omega⟩
    obtain ⟨hget, hdrop⟩ := get?_of_drop_eq_cons data pos b rest hd
    simp only [readName, File.readChar, hget]
    by_cases hb : b = 0
    · subst hb
      simp
    · simp only [hb, if_false]
      rw [ih data (pos + 1) eof fuel (name ++ [b]) hdrop (by simp at hf; omega)]
      simp only [List.takeWhile_cons, List.dropWhile_cons, hb, ne_eq, not_false_eq_true,
        decide_True, if_true, List.append_assoc, List.singleton_append, List.length_cons]
      congr 2
      split <;> (congr 1; omega)

/-- The NUL-terminated strings of a stream, by its first NUL. -/
theorem specTerminatedStrings_eq :
    ∀ (rest : List Byte) (cur : Name),
      specTerminatedStrings cur rest
        = match rest.dropWhile (fun b => decide (b ≠ 0)) with
          | [] => []
          | _ :: post =>
            (cur ++ rest.takeWhile (fun b => decide (b ≠ 0))) :: specTerminatedStrings [] post := by
  intro rest
  induction rest with
  | nil => intro cur; rfl
  | cons b rest ih =>
    intro cur
    by_cases hb : b = 0
    · subst hb
      simp [specTerminatedStrings]
    · simp only [specTerminatedStrings, hb, if_false, List.dropWhile_cons, List.takeWhile_cons,
        ne_eq, not_false_eq_true, decide_True, if_true]
      rw [ih (cur ++ [b])]
      cases rest.dropWhile (fun b => decide (b ≠ 0)) with
      | nil => rfl
      | cons z post => simp

/-- The outer loop of `loadNames`, given enough fuel, yields the pool of the specification. -/
theorem loadNamesLoop_spec :
    ∀ (n : Nat) (rest : List Byte) (data : List Byte) (pos : Nat) (names : List Name)
      (fuel : Nat),
      rest.length ≤ n → data.drop pos = rest → rest.length < fuel →
      (loadNamesLoop fuel names { data := data, pos := pos, eof := false }).map Prod.fst
        = some (names
            ++ (specTerminatedStrings [] rest).takeWhile (fun name => !name.isEmpty)) := by
  intro n
  induction n with
  | zero =>
    intro rest data pos names fuel hn hd hf
    obtain ⟨fuel, rfl⟩ : ∃ k, fuel = k + 1 := ⟨fuel - 1, by omega⟩
    have hr : rest = [] := List.length_eq_zero.mp (by omega)
    subst hr
    have hlen : data.length - pos = 0 := by
      have := congrArg List.length hd
      simpa using this
    simp only [loadNamesLoop]
    rw [readName_spec [] data pos false _ [] hd (by simp)]
    simp [specTerminatedStrings, File.isEOF]
  | succ n ih =>
    intro rest data pos names fuel hn hd hf
    obtain ⟨fuel, rfl⟩ : ∃ k, fuel = k + 1 := ⟨fuel - 1, by omega⟩
    have hlen : data.length - pos = rest.length := by
      have := congrArg List.length hd
      simpa using this
    simp only [loadNamesLoop]
    rw [readName_spec rest data pos false _ [] hd (by omega), specTerminatedStrings_eq rest []]
    have hsplit := List.takeWhile_append_dropWhile (fun b => decide (b ≠ 0)) rest
    obtain ⟨pre, hpreq⟩ : ∃ pre, pre = rest.takeWhile (fun b => decide (b ≠ 0)) := ⟨_, rfl⟩
    rw [← hpreq] at hsplit ⊢
    cases hdw : rest.dropWhile (fun b => decide (b ≠ 0)) with
    | nil =>
      simp only [List.nil_append, if_true, File.isEOF, Bool.or_true, Option.map_some',
        List.takeWhile_nil, List.append_nil]
    | cons z post =>
      rw [hdw] at hsplit
      simp only [List.nil_append, reduceCtorEq, if_false, File.isEOF, Bool.or_false]
      cases pre with
      | nil =>
        simp only [List.isEmpty_nil, if_true, Option.map_some', List.takeWhile_cons,
          Bool.not_true, Bool.false_eq_true, if_false, List.append_nil]
      | cons c pre =>
        simp only [List.isEmpty_cons, Bool.false_eq_true, if_false]
        have hlen2 : (c :: pre).length + 1 + post.length = rest.length := by
          have := congrArg List.length hsplit
          simp only [List.length_append, List.length_cons] at this ⊢
          omega
        have hd2 : data.drop (pos + (c :: pre).length + 1) = post := by
          rw [Nat.add_assoc, ← List.drop_drop, hd, ← hsplit]
          have h1 : (c :: pre) ++ z :: post = ((c :: pre) ++ [z]) ++ post := by simp
          rw [h1]
          exact List.drop_left' (by simp)
        rw [ih post data _ _ fuel (by omega) hd2 (by omega)]
        simp only [List.takeWhile_cons, List.isEmpty_cons, Bool.not_false, if_true,
          List.append_assoc, List.singleton_append]

/-- `loadNames` returns, and appends the pool of the specification to the names. -/
theorem loadNames_spec (t : TDS) (data : List Byte) (pos : Nat) :
    (loadNames t { data := data, pos := pos, eof := false }).map Prod.fst
      = some { t with names := t.names ++ specNamePool (data.drop pos) } := by
  have h := loadNamesLoop_spec (data.drop pos).length (data.drop pos) data pos
    (t.names ++ [[]]) (data.length - pos + 1) (le_refl _) rfl (by simp)
  unfold loadNames
  simp only
  cases hl : loadNamesLoop (data.length - pos + 1) (t.names ++ [[]])
      { data := data, pos := pos, eof := false } with
  | none =>
    rw [hl] at h
    simp at h
  | some r =>
    rw [hl] at h
    simp only [Option.map_some', Option.some.injEq] at h
    simp only [Option.map_some', Option.some.injEq, h, specNamePool]
    simp

/-- A NUL-free string followed by a NUL is the next terminated string. -/
theorem specTerminatedStrings_append (n : Name) (hn : (0 : Byte) ∉ n) :
    ∀ (cur : Name) (rest : List Byte),
      specTerminatedStrings cur (n ++ 0 :: rest) = (cur ++ n) :: specTerminatedStrings [] rest := by
  induction n with
  | nil =>
    intro cur rest
    simp [specTerminatedStrings]
  | cons b n ih =>
    intro cur rest
    have hb : b ≠ 0 := fun h => hn (by simp [h])
    have hn' : (0 : Byte) ∉ n := fun h => hn (List.mem_cons_of_mem _ h)
    have hcons : (b :: n) ++ 0 :: rest = b :: (n ++ 0 :: rest) := rfl
    rw [hcons, specTerminatedStrings]
    simp only [hb, if_false]
    rw [ih hn']
    simp

/-- A stream without a NUL holds no terminated string. -/
theorem specTerminatedStrings_of_not_mem (n : Name) (hn : (0 : Byte) ∉ n) :
    ∀ cur : Name, specTerminatedStrings cur n = [] := by
  induction n with
  | nil => intro cur; rfl
  | cons b n ih =>
    intro cur
    have hb : b ≠ 0 := fun h => hn (by simp [h])
    have hn' : (0 : Byte) ∉ n := fun h => hn (List.mem_cons_of_mem _ h)
    simp only [specTerminatedStrings, hb, if_false]
    exact ih hn' _

/-- What the pool of the specification is on a stream of NUL-terminated
non-empty strings followed by nothing, by an empty string, or by a string cut
off by the end of the stream. -/
theorem specNamePool_terminated (names : List Name) (rest : List Byte)
    (hnames : ∀ n ∈ names, n ≠ [] ∧ (0 : Byte) ∉ n)
    (hrest : (∃ r, rest = 0 :: r) ∨ (0 : Byte) ∉ rest) :
    specNamePool ((names.map (fun n => n ++ [0])).flatten ++ rest) = [] :: names := by
  unfold specNamePool
  congr 1
  induction names with
  | nil =>
    simp only [List.map_nil, List.flatten_nil, List.nil_append]
    rcases hrest with ⟨r, rfl⟩ | h
    · simp [specTerminatedStrings]
    · rw [specTerminatedStrings_of_not_mem rest h]
      rfl
  | cons n names ih =>
    obtain ⟨hne, hnul⟩ := hnames n (List.mem_cons_self _ _)
    have hrec := ih (fun m hm => hnames m (List.mem_cons_of_mem _ hm))
    simp only [List.map_cons, List.flatten_cons, List.append_assoc, List.singleton_append,
      List.cons_append]
    rw [specTerminatedStrings_append n hnul, List.nil_append, List.takeWhile_cons]
    have : (!n.isEmpty) = true := by
      cases n with
      | nil => exact absurd rfl hne
      | cons _ _ => rfl
    rw [this, if_pos rfl, List.nil_append, hrec]

/-- Claim C5. For every byte stream (a file at any position, its end-of-file
indicator clear), `loadNames` returns and appends to the names the pool of
the specification: the empty string, then the maximal leading run of
non-empty NUL-terminated strings. In terms of the stream alone: when the
stream is a sequence of non-empty NUL-free strings, each followed by a NUL,
and after them comes an empty string (a NUL), the end of the stream, or a
string that is cut off by the end of the stream, then the pool is the empty
string followed by exactly these strings. -/
theorem loadNames_contract (t : TDS) (data : List Byte) (pos : Nat) :
    (loadNames t { data := data, pos := pos, eof := false }).map Prod.fst
      = some { t with names := t.names ++ specNamePool (data.drop pos) }
    ∧ (∀ (names : List Name) (rest : List Byte),
        (∀ n ∈ names, n ≠ [] ∧ (0 : Byte) ∉ n) →
        ((∃ r, rest = 0 :: r) ∨ (0 : Byte) ∉ rest) →
        (loadNames t (File.ofBytes ((names.map (fun n => n ++ [0])).flatten ++ rest))).map
            (fun r => r.1.names)
          = some (t.names ++ [] :: names)) := by
  refine ⟨loadNames_spec t data pos, ?_⟩
  intro names rest hnames hrest
  have hs := loadNames_spec t ((names.map (fun n => n ++ [0])).flatten ++ rest) 0
  rw [List.drop_zero, specNamePool_terminated names rest hnames hrest] at hs
  unfold File.ofBytes
  cases hl : loadNames t
      { data := (names.map (fun n => n ++ [0])).flatten ++ rest, pos := 0, eof := false } with
  | none =>
    rw [hl] at hs
    simp at hs
  | some r =>
    rw [hl] at hs
    simp only [Option.map_some', Option.some.injEq] at hs ⊢
    rw [hs]

/-- Claim C5 at a concrete stream: two names, then a name cut off by the end of
the stream, which is not added. -/
theorem loadNames_contract_witness :
    (loadNames TDS.init (File.ofBytes [0x41, 0, 0x42, 0x43, 0, 0x44])).map (fun r => r.1.names)
      = some [[], [0x41], [0x42, 0x43]] :=
  (loadNames_contract TDS.init [] 0).2 [[0x41], [0x42, 0x43]] [0x44] (by decide)
    (Or.inr (by decide))

/-- The NUL-joined entries followed by one NUL are the NUL-terminated entries. -/
theorem specSerialize_append_nul :
    ∀ names : List Name, names ≠ [] →
      specSerialize names ++ [0] = (names.map (fun n => n ++ [0])).flatten := by
  intro names
  induction names with
  | nil => intro h; exact absurd rfl h
  | cons n names ih =>
    intro _
    cases names with
    | nil => simp [specSerialize, List.intercalate]
    | cons m names =>
      have := ih (by simp)
      simp only [specSerialize, List.intercalate, List.intersperse, List.flatten_cons,
        List.map_cons, List.append_assoc] at this ⊢
      rw [this]

/-- Claim C6 fails as stated: the single entry "A" is non-empty and NUL-free, its
NUL-joined serialisation is the one byte `A`, and parsing that yields the pool
with the empty string only, not the empty string followed by "A": the last
entry is cut off by the end of the stream. -/
theorem loadNames_roundtrip_joined_counterexample :
    (∀ n ∈ [([0x41] : Name)], n ≠ [] ∧ (0 : Byte) ∉ n)
    ∧ (loadNames TDS.init (File.ofBytes (specSerialize [[0x41]]))).map (fun r => r.1.names)
      = some [[]] := by
  decide

/-- Claim C6 as amended. For every list of non-empty NUL-free strings, parsing
the entries joined by NUL bytes and followed by one closing NUL byte yields
the empty string followed by the same strings in the same order. -/
theorem loadNames_roundtrip_terminated (names : List Name)
    (h : ∀ n ∈ names, n ≠ [] ∧ (0 : Byte) ∉ n) :
    (loadNames TDS.init (File.ofBytes (specSerialize names ++ [0]))).map (fun r => r.1.names)
      = some ([] :: names) := by
  have hs := loadNames_spec TDS.init (specSerialize names ++ [0]) 0
  have hpool : specNamePool (specSerialize names ++ [0]) = [] :: names := by
    by_cases hn : names = []
    · subst hn
      have := specNamePool_terminated [] [0] (by simp) (Or.inl ⟨[], rfl⟩)
      simpa [specSerialize, List.intercalate] using this
    · rw [specSerialize_append_nul names hn]
      have := specNamePool_terminated names [] h (Or.inr (by simp))
      simpa using this
  unfold File.ofBytes
  cases hl : loadNames TDS.init { data := specSerialize names ++ [0], pos := 0, eof := false } with
  | none =>
    rw [hl] at hs
    simp at hs
  | some r =>
    rw [hl] at hs
    simp only [Option.map_some', Option.some.injEq] at hs ⊢
    rw [hs]
    simp only [List.drop_zero, hpool]
    rfl

/-- The amended claim C6 at the entries "A" and "BC". -/
theorem loadNames_roundtrip_terminated_witness :
    (∀ n ∈ [([0x41] : Name), [0x42, 0x43]], n ≠ [] ∧ (0 : Byte) ∉ n)
    ∧ (loadNames TDS.init
        (File.ofBytes (specSerialize [[0x41], [0x42, 0x43]] ++ [0]))).map (fun r => r.1.names)
      = some [[], [0x41], [0x42, 0x43]] :=
  ⟨by decide, loadNames_roundtrip_terminated [[0x41], [0x42, 0x43]] (by decide)⟩

/-! ## The type iterator -/

namespace TypeIterator

/-- `operator++` keeps the table. -/
theorem advance_types (it : TypeIterator) : it.advance.types = it.types := by
  unfold advance
  split
  · rfl
  · split
    · rfl
    · split <;> rfl

/-- `type()` is the table lookup at the index. -/
theorem type_eq (it : TypeIterator) : it.type = it.types.get? it.index := by
  unfold type
  split
  · rfl
  · rename_i h
    exact (List.get?_eq_none.mpr (Nat.le_of_not_lt h)).symm

/-- The index after `operator++` on a cursor inside the table. -/
theorem advance_index_of_type (it : TypeIterator) (t : TypeRecord) (h : it.type = some t) :
    it.advance.index = if t.hasExtendedTypeInfo then it.index + 2 else it.index + 1 := by
  have hlt : it.index < it.types.length := by
    by_contra hc
    simp [type, hc] at h
  unfold advance
  rw [if_neg (by omega), h]
  simp only
  split <;> rfl

/-- `operator++` does nothing on a cursor past the end. -/
theorem advance_of_not_hasNext (it : TypeIterator) (h : it.hasNext = false) :
    it.advance = it := by
  have : ¬ it.index < it.types.length := by simpa [hasNext] using h
  unfold advance
  rw [if_pos (by omega)]

/-- `hasNext()` holds exactly when `type()` is not null. -/
theorem hasNext_iff_type (it : TypeIterator) : it.hasNext = true ↔ it.type ≠ none := by
  unfold hasNext type
  by_cases h : it.index < it.types.length
  · simp [h, List.get?_eq_get h]
  · simp [h]

/-- The step `operator++` makes from an index inside the table. -/
theorem advance_mk (T : List TypeRecord) (p : Nat) (h : p < T.length) :
    advance { types := T, index := p }
      = { types := T,
          index := if (T.getD p TypeRecord.zero).hasExtendedTypeInfo then p + 2 else p + 1 } := by
  have ht : type { types := T, index := p } = some (T.getD p TypeRecord.zero) := by
    rw [type_eq]
    simp [List.getD_eq_getElem?_getD, List.getElem?_eq_getElem h]
  have h1 := advance_index_of_type _ _ ht
  have h2 := advance_types { types := T, index := p }
  cases hadv : advance { types := T, index := p } with
  | mk ty ix =>
    rw [hadv] at h1 h2
    simp only at h1 h2
    rw [h1, h2]

/-- The index grows at every step made while `hasNext()` holds. -/
theorem index_lt_advance (it : TypeIterator) (h : it.hasNext = true) :
    it.index < it.advance.index := by
  have hlt : it.index < it.types.length := by simpa [hasNext] using h
  cases it with
  | mk T p =>
    rw [advance_mk T p hlt]
    simp only
    split <;> omega

/-- A cursor with at most `n` slots ahead is exhausted within `n` steps. -/
theorem exhausted_within (n : Nat) :
    ∀ it : TypeIterator, it.types.length - it.index ≤ n →
      ∃ k, k ≤ n ∧ (advance^[k] it).hasNext = false := by
  induction n with
  | zero =>
    intro it h
    exact ⟨0, le_refl 0, by simp [hasNext]; omega⟩
  | succ n ih =>
    intro it h
    by_cases hn : it.hasNext = true
    · have hlt : it.index < it.types.length := by simpa [hasNext] using hn
      have hstep := index_lt_advance it hn
      obtain ⟨k, hk, hend⟩ := ih it.advance (by rw [advance_types]; omega)
      exact ⟨k + 1, by omega, by rw [Function.iterate_succ_apply]; exact hend⟩
    · exact ⟨0, Nat.zero_le _, by simpa using hn⟩

/-- The walk from a cursor past the end is empty. -/
theorem walk_of_not_lt (T : List TypeRecord) (p fuel : Nat) (h : ¬ p < T.length) :
    walk fuel { types := T, index := p } = [] := by
  cases fuel <;> simp [walk, hasNext, h]

/-- The walk from a cursor inside the table: the cursor, then the walk from the next one. -/
theorem walk_succ_of_lt (T : List TypeRecord) (p fuel : Nat) (h : p < T.length) :
    walk (fuel + 1) { types := T, index := p }
      = TypeIterator.mk T p ::
        walk fuel (TypeIterator.mk T
          (if (T.getD p TypeRecord.zero).hasExtendedTypeInfo then p + 2 else p + 1)) := by
  simp [walk, hasNext, h, advance_mk T p h]

/-- The slot passed over by a step: the next one, when the type has extended information. -/
theorem jumped_mk (T : List TypeRecord) (p : Nat) (h : p < T.length) :
    jumped { types := T, index := p }
      = if (T.getD p TypeRecord.zero).hasExtendedTypeInfo = true ∧ p + 1 < T.length
        then [p + 1] else [] := by
  unfold jumped
  rw [advance_mk T p h]
  by_cases hx : (T.getD p TypeRecord.zero).hasExtendedTypeInfo = true
  · simp only [hx, if_true, true_and]
    have : p + 2 - (p + 1) = 1 := by omega
    rw [this]
    by_cases hl : p + 1 < T.length <;> simp [List.range', hl]
  · rw [if_neg hx, if_neg (fun h => hx h.1), Nat.sub_self]
    rfl

/-- The cursor states from index `p` on: what is visited and what is passed over. -/
theorem walk_spec (T : List TypeRecord) :
    ∀ fuel p, T.length - p ≤ fuel →
      (∀ j, j ∈ (walk fuel { types := T, index := p }).map (fun it => it.index) →
          p ≤ j ∧ j < T.length)
      ∧ (∀ j, j ∈ (walk fuel { types := T, index := p }).flatMap jumped →
          p < j ∧ j < T.length)
      ∧ (∀ j, p ≤ j → j < T.length →
          j ∈ (walk fuel { types := T, index := p }).map (fun it => it.index)
          ∨ j ∈ (walk fuel { types := T, index := p }).flatMap jumped)
      ∧ (∀ j, ¬ (j ∈ (walk fuel { types := T, index := p }).map (fun it => it.index)
          ∧ j ∈ (walk fuel { types := T, index := p }).flatMap jumped))
      ∧ (∀ j, p ≤ j → j + 1 < T.length →
          (j + 1 ∈ (walk fuel { types := T, index := p }).flatMap jumped ↔
            j ∈ (walk fuel { types := T, index := p }).map (fun it => it.index)
            ∧ (T.getD j TypeRecord.zero).hasExtendedTypeInfo = true)
          ∧ (j + 1 ∈ (walk fuel { types := T, index := p }).map (fun it => it.index) ↔
            (j ∈ (walk fuel { types := T, index := p }).map (fun it => it.index)
              ∧ (T.getD j TypeRecord.zero).hasExtendedTypeInfo = false)
            ∨ j ∈ (walk fuel { types := T, index := p }).flatMap jumped)) := by
  intro fuel
  induction fuel with
  | zero =>
    intro p hp
    have hnp : ¬ p < T.length := by omega
    rw [walk_of_not_lt T p 0 hnp]
    refine ⟨by simp, by simp, ?_, by simp, ?_⟩
    · intro j h1 h2; omega
    · intro j h1 h2; omega
  | succ fuel ih =>
    intro p hp
    by_cases hlt : p < T.length
    · rw [walk_succ_of_lt T p fuel hlt]
      simp only [List.map_cons, List.flatMap_cons, List.mem_cons, List.mem_append,
        jumped_mk T p hlt]
      by_cases hx : (T.getD p TypeRecord.zero).hasExtendedTypeInfo = true
      · obtain ⟨a, b, c, d, f⟩ := ih (p + 2) (by omega)
        simp only [hx, if_true, true_and]
        have hj : ∀ j, j ∈ (if p + 1 < T.length then [p + 1] else []) ↔
            (j = p + 1 ∧ p + 1 < T.length) := by
          intro j
          by_cases hl : p + 1 < T.length <;> simp [hl]
        simp only [hj]
        refine ⟨?_, ?_, ?_, ?_, ?_⟩
        · rintro j (rfl | h)
          · omega
          · have := a j h; omega
        · rintro j (⟨rfl, h⟩ | h)
          · omega
          · have := b j h; omega
        · intro j h1 h2
          by_cases e1 : j = p
          · exact Or.inl (Or.inl e1)
          · by_cases e2 : j = p + 1
            · exact Or.inr (Or.inl ⟨e2, by omega⟩)
            · rcases c j (by omega) h2 with h | h
              · exact Or.inl (Or.inr h)
              · exact Or.inr (Or.inr h)
        · rintro j ⟨h1 | h1, h2 | h2⟩
          · omega
          · have := b j h2; omega
          · have := a j h1; omega
          · exact d j ⟨h1, h2⟩
        · intro j h1 h2
          by_cases e1 : j = p
          · subst e1
            refine ⟨⟨fun _ => ⟨Or.inl rfl, hx⟩, fun _ => Or.inl ⟨rfl, h2⟩⟩, ?_⟩
            constructor
            · rintro (h | h)
              · omega
              · have := a _ h; omega
            · rintro (⟨_, h⟩ | ⟨h, _⟩ | h)
              · rw [hx] at h; cases h
              · omega
              · have := b _ h; omega
          · by_cases e2 : j = p + 1
            · subst e2
              constructor
              · constructor
                · rintro (⟨h, _⟩ | h)
                  · omega
                  · have := b _ h; omega
                · rintro ⟨h | h, _⟩
                  · omega
                  · have := a _ h; omega
              · constructor
                · intro _
                  exact Or.inr (Or.inl ⟨rfl, by omega⟩)
                · intro _
                  rcases c (p + 1 + 1) (by omega) h2 with h | h
                  · exact Or.inr h
                  · have := b _ h; omega
            · obtain ⟨f1, f2⟩ := f j (by omega) h2
              constructor
              · constructor
                · rintro (⟨h, _⟩ | h)
                  · omega
                  · exact ⟨Or.inr (f1.mp h).1, (f1.mp h).2⟩
                · rintro ⟨h | h, hxj⟩
                  · omega
                  · exact Or.inr (f1.mpr ⟨h, hxj⟩)
              · constructor
                · rintro (h | h)
                  · omega
                  · rcases f2.mp h with ⟨h3, h4⟩ | h3
                    · exact Or.inl ⟨Or.inr h3, h4⟩
                    · exact Or.inr (Or.inr h3)
                · rintro (⟨h | h, hxj⟩ | ⟨h, _⟩ | h)
                  · omega
                  · exact Or.inr (f2.mpr (Or.inl ⟨h, hxj⟩))
                  · omega
                  · exact Or.inr (f2.mpr (Or.inr h))
      · obtain ⟨a, b, c, d, f⟩ := ih (p + 1) (by omega)
        have hx' : (T.getD p TypeRecord.zero).hasExtendedTypeInfo = false := by
          simpa using hx
        simp only [hx', Bool.false_eq_true, false_and, if_false, List.not_mem_nil, false_or]
        refine ⟨?_, ?_, ?_, ?_, ?_⟩
        · rintro j (rfl | h)
          · omega
          · have := a j h; omega
        · intro j h
          have := b j h; omega
        · intro j h1 h2
          by_cases e1 : j = p
          · exact Or.inl (Or.inl e1)
          · rcases c j (by omega) h2 with h | h
            · exact Or.inl (Or.inr h)
            · exact Or.inr h
        · rintro j ⟨h1 | h1, h2⟩
          · have := b j h2; omega
          · exact d j ⟨h1, h2⟩
        · intro j h1 h2
          by_cases e1 : j = p
          · subst e1
            constructor
            · constructor
              · intro h
                have := b _ h; omega
              · rintro ⟨_, h⟩
                rw [hx'] at h; cases h
            · constructor
              · intro _
                exact Or.inl ⟨Or.inl rfl, hx'⟩
              · intro _
                rcases c (j + 1) (by omega) h2 with h | h
                · exact Or.inr h
                · have := b _ h; omega
          · obtain ⟨f1, f2⟩ := f j (by omega) h2
            constructor
            · constructor
              · intro h
                exact ⟨Or.inr (f1.mp h).1, (f1.mp h).2⟩
              · rintro ⟨h | h, hxj⟩
                · omega
                · exact f1.mpr ⟨h, hxj⟩
            · constructor
              · rintro (h | h)
                · omega
                · rcases f2.mp h with ⟨h3, h4⟩ | h3
                  · exact Or.inl ⟨Or.inr h3, h4⟩
                  · exact Or.inr h3
              · rintro (⟨h | h, hxj⟩ | h)
                · omega
                · exact Or.inr (f2.mpr (Or.inl ⟨h, hxj⟩))
                · exact Or.inr (f2.mpr (Or.inr h))
    · rw [walk_of_not_lt T p (fuel + 1) hlt]
      refine ⟨by simp, by simp, ?_, by simp, ?_⟩
      · intro j h1 h2; omega
      · intro j h1 h2; omega

end TypeIterator

/-- Claim C7. A fresh `TypeIterator` has index 1; `type()` is the entry at the
cursor when the index is inside the table and null otherwise; `hasNext()` is
true exactly when `type()` is not null; `operator++` adds 2 to the index when
the current type has extended type information and 1 otherwise, leaves the
index unchanged when the cursor is past the end, and never changes the
table. -/
theorem typeIterator_contract (types : List TypeRecord) (it : TypeIterator) :
    (TypeIterator.init types).index = 1
    ∧ (it.index < it.types.length → it.type = it.types.get? it.index ∧ it.type ≠ none)
    ∧ (¬ it.index < it.types.length → it.type = none)
    ∧ (it.hasNext = true ↔ it.type ≠ none)
    ∧ (∀ t, it.type = some t → t.hasExtendedTypeInfo = true →
        it.advance.index = it.index + 2)
    ∧ (∀ t, it.type = some t → t.hasExtendedTypeInfo = false →
        it.advance.index = it.index + 1)
    ∧ (it.type = none → it.advance.index = it.index)
    ∧ it.advance.types = it.types := by
  refine ⟨rfl, ?_, ?_, TypeIterator.hasNext_iff_type it, ?_, ?_, ?_,
    TypeIterator.advance_types it⟩
  · intro h
    refine ⟨TypeIterator.type_eq it, ?_⟩
    rw [← TypeIterator.hasNext_iff_type]
    simp [TypeIterator.hasNext, h]
  · intro h
    simp [TypeIterator.type, h]
  · intro t ht hx
    rw [TypeIterator.advance_index_of_type it t ht, if_pos hx]
  · intro t ht hx
    rw [TypeIterator.advance_index_of_type it t ht]
    simp [hx]
  · intro h
    have : it.hasNext = false := by
      by_contra hc
      exact (TypeIterator.hasNext_iff_type it).mp (by simpa using hc) h
    rw [TypeIterator.advance_of_not_hasNext it this]

/-- Claim C8. For a type table of size `n >= 1`, a fresh cursor is exhausted
(`hasNext()` false) after at most `n - 1` applications of `operator++`, and
the index strictly increases at every step made while `hasNext()` holds. -/
theorem typeIterator_terminates (types : List TypeRecord) (h : 1 ≤ types.length) :
    (∃ k, k ≤ types.length - 1
        ∧ (TypeIterator.advance^[k] (TypeIterator.init types)).hasNext = false)
    ∧ (∀ it : TypeIterator, it.hasNext = true → it.index < it.advance.index) := by
  refine ⟨?_, TypeIterator.index_lt_advance⟩
  have := h
  exact TypeIterator.exhausted_within (types.length - 1) (TypeIterator.init types) (le_refl _)

/-- Claim C8 at a table of four entries. -/
theorem typeIterator_terminates_witness :
    1 ≤ [TypeRecord.zero, ⟨5, 0, 2, 0, 0⟩, TypeRecord.zero, ⟨0x1E, 1, 4, 0, 1⟩].length
    ∧ (∃ k, k ≤ [TypeRecord.zero, ⟨5, 0, 2, 0, 0⟩, TypeRecord.zero, ⟨0x1E, 1, 4, 0, 1⟩].length - 1
        ∧ (TypeIterator.advance^[k] (TypeIterator.init
            [TypeRecord.zero, ⟨5, 0, 2, 0, 0⟩, TypeRecord.zero, ⟨0x1E, 1, 4, 0, 1⟩])).hasNext
          = false) :=
  ⟨by decide, (typeIterator_terminates _ (by decide)).1⟩

/-- Claim C9. The indices a fresh cursor visits and the indices it passes over
partition `1 .. size - 1`: every such index is one or the other, none is
both; index 1 is visited when `size > 1`; for `i >= 1` with `i + 1 < size`,
`i + 1` is passed over exactly when `i` is visited and `types[i]` has extended
type information, and `i + 1` is visited exactly when `i` is visited without
extended type information or `i` is passed over. -/
theorem typeIterator_partition (types : List TypeRecord) :
    (∀ j, (1 ≤ j ∧ j < types.length) ↔
        (j ∈ TypeIterator.visited types ∨ j ∈ TypeIterator.skipped types))
    ∧ (∀ j, ¬ (j ∈ TypeIterator.visited types ∧ j ∈ TypeIterator.skipped types))
    ∧ (1 < types.length → 1 ∈ TypeIterator.visited types)
    ∧ (∀ i, 1 ≤ i → i + 1 < types.length →
        (i + 1 ∈ TypeIterator.skipped types ↔
          i ∈ TypeIterator.visited types
          ∧ (types.getD i TypeRecord.zero).hasExtendedTypeInfo = true))
    ∧ (∀ i, 1 ≤ i → i + 1 < types.length →
        (i + 1 ∈ TypeIterator.visited types ↔
          (i ∈ TypeIterator.visited types
            ∧ (types.getD i TypeRecord.zero).hasExtendedTypeInfo = false)
          ∨ i ∈ TypeIterator.skipped types)) := by
  obtain ⟨a, b, c, d, f⟩ :=
    TypeIterator.walk_spec types types.length 1 (Nat.sub_le _ _)
  refine ⟨?_, d, ?_, ?_, ?_⟩
  · intro j
    constructor
    · rintro ⟨h1, h2⟩
      exact c j h1 h2
    · rintro (h | h)
      · exact a j h
      · have := b j h
        omega
  · intro h
    rcases c 1 (le_refl 1) h with h1 | h1
    · exact h1
    · have := b 1 h1
      omega
  · intro i h1 h2
    exact (f i h1 h2).1
  · intro i h1 h2
    exact (f i h1 h2).2

/-- Claim C9 at a table of five entries: index 1 (a 16-bit integer) is visited,
its extended slot 2 is passed over, and the struct at 3 is visited. -/
theorem typeIterator_partition_witness :
    1 ∈ TypeIterator.visited
        [TypeRecord.zero, ⟨5, 0, 2, 0, 0⟩, TypeRecord.zero, ⟨0x1E, 1, 4, 0, 1⟩, ⟨3, 0, 1, 0, 0⟩]
    ∧ 2 ∈ TypeIterator.skipped
        [TypeRecord.zero, ⟨5, 0, 2, 0, 0⟩, TypeRecord.zero, ⟨0x1E, 1, 4, 0, 1⟩, ⟨3, 0, 1, 0, 0⟩]
    ∧ 3 ∈ TypeIterator.visited
        [TypeRecord.zero, ⟨5, 0, 2, 0, 0⟩, TypeRecord.zero, ⟨0x1E, 1, 4, 0, 1⟩, ⟨3, 0, 1, 0, 0⟩] :=
  ⟨(typeIterator_partition _).2.2.1 (by decide),
    ((typeIterator_partition _).2.2.2.1 1 (by decide) (by decide)).mpr (by decide),
    ((typeIterator_partition _).2.2.2.2 2 (by decide) (by decide)).mpr (Or.inr (by decide))⟩

/-- Claim C10 fails as stated: the zeroed type record has kind id 0 (void), and
`hasExtendedTypeInfo` is true for it, since `isBasic` accepts id 0. -/
theorem hasExtendedTypeInfo_void_counterexample :
    TypeRecord.zero.id = 0 ∧ TypeRecord.zero.hasExtendedTypeInfo = true := by
  decide

/-- Claim C10 as amended. `hasExtendedTypeInfo` is true exactly for the kind ids
0 (void) and 4 to 12 (the basic types of `isBasic`), 0x1C (array) and 0x29
(enum); it is false for every other kind id. -/
theorem hasExtendedTypeInfo_iff (t : TypeRecord) :
    t.hasExtendedTypeInfo = true ↔
      (t.id = 0 ∨ (4 ≤ t.id ∧ t.id ≤ 12) ∨ t.id = 0x1C ∨ t.id = 0x29) := by
  simp only [TypeRecord.hasExtendedTypeInfo, TypeRecord.isBasic, TypeRecord.isArray,
    TypeRecord.isEnum, Bool.or_eq_true, Bool.and_eq_true, decide_eq_true_eq]
  omega

/-! ## TDS::load -/

/-- The generic loader succeeds when the declared records fit in what is left. -/
theorem loadTable_of_le {α : Type} [Entry α] (header : Header) (input : File)
    (output : List α)
    (h : Entry.count α header * Entry.size α ≤ input.data.length - input.pos) :
    loadTable header input output
      = (true,
          (output ++ [Entry.zero]) ++ (List.range (Entry.count α header)).map (fun k =>
            Entry.decode ((input.data.drop (input.pos + k * Entry.size α)).take (Entry.size α))),
          { input with pos := input.pos + Entry.count α header * Entry.size α }) := by
  unfold loadTable
  simp only
  rw [loadTableLoop_of_le _ _ _ h]

/-- The generic loader fails when the declared records do not fit in what is left. -/
theorem loadTable_of_lt {α : Type} [Entry α] (header : Header) (input : File)
    (output : List α)
    (h : input.data.length - input.pos < Entry.count α header * Entry.size α) :
    (loadTable header input output).1 = false :=
  loadTableLoop_of_lt _ _ _ h

/-- Loading the symbols reads exactly the bytes of the declared records. -/
theorem loadSymbols_readsBytes : ReadsBytes (fun h => h.symbolCount * 9) loadSymbols := by
  intro t f
  have hc : Entry.count Symbol t.header * Entry.size Symbol = t.header.symbolCount * 9 := rfl
  by_cases hle : t.header.symbolCount * 9 ≤ f.data.length - f.pos
  · have h := loadTable_of_le t.header f t.symbols (by rw [hc]; exact hle)
    simp only [loadSymbols, h, hle, true_iff, hc]
    exact ⟨trivial, fun _ => ⟨trivial, trivial⟩⟩
  · have h := loadTable_of_lt t.header f t.symbols (by rw [hc]; omega)
    rcases hr : loadTable t.header f t.symbols with ⟨b, table, rest⟩
    rw [hr] at h
    simp only at h
    subst h
    simp only [loadSymbols, hr, hle, iff_false, Bool.false_eq_true, not_false_eq_true,
      false_implies, and_self]

/-- Loading the modules reads exactly the bytes of the declared records. -/
theorem loadModules_readsBytes : ReadsBytes (fun h => h.moduleCount * 16) loadModules := by
  intro t f
  have hc : Entry.count Module t.header * Entry.size Module = t.header.moduleCount * 16 := rfl
  by_cases hle : t.header.moduleCount * 16 ≤ f.data.length - f.pos
  · have h := loadTable_of_le t.header f t.modules (by rw [hc]; exact hle)
    simp only [loadModules, h, hle, true_iff, hc]
    exact ⟨trivial, fun _ => ⟨trivial, trivial⟩⟩
  · have h := loadTable_of_lt t.header f t.modules (by rw [hc]; omega)
    rcases hr : loadTable t.header f t.modules with ⟨b, table, rest⟩
    rw [hr] at h
    simp only at h
    subst h
    simp only [loadModules, hr, hle, iff_false, Bool.false_eq_true, not_false_eq_true,
      false_implies, and_self]

/-- Loading the sources reads exactly the bytes of the declared records. -/
theorem loadSources_readsBytes : ReadsBytes (fun h => h.sourceCount * 6) loadSources := by
  intro t f
  have hc : Entry.count Source t.header * Entry.size Source = t.header.sourceCount * 6 := rfl
  by_cases hle : t.header.sourceCount * 6 ≤ f.data.length - f.pos
  · have h := loadTable_of_le t.header f t.sources (by rw [hc]; exact hle)
    simp only [loadSources, h, hle, true_iff, hc]
    exact ⟨trivial, fun _ => ⟨trivial, trivial⟩⟩
  · have h := loadTable_of_lt t.header f t.sources (by rw [hc]; omega)
    rcases hr : loadTable t.header f t.sources with ⟨b, table, rest⟩
    rw [hr] at h
    simp only at h
    subst h
    simp only [loadSources, hr, hle, iff_false, Bool.false_eq_true, not_false_eq_true,
      false_implies, and_self]

/-- Loading the lines reads exactly the bytes of the declared records. -/
theorem loadLines_readsBytes : ReadsBytes (fun h => h.lineCount * 4) loadLines := by
  intro t f
  have hc : Entry.count Line t.header * Entry.size Line = t.header.lineCount * 4 := rfl
  by_cases hle : t.header.lineCount * 4 ≤ f.data.length - f.pos
  · have h := loadTable_of_le t.header f t.lines (by rw [hc]; exact hle)
    simp only [loadLines, h, hle, true_iff, hc]
    exact ⟨trivial, fun _ => ⟨trivial, trivial⟩⟩
  · have h := loadTable_of_lt t.header f t.lines (by rw [hc]; omega)
    rcases hr : loadTable t.header f t.lines with ⟨b, table, rest⟩
    rw [hr] at h
    simp only at h
    subst h
    simp only [loadLines, hr, hle, iff_false, Bool.false_eq_true, not_false_eq_true,
      false_implies, and_self]

/-- Loading the scopes reads exactly the bytes of the declared records. -/
theorem loadScopes_readsBytes : ReadsBytes (fun h => h.scopeCount * 12) loadScopes := by
  intro t f
  have hc : Entry.count Scope t.header * Entry.size Scope = t.header.scopeCount * 12 := rfl
  by_cases hle : t.header.scopeCount * 12 ≤ f.data.length - f.pos
  · have h := loadTable_of_le t.header f t.scopes (by rw [hc]; exact hle)
    simp only [loadScopes, h, hle, true_iff, hc]
    exact ⟨trivial, fun _ => ⟨trivial, trivial⟩⟩
  · have h := loadTable_of_lt t.header f t.scopes (by rw [hc]; omega)
    rcases hr : loadTable t.header f t.scopes with ⟨b, table, rest⟩
    rw [hr] at h
    simp only at h
    subst h
    simp only [loadScopes, hr, hle, iff_false, Bool.false_eq_true, not_false_eq_true,
      false_implies, and_self]

/-- Loading the TDS segments reads exactly the bytes of the declared records. -/
theorem loadSegments_readsBytes : ReadsBytes (fun h => h.segmentCount * 16) loadSegments := by
  intro t f
  have hc : Entry.count Segment t.header * Entry.size Segment = t.header.segmentCount * 16 := rfl
  by_cases hle : t.header.segmentCount * 16 ≤ f.data.length - f.pos
  · have h := loadTable_of_le t.header f t.segments (by rw [hc]; exact hle)
    simp only [loadSegments, h, hle, true_iff, hc]
    exact ⟨trivial, fun _ => ⟨trivial, trivial⟩⟩
  · have h := loadTable_of_lt t.header f t.segments (by rw [hc]; omega)
    rcases hr : loadTable t.header f t.segments with ⟨b, table, rest⟩
    rw [hr] at h
    simp only at h
    subst h
    simp only [loadSegments, hr, hle, iff_false, Bool.false_eq_true, not_false_eq_true,
      false_implies, and_self]

/-- Loading the correlations reads exactly the bytes of the declared records. -/
theorem loadCorrelations_readsBytes : ReadsBytes (fun h => h.correlationCount * 8) loadCorrelations := by
  intro t f
  have hc : Entry.count Correlation t.header * Entry.size Correlation = t.header.correlationCount * 8 := rfl
  by_cases hle : t.header.correlationCount * 8 ≤ f.data.length - f.pos
  · have h := loadTable_of_le t.header f t.correlations (by rw [hc]; exact hle)
    simp only [loadCorrelations, h, hle, true_iff, hc]
    exact ⟨trivial, fun _ => ⟨trivial, trivial⟩⟩
  · have h := loadTable_of_lt t.header f t.correlations (by rw [hc]; omega)
    rcases hr : loadTable t.header f t.correlations with ⟨b, table, rest⟩
    rw [hr] at h
    simp only at h
    subst h
    simp only [loadCorrelations, hr, hle, iff_false, Bool.false_eq_true, not_false_eq_true,
      false_implies, and_self]

/-- Loading the types reads exactly the bytes of the declared records. -/
theorem loadTypes_readsBytes : ReadsBytes (fun h => h.typeCount * 8) loadTypes := by
  intro t f
  have hc : Entry.count TypeRecord t.header * Entry.size TypeRecord = t.header.typeCount * 8 := rfl
  by_cases hle : t.header.typeCount * 8 ≤ f.data.length - f.pos
  · have h := loadTable_of_le t.header f t.types (by rw [hc]; exact hle)
    simp only [loadTypes, h, hle, true_iff, hc]
    exact ⟨trivial, fun _ => ⟨trivial, trivial⟩⟩
  · have h := loadTable_of_lt t.header f t.types (by rw [hc]; omega)
    rcases hr : loadTable t.header f t.types with ⟨b, table, rest⟩
    rw [hr] at h
    simp only at h
    subst h
    simp only [loadTypes, hr, hle, iff_false, Bool.false_eq_true, not_false_eq_true,
      false_implies, and_self]

/-- Loading the members reads exactly the bytes of the declared records. -/
theorem loadMembers_readsBytes : ReadsBytes (fun h => h.memberCount * 5) loadMembers := by
  intro t f
  have hc : Entry.count Member t.header * Entry.size Member = t.header.memberCount * 5 := rfl
  by_cases hle : t.header.memberCount * 5 ≤ f.data.length - f.pos
  · have h := loadTable_of_le t.header f t.members (by rw [hc]; exact hle)
    simp only [loadMembers, h, hle, true_iff, hc]
    exact ⟨trivial, fun _ => ⟨trivial, trivial⟩⟩
  · have h := loadTable_of_lt t.header f t.members (by rw [hc]; omega)
    rcases hr : loadTable t.header f t.members with ⟨b, table, rest⟩
    rw [hr] at h
    simp only at h
    subst h
    simp only [loadMembers, hr, hle, iff_false, Bool.false_eq_true, not_false_eq_true,
      false_implies, and_self]

/-- Loading the scope classes reads exactly the bytes of the declared records. -/
theorem loadScopeClasses_readsBytes : ReadsBytes (fun h => h.scopeClassCount * 4) loadScopeClasses := by
  intro t f
  have hc : Entry.count ScopeClass t.header * Entry.size ScopeClass = t.header.scopeClassCount * 4 := rfl
  by_cases hle : t.header.scopeClassCount * 4 ≤ f.data.length - f.pos
  · have h := loadTable_of_le t.header f t.scopeClasses (by rw [hc]; exact hle)
    simp only [loadScopeClasses, h, hle, true_iff, hc]
    exact ⟨trivial, fun _ => ⟨trivial, trivial⟩⟩
  · have h := loadTable_of_lt t.header f t.scopeClasses (by rw [hc]; omega)
    rcases hr : loadTable t.header f t.scopeClasses with ⟨b, table, rest⟩
    rw [hr] at h
    simp only at h
    subst h
    simp only [loadScopeClasses, hr, hle, iff_false, Bool.false_eq_true, not_false_eq_true,
      false_implies, and_self]

/-- Loading the module classes reads exactly the bytes of the declared records. -/
theorem loadModuleClasses_readsBytes : ReadsBytes (fun h => h.moduleClassCount * 8) loadModuleClasses := by
  intro t f
  have hc : Entry.count ModuleClass t.header * Entry.size ModuleClass = t.header.moduleClassCount * 8 := rfl
  by_cases hle : t.header.moduleClassCount * 8 ≤ f.data.length - f.pos
  · have h := loadTable_of_le t.header f t.moduleClasses (by rw [hc]; exact hle)
    simp only [loadModuleClasses, h, hle, true_iff, hc]
    exact ⟨trivial, fun _ => ⟨trivial, trivial⟩⟩
  · have h := loadTable_of_lt t.header f t.moduleClasses (by rw [hc]; omega)
    rcases hr : loadTable t.header f t.moduleClasses with ⟨b, table, rest⟩
    rw [hr] at h
    simp only at h
    subst h
    simp only [loadModuleClasses, hr, hle, iff_false, Bool.false_eq_true, not_false_eq_true,
      false_implies, and_self]

/-- Two calls in sequence read the bytes of the first and then the bytes of the second. -/
theorem andThen_readsBytes (n m : Header → Nat) (first next : TDS → File → Bool × TDS × File)
    (h1 : ReadsBytes n first) (h2 : ReadsBytes m next) :
    ReadsBytes (fun h => n h + m h) (fun t f => andThen (first t f) next) := by
  intro t f
  obtain ⟨a1, a2⟩ := h1 t f
  beta_reduce
  rcases hr : first t f with ⟨b, t1, f1⟩
  rw [hr] at a1 a2
  simp only at a1 a2 ⊢
  cases b
  · simp only [andThen, Bool.false_eq_true, false_iff, not_le, false_implies, and_true]
    have := a1.not.mp (by simp)
    omega
  · obtain ⟨e1, e2⟩ := a2 rfl
    have hn := a1.mp rfl
    obtain ⟨b1, b2⟩ := h2 t1 f1
    simp only [andThen]
    subst e1
    rw [e2] at b1 b2
    simp only at b1 b2
    constructor
    · rw [b1]
      constructor <;> intro h <;> omega
    · intro h
      obtain ⟨c1, c2⟩ := b2 h
      rw [c1, c2]
      refine ⟨?_, rfl⟩
      congr 1
      omega

/-- The chain of the eleven loads succeeds exactly when all declared records fit. -/
theorem loadTables_readsBytes : ReadsBytes Header.recordBytes loadTables := by
  have h := andThen_readsBytes _ _ _ _
    (andThen_readsBytes _ _ _ _
      (andThen_readsBytes _ _ _ _
        (andThen_readsBytes _ _ _ _
          (andThen_readsBytes _ _ _ _
            (andThen_readsBytes _ _ _ _
              (andThen_readsBytes _ _ _ _
                (andThen_readsBytes _ _ _ _
                  (andThen_readsBytes _ _ _ _
                    (andThen_readsBytes _ _ _ _ loadSymbols_readsBytes
                      loadModules_readsBytes)
                    loadSources_readsBytes)
                  loadLines_readsBytes)
                loadScopes_readsBytes)
              loadSegments_readsBytes)
            loadCorrelations_readsBytes)
          loadTypes_readsBytes)
        loadMembers_readsBytes)
      loadScopeClasses_readsBytes)
    loadModuleClasses_readsBytes
  exact h

/-- The part of `TDS::load` that can return false is passed exactly when
`Executable::load` succeeds, the 64-byte TDS header is readable where
`Executable::load` left the stream, and the records that the header declares
are readable after it. -/
theorem loadStructure_isSome_iff (t : TDS) (file : File) :
    (loadStructure t (some file)).2.isSome = true ↔
      (t.executable.load file).1 = true
      ∧ Header.size ≤ (t.executable.load file).2.2.data.length - (t.executable.load file).2.2.pos
      ∧ (Header.decode (((t.executable.load file).2.2.data.drop
            (t.executable.load file).2.2.pos).take Header.size)).recordBytes
          ≤ (t.executable.load file).2.2.data.length
            - ((t.executable.load file).2.2.pos + Header.size) := by
  simp only [loadStructure]
  rcases t.executable.load file with ⟨b, e, f1⟩
  cases b
  · simp
  · simp only [true_and]
    by_cases h64 : Header.size ≤ f1.data.length - f1.pos
    · rw [File.read_of_le f1 _ h64]
      simp only [h64, true_and]
      obtain ⟨a1, a2⟩ := loadTables_readsBytes
        { t with executable := e, header := Header.decode ((f1.data.drop f1.pos).take Header.size) }
        { f1 with pos := f1.pos + Header.size }
      simp only at a1 a2
      rw [← a1]
      rcases loadTables
        { t with executable := e, header := Header.decode ((f1.data.drop f1.pos).take Header.size) }
        { f1 with pos := f1.pos + Header.size } with ⟨b, t2, f2⟩
      cases b
      · simp
      · simp only [File.seek_cur_natCast, Option.isSome_some]
    · have hn := File.read_of_lt f1 Header.size (by omega)
      rcases hr : f1.read Header.size with ⟨r, g⟩
      rw [hr] at hn
      simp only at hn
      subst hn
      simp [h64]

/-- `TDS::load` returns false exactly when one of its `return false` is reached. -/
theorem load_eq_false_iff (t : TDS) (file : Option File) :
    (∃ u, load t file = some (false, u)) ↔ (loadStructure t file).2 = none := by
  unfold load
  rcases loadStructure t file with ⟨t0, f0⟩
  cases f0 with
  | none => simp
  | some f =>
    simp only [reduceCtorEq, iff_false, not_exists]
    intro u
    cases loadNames t0 f with
    | none => simp
    | some r =>
      rcases r with ⟨t1, f1⟩
      cases hp : postProcess t1 with
      | none => simp [hp]
      | some v => simp [hp]

/-- When `TDS::load` returns true, no `return false` was reached. -/
theorem load_eq_true_imp (t : TDS) (file : Option File) (u : TDS)
    (h : load t file = some (true, u)) : (loadStructure t file).2.isSome = true := by
  unfold load at h
  rcases hls : loadStructure t file with ⟨t0, f0⟩
  rw [hls] at h
  cases f0 with
  | none => simp at h
  | some f => rfl

/-- The value `TDS::load` returns on a byte stream, when it returns: it returns
false exactly when `Executable::load` fails, or the TDS header is not fully
readable, or a declared record is not; and whenever it returns true, all of
them were read. (That it returns at all does not follow.) -/
theorem load_return_value (data : List Byte) :
    ((∃ u, load TDS.init (some (File.ofBytes data)) = some (false, u)) ↔
      ¬ ((Executable.load Executable.init (File.ofBytes data)).1 = true
        ∧ Header.size
          ≤ (Executable.load Executable.init (File.ofBytes data)).2.2.data.length
            - (Executable.load Executable.init (File.ofBytes data)).2.2.pos
        ∧ (Header.decode (((Executable.load Executable.init (File.ofBytes data)).2.2.data.drop
              (Executable.load Executable.init (File.ofBytes data)).2.2.pos).take
                Header.size)).recordBytes
            ≤ (Executable.load Executable.init (File.ofBytes data)).2.2.data.length
              - ((Executable.load Executable.init (File.ofBytes data)).2.2.pos + Header.size)))
    ∧ (∀ u, load TDS.init (some (File.ofBytes data)) = some (true, u) →
      ((Executable.load Executable.init (File.ofBytes data)).1 = true
        ∧ Header.size
          ≤ (Executable.load Executable.init (File.ofBytes data)).2.2.data.length
            - (Executable.load Executable.init (File.ofBytes data)).2.2.pos
        ∧ (Header.decode (((Executable.load Executable.init (File.ofBytes data)).2.2.data.drop
              (Executable.load Executable.init (File.ofBytes data)).2.2.pos).take
                Header.size)).recordBytes
            ≤ (Executable.load Executable.init (File.ofBytes data)).2.2.data.length
              - ((Executable.load Executable.init (File.ofBytes data)).2.2.pos
                + Header.size))) := by
  have key := loadStructure_isSome_iff TDS.init (File.ofBytes data)
  have hinit : TDS.init.executable = Executable.init := rfl
  rw [hinit] at key
  constructor
  · rw [load_eq_false_iff, ← key]
    cases (loadStructure TDS.init (some (File.ofBytes data))).2 <;> simp
  · intro u hu
    exact key.mp (load_eq_true_imp _ _ u hu)

/-- The search for an unused name never ends when every candidate is already in use. -/
theorem findNewName_none (uniqueSymbols : List Name) (name : Name)
    (h : ∀ counter, formatNewName name counter ∈ uniqueSymbols) :
    ∀ fuel counter, findNewName uniqueSymbols name fuel counter = none := by
  intro fuel
  induction fuel with
  | zero => intro counter; rfl
  | succ fuel ih =>
    intro counter
    simp only [findNewName, h counter, if_true]
    exact ih _

/-- The disambiguation of a global symbol does not return when every candidate is in use. -/
theorem makeGlobalSymbolUnique_none (t : TDS) (uniqueSymbols : List Name) (i : Nat)
    (hg : isGlobalSymbol t i = true)
    (hseen : t.names.getD (t.symbols.getD i Symbol.zero).name [] ∈ uniqueSymbols)
    (hall : ∀ counter,
      formatNewName (t.names.getD (t.symbols.getD i Symbol.zero).name []) counter
        ∈ uniqueSymbols) :
    makeGlobalSymbolUnique t uniqueSymbols i = none := by
  unfold makeGlobalSymbolUnique
  simp only [hg, Bool.not_true, Bool.false_eq_true, if_false, hseen, if_true]
  rw [findNewName_none _ _ hall]

/-- For a NUL-free name of 255 characters the 256-byte buffer holds the name alone. -/
theorem formatNewName_long (name : Name) (counter : Nat) (h0 : (0 : Byte) ∉ name)
    (hlen : name.length = 255) : formatNewName name counter = name := by
  unfold formatNewName cstr
  have : name.takeWhile (fun b => decide (b ≠ 0)) = name := by
    rw [List.takeWhile_eq_self_iff]
    intro b hb
    simp only [ne_eq, decide_eq_true_eq]
    exact fun hc => h0 (hc ▸ hb)
  rw [this, List.append_assoc]
  exact List.take_left' hlen

/-- Two global symbols that share a name of 255 letters: the pass does not return. -/
theorem makeGlobalSymbolsUnique_longName (u : TDS)
    (hs : u.symbols = [Symbol.zero, ⟨1, 0, 0, 1, 0⟩, ⟨1, 0, 0, 1, 0⟩])
    (hn : u.names = [[], List.replicate 255 0x41])
    (he : u.executable.segments.length = 2) :
    makeGlobalSymbolsUnique u = none := by
  have hg1 : isGlobalSymbol u 1 = true := by
    simp only [isGlobalSymbol, hs, he, hn]
    decide
  have hg2 : isGlobalSymbol u 2 = true := by
    simp only [isGlobalSymbol, hs, he, hn]
    decide
  have hname1 : u.names.getD (u.symbols.getD 1 Symbol.zero).name [] = List.replicate 255 0x41 := by
    rw [hs, hn]
    rfl
  have hname2 : u.names.getD (u.symbols.getD 2 Symbol.zero).name [] = List.replicate 255 0x41 := by
    rw [hs, hn]
    rfl
  have step1 : makeGlobalSymbolUnique u [] 1 = some (u, [List.replicate 255 0x41]) := by
    unfold makeGlobalSymbolUnique
    simp only [hg1, Bool.not_true, Bool.false_eq_true, if_false, hname1, List.not_mem_nil]
    rfl
  have step2 : makeGlobalSymbolUnique u [List.replicate 255 0x41] 2 = none := by
    apply makeGlobalSymbolUnique_none u _ 2 hg2
    · rw [hname2]
      exact List.mem_singleton_self _
    · intro counter
      rw [hname2, formatNewName_long _ counter
        (fun h => absurd (List.eq_of_mem_replicate h) (by decide)) (List.length_replicate _ _)]
      exact List.mem_singleton_self _
  unfold makeGlobalSymbolsUnique
  have hl : u.symbols.length - 1 = 2 := by rw [hs]; rfl
  rw [hl]
  simp only [makeGlobalSymbolsUniqueLoop, step1, step2]

/-- Two global symbols that share a name of 255 letters: the passes do not return. -/
theorem postProcess_longName (t : TDS)
    (hs : t.symbols = [Symbol.zero, ⟨1, 0, 0, 1, 0⟩, ⟨1, 0, 0, 1, 0⟩])
    (hn : t.names = [[], List.replicate 255 0x41])
    (he : t.executable.segments.length = 2) :
    postProcess t = none := by
  have hres : (renameReservedWords t).names = [[], List.replicate 255 0x41] := by
    simp only [renameReservedWords, hn, List.map_cons, List.map_nil]
    have h1 : ([] : Name) ∉ RESERVED_NAMES := by decide
    have h2 : (List.replicate 255 0x41 : Name) ∉ RESERVED_NAMES := by decide
    rw [if_neg h1, if_neg h2]
  unfold postProcess
  rw [makeGlobalSymbolsUnique_longName (renameReservedWords t) hs hres he]
  rfl

/-- `TDS::load` does not return when the passes do not return on what was loaded. -/
theorem load_eq_none_of_postProcess (t : TDS) (file : Option File) (data : List Byte)
    (pos : Nat)
    (h : (loadStructure t file).2 = some { data := data, pos := pos, eof := false })
    (hp : postProcess { (loadStructure t file).1 with
      names := (loadStructure t file).1.names ++ specNamePool (data.drop pos) } = none) :
    load t file = none := by
  unfold load
  rcases hls : loadStructure t file with ⟨t0, f0⟩
  rw [hls] at h hp
  simp only at h hp
  subst h
  simp only
  have hnames := loadNames_spec t0 data pos
  cases hl : loadNames t0 { data := data, pos := pos, eof := false } with
  | none => rfl
  | some r =>
    rw [hl] at hnames
    simp only [Option.map_some', Option.some.injEq] at hnames
    obtain ⟨t1, f1⟩ := r
    simp only at hnames ⊢
    rw [hnames, hp]

set_option maxRecDepth 100000 in
/-- Claim C1 at the input `longNameInput`: `Executable::load` succeeds, the TDS
header and every declared record are read (the part of `TDS::load` that can
return false is passed, with the stream at offset 234 of 490 bytes, the start
of the name pool), and yet `TDS::load` does not return true: it does not
return at all, because `makeGlobalSymbolsUnique` looks forever for an unused
name for the second symbol. -/
theorem load_longNameInput_never_returns :
    (Executable.load Executable.init (File.ofBytes longNameInput)).1 = true
    ∧ (loadStructure TDS.init (some (File.ofBytes longNameInput))).2
      = some { data := longNameInput, pos := 234, eof := false }
    ∧ longNameInput.length = 490
    ∧ load TDS.init (some (File.ofBytes longNameInput)) = none := by
  have h2 : (loadStructure TDS.init (some (File.ofBytes longNameInput))).2
      = some { data := longNameInput, pos := 234, eof := false } := by decide
  have hs : (loadStructure TDS.init (some (File.ofBytes longNameInput))).1.symbols
      = [Symbol.zero, ⟨1, 0, 0, 1, 0⟩, ⟨1, 0, 0, 1, 0⟩] := by decide
  have hn : (loadStructure TDS.init (some (File.ofBytes longNameInput))).1.names
      ++ specNamePool (longNameInput.drop 234) = [[], List.replicate 255 0x41] := by
    decide
  have he : (loadStructure TDS.init
      (some (File.ofBytes longNameInput))).1.executable.segments.length = 2 := by decide
  exact ⟨by decide, h2, by decide,
    load_eq_none_of_postProcess _ _ _ _ h2 (postProcess_longName _ hs hn he)⟩

/-! ## The passes over the loaded tables -/

/-- Claim C11: for a symbol index `i` within the symbol table, `isGlobalSymbol(i)`
is true if and only if the segment of symbol `i` is not 0 and either it is
less than the number of entries of the executable segment table (the
placeholder included) or the offset of the symbol is not 0 and less than the
number of name pool entries. -/
theorem isGlobalSymbol_iff (t : TDS) (i : Nat) (h : i < t.symbols.length) :
    isGlobalSymbol t i = true ↔
      (t.symbols.get ⟨i, h⟩).segment ≠ 0
        ∧ ((t.symbols.get ⟨i, h⟩).segment < t.executable.segments.length
          ∨ ((t.symbols.get ⟨i, h⟩).offset ≠ 0
            ∧ (t.symbols.get ⟨i, h⟩).offset < t.names.length)) := by
  have hget : t.symbols.getD i Symbol.zero = t.symbols.get ⟨i, h⟩ := by
    rw [List.getD_eq_getElem _ _ h]
    rfl
  unfold isGlobalSymbol
  simp only [hget, Bool.and_eq_true, Bool.or_eq_true, decide_eq_true_eq, ne_eq]
  constructor
  · rintro ⟨h0, h1 | ⟨h2, h3⟩⟩
    · exact ⟨fun e => h0 e.symm, Or.inl h1⟩
    · exact ⟨fun e => h0 e.symm, Or.inr ⟨fun e => h3 e.symm, h2⟩⟩
  · rintro ⟨h0, h1 | ⟨h2, h3⟩⟩
    · exact ⟨fun e => h0 e.symm, Or.inl h1⟩
    · exact ⟨fun e => h0 e.symm, Or.inr ⟨h3, fun e => h2 e.symm⟩⟩

/-- Claim C11 on a table of three symbols: the symbol at index 2, in segment 5
of an executable without segments, is global by its offset 1, an index of the
pool of two names. -/
theorem isGlobalSymbol_iff_witness :
    isGlobalSymbol
        { TDS.init with
          symbols := [Symbol.zero, ⟨1, 0, 0, 0, 0⟩, ⟨1, 0, 1, 5, 0⟩], names := [[], ascii "a"] }
        2 = true
      ↔ (5 : Nat) ≠ 0 ∧ (5 < 0 ∨ ((1 : Nat) ≠ 0 ∧ 1 < 2)) :=
  isGlobalSymbol_iff
    { TDS.init with
      symbols := [Symbol.zero, ⟨1, 0, 0, 0, 0⟩, ⟨1, 0, 1, 5, 0⟩], names := [[], ascii "a"] }
    2 (by decide)

/-- Claim C13 at the input `reclassifiedInput`, whose name indices are all in
range. Symbol 1 is not global while the pass runs, because its offset 2 is not
less than the 2 names of the pool, so the pass does not look at its name `a`.
The pass keeps `a` for symbol 2 and appends `a$0` for symbol 3; the pool then
has 3 names, symbol 1 is global in the resulting state, and the global
symbols 1 and 2 have the same name `a`. -/
theorem makeGlobalSymbolsUnique_reclassified_collision :
    (∀ symbol ∈ reclassifiedInput.symbols, symbol.name < reclassifiedInput.names.length)
    ∧ [1, 2, 3].map (isGlobalSymbol reclassifiedInput) = [false, true, true]
    ∧ (makeGlobalSymbolsUnique reclassifiedInput).map
        (fun u => (u.names, [1, 2, 3].map (isGlobalSymbol u),
          [1, 2, 3].map (fun i => u.names.getD (u.symbols.getD i Symbol.zero).name [])))
      = some ([[], ascii "a", ascii "a$0"], [true, true, true],
          [ascii "a", ascii "a", ascii "a$0"]) := by
  decide

/-- Claim C14 at the input `reclassifiedInput`, whose name indices are all in
range. The first run leaves the name indices 1, 1, 2 and the pool `"", a, a$0`.
In that state symbol 1 is global, so the second run finds the name `a` of
symbol 2 already seen: it moves the name indices of symbols 2 and 3 to 3 and 4
and appends `a$0` and `a$0$0` to the pool. -/
theorem makeGlobalSymbolsUnique_reclassified_second_run :
    (∀ symbol ∈ reclassifiedInput.symbols, symbol.name < reclassifiedInput.names.length)
    ∧ (makeGlobalSymbolsUnique reclassifiedInput).map
        (fun u => (u.symbols.map (fun symbol => symbol.name), u.names))
      = some ([0, 1, 1, 2], [[], ascii "a", ascii "a$0"])
    ∧ ((makeGlobalSymbolsUnique reclassifiedInput).bind makeGlobalSymbolsUnique).map
        (fun u => (u.symbols.map (fun symbol => symbol.name), u.names))
      = some ([0, 1, 3, 4],
          [[], ascii "a", ascii "a$0", ascii "a$0", ascii "a$0$0"]) := by
  decide

/-- Claim C15 at a pool that holds `SS`, `AH`, `SSAH` and `AL`: the entries `SS`
and `AH`, two of the identifiers listed, are left as they are; the entry
`SSAH`, which is none of the identifiers listed, gets the prefix; `AL` gets
the prefix as listed. The array `RESERVED_NAMES` has no comma between `"SS"`
and `"AH"`, so it holds the one string `SSAH` in their place. -/
theorem renameReservedWords_SS_AH :
    (renameReservedWords
      { TDS.init with names := [[], ascii "SS", ascii "AH", ascii "SSAH", ascii "AL"] }).names
      = [[], ascii "SS", ascii "AH", ascii "$SSAH", ascii "$AL"]
    ∧ ascii "SS" ∉ RESERVED_NAMES ∧ ascii "AH" ∉ RESERVED_NAMES
    ∧ ascii "SSAH" ∈ RESERVED_NAMES := by
  decide

/-- The `do ... while` loop returns one of the formatted names. -/
theorem findNewName_eq_formatNewName (uniqueSymbols : List Name) (name : Name) :
    ∀ (fuel counter : Nat) (newName : Name),
      findNewName uniqueSymbols name fuel counter = some newName →
      ∃ k, newName = formatNewName name k := by
  intro fuel
  induction fuel with
  | zero => intro counter newName h; simp [findNewName] at h
  | succ fuel ih =>
    intro counter newName h
    simp only [findNewName] at h
    split at h
    · exact ih _ _ h
    · exact ⟨counter, (Option.some.inj h).symm⟩

/-- One step of `makeGlobalSymbolsUnique` leaves the pool as it is or appends
one formatted name. -/
theorem makeGlobalSymbolUnique_names (t u : TDS) (seen seen' : List Name) (i : Nat)
    (h : makeGlobalSymbolUnique t seen i = some (u, seen')) :
    u.names = t.names ∨ ∃ name k, u.names = t.names ++ [formatNewName name k] := by
  unfold makeGlobalSymbolUnique at h
  split at h
  · simp only [Option.some.injEq, Prod.mk.injEq] at h
    exact Or.inl (h.1 ▸ rfl)
  · simp only at h
    split at h
    · split at h
      · simp at h
      · rename_i newName hf
        split at h
        · simp at h
        · simp only [Option.some.injEq, Prod.mk.injEq] at h
          obtain ⟨k, hk⟩ := findNewName_eq_formatNewName _ _ _ _ _ hf
          exact Or.inr ⟨_, k, by rw [← h.1, hk]⟩
    · simp only [Option.some.injEq, Prod.mk.injEq] at h
      exact Or.inl (h.1 ▸ rfl)

/-- The pass `makeGlobalSymbolsUnique` only appends formatted names to the pool. -/
theorem makeGlobalSymbolsUniqueLoop_names :
    ∀ (n i : Nat) (t u : TDS) (seen : List Name),
      makeGlobalSymbolsUniqueLoop n i t seen = some u →
      ∃ added, u.names = t.names ++ added
        ∧ ∀ e ∈ added, ∃ name k, e = formatNewName name k := by
  intro n
  induction n with
  | zero =>
    intro i t u seen h
    simp only [makeGlobalSymbolsUniqueLoop, Option.some.injEq] at h
    exact ⟨[], by rw [h, List.append_nil], fun e he => absurd he (List.not_mem_nil e)⟩
  | succ n ih =>
    intro i t u seen h
    simp only [makeGlobalSymbolsUniqueLoop] at h
    cases hs : makeGlobalSymbolUnique t seen i with
    | none => rw [hs] at h; simp at h
    | some r =>
      obtain ⟨t1, seen1⟩ := r
      rw [hs] at h
      simp only at h
      obtain ⟨added, hadd, hall⟩ := ih _ _ _ _ h
      rcases makeGlobalSymbolUnique_names _ _ _ _ _ hs with h1 | ⟨name, k, h1⟩
      · exact ⟨added, by rw [hadd, h1], hall⟩
      · refine ⟨formatNewName name k :: added, by rw [hadd, h1, List.append_assoc]; rfl, ?_⟩
        intro e he
        rcases List.mem_cons.1 he with he | he
        · exact ⟨name, k, he⟩
        · exact hall e he

/-- The names `findNameForType` returns: none, or a pool entry followed by
`$Type` or by `$Element`. -/
theorem findNameForTypeLoop_cases {α : Type} [Item α] (t : TDS) (typeIndex : Nat) :
    ∀ items : List α,
      findNameForTypeLoop t typeIndex items = []
      ∨ ∃ owner, findNameForTypeLoop t typeIndex items = owner ++ ascii "$Type"
        ∨ findNameForTypeLoop t typeIndex items = owner ++ ascii "$Element" := by
  intro items
  induction items with
  | nil => exact Or.inl rfl
  | cons item rest ih =>
    simp only [findNameForTypeLoop]
    split
    · exact Or.inr ⟨_, Or.inl rfl⟩
    · split
      · exact Or.inr ⟨_, Or.inr rfl⟩
      · exact ih

/-- `assignTypeName` appends the name to the pool. -/
theorem assignTypeName_names (t : TDS) (index : Nat) (name : Name) :
    (assignTypeName t index name).names = t.names ++ [name] := rfl

/-- One iteration of the loop of `assignMissingTypeNames`: the model is left as
it is, or a name found for the type is assigned to it. -/
theorem assignMissingTypeNamesLoop_succ (fuel index : Nat) (t : TDS)
    (h : index < t.types.length) :
    ∃ t', (t' = t
        ∨ ∃ name, name ≠ []
          ∧ (name = findNameForType t t.symbols index
            ∨ name = findNameForType t t.members index)
          ∧ t' = assignTypeName t index name)
      ∧ assignMissingTypeNamesLoop (fuel + 1) index t
        = assignMissingTypeNamesLoop fuel (TypeIterator.mk t'.types index).advance.index t' := by
  have hn : (TypeIterator.mk t.types index).hasNext = true := by
    simp only [TypeIterator.hasNext, decide_eq_true_eq]
    exact h
  simp only [assignMissingTypeNamesLoop, hn, Bool.not_true, Bool.false_eq_true, if_false]
  refine ⟨_, ?_, rfl⟩
  split
  · exact Or.inl rfl
  · split
    · split
      · rename_i hne
        refine Or.inr ⟨_, ?_, Or.inr rfl, rfl⟩
        intro he
        rw [he] at hne
        simp at hne
      · exact Or.inl rfl
    · split
      · rename_i hne
        refine Or.inr ⟨_, ?_, Or.inl rfl, rfl⟩
        intro he
        rw [he] at hne
        simp at hne
      · exact Or.inl rfl

/-- The pass `assignMissingTypeNames` only appends names to the pool, each a
string followed by `$Type` or by `$Element`. -/
theorem assignMissingTypeNamesLoop_names :
    ∀ (fuel index : Nat) (t u : TDS),
      assignMissingTypeNamesLoop fuel index t = some u →
      ∃ added, u.names = t.names ++ added
        ∧ ∀ e ∈ added, ∃ owner, e = owner ++ ascii "$Type" ∨ e = owner ++ ascii "$Element" := by
  intro fuel
  induction fuel with
  | zero => intro index t u h; simp [assignMissingTypeNamesLoop] at h
  | succ fuel ih =>
    intro index t u h
    by_cases hlt : index < t.types.length
    · obtain ⟨t', hcase, heq⟩ := assignMissingTypeNamesLoop_succ fuel index t hlt
      rw [heq] at h
      obtain ⟨added, hadd, hall⟩ := ih _ _ _ h
      rcases hcase with h1 | ⟨name, hne, hfrom, h1⟩
      · subst h1
        exact ⟨added, hadd, hall⟩
      · subst h1
        rw [assignTypeName_names, List.append_assoc] at hadd
        refine ⟨_, hadd, ?_⟩
        intro e he
        rcases List.mem_append.1 he with he | he
        · rw [List.mem_singleton] at he
          subst he
          rcases hfrom with hf | hf
          · rcases findNameForTypeLoop_cases t index (t.symbols.drop 1) with h0 | ⟨o, h1⟩
            · exact absurd (hf.trans h0) hne
            · exact ⟨o, by rw [hf]; exact h1⟩
          · rcases findNameForTypeLoop_cases t index (t.members.drop 1) with h0 | ⟨o, h1⟩
            · exact absurd (hf.trans h0) hne
            · exact ⟨o, by rw [hf]; exact h1⟩
        · exact hall e he
    · have hn : (TypeIterator.mk t.types index).hasNext = false := by
        simp only [TypeIterator.hasNext, decide_eq_false_iff_not]
        exact hlt
      simp only [assignMissingTypeNamesLoop, hn, Bool.not_false, if_true,
        Option.some.injEq] at h
      exact ⟨[], by rw [h, List.append_nil], fun e he => absurd he (List.not_mem_nil e)⟩

/-- One iteration of the loop of `applyPS10Specific`: the model is left as it
is, or the name `Free_vert$Element` is assigned to the type. -/
theorem applyPS10SpecificLoop_succ (fuel index : Nat) (t : TDS)
    (h : index < t.types.length) :
    ∃ t', (t' = t ∨ t' = assignTypeName t index (ascii "Free_vert$Element"))
      ∧ applyPS10SpecificLoop (fuel + 1) index t
        = applyPS10SpecificLoop fuel (TypeIterator.mk t'.types index).advance.index t' := by
  have hn : (TypeIterator.mk t.types index).hasNext = true := by
    simp only [TypeIterator.hasNext, decide_eq_true_eq]
    exact h
  simp only [applyPS10SpecificLoop, hn, Bool.not_true, Bool.false_eq_true, if_false]
  refine ⟨_, ?_, rfl⟩
  split
  · exact Or.inl rfl
  · exact Or.inr rfl

/-- The loop of `applyPS10Specific` only appends the name `Free_vert$Element`
to the pool. -/
theorem applyPS10SpecificLoop_names :
    ∀ (fuel index : Nat) (t u : TDS),
      applyPS10SpecificLoop fuel index t = some u →
      ∃ added, u.names = t.names ++ added ∧ ∀ e ∈ added, e = ascii "Free_vert$Element" := by
  intro fuel
  induction fuel with
  | zero => intro index t u h; simp [applyPS10SpecificLoop] at h
  | succ fuel ih =>
    intro index t u h
    by_cases hlt : index < t.types.length
    · obtain ⟨t', hcase, heq⟩ := applyPS10SpecificLoop_succ fuel index t hlt
      rw [heq] at h
      obtain ⟨added, hadd, hall⟩ := ih _ _ _ h
      rcases hcase with h1 | h1
      · subst h1
        exact ⟨added, hadd, hall⟩
      · subst h1
        rw [assignTypeName_names, List.append_assoc] at hadd
        refine ⟨_, hadd, ?_⟩
        intro e he
        rcases List.mem_append.1 he with he | he
        · exact List.mem_singleton.1 he
        · exact hall e he
    · have hn : (TypeIterator.mk t.types index).hasNext = false := by
        simp only [TypeIterator.hasNext, decide_eq_false_iff_not]
        exact hlt
      simp only [applyPS10SpecificLoop, hn, Bool.not_false, if_true, Option.some.injEq] at h
      exact ⟨[], by rw [h, List.append_nil], fun e he => absurd he (List.not_mem_nil e)⟩

/-- `replaceFirst` keeps the length of the pool. -/
theorem replaceFirst_length (old new : Name) :
    ∀ names : List Name, (replaceFirst old new names).length = names.length := by
  intro names
  induction names with
  | nil => rfl
  | cons name rest ih =>
    simp only [replaceFirst]
    split
    · rfl
    · simp only [List.length_cons, ih]

/-- `replaceFirst` leaves an entry as it is or makes it `new`. -/
theorem replaceFirst_get? (old new : Name) :
    ∀ (names : List Name) (i : Nat) (name : Name), names.get? i = some name →
      (replaceFirst old new names).get? i = some name
      ∨ (name = old ∧ (replaceFirst old new names).get? i = some new) := by
  intro names
  induction names with
  | nil => intro i name h; simp at h
  | cons first rest ih =>
    intro i name h
    simp only [replaceFirst]
    split
    · rename_i heq
      cases i with
      | zero =>
        simp only [List.get?_cons_zero, Option.some.injEq] at h
        exact Or.inr ⟨h ▸ heq, rfl⟩
      | succ i => exact Or.inl (by simpa using h)
    · cases i with
      | zero => exact Or.inl (by simpa using h)
      | succ i =>
        simp only [List.get?_cons_succ] at h ⊢
        exact ih i name h

/-- An entry of the pool after `replaceFirst` is an entry of the pool or `new`. -/
theorem mem_replaceFirst (old new e : Name) :
    ∀ names : List Name, e ∈ replaceFirst old new names → e ∈ names ∨ e = new := by
  intro names
  induction names with
  | nil => intro h; exact Or.inl h
  | cons first rest ih =>
    intro h
    simp only [replaceFirst] at h
    split at h
    · rcases List.mem_cons.1 h with h | h
      · exact Or.inr h
      · exact Or.inl (List.mem_cons_of_mem _ h)
    · rcases List.mem_cons.1 h with h | h
      · exact Or.inl (h ▸ List.mem_cons_self _ _)
      · rcases ih h with h | h
        · exact Or.inl (List.mem_cons_of_mem _ h)
        · exact Or.inr h

/-- No formatted name is `VGA`: it is 255 characters long or holds a `$`. -/
theorem formatNewName_ne_VGA (name : Name) (k : Nat) : formatNewName name k ≠ ascii "VGA" := by
  intro h
  unfold formatNewName at h
  have hlen := congrArg List.length h
  rw [List.length_take] at hlen
  have h3 : (ascii "VGA").length = 3 := by decide
  rw [h3] at hlen
  have hle : (cstr name ++ ascii "$" ++ decimal k).length ≤ 255 := by omega
  rw [List.take_of_length_le hle] at h
  have hmem : (36 : Byte) ∈ cstr name ++ ascii "$" ++ decimal k :=
    List.mem_append_left _ (List.mem_append_right _ (by decide))
  rw [h] at hmem
  exact absurd hmem (by decide)

/-- No name followed by `$Type` or by `$Element` is `VGA`. -/
theorem typeName_ne_VGA (e owner : Name)
    (h : e = owner ++ ascii "$Type" ∨ e = owner ++ ascii "$Element") : e ≠ ascii "VGA" := by
  intro he
  have h3 : (ascii "VGA").length = 3 := by decide
  have h5 : (ascii "$Type").length = 5 := by decide
  have h8 : (ascii "$Element").length = 8 := by decide
  rcases h with h | h
  · have hlen := congrArg List.length (h.symm.trans he)
    rw [List.length_append, h3, h5] at hlen
    omega
  · have hlen := congrArg List.length (h.symm.trans he)
    rw [List.length_append, h3, h8] at hlen
    omega

/-- What `renameReservedWords` makes of a pool entry is never `VGA`. -/
theorem renameReservedWords_ne_VGA (name : Name) :
    (if name ∈ RESERVED_NAMES then ascii "$" ++ name else name) ≠ ascii "VGA" := by
  split
  · intro h
    have hh := congrArg List.head? h
    have h36 : (ascii "$" ++ name).head? = some 36 := rfl
    rw [h36] at hh
    exact absurd hh (by decide)
  · rename_i hn
    intro h
    exact hn (h ▸ (by decide))

/-- Claim C16: when the four passes `TDS::load` runs after `loadNames` return,
every pool entry that was `VGA` before them is `$VGA`, at the same index, and
no entry of the pool is `VGA`. -/
theorem postProcess_VGA (t u : TDS) (h : postProcess t = some u) :
    (∀ i, t.names.get? i = some (ascii "VGA") → u.names.get? i = some (ascii "$VGA"))
    ∧ ascii "VGA" ∉ u.names := by
  unfold postProcess at h
  obtain ⟨t1, h1, h⟩ := Option.bind_eq_some.1 h
  obtain ⟨t2, h2, h3⟩ := Option.bind_eq_some.1 h
  obtain ⟨a1, hn1, ha1⟩ := makeGlobalSymbolsUniqueLoop_names _ _ _ _ _ h1
  obtain ⟨a2, hn2, ha2⟩ := assignMissingTypeNamesLoop_names _ _ _ _ h2
  obtain ⟨a3, hn3, ha3⟩ := applyPS10SpecificLoop_names _ _ _ _ h3
  simp only at hn3
  have hr : (renameReservedWords t).names
      = t.names.map (fun name => if name ∈ RESERVED_NAMES then ascii "$" ++ name else name) := rfl
  have hnot2 : ascii "VGA" ∉ t2.names := by
    rw [hn2, hn1, hr]
    intro hmem
    rcases List.mem_append.1 hmem with hmem | hmem
    · rcases List.mem_append.1 hmem with hmem | hmem
      · obtain ⟨name, -, hname⟩ := List.mem_map.1 hmem
        exact renameReservedWords_ne_VGA name hname
      · obtain ⟨name, k, hk⟩ := ha1 _ hmem
        exact formatNewName_ne_VGA name k hk.symm
    · obtain ⟨owner, ho⟩ := ha2 _ hmem
      exact typeName_ne_VGA _ owner ho rfl
  constructor
  · intro i hi
    have hlt : i < t.names.length := by
      rcases Nat.lt_or_ge i t.names.length with hlt | hge
      · exact hlt
      · rw [List.get?_eq_none.2 hge] at hi
        exact absurd hi (by simp)
    have hi2 : t2.names.get? i = some (ascii "$VGA") := by
      rw [hn2, hn1, hr, List.append_assoc, List.get?_eq_getElem?,
        List.getElem?_append_left (by rw [List.length_map]; exact hlt), List.getElem?_map,
        ← List.get?_eq_getElem?, hi]
      rfl
    have hi3 : (replaceFirst (ascii "A$Type") (ascii "$PPoint") t2.names).get? i
        = some (ascii "$VGA") := by
      rcases replaceFirst_get? (ascii "A$Type") (ascii "$PPoint") _ _ _ hi2 with h | ⟨h, -⟩
      · exact h
      · exact absurd h (by decide)
    rw [hn3, List.get?_eq_getElem?, List.getElem?_append_left (by
      rw [replaceFirst_length]
      exact (List.get?_eq_some.1 hi2).1), ← List.get?_eq_getElem?]
    exact hi3
  · rw [hn3]
    intro hmem
    rcases List.mem_append.1 hmem with hmem | hmem
    · rcases mem_replaceFirst _ _ _ _ hmem with hmem | hmem
      · exact hnot2 hmem
      · exact absurd hmem (by decide)
    · exact absurd (ha3 _ hmem) (by decide)

set_option maxRecDepth 100000 in
/-- Claim C16 on a pool `"", VGA, A` with two global symbols named `VGA`: the
passes return, and entry 1 of the pool they leave is `$VGA`. -/
theorem postProcess_VGA_witness :
    postProcess
        { TDS.init with
          executable :=
            { Executable.init with
              segments := [Executable.Segment.zero, Executable.Segment.zero] },
          symbols := [Symbol.zero, ⟨1, 0, 0, 1, 0⟩, ⟨1, 0, 0, 1, 0⟩],
          names := [[], ascii "VGA", ascii "A"] }
      = some
        { TDS.init with
          executable :=
            { Executable.init with
              segments := [Executable.Segment.zero, Executable.Segment.zero] },
          symbols := [Symbol.zero, ⟨1, 0, 0, 1, 0⟩, ⟨3, 0, 0, 1, 0⟩],
          names := [[], ascii "$VGA", ascii "A", ascii "$VGA$0"] }
    ∧ ((∀ i, [[], ascii "VGA", ascii "A"].get? i = some (ascii "VGA") →
          [[], ascii "$VGA", ascii "A", ascii "$VGA$0"].get? i = some (ascii "$VGA"))
      ∧ ascii "VGA" ∉ [[], ascii "$VGA", ascii "A", ascii "$VGA$0"]) :=
  ⟨by decide,
    postProcess_VGA
      { TDS.init with
        executable :=
          { Executable.init with
            segments := [Executable.Segment.zero, Executable.Segment.zero] },
        symbols := [Symbol.zero, ⟨1, 0, 0, 1, 0⟩, ⟨1, 0, 0, 1, 0⟩],
        names := [[], ascii "VGA", ascii "A"] }
      { TDS.init with
        executable :=
          { Executable.init with
            segments := [Executable.Segment.zero, Executable.Segment.zero] },
        symbols := [Symbol.zero, ⟨1, 0, 0, 1, 0⟩, ⟨3, 0, 0, 1, 0⟩],
        names := [[], ascii "$VGA", ascii "A", ascii "$VGA$0"] }
      (by decide)⟩

/-! ## Type strings -/

/-- A byte is less than 256. -/
theorem byteAt_lt (bs : List Byte) (i : Nat) : byteAt bs i < 256 := (bs.getD i 0).isLt

/-- A 16-bit field is less than 65536. -/
theorem wordAt_lt (bs : List Byte) (i : Nat) : wordAt bs i < 65536 := by
  have h0 := byteAt_lt bs i
  have h1 := byteAt_lt bs (i + 1)
  unfold wordAt
  omega

/-- A 32-bit field is less than 2^32. -/
theorem dwordAt_lt (bs : List Byte) (i : Nat) : dwordAt bs i < 4294967296 := by
  have h0 := wordAt_lt bs i
  have h1 := wordAt_lt bs (i + 2)
  unfold dwordAt
  omega

/-- `rawDoubleWord(0)` is the low half of `rawQuadWord()`. -/
theorem rawDoubleWord_zero (t : TypeRecord) :
    t.rawDoubleWord 0 = t.rawQuadWord % 4294967296 := by
  have h := dwordAt_lt t.encode 0
  show dwordAt t.encode 0 = (dwordAt t.encode 0 + 4294967296 * dwordAt t.encode 4) % 4294967296
  omega

/-- `rawDoubleWord(1)` is the high half of `rawQuadWord()`. -/
theorem rawDoubleWord_one (t : TypeRecord) :
    t.rawDoubleWord 1 = t.rawQuadWord / 4294967296 := by
  have h := dwordAt_lt t.encode 0
  show dwordAt t.encode 4 = (dwordAt t.encode 0 + 4294967296 * dwordAt t.encode 4) / 4294967296
  omega

/-- `rawWord(3)` is the field `recordWord`. -/
theorem rawWord_three (t : TypeRecord) : t.rawWord 3 = t.recordWord % 65536 := by
  have h : t.rawWord 3 = t.recordWord % 256 + 256 * (t.recordWord / 256 % 256) := rfl
  rw [h]
  omega

/-- The packed image of a decoded record is the 8 bytes it was decoded from. -/
theorem encode_decode (bs : List Byte) (h : bs.length = 8) :
    (TypeRecord.decode bs).encode = bs := by
  match bs, h with
  | [b0, b1, b2, b3, b4, b5, b6, b7], _ =>
    have e : ∀ (lo hi : Byte), (Fin.ofNat (lo.val + 256 * hi.val) : Byte) = lo
        ∧ (Fin.ofNat ((lo.val + 256 * hi.val) / 256) : Byte) = hi := by
      intro lo hi
      constructor
      · apply Fin.ext
        show (lo.val + 256 * hi.val) % 256 = lo.val
        have := lo.isLt
        omega
      · apply Fin.ext
        show (lo.val + 256 * hi.val) / 256 % 256 = hi.val
        have := lo.isLt
        have := hi.isLt
        omega
    have e1 : ∀ b : Byte, (Fin.ofNat b.val : Byte) = b := by
      intro b
      apply Fin.ext
      show b.val % 256 = b.val
      have := b.isLt
      omega
    show [Fin.ofNat b0.val, Fin.ofNat (b1.val + 256 * b2.val),
      Fin.ofNat ((b1.val + 256 * b2.val) / 256), Fin.ofNat (b3.val + 256 * b4.val),
      Fin.ofNat ((b3.val + 256 * b4.val) / 256), Fin.ofNat b5.val,
      Fin.ofNat (b6.val + 256 * b7.val), Fin.ofNat ((b6.val + 256 * b7.val) / 256)]
      = [b0, b1, b2, b3, b4, b5, b6, b7]
    rw [e1, e1, (e b1 b2).1, (e b1 b2).2, (e b3 b4).1, (e b3 b4).2, (e b6 b7).1, (e b6 b7).2]

/-- `rawQuadWord()` of a table slot is the little-endian value of the 8 bytes
the slot was read from. -/
theorem rawQuadWord_decode (bs : List Byte) (h : bs.length = 8) :
    (TypeRecord.decode bs).rawQuadWord = dwordAt bs 0 + 4294967296 * dwordAt bs 4 := by
  unfold TypeRecord.rawQuadWord
  rw [encode_decode bs h]

/-- The number of hexadecimal digits `%X` prints. -/
theorem hexUpper_length_le (n e : Nat) (h : n < 16 ^ e) (he : 0 < e) :
    (hexUpper n).length ≤ e := by
  unfold hexUpper
  rw [List.length_map]
  exact Nat.toDigitsCore_length 16 (by decide) _ n e h he

/-- The text of `GetRange` fits the buffer: nothing is cut. -/
theorem GetRange_eq (type slot : TypeRecord) (range : Nat) :
    GetRange type slot range =
      if slot.rawQuadWord = range then []
      else ascii "Range <" ++ hexUpper (slot.rawQuadWord % 4294967296) ++ ascii ","
        ++ hexUpper (slot.rawQuadWord / 4294967296) ++ ascii ">  Parent "
        ++ hexUpper (type.recordWord % 65536) := by
  unfold GetRange
  split
  · rfl
  · rw [rawDoubleWord_zero, rawDoubleWord_one, rawWord_three]
    apply List.take_of_length_le
    have h0 := hexUpper_length_le (slot.rawQuadWord % 4294967296) 8
      (Nat.mod_lt _ (by decide)) (by decide)
    have hq : slot.rawQuadWord / 4294967296 < 16 ^ 8 := by
      have h1 := dwordAt_lt slot.encode 0
      have h2 := dwordAt_lt slot.encode 4
      unfold TypeRecord.rawQuadWord
      omega
    have h1 := hexUpper_length_le _ 8 hq (by decide)
    have h2 := hexUpper_length_le (type.recordWord % 65536) 4 (Nat.mod_lt _ (by decide))
      (by decide)
    have l1 : (ascii "Range <").length = 7 := by decide
    have l2 : (ascii ",").length = 1 := by decide
    have l3 : (ascii ">  Parent ").length = 10 := by decide
    simp only [List.length_append, l1, l2, l3]
    omega

/-- `typeString` on a type of the table whose name index is in the pool: the
kind name, the quoted name when it is not empty, and what the `switch` adds. -/
theorem typeString_succ (t : TDS) (depth typeIndex : Nat) (type : TypeRecord) (name : Name)
    (ht : t.types.get? typeIndex = some type) (hn : t.names.get? type.name = some name) :
    typeString t (depth + 1) typeIndex =
      (if type.id = 3 then
        some (GetTypeString type.id ++ (if name = [] then [] else ascii " '" ++ name ++ ascii "' ")
          ++ (ascii "max " ++ hexUpper (type.recordByte % 256) ++ ascii " ").take 255)
      else if type.id = 4 ∨ type.id = 5 ∨ type.id = 6 ∨ type.id = 8 ∨ type.id = 9
          ∨ type.id = 10 then
        some (GetTypeString type.id ++ (if name = [] then [] else ascii " '" ++ name ++ ascii "' ")
          ++ GetRange type (t.types.getD (typeIndex + 1) TypeRecord.zero)
            (if type.id = 4 then 0x0000007FFFFFFF80 else if type.id = 5 then 0x00007FFFFFFF8000
              else if type.id = 6 then 0x7FFFFFFF80000000
              else if type.id = 8 then 0x000000FF00000000
              else if type.id = 9 then 0x0000FFFF00000000 else 0xFFFFFFFF00000000))
      else if type.id = 22 ∨ type.id = 25 ∨ type.id = 53 then
        (typeString t depth type.recordWord).map (fun pointee =>
          GetTypeString type.id ++ (if name = [] then [] else ascii " '" ++ name ++ ascii "' ")
            ++ (if 0 = type.recordByte then [] else ascii "huge ") ++ pointee)
      else if type.id = 35 then
        (functionTypeString (typeString t depth) type).map (fun text =>
          GetTypeString type.id ++ (if name = [] then [] else ascii " '" ++ name ++ ascii "' ")
            ++ text)
      else
        some (GetTypeString type.id
          ++ (if name = [] then [] else ascii " '" ++ name ++ ascii "' "))) := by
  have hlt : typeIndex < t.types.length := (List.get?_eq_some.1 ht).1
  have h1 : ¬ t.types.length ≤ typeIndex := Nat.not_le.2 hlt
  have h2 : t.types.getD typeIndex TypeRecord.zero = type := by
    rw [List.getD_eq_getElem?_getD, ← List.get?_eq_getElem?, ht]
    rfl
  have h3 : ¬ t.names.length ≤ type.name := Nat.not_le.2 (List.get?_eq_some.1 hn).1
  have h4 : t.names.getD type.name [] = name := by
    rw [List.getD_eq_getElem?_getD, ← List.get?_eq_getElem?, hn]
    rfl
  have h5 : (if t.types.length - 1 > typeIndex then t.types.getD (typeIndex + 1) TypeRecord.zero
      else TypeRecord.zero) = t.types.getD (typeIndex + 1) TypeRecord.zero := by
    split
    · rfl
    · rename_i hge
      exact (List.getD_eq_default _ _ (by omega)).symm
  have h6 : (if (!name.isEmpty) = true then
        GetTypeString type.id ++ (ascii " '" ++ name ++ ascii "' ")
      else GetTypeString type.id)
      = GetTypeString type.id ++ (if name = [] then [] else ascii " '" ++ name ++ ascii "' ") := by
    cases name with
    | nil => simp
    | cons b bs => simp
  rw [typeString, if_neg h1]
  simp only [h2]
  rw [if_neg h3]
  simp only [h4, h5, h6]
  by_cases c3 : type.id = 3
  · simp only [c3, if_true, Option.map_some']
  by_cases c4 : type.id = 4
  · simp [c4]
  by_cases c5 : type.id = 5
  · simp [c5]
  by_cases c6 : type.id = 6
  · simp [c6]
  by_cases c8 : type.id = 8
  · simp [c8]
  by_cases c9 : type.id = 9
  · simp [c9]
  by_cases c10 : type.id = 10
  · simp [c10]
  have cr : ¬ (type.id = 4 ∨ type.id = 5 ∨ type.id = 6 ∨ type.id = 8 ∨ type.id = 9
      ∨ type.id = 10) := by
    rintro (h | h | h | h | h | h) <;> contradiction
  simp only [c3, c4, c5, c6, c8, c9, c10, or_self, if_false]
  by_cases cp : type.id = 22 ∨ type.id = 25 ∨ type.id = 53
  · simp only [cp, if_true, Option.map_map]
    congr 1
    funext pointee
    simp only [Function.comp, List.append_nil, List.append_assoc]
  simp only [cp, if_false]
  by_cases cf : type.id = 35
  · simp only [cf, if_true, Option.map_map]
    congr 1
    funext text
    simp only [Function.comp, List.append_nil, List.append_assoc]
  simp only [cf, if_false, Option.map_some', List.append_nil]

/-- Claim C18: for a type of the table of kind 4, 5, 6, 8, 9 or 10 whose name
index is in the pool, `typeString` gives the kind name, the quoted name when it
is not empty, and then nothing if the 64-bit value of the following table slot
(a zeroed record when the type is the last entry) is the value whose low and
high 32 bits are the minimum and the maximum of the kind in 32-bit two's
complement; otherwise `Range <lo,hi>  Parent p` with `lo` and `hi` the low and
high 32 bits of that value and `p` the `recordWord` of the type, in uppercase
hexadecimal. The string ends after the quoted name exactly when the value is
that of the kind. -/
theorem typeString_range (t : TDS) (depth typeIndex : Nat) (type : TypeRecord) (name : Name)
    (minimum maximum : Int)
    (ht : t.types.get? typeIndex = some type) (hn : t.names.get? type.name = some name)
    (hid : (type.id, minimum, maximum) ∈
      [(4, -128, 127), (5, -32768, 32767), (6, -2147483648, 2147483647),
       (8, 0, 255), (9, 0, 65535), ((10 : Nat), (0 : Int), (4294967295 : Int))]) :
    typeString t (depth + 1) typeIndex
      = some (GetTypeString type.id
          ++ (if name = [] then [] else ascii " '" ++ name ++ ascii "' ")
          ++ (if (t.types.getD (typeIndex + 1) TypeRecord.zero).rawQuadWord
                = specFullRange minimum maximum then []
              else
                ascii "Range <"
                ++ hexUpper ((t.types.getD (typeIndex + 1) TypeRecord.zero).rawQuadWord
                    % 4294967296)
                ++ ascii ","
                ++ hexUpper ((t.types.getD (typeIndex + 1) TypeRecord.zero).rawQuadWord
                    / 4294967296)
                ++ ascii ">  Parent " ++ hexUpper (type.recordWord % 65536)))
    ∧ (typeString t (depth + 1) typeIndex
        = some (GetTypeString type.id
            ++ (if name = [] then [] else ascii " '" ++ name ++ ascii "' "))
      ↔ (t.types.getD (typeIndex + 1) TypeRecord.zero).rawQuadWord
          = specFullRange minimum maximum) := by
  have key : typeString t (depth + 1) typeIndex
      = some (GetTypeString type.id
          ++ (if name = [] then [] else ascii " '" ++ name ++ ascii "' ")
          ++ GetRange type (t.types.getD (typeIndex + 1) TypeRecord.zero)
            (specFullRange minimum maximum)) := by
    rw [typeString_succ t depth typeIndex type name ht hn]
    simp only [List.mem_cons, Prod.mk.injEq, List.mem_singleton, List.not_mem_nil,
      or_false] at hid
    rcases hid with ⟨h, h1, h2⟩ | ⟨h, h1, h2⟩ | ⟨h, h1, h2⟩ | ⟨h, h1, h2⟩ | ⟨h, h1, h2⟩
      | ⟨h, h1, h2⟩ <;> subst h1 h2 <;> rw [h] <;> rfl
  rw [key, GetRange_eq]
  refine ⟨rfl, ?_⟩
  constructor
  · intro h
    by_contra hne
    rw [if_neg hne] at h
    have hlen := congrArg (fun o => (o.getD []).length) h
    simp only [Option.getD_some, List.length_append] at hlen
    have l1 : (ascii "Range <").length = 7 := by decide
    omega
  · intro h
    rw [if_pos h, List.append_nil]

/-- Claim C18 on a table whose entry 1 is a `signed int` named `foo` with
`recordWord` 7, followed by a slot with the bytes 03 00 00 00 00 C8 00 00. -/
theorem typeString_range_witness :
    typeString
        { TDS.init with
          names := [[], ascii "foo"],
          types := [TypeRecord.zero, ⟨5, 1, 2, 0, 7⟩, ⟨3, 0, 0, 200, 0⟩] }
        1 1
      = some (ascii "signed int 'foo' Range <3,C800>  Parent 7") :=
  (typeString_range
    { TDS.init with
      names := [[], ascii "foo"],
      types := [TypeRecord.zero, ⟨5, 1, 2, 0, 7⟩, ⟨3, 0, 0, 200, 0⟩] }
    0 1 ⟨5, 1, 2, 0, 7⟩ (ascii "foo") (-32768) 32767 (by decide) (by decide)
    (by decide)).1.trans (by decide)

/-- Claim C19: for a type of the table of the function kind (35) whose name
index is in the pool, `typeString` gives `function `, the quoted name when it
is not empty, `nested ` when bit 0x40 of `recordByte` is set, the memory-model
text at index `recordByte & 7`, `varargs ` when bit 0x80 is set, `returns `,
and then `Unknown` when `recordWord` is 0, otherwise what `typeString` gives
for the type `recordWord` (one call deeper; nothing when that call does not
return). -/
theorem typeString_function (t : TDS) (depth typeIndex : Nat) (type : TypeRecord) (name : Name)
    (ht : t.types.get? typeIndex = some type) (hn : t.names.get? type.name = some name)
    (hid : type.id = 35) :
    typeString t (depth + 1) typeIndex
      = (if type.recordWord = 0 then some (ascii "Unknown")
          else typeString t depth type.recordWord).map
        (fun returned =>
          ascii "function "
          ++ (if name = [] then [] else ascii " '" ++ name ++ ascii "' ")
          ++ (if type.recordByte &&& 0x40 ≠ 0 then ascii "nested " else [])
          ++ [ascii "near C ", ascii "near PASCAL ", ascii "-- unused lang 2 -- ",
              ascii "interrupt ", ascii "far C ", ascii "far PASCAL ",
              ascii "-- unused lang 6 -- ", ascii "interrupt "].getD (type.recordByte &&& 7) []
          ++ (if type.recordByte &&& 0x80 ≠ 0 then ascii "varargs " else [])
          ++ ascii "returns " ++ returned) := by
  rw [typeString_succ t depth typeIndex type name ht hn]
  have hk : GetTypeString 35 = ascii "function " := by decide
  simp only [hid, Nat.reduceEqDiff, if_false, false_or, or_self, if_true, hk]
  unfold functionTypeString GetMemoryModel MODEL_NAMES
  by_cases hw : type.recordWord = 0
  · have hw' : 0 = type.recordWord := hw.symm
    rw [if_pos hw', if_pos hw]
    simp only [Option.map_some']
    split_ifs <;> simp only [List.append_assoc, List.nil_append, List.append_nil]
  · have hw' : ¬ 0 = type.recordWord := fun h => hw h.symm
    simp only [hw, hw', if_false, Option.map_map]
    congr 1
    funext returned
    simp only [Function.comp]
    split_ifs <;> simp only [List.append_assoc, List.nil_append, List.append_nil]

/-- Claim C19 on a nested far PASCAL function with a variable argument list,
named `foo`, that returns the type at index 2, a `signed char`. -/
theorem typeString_function_witness :
    typeString
        { TDS.init with
          names := [[], ascii "foo"],
          types := [TypeRecord.zero, ⟨35, 1, 0, 0xC5, 2⟩, ⟨4, 0, 1, 0, 0⟩,
            ⟨0x80, 0xFFFF, 0x7FFF, 0, 0⟩] }
        2 1
      = some (ascii "function  'foo' nested far PASCAL varargs returns signed char") :=
  (typeString_function
    { TDS.init with
      names := [[], ascii "foo"],
      types := [TypeRecord.zero, ⟨35, 1, 0, 0xC5, 2⟩, ⟨4, 0, 1, 0, 0⟩,
        ⟨0x80, 0xFFFF, 0x7FFF, 0, 0⟩] }
    1 1 ⟨35, 1, 0, 0xC5, 2⟩ (ascii "foo") (by decide) (by decide) (by decide)).trans
    (by decide)

/-- Claim C20: for a type of the table of one of the pointer kinds 22, 25 and
53 whose name index is in the pool, `typeString` gives the name of the kind
(`far pointer `, `far386`, `far reference pointer `), the quoted name when it
is not empty, `huge ` when `recordByte` is not 0, and what `typeString` gives
for the type `recordWord` (one call deeper; nothing when that call does not
return). -/
theorem typeString_pointer (t : TDS) (depth typeIndex : Nat) (type : TypeRecord) (name : Name)
    (ht : t.types.get? typeIndex = some type) (hn : t.names.get? type.name = some name)
    (hid : type.id = 22 ∨ type.id = 25 ∨ type.id = 53) :
    typeString t (depth + 1) typeIndex
      = (typeString t depth type.recordWord).map
        (fun pointee =>
          (if type.id = 22 then ascii "far pointer "
            else if type.id = 25 then ascii "far386" else ascii "far reference pointer ")
          ++ (if name = [] then [] else ascii " '" ++ name ++ ascii "' ")
          ++ (if type.recordByte ≠ 0 then ascii "huge " else [])
          ++ pointee) := by
  rw [typeString_succ t depth typeIndex type name ht hn]
  have hk : GetTypeString type.id
      = (if type.id = 22 then ascii "far pointer "
          else if type.id = 25 then ascii "far386" else ascii "far reference pointer ") := by
    rcases hid with h | h | h <;> rw [h] <;> decide
  have hh : (if 0 = type.recordByte then ([] : Name) else ascii "huge ")
      = (if type.recordByte ≠ 0 then ascii "huge " else []) := by
    by_cases h0 : type.recordByte = 0
    · simp [h0]
    · have h0' : ¬ 0 = type.recordByte := fun h => h0 h.symm
      simp [h0, h0']
  have h3 : ¬ type.id = 3 := by omega
  have hr : ¬ (type.id = 4 ∨ type.id = 5 ∨ type.id = 6 ∨ type.id = 8 ∨ type.id = 9
      ∨ type.id = 10) := by omega
  rw [if_neg h3, if_neg hr, if_pos hid, hk, hh]

/-- Claim C20 on a huge far pointer named `foo` to the type at index 2, a
`signed char`. -/
theorem typeString_pointer_witness :
    typeString
        { TDS.init with
          names := [[], ascii "foo"],
          types := [TypeRecord.zero, ⟨22, 1, 4, 1, 2⟩, ⟨4, 0, 1, 0, 0⟩,
            ⟨0x80, 0xFFFF, 0x7FFF, 0, 0⟩] }
        2 1
      = some (ascii "far pointer  'foo' huge signed char") :=
  (typeString_pointer
    { TDS.init with
      names := [[], ascii "foo"],
      types := [TypeRecord.zero, ⟨22, 1, 4, 1, 2⟩, ⟨4, 0, 1, 0, 0⟩,
        ⟨0x80, 0xFFFF, 0x7FFF, 0, 0⟩] }
    1 1 ⟨22, 1, 4, 1, 2⟩ (ascii "foo") (by decide) (by decide) (by decide)).trans
    (by decide)

/-! ## makeGlobalSymbolsUnique -/

/-- The digits `Nat.toDigitsCore` puts before `digits` denote `n`. -/
theorem foldl_toDigitsCore (fuel : Nat) :
    ∀ (n : Nat) (digits : List Char), n < fuel →
      (Nat.toDigitsCore 10 fuel n digits).foldl
          (fun value c => 10 * value + ((Fin.ofNat c.toNat : Byte).val - 48)) 0
        = digits.foldl (fun value c => 10 * value + ((Fin.ofNat c.toNat : Byte).val - 48)) n := by
  induction fuel with
  | zero => intro n digits h; omega
  | succ fuel ih =>
    intro n digits h
    have hd : ((Fin.ofNat (Nat.digitChar (n % 10)).toNat : Byte).val - 48) = n % 10 := by
      have h10 : n % 10 < 10 := Nat.mod_lt _ (by decide)
      generalize n % 10 = d at h10
      interval_cases d <;> rfl
    simp only [Nat.toDigitsCore]
    split
    · rename_i h0
      simp only [List.foldl_cons, hd]
      congr 1
      omega
    · rename_i h0
      rw [ih (n / 10) _ (by omega)]
      simp only [List.foldl_cons, hd]
      congr 1
      omega

/-- The string `%u` prints denotes the number printed. -/
theorem decimalValue_decimal (n : Nat) : decimalValue (decimal n) = n := by
  unfold decimalValue decimal Nat.toDigits
  rw [List.foldl_map]
  exact foldl_toDigitsCore (n + 1) n [] (Nat.lt_succ_self n)

/-- Different numbers are printed differently. -/
theorem decimal_injective (a b : Nat) (h : decimal a = decimal b) : a = b := by
  have := congrArg decimalValue h
  rwa [decimalValue_decimal, decimalValue_decimal] at this

/-- An `unsigned` is printed with at most 10 digits. -/
theorem decimal_length_le (k : Nat) (h : k < 4294967296) : (decimal k).length ≤ 10 := by
  unfold decimal
  rw [List.length_map]
  exact Nat.toDigitsCore_length 10 (by decide) _ k 10 (by omega) (by decide)

/-- The bytes `%s` prints of a string without NUL are the string. -/
theorem cstr_eq_self (s : Name) (h : (0 : Byte) ∉ s) : cstr s = s := by
  unfold cstr
  rw [List.takeWhile_eq_self_iff]
  intro b hb
  simp only [ne_eq, decide_eq_true_eq]
  exact fun hc => h (hc ▸ hb)

/-- The formatted name of a string of fewer than 200 characters, none of them
NUL, is the string, `$` and the counter: nothing is cut. -/
theorem formatNewName_short (name : Name) (k : Nat) (h0 : (0 : Byte) ∉ name)
    (hlen : name.length < 200) (hk : k < 4294967296) :
    formatNewName name k = name ++ ascii "$" ++ decimal k := by
  unfold formatNewName
  rw [cstr_eq_self name h0]
  apply List.take_of_length_le
  have := decimal_length_le k hk
  have l1 : (ascii "$").length = 1 := by decide
  simp only [List.length_append, l1]
  omega

/-- The `do ... while` loop returns the name formatted with the least counter
whose name is not in the set, when there is such a counter below 2^32. -/
theorem findNewName_least (uniqueSymbols : List Name) (name : Name) (k : Nat)
    (hk : k < 4294967296) (hnot : formatNewName name k ∉ uniqueSymbols)
    (hmin : ∀ j < k, formatNewName name j ∈ uniqueSymbols) :
    ∀ fuel counter, counter ≤ k → k < counter + fuel →
      findNewName uniqueSymbols name fuel counter = some (formatNewName name k) := by
  intro fuel
  induction fuel with
  | zero => intro counter h1 h2; omega
  | succ fuel ih =>
    intro counter h1 h2
    simp only [findNewName]
    rcases Nat.eq_or_lt_of_le h1 with heq | hlt
    · subst heq
      rw [if_neg hnot]
    · rw [if_pos (hmin counter hlt)]
      have hmod : (counter + 1) % 4294967296 = counter + 1 := Nat.mod_eq_of_lt (by omega)
      rw [hmod]
      exact ih (counter + 1) (by omega) (by omega)

/-- A search through `List.range'` finds the least number that passes the test. -/
theorem find?_range'_least (p : Nat → Bool) (k : Nat) (hk : p k = true)
    (hmin : ∀ j < k, p j = false) :
    ∀ n a, a ≤ k → k < a + n → (List.range' a n).find? p = some k := by
  intro n
  induction n with
  | zero => intro a h1 h2; omega
  | succ n ih =>
    intro a h1 h2
    rw [List.range'_succ, List.find?_cons]
    rcases Nat.eq_or_lt_of_le h1 with heq | hlt
    · subst heq
      rw [hk]
    · rw [hmin a hlt]
      exact ih (a + 1) (by omega) (by omega)

/-- Among the names formatted with the counters up to `seen.length`, one is not
in the set `seen`. -/
theorem exists_unused (seen : List Name) (s : Name) :
    ∃ k, k ≤ seen.length ∧ s ++ ascii "$" ++ decimal k ∉ seen := by
  by_contra hall
  have hall' : ∀ k ∈ Finset.range (seen.length + 1),
      s ++ ascii "$" ++ decimal k ∈ seen.toFinset := by
    intro k hk
    rw [List.mem_toFinset]
    by_contra hn
    exact hall ⟨k, Nat.lt_succ_iff.1 (Finset.mem_range.1 hk), hn⟩
  have hinj : Set.InjOn (fun k => s ++ ascii "$" ++ decimal k)
      (Finset.range (seen.length + 1) : Set Nat) := by
    intro a _ b _ hab
    exact decimal_injective a b (List.append_cancel_left hab)
  have hcard := Finset.card_le_card_of_injOn _ hall' hinj
  rw [Finset.card_range] at hcard
  have := List.toFinset_card_le seen
  omega

/-- The number `specLeastUnused` gives is the least `k` whose name is not in
the set, and it is at most the size of the set. -/
theorem specLeastUnused_spec (seen : List Name) (s : Name) :
    s ++ ascii "$" ++ decimal (specLeastUnused seen s) ∉ seen
    ∧ (∀ j < specLeastUnused seen s, s ++ ascii "$" ++ decimal j ∈ seen)
    ∧ specLeastUnused seen s ≤ seen.length := by
  have hex : ∃ k, s ++ ascii "$" ++ decimal k ∉ seen := by
    obtain ⟨k, -, hk⟩ := exists_unused seen s
    exact ⟨k, hk⟩
  have hle : Nat.find hex ≤ seen.length := by
    obtain ⟨k, hk, hk'⟩ := exists_unused seen s
    exact (Nat.find_min' hex hk').trans hk
  have hfind : specLeastUnused seen s = Nat.find hex := by
    unfold specLeastUnused
    rw [List.range_eq_range', find?_range'_least _ (Nat.find hex)
      (by simpa using Nat.find_spec hex)
      (fun j hj => by simpa using Nat.find_min hex hj) _ 0 (Nat.zero_le _) (by omega)]
    rfl
  rw [hfind]
  exact ⟨Nat.find_spec hex, fun j hj => not_not.1 (Nat.find_min hex hj), hle⟩

/-- A vector that holds `size` elements within its capacity keeps the capacity. -/
theorem grownCapacity_of_le (fuel capacity size : Nat) (h : size ≤ capacity) :
    grownCapacity fuel capacity size = capacity := by
  cases fuel with
  | zero => rfl
  | succ fuel => simp only [grownCapacity, h, if_true]

/-- Filling a vector further, within the capacity it has, does not change the
capacity. -/
theorem grownCapacity_stable :
    ∀ (fuel fuel' capacity size size' : Nat), 0 < capacity → size ≤ size' →
      size' ≤ grownCapacity fuel capacity size → size' ≤ capacity * 2 ^ fuel' →
      grownCapacity fuel' capacity size' = grownCapacity fuel capacity size := by
  intro fuel
  induction fuel with
  | zero =>
    intro fuel' capacity size size' _ _ h _
    exact grownCapacity_of_le _ _ _ h
  | succ fuel ih =>
    intro fuel' capacity size size' hc hs h hf
    by_cases hle : size ≤ capacity
    · rw [grownCapacity_of_le _ _ _ hle] at h ⊢
      exact grownCapacity_of_le _ _ _ h
    · simp only [grownCapacity, hle, if_false] at h ⊢
      cases fuel' with
      | zero =>
        rw [Nat.pow_zero, Nat.mul_one] at hf
        omega
      | succ fuel' =>
        have hle' : ¬ size' ≤ capacity := by omega
        simp only [grownCapacity, hle', if_false]
        refine ih fuel' (2 * capacity) size size' (by omega) hs h ?_
        rw [Nat.pow_succ] at hf
        calc size' ≤ capacity * (2 ^ fuel' * 2) := hf
          _ = 2 * capacity * 2 ^ fuel' := by ring

/-- Appending to `names` within its capacity does not change the capacity. -/
theorem namesCapacity_stable (t u : TDS) (hh : u.header = t.header)
    (hle : t.names.length ≤ u.names.length) (hcap : u.names.length ≤ namesCapacity t) :
    namesCapacity u = namesCapacity t := by
  unfold namesCapacity at hcap ⊢
  rw [hh]
  refine grownCapacity_stable _ _ _ _ _ (Nat.succ_pos _) hle hcap ?_
  calc u.names.length ≤ 2 ^ u.names.length := Nat.le_of_lt (Nat.lt_two_pow _)
    _ ≤ (t.header.nameCount + 1) * 2 ^ u.names.length := Nat.le_mul_of_pos_left _ (Nat.succ_pos _)

/-- One step of `makeGlobalSymbolsUnique` does what the spec says, for a symbol
of the table, when the name of the symbol has fewer than 200 characters and no
NUL, the pool has fewer than 65536 entries, the set fewer than 2^32, and the
vector `names` has room when the symbol is renamed. -/
theorem makeGlobalSymbolUnique_eq_spec (t : TDS) (seen : List Name) (i : Nat)
    (hi : i < t.symbols.length)
    (h0 : (0 : Byte) ∉ t.names.getD (t.symbols.getD i Symbol.zero).name [])
    (hlen : (t.names.getD (t.symbols.getD i Symbol.zero).name []).length < 200)
    (hpool : t.names.length < 65536) (hseen : seen.length < 4294967296)
    (hroom : isGlobalSymbol t i = true →
      t.names.getD (t.symbols.getD i Symbol.zero).name [] ∈ seen →
      t.names.length < namesCapacity t) :
    makeGlobalSymbolUnique t seen i = some (specUniqueStep (t, seen) i) := by
  unfold makeGlobalSymbolUnique specUniqueStep
  by_cases hg : isGlobalSymbol t i = true
  · simp only [hg, Bool.not_true, Bool.false_eq_true, Bool.true_eq_false, if_false]
    by_cases hs : t.names.getD (t.symbols.getD i Symbol.zero).name [] ∈ seen
    · obtain ⟨hnot, hmin, hle⟩ :=
        specLeastUnused_spec seen (t.names.getD (t.symbols.getD i Symbol.zero).name [])
      have hk : specLeastUnused seen (t.names.getD (t.symbols.getD i Symbol.zero).name [])
          < 4294967296 := by omega
      have hfind := findNewName_least seen
        (t.names.getD (t.symbols.getD i Symbol.zero).name []) _ hk
        (by rw [formatNewName_short _ _ h0 hlen hk]; exact hnot)
        (fun j hj => by
          rw [formatNewName_short _ _ h0 hlen (by omega)]
          exact hmin j hj)
        4294967296 0 (Nat.zero_le _) (by omega)
      rw [formatNewName_short _ _ h0 hlen hk] at hfind
      have hfull : ¬ t.names.length = namesCapacity t := Nat.ne_of_lt (hroom hg hs)
      simp only [hs, not_true_eq_false, if_true, if_false, hfind, hfull]
      have hmod : t.names.length % 65536 = t.names.length := Nat.mod_eq_of_lt hpool
      have hset : t.symbols.set i
            { t.symbols.getD i Symbol.zero with name := t.names.length % 65536 }
          = t.symbols.modify (fun symbol => { symbol with name := t.names.length }) i := by
        rw [List.modify_eq_set_get _ hi, hmod, List.getD_eq_getElem _ _ hi]
        rfl
      rw [hset, List.insert_of_mem (List.mem_insert_iff.2 (Or.inr hs))]
    · simp only [hs, not_false_eq_true, if_true, if_false]
  · have hg' : isGlobalSymbol t i = false := by
      cases h : isGlobalSymbol t i
      · rfl
      · exact absurd h hg
    simp only [hg', Bool.not_false, if_true]

/-- A step of the spec does not shorten the pool. -/
theorem specUniqueStep_names_length (state : TDS × List Name) (i : Nat) :
    state.1.names.length ≤ (specUniqueStep state i).1.names.length := by
  unfold specUniqueStep
  simp only
  split
  · exact Nat.le_refl _
  · split
    · exact Nat.le_refl _
    · simp only [List.length_append, List.length_singleton]
      omega

/-- The steps of the spec do not shorten the pool. -/
theorem foldl_specUniqueStep_names_length (indices : List Nat) :
    ∀ state : TDS × List Name,
      state.1.names.length ≤ (indices.foldl specUniqueStep state).1.names.length := by
  induction indices with
  | nil => intro state; exact Nat.le_refl _
  | cons i rest ih =>
    intro state
    exact (specUniqueStep_names_length state i).trans (ih _)

/-- Insertion in a set without duplicates leaves no duplicates. -/
theorem nodup_insert (seen : List Name) (s : Name) (h : seen.Nodup) : (seen.insert s).Nodup := by
  by_cases hs : s ∈ seen
  · rw [List.insert_of_mem hs]
    exact h
  · rw [List.insert_of_not_mem hs]
    exact List.nodup_cons.2 ⟨hs, h⟩

/-- What a step of the spec keeps: the size of the symbol table, the names of
the symbols other than `i`, the entries of the pool; and the set it leaves
has no duplicates and holds only entries of the pool. -/
theorem specUniqueStep_invariant (t : TDS) (seen : List Name) (i : Nat)
    (hname : (t.symbols.getD i Symbol.zero).name < t.names.length)
    (hnodup : seen.Nodup) (hsub : ∀ s ∈ seen, s ∈ t.names) :
    (specUniqueStep (t, seen) i).1.symbols.length = t.symbols.length
    ∧ (∀ j, j ≠ i → (specUniqueStep (t, seen) i).1.symbols.getD j Symbol.zero
        = t.symbols.getD j Symbol.zero)
    ∧ (∀ k, k < t.names.length →
        (specUniqueStep (t, seen) i).1.names.getD k [] = t.names.getD k [])
    ∧ (specUniqueStep (t, seen) i).2.Nodup
    ∧ (∀ s ∈ (specUniqueStep (t, seen) i).2, s ∈ (specUniqueStep (t, seen) i).1.names) := by
  have hmem : t.names.getD (t.symbols.getD i Symbol.zero).name [] ∈ t.names := by
    rw [List.getD_eq_getElem _ _ hname]
    exact List.getElem_mem _
  unfold specUniqueStep
  simp only
  split
  · exact ⟨rfl, fun _ _ => rfl, fun _ _ => rfl, hnodup, hsub⟩
  · split
    · refine ⟨rfl, fun _ _ => rfl, fun _ _ => rfl, ?_, ?_⟩
      · exact nodup_insert _ _ hnodup
      intro s hs
      rcases List.mem_insert_iff.1 hs with hs | hs
      · exact hs ▸ hmem
      · exact hsub s hs
    · refine ⟨List.length_modify _ _ _, ?_, ?_, ?_, ?_⟩
      rotate_left 2
      · exact nodup_insert _ _ hnodup
      rotate_left 1
      · intro j hj
        simp only [List.getD_eq_getElem?_getD]
        rw [List.getElem?_modify_ne _ _ (Ne.symm hj)]
      · intro k hk
        simp only [List.getD_eq_getElem?_getD]
        rw [List.getElem?_append_left hk]
      · intro s hs
        rcases List.mem_insert_iff.1 hs with hs | hs
        · exact List.mem_append_right _ (List.mem_singleton.2 hs)
        · exact List.mem_append_left _ (hsub s hs)

/-- A step of the spec keeps the header. -/
theorem specUniqueStep_header (state : TDS × List Name) (i : Nat) :
    (specUniqueStep state i).1.header = state.1.header := by
  unfold specUniqueStep
  simp only
  split
  · rfl
  · split <;> rfl

/-- A step of the spec that renames appends one name. -/
theorem specUniqueStep_names_append (t : TDS) (seen : List Name) (i : Nat)
    (hg : isGlobalSymbol t i = true)
    (hs : t.names.getD (t.symbols.getD i Symbol.zero).name [] ∈ seen) :
    (specUniqueStep (t, seen) i).1.names.length = t.names.length + 1 := by
  unfold specUniqueStep
  simp only [hg, Bool.true_eq_false, if_false, hs, not_true_eq_false, List.length_append,
    List.length_singleton]

/-- The loop of `makeGlobalSymbolsUnique` does what the steps of the spec do,
from a state in which the set has no duplicates and holds only pool entries,
and the symbols still to process have names of the pool with fewer than 200
characters and no NUL, as long as the pool stays below 65536 entries and
within the capacity of the vector `names`. -/
theorem makeGlobalSymbolsUniqueLoop_eq_spec :
    ∀ (n i : Nat) (t : TDS) (seen : List Name),
      i + n ≤ t.symbols.length →
      (∀ j, i ≤ j → j < t.symbols.length →
        (t.symbols.getD j Symbol.zero).name < t.names.length
        ∧ (0 : Byte) ∉ t.names.getD (t.symbols.getD j Symbol.zero).name []
        ∧ (t.names.getD (t.symbols.getD j Symbol.zero).name []).length < 200) →
      seen.Nodup → (∀ s ∈ seen, s ∈ t.names) →
      ((List.range' i n).foldl specUniqueStep (t, seen)).1.names.length < 65536 →
      ((List.range' i n).foldl specUniqueStep (t, seen)).1.names.length ≤ namesCapacity t →
      makeGlobalSymbolsUniqueLoop n i t seen
        = some ((List.range' i n).foldl specUniqueStep (t, seen)).1 := by
  intro n
  induction n with
  | zero => intro i t seen _ _ _ _ _ _; rfl
  | succ n ih =>
    intro i t seen hin hgood hnodup hsub hpool hcap
    rw [List.range'_succ, List.foldl_cons] at hpool hcap ⊢
    have hstep_le : (specUniqueStep (t, seen) i).1.names.length ≤ namesCapacity t :=
      (foldl_specUniqueStep_names_length _ _).trans hcap
    have hroom : isGlobalSymbol t i = true →
        t.names.getD (t.symbols.getD i Symbol.zero).name [] ∈ seen →
        t.names.length < namesCapacity t := by
      intro hg hs
      rw [specUniqueStep_names_append t seen i hg hs] at hstep_le
      omega
    have hstable : namesCapacity (specUniqueStep (t, seen) i).1 = namesCapacity t :=
      namesCapacity_stable t _ (specUniqueStep_header (t, seen) i)
        (specUniqueStep_names_length (t, seen) i) hstep_le
    have hi : i < t.symbols.length := by omega
    obtain ⟨hname, h0, hlen⟩ := hgood i (Nat.le_refl _) hi
    have hpool0 : t.names.length < 65536 :=
      Nat.lt_of_le_of_lt ((specUniqueStep_names_length (t, seen) i).trans
        (foldl_specUniqueStep_names_length _ _)) hpool
    have hseen : seen.length < 4294967296 := by
      have := (List.subperm_of_subset hnodup hsub).length_le
      omega
    obtain ⟨hsl, hsym, hnam, hnodup', hsub'⟩ :=
      specUniqueStep_invariant t seen i hname hnodup hsub
    have hnl := specUniqueStep_names_length (t, seen) i
    simp only [makeGlobalSymbolsUniqueLoop,
      makeGlobalSymbolUnique_eq_spec t seen i hi h0 hlen hpool0 hseen hroom]
    refine ih (i + 1) _ _ (by rw [hsl]; omega) ?_ hnodup' hsub' hpool (by rw [hstable]; exact hcap)
    intro j hij hj
    rw [hsl] at hj
    obtain ⟨g1, g2, g3⟩ := hgood j (by omega) hj
    rw [hsym j (by omega), hnam _ g1]
    exact ⟨Nat.lt_of_lt_of_le g1 hnl, g2, g3⟩

/-- The contract of `makeGlobalSymbolsUnique` where the vector `names` has room
for the names appended: for a symbol table and a name pool in which every name
index is in range and every name has fewer than 200 characters (and no NUL, as
every name read by `loadNames`), and for which the pool stays below 65536
entries and within the capacity of the vector, `makeGlobalSymbolsUnique`
returns, and what it leaves is what the steps of the spec leave: the symbols
1..n taken in index order from an empty seen set; a symbol that is not global
left as it is; a global symbol whose name is not yet seen left as it is and
its name recorded; for a global symbol whose name `s` is seen,
`s + "$" + decimal(k)` appended as the last pool entry, the name index of the
symbol set to that entry and the new string recorded, where `k` (the number
`specLeastUnused` gives) is the least number whose string is not in the seen
set. -/
theorem makeGlobalSymbolsUnique_eq_spec (t : TDS)
    (hidx : ∀ symbol ∈ t.symbols, symbol.name < t.names.length)
    (hnames : ∀ name ∈ t.names, name.length < 200 ∧ (0 : Byte) ∉ name)
    (hpool : (specUniqueRun t).1.names.length < 65536)
    (hcap : (specUniqueRun t).1.names.length ≤ namesCapacity t) :
    makeGlobalSymbolsUnique t = some (specUniqueRun t).1
    ∧ ∀ (seen : List Name) (s : Name),
        s ++ ascii "$" ++ decimal (specLeastUnused seen s) ∉ seen
        ∧ ∀ k < specLeastUnused seen s, s ++ ascii "$" ++ decimal k ∈ seen := by
  refine ⟨?_, fun seen s => ⟨(specLeastUnused_spec seen s).1, (specLeastUnused_spec seen s).2.1⟩⟩
  unfold makeGlobalSymbolsUnique
  unfold specUniqueRun at hpool hcap ⊢
  rcases Nat.eq_zero_or_pos t.symbols.length with h0 | hpos
  · rw [h0]
    rfl
  · apply makeGlobalSymbolsUniqueLoop_eq_spec _ _ _ _ (by omega) _ List.nodup_nil
      (fun s hs => absurd hs (List.not_mem_nil s)) hpool hcap
    intro j _ hj
    have hname : (t.symbols.getD j Symbol.zero).name < t.names.length := by
      rw [List.getD_eq_getElem _ _ hj]
      exact hidx _ (List.getElem_mem _)
    have hmem : t.names.getD (t.symbols.getD j Symbol.zero).name [] ∈ t.names := by
      rw [List.getD_eq_getElem _ _ hname]
      exact List.getElem_mem _
    exact ⟨hname, (hnames _ hmem).2, (hnames _ hmem).1⟩

/-- The contract on a pool `"", a, a$0` and three global symbols named `a`,
`a$0` and `a`: the third gets the new pool entry `a$1`, since `a$0` is seen.
The header declares no name, so that the vector `names` was reserved for one
string and doubled twice while the pool was read: it has room for four. -/
theorem makeGlobalSymbolsUnique_eq_spec_example :
    makeGlobalSymbolsUnique
        { TDS.init with
          executable :=
            { Executable.init with
              segments := [Executable.Segment.zero, Executable.Segment.zero] },
          symbols := [Symbol.zero, ⟨1, 0, 0, 1, 0⟩, ⟨2, 0, 0, 1, 0⟩, ⟨1, 0, 0, 1, 0⟩],
          names := [[], ascii "a", ascii "a$0"] }
      = some
        { TDS.init with
          executable :=
            { Executable.init with
              segments := [Executable.Segment.zero, Executable.Segment.zero] },
          symbols := [Symbol.zero, ⟨1, 0, 0, 1, 0⟩, ⟨2, 0, 0, 1, 0⟩, ⟨3, 0, 0, 1, 0⟩],
          names := [[], ascii "a", ascii "a$0", ascii "a$1"] } :=
  (makeGlobalSymbolsUnique_eq_spec
    { TDS.init with
      executable :=
        { Executable.init with
          segments := [Executable.Segment.zero, Executable.Segment.zero] },
      symbols := [Symbol.zero, ⟨1, 0, 0, 1, 0⟩, ⟨2, 0, 0, 1, 0⟩, ⟨1, 0, 0, 1, 0⟩],
      names := [[], ascii "a", ascii "a$0"] }
    (by decide) (by decide) (by decide) (by decide)).1.trans (by decide)

set_option maxRecDepth 100000 in
/-- Claim C12 at the input `danglingInput`. The model the passes receive,
`danglingModel`, meets the conditions of the claim (name indices in range,
names shorter than 200 characters, pool below 65536 entries), its three
symbols are global, and the steps of the spec rename symbol 2 to the new
entry `a$0` and leave symbol 3, whose name, the empty string, is not yet
seen, as it is. In the code symbol 1 is recorded, and for symbol 2 the search
gives `a$0`; but the vector `names` is full (three strings, as reserved for
`header.nameCount + 1` = 3), so `push_back` moves the strings and the
reference `name` dangles when `uniqueSymbols.insert(name)` reads it: the
step, the pass and `TDS::load` have no defined result. -/
theorem makeGlobalSymbolsUnique_dangling_reference :
    (loadStructure TDS.init (some (File.ofBytes danglingInput))).2
      = some { data := danglingInput, pos := 243, eof := false }
    ∧ (loadNames (loadStructure TDS.init (some (File.ofBytes danglingInput))).1
        { data := danglingInput, pos := 243, eof := false }).map (fun r => r.1)
      = some danglingModel
    ∧ (∀ symbol ∈ danglingModel.symbols, symbol.name < danglingModel.names.length)
    ∧ (∀ name ∈ danglingModel.names, name.length < 200)
    ∧ (specUniqueRun danglingModel).1.names.length < 65536
    ∧ (List.range 4).map (isGlobalSymbol danglingModel) = [false, true, true, true]
    ∧ (specUniqueRun danglingModel).1
      = { danglingModel with
          symbols := [Symbol.zero, ⟨1, 0, 0, 1, 0⟩, ⟨3, 0, 0, 1, 0⟩, ⟨0, 0, 0, 1, 0⟩],
          names := [[], ascii "a", ascii "b", ascii "a$0"] }
    ∧ renameReservedWords danglingModel = danglingModel
    ∧ makeGlobalSymbolUnique danglingModel [] 1 = some (danglingModel, [ascii "a"])
    ∧ findNewName [ascii "a"] (ascii "a") 4294967296 0 = some (ascii "a$0")
    ∧ danglingModel.header.nameCount + 1 = 3
    ∧ danglingModel.names.length = 3
    ∧ namesCapacity danglingModel = 3
    ∧ makeGlobalSymbolUnique danglingModel [ascii "a"] 2 = none
    ∧ makeGlobalSymbolsUnique danglingModel = none
    ∧ load TDS.init (some (File.ofBytes danglingInput)) = none := by
  decide

/-! ## assignMissingTypeNames -/

/-- The loop of `findNameForType` returns the name the first owner gives, and
the empty string when there is no owner. -/
theorem findNameForTypeLoop_eq_spec {α : Type} [Item α] (t : TDS) (typeIndex : Nat) :
    ∀ items : List α,
      findNameForTypeLoop t typeIndex items
        = match items.find? (fun item =>
            decide (Item.type item = typeIndex)
              || ((t.types.getD (Item.type item) TypeRecord.zero).isArray
                && decide ((t.types.getD (Item.type item) TypeRecord.zero).recordWord
                    = typeIndex))) with
          | some item => specOwnerName t typeIndex item
          | none => [] := by
  intro items
  induction items with
  | nil => rfl
  | cons item rest ih =>
    rw [findNameForTypeLoop, List.find?_cons]
    by_cases h1 : typeIndex = Item.type item
    · have h1' : Item.type item = typeIndex := h1.symm
      rw [if_pos h1]
      simp only [h1', decide_True, Bool.true_or, specOwnerName, if_true]
    · have h1' : ¬ Item.type item = typeIndex := fun h => h1 h.symm
      rw [if_neg h1]
      simp only
      by_cases h2 : ((t.types.getD (Item.type item) TypeRecord.zero).isArray
          && decide (typeIndex = (t.types.getD (Item.type item) TypeRecord.zero).recordWord))
          = true
      · rw [if_pos h2]
        have h2' : ((t.types.getD (Item.type item) TypeRecord.zero).isArray
            && decide ((t.types.getD (Item.type item) TypeRecord.zero).recordWord = typeIndex))
            = true := by
          simp only [Bool.and_eq_true, decide_eq_true_eq] at h2 ⊢
          exact ⟨h2.1, h2.2.symm⟩
        simp only [h1', decide_False, Bool.false_or, h2', specOwnerName, if_false]
      · rw [if_neg h2]
        have h2' : ((t.types.getD (Item.type item) TypeRecord.zero).isArray
            && decide ((t.types.getD (Item.type item) TypeRecord.zero).recordWord = typeIndex))
            = false := by
          cases hc : ((t.types.getD (Item.type item) TypeRecord.zero).isArray
            && decide ((t.types.getD (Item.type item) TypeRecord.zero).recordWord = typeIndex))
          · rfl
          · exfalso
            apply h2
            simp only [Bool.and_eq_true, decide_eq_true_eq] at hc ⊢
            exact ⟨hc.1, hc.2.symm⟩
        simp only [h1', decide_False, Bool.false_or, h2']
        exact ih

/-- `findNameForType` in the words of the spec. -/
theorem findNameForType_eq_spec {α : Type} [Item α] (t : TDS) (collection : List α)
    (typeIndex : Nat) :
    findNameForType t collection typeIndex
      = match specOwner t collection typeIndex with
        | some item => specOwnerName t typeIndex item
        | none => [] :=
  findNameForTypeLoop_eq_spec t typeIndex (collection.drop 1)

/-- The name an owner gives is not empty. -/
theorem specOwnerName_ne_nil {α : Type} [Item α] (t : TDS) (typeIndex : Nat) (item : α) :
    specOwnerName t typeIndex item ≠ [] := by
  unfold specOwnerName
  intro h
  have hlen := congrArg List.length h
  rw [List.length_append] at hlen
  have h5 : (ascii "$Type").length = 5 := by decide
  have h8 : (ascii "$Element").length = 8 := by decide
  split at hlen
  · rw [h5] at hlen
    simp at hlen
  · rw [h8] at hlen
    simp at hlen

/-- One iteration of the loop of `assignMissingTypeNames` does what the spec
says at the index, when the pool has fewer than 65536 entries. -/
theorem assignMissingTypeNamesLoop_succ_eq_spec (fuel index : Nat) (t : TDS)
    (h : index < t.types.length) (hpool : t.names.length < 65536) :
    assignMissingTypeNamesLoop (fuel + 1) index t
      = assignMissingTypeNamesLoop fuel
          (TypeIterator.mk (specAssignStep t index).types index).advance.index
          (specAssignStep t index) := by
  have hn : (TypeIterator.mk t.types index).hasNext = true := by
    simp only [TypeIterator.hasNext, decide_eq_true_eq]
    exact h
  have htype : (TypeIterator.mk t.types index).type.getD TypeRecord.zero
      = t.types.getD index TypeRecord.zero := by
    rw [TypeIterator.type_eq]
    simp only [List.getD_eq_getElem?_getD, List.get?_eq_getElem?]
  have hmod : t.names.length % 65536 = t.names.length := Nat.mod_eq_of_lt hpool
  have hbody : (if (decide (0 ≠ (t.types.getD index TypeRecord.zero).name)
        || !((t.types.getD index TypeRecord.zero).isStruct
          || (t.types.getD index TypeRecord.zero).isEnum)) = true then t
      else
        if (!(if (findNameForType t t.symbols index).isEmpty = true then
              findNameForType t t.members index
            else findNameForType t t.symbols index).isEmpty) = true then
          assignTypeName t index
            (if (findNameForType t t.symbols index).isEmpty = true then
              findNameForType t t.members index
            else findNameForType t t.symbols index)
        else t) = specAssignStep t index := by
    unfold specAssignStep
    simp only
    by_cases hc : (t.types.getD index TypeRecord.zero).name = 0
        ∧ ((t.types.getD index TypeRecord.zero).id = 0x1E
          ∨ (t.types.getD index TypeRecord.zero).id = 0x29)
    · have hc' : ¬ (decide (0 ≠ (t.types.getD index TypeRecord.zero).name)
          || !((t.types.getD index TypeRecord.zero).isStruct
            || (t.types.getD index TypeRecord.zero).isEnum)) = true := by
        simp only [TypeRecord.isStruct, TypeRecord.isEnum, Bool.or_eq_true, decide_eq_true_eq,
          Bool.not_eq_true', Bool.or_eq_false_iff, decide_eq_false_iff_not, ne_eq, not_or,
          not_and, not_not]
        obtain ⟨hc1, hc2⟩ := hc
        refine ⟨hc1.symm, fun h1 => ?_⟩
        rcases hc2 with hc2 | hc2
        · exact absurd hc2.symm h1
        · exact hc2.symm
      rw [if_neg hc', if_pos hc]
      rw [findNameForType_eq_spec t t.symbols index, findNameForType_eq_spec t t.members index]
      unfold specTypeName
      cases hs : specOwner t t.symbols index with
      | some symbol =>
        have hne := specOwnerName_ne_nil t index symbol
        simp only [List.isEmpty_eq_true, hne, if_false, Bool.not_eq_true', List.isEmpty_eq_false,
          ne_eq, not_false_eq_true, if_true, assignTypeName, hmod]
      | none =>
        cases hm : specOwner t t.members index with
        | some member =>
          have hne := specOwnerName_ne_nil t index member
          simp only [List.isEmpty_nil, if_true, Option.map_some', List.isEmpty_eq_true, hne,
            Bool.not_eq_true', List.isEmpty_eq_false, ne_eq, not_false_eq_true, assignTypeName,
            hmod]
        | none =>
          simp only [List.isEmpty_nil, if_true, Bool.not_true, Bool.false_eq_true, if_false,
            Option.map_none']
    · have hc' : (decide (0 ≠ (t.types.getD index TypeRecord.zero).name)
          || !((t.types.getD index TypeRecord.zero).isStruct
            || (t.types.getD index TypeRecord.zero).isEnum)) = true := by
        simp only [TypeRecord.isStruct, TypeRecord.isEnum, Bool.or_eq_true, decide_eq_true_eq,
          Bool.not_eq_true', Bool.or_eq_false_iff, decide_eq_false_iff_not, ne_eq]
        by_cases h0 : (t.types.getD index TypeRecord.zero).name = 0
        · right
          constructor
          · intro h1
            exact hc ⟨h0, Or.inl h1.symm⟩
          · intro h1
            exact hc ⟨h0, Or.inr h1.symm⟩
        · left
          exact fun h => h0 h.symm
      rw [if_pos hc', if_neg hc]
  simp only [assignMissingTypeNamesLoop, hn, Bool.not_true, Bool.false_eq_true, if_false, htype,
    hbody]

/-- Whether a record has extended information depends on its kind only. -/
theorem hasExtendedTypeInfo_congr (a b : TypeRecord) (h : a.id = b.id) :
    a.hasExtendedTypeInfo = b.hasExtendedTypeInfo := by
  unfold TypeRecord.hasExtendedTypeInfo TypeRecord.isBasic TypeRecord.isArray TypeRecord.isEnum
  rw [h]

/-- Writing the name of a record keeps the kinds of the table. -/
theorem map_id_modify_name (name : Nat) :
    ∀ (types : List TypeRecord) (index : Nat),
      (types.modify (fun type => { type with name := name }) index).map (fun type => type.id)
        = types.map (fun type => type.id) := by
  intro types
  induction types with
  | nil => intro index; simp
  | cons type rest ih =>
    intro index
    cases index with
    | zero => simp
    | succ index =>
      simp only [List.modify_succ_cons, List.map_cons, ih index]

/-- A step of the spec keeps the kinds of the type table. -/
theorem specAssignStep_kinds (t : TDS) (index : Nat) :
    (specAssignStep t index).types.map (fun type => type.id)
      = t.types.map (fun type => type.id) := by
  unfold specAssignStep
  simp only
  split
  · split
    · exact map_id_modify_name _ _ _
    · rfl
  · rfl

/-- A step of the spec does not shorten the pool. -/
theorem specAssignStep_names_length (t : TDS) (index : Nat) :
    t.names.length ≤ (specAssignStep t index).names.length := by
  unfold specAssignStep
  simp only
  split
  · split
    · simp only [List.length_append, List.length_singleton]
      omega
    · exact Nat.le_refl _
  · exact Nat.le_refl _

/-- The steps of the spec do not shorten the pool. -/
theorem foldl_specAssignStep_names_length (indices : List Nat) :
    ∀ t : TDS, t.names.length ≤ (indices.foldl specAssignStep t).names.length := by
  induction indices with
  | nil => intro t; exact Nat.le_refl _
  | cons i rest ih =>
    intro t
    exact (specAssignStep_names_length t i).trans (ih _)

/-- The kind of the record at an index, from the kinds of the table. -/
theorem getD_id (types : List TypeRecord) (p : Nat) :
    (types.getD p TypeRecord.zero).id = (types.map (fun type => type.id)).getD p 0 :=
  (@List.getD_map _ _ types TypeRecord.zero p (fun type => type.id)).symm

/-- The indices the walker visits depend on the kinds of the table only. -/
theorem walk_congr (T T' : List TypeRecord)
    (h : T'.map (fun type => type.id) = T.map (fun type => type.id)) :
    ∀ fuel p,
      (TypeIterator.walk fuel { types := T', index := p }).map (fun it => it.index)
        = (TypeIterator.walk fuel { types := T, index := p }).map (fun it => it.index) := by
  have hlen : T'.length = T.length := by
    have := congrArg List.length h
    simpa using this
  intro fuel
  induction fuel with
  | zero => intro p; rfl
  | succ fuel ih =>
    intro p
    by_cases hp : p < T.length
    · have hx : (T'.getD p TypeRecord.zero).hasExtendedTypeInfo
          = (T.getD p TypeRecord.zero).hasExtendedTypeInfo :=
        hasExtendedTypeInfo_congr _ _ (by rw [getD_id, getD_id, h])
      rw [TypeIterator.walk_succ_of_lt T p fuel hp,
        TypeIterator.walk_succ_of_lt T' p fuel (hlen ▸ hp), hx]
      simp only [List.map_cons, ih]
    · rw [TypeIterator.walk_of_not_lt T p _ hp,
        TypeIterator.walk_of_not_lt T' p _ (hlen ▸ hp)]

/-- The loop of `assignMissingTypeNames` from the index `p` does what the steps
of the spec do at the indices the walker visits from `p`, as long as the pool
stays below 65536 entries. -/
theorem assignMissingTypeNamesLoop_eq_spec :
    ∀ (fuel p : Nat) (t : TDS), t.types.length - p ≤ fuel →
      (((TypeIterator.walk fuel { types := t.types, index := p }).map
        (fun it => it.index)).foldl specAssignStep t).names.length < 65536 →
      assignMissingTypeNamesLoop (fuel + 1) p t
        = some (((TypeIterator.walk fuel { types := t.types, index := p }).map
            (fun it => it.index)).foldl specAssignStep t) := by
  intro fuel
  induction fuel with
  | zero =>
    intro p t hp _
    have hn : (TypeIterator.mk t.types p).hasNext = false := by
      simp only [TypeIterator.hasNext, decide_eq_false_iff_not]
      omega
    simp only [assignMissingTypeNamesLoop, hn, Bool.not_false, if_true]
    rfl
  | succ fuel ih =>
    intro p t hp hpool
    by_cases hlt : p < t.types.length
    · have hk := specAssignStep_kinds t p
      have hlen : (specAssignStep t p).types.length = t.types.length := by
        have := congrArg List.length hk
        simpa using this
      have hx : ((specAssignStep t p).types.getD p TypeRecord.zero).hasExtendedTypeInfo
          = (t.types.getD p TypeRecord.zero).hasExtendedTypeInfo :=
        hasExtendedTypeInfo_congr _ _ (by rw [getD_id, getD_id, hk])
      rw [TypeIterator.walk_succ_of_lt t.types p fuel hlt] at hpool ⊢
      rw [List.map_cons, List.foldl_cons] at hpool ⊢
      have hpool0 : t.names.length < 65536 :=
        Nat.lt_of_le_of_lt ((specAssignStep_names_length t p).trans
          (foldl_specAssignStep_names_length _ _)) hpool
      rw [assignMissingTypeNamesLoop_succ_eq_spec (fuel + 1) p t hlt hpool0,
        TypeIterator.advance_mk _ p (hlen ▸ hlt), hx]
      simp only at hpool ⊢
      rw [← walk_congr t.types (specAssignStep t p).types hk] at hpool ⊢
      refine ih _ _ ?_ hpool
      rw [hlen]
      split <;> omega
    · have hn : (TypeIterator.mk t.types p).hasNext = false := by
        simp only [TypeIterator.hasNext, decide_eq_false_iff_not]
        exact hlt
      rw [TypeIterator.walk_of_not_lt t.types p _ hlt]
      simp only [assignMissingTypeNamesLoop, hn, Bool.not_false, if_true]
      rfl

/-- Claim C17, with the bound on the pool it needs: when the pool stays below
65536 entries, `assignMissingTypeNames` returns, and what it leaves is what
the steps of the spec leave, taken at the indices the walker visits, in order.
At an index whose type is a struct (0x1E) or an enum (0x29) with name 0, the
step of the spec takes the lowest-index symbol (index at least 1) whose type is
the index or an array whose `recordWord` is the index, and if there is none
the lowest-index such member; the name is the name of that owner and `$Type`
for a direct reference, `$Element` otherwise; it is appended to the pool and
the name index of the type is set to its position. Without an owner, and for
every other type, the model is left as it is. -/
theorem assignMissingTypeNames_contract (t : TDS)
    (hpool : (specAssign t).names.length < 65536) :
    assignMissingTypeNames t = some (specAssign t) := by
  unfold assignMissingTypeNames
  unfold specAssign TypeIterator.visited at *
  exact assignMissingTypeNamesLoop_eq_spec t.types.length 1 t (by omega) hpool

/-- Claim C17 on a table with a struct at index 1, an array of the struct at
index 3 at index 2 (index 3 is its extended slot, passed over), and an enum at
index 4: symbol 1 has type 1, member 1 has the array type 2 with `recordWord`
4. The struct is named `s$Type`, the enum `m$Element`. -/
theorem assignMissingTypeNames_contract_witness :
    assignMissingTypeNames
        { TDS.init with
          symbols := [Symbol.zero, ⟨1, 1, 0, 0, 0⟩],
          members := [Member.zero, ⟨0, 2, 2⟩],
          types := [TypeRecord.zero, ⟨0x1E, 0, 0, 0, 0⟩, ⟨0x1C, 0, 0, 0, 4⟩,
            ⟨0x1E, 0, 0, 0, 0⟩, ⟨0x29, 0, 0, 0, 0⟩, TypeRecord.zero],
          names := [[], ascii "s", ascii "m"] }
      = some
        { TDS.init with
          symbols := [Symbol.zero, ⟨1, 1, 0, 0, 0⟩],
          members := [Member.zero, ⟨0, 2, 2⟩],
          types := [TypeRecord.zero, ⟨0x1E, 3, 0, 0, 0⟩, ⟨0x1C, 0, 0, 0, 4⟩,
            ⟨0x1E, 0, 0, 0, 0⟩, ⟨0x29, 4, 0, 0, 0⟩, TypeRecord.zero],
          names := [[], ascii "s", ascii "m", ascii "s$Type", ascii "m$Element"] } :=
  (assignMissingTypeNames_contract
    { TDS.init with
      symbols := [Symbol.zero, ⟨1, 1, 0, 0, 0⟩],
      members := [Member.zero, ⟨0, 2, 2⟩],
      types := [TypeRecord.zero, ⟨0x1E, 0, 0, 0, 0⟩, ⟨0x1C, 0, 0, 0, 4⟩,
        ⟨0x1E, 0, 0, 0, 0⟩, ⟨0x29, 0, 0, 0, 0⟩, TypeRecord.zero],
      names := [[], ascii "s", ascii "m"] }
    (by decide)).trans (by decide)

/-- `assignMissingTypeNames` on a model with one symbol, of type 1, and one
struct without a name, at index 1: the name of the symbol and `$Type` is
appended, and the name index written is the size of the pool modulo 65536. -/
theorem assignMissingTypeNames_single (t : TDS) (n : Name)
    (hs : t.symbols = [Symbol.zero, ⟨1, 1, 0, 0, 0⟩])
    (ht : t.types = [TypeRecord.zero, ⟨0x1E, 0, 0, 0, 0⟩])
    (hn : t.names.getD 1 [] = n) :
    assignMissingTypeNames t
      = some { t with
          types := [TypeRecord.zero, ⟨0x1E, t.names.length % 65536, 0, 0, 0⟩],
          names := t.names ++ [n ++ ascii "$Type"] } := by
  have hf : findNameForType t t.symbols 1 = n ++ ascii "$Type" := by
    rw [hs]
    simp only [findNameForType, List.drop_one, List.tail_cons, findNameForTypeLoop]
    have h1 : (1 : Nat) = Item.type (⟨1, 1, 0, 0, 0⟩ : Symbol) := rfl
    rw [if_pos h1]
    exact congrArg (fun x => x ++ ascii "$Type") hn
  have hne : (n ++ ascii "$Type").isEmpty = false := by
    cases n <;> rfl
  have h1 : (TypeIterator.mk t.types 1).hasNext = true := by rw [ht]; rfl
  have hty : (TypeIterator.mk t.types 1).type.getD TypeRecord.zero = ⟨0x1E, 0, 0, 0, 0⟩ := by
    rw [ht]; rfl
  have hc : (decide (0 ≠ (⟨0x1E, 0, 0, 0, 0⟩ : TypeRecord).name)
      || !((⟨0x1E, 0, 0, 0, 0⟩ : TypeRecord).isStruct
        || (⟨0x1E, 0, 0, 0, 0⟩ : TypeRecord).isEnum)) = false := by decide
  have hfuel : t.types.length + 1 = 1 + 1 + 1 := by rw [ht]; rfl
  unfold assignMissingTypeNames
  rw [hfuel]
  have hstart : (typeIterator t).index = 1 := rfl
  rw [hstart, assignMissingTypeNamesLoop]
  simp only [h1, hty, hc, hf, hne, Bool.not_true, Bool.not_false, Bool.false_eq_true, if_false,
    if_true]
  have hassign : assignTypeName t 1 (n ++ ascii "$Type")
      = { t with
          types := [TypeRecord.zero, ⟨0x1E, t.names.length % 65536, 0, 0, 0⟩],
          names := t.names ++ [n ++ ascii "$Type"] } := by
    unfold assignTypeName
    rw [ht]
    rfl
  rw [hassign]
  rfl

/-- Claim C17 at the input `fullPoolInput`, whose type and name indices are all
in range and whose pool has 65536 entries. The struct at index 1 has no name
and symbol 1 has type 1, so the name `n$Type` is appended to the pool, as
entry 65536; the name index written to the type is 0, the index of the empty
string, and not that of the new entry. -/
theorem assignMissingTypeNames_fullPool_counterexample :
    fullPoolInput.names.length = 65536
    ∧ (∀ symbol ∈ fullPoolInput.symbols,
        symbol.type < fullPoolInput.types.length ∧ symbol.name < fullPoolInput.names.length)
    ∧ assignMissingTypeNames fullPoolInput
      = some { fullPoolInput with
          types := [TypeRecord.zero, ⟨0x1E, 0, 0, 0, 0⟩],
          names := fullPoolInput.names ++ [ascii "n$Type"] }
    ∧ fullPoolInput.names.getD 0 [] = []
    ∧ (fullPoolInput.names ++ [ascii "n$Type"]).getD 65536 [] = ascii "n$Type" := by
  have hlen : fullPoolInput.names.length = 65536 := by
    show (([] : Name) :: List.replicate 65535 (ascii "n")).length = 65536
    rw [List.length_cons, List.length_replicate]
  refine ⟨hlen, ?_, ?_, rfl, ?_⟩
  · intro symbol hs
    rw [hlen]
    have hs' : symbol ∈ [Symbol.zero, (⟨1, 1, 0, 0, 0⟩ : Symbol)] := hs
    simp only [List.mem_cons, List.mem_singleton, List.not_mem_nil, or_false] at hs'
    rcases hs' with h | h <;> subst h <;> decide
  · have h := assignMissingTypeNames_single fullPoolInput (ascii "n") rfl rfl rfl
    rw [hlen] at h
    exact h
  · rw [List.getD_eq_getElem?_getD, List.getElem?_append_right (by rw [hlen]), hlen]
    rfl

/-- Claim C21: for an index at or past the end of the type table,
`typeString` returns the empty string (in one call, whatever the table
holds). -/
theorem typeString_out_of_range (t : TDS) (depth typeIndex : Nat)
    (h : t.types.length ≤ typeIndex) :
    typeString t (depth + 1) typeIndex = some [] := by
  rw [typeString, if_pos h]

/-- Claim C21 on a table of two entries, at the indices 2 and 70000. -/
theorem typeString_out_of_range_witness :
    typeString { TDS.init with types := [TypeRecord.zero, ⟨22, 0, 4, 0, 1⟩] } 1 2 = some []
    ∧ typeString { TDS.init with types := [TypeRecord.zero, ⟨22, 0, 4, 0, 1⟩] } 1 70000
      = some [] :=
  ⟨typeString_out_of_range { TDS.init with types := [TypeRecord.zero, ⟨22, 0, 4, 0, 1⟩] } 0 2
      (by decide),
    typeString_out_of_range { TDS.init with types := [TypeRecord.zero, ⟨22, 0, 4, 0, 1⟩] } 0
      70000 (by decide)⟩

/-! ## The frame of the passes -/

/-- A model keeps its own frame. -/
theorem PassFrame.refl (t : TDS) : PassFrame t t :=
  ⟨rfl, rfl, rfl, rfl, rfl, rfl, rfl, rfl, rfl, rfl, rfl, Nat.le_refl _, fun h => h⟩

/-- Frames compose. -/
theorem PassFrame.trans {t u v : TDS} (h1 : PassFrame t u) (h2 : PassFrame u v) :
    PassFrame t v := by
  obtain ⟨a1, a2, a3, a4, a5, a6, a7, a8, a9, a10, a11, a12, a13⟩ := h1
  obtain ⟨b1, b2, b3, b4, b5, b6, b7, b8, b9, b10, b11, b12, b13⟩ := h2
  exact ⟨b1.trans a1, b2.trans a2, b3.trans a3, b4.trans a4, b5.trans a5, b6.trans a6,
    b7.trans a7, b8.trans a8, b9.trans a9, b10.trans a10, b11.trans a11, a12.trans b12,
    fun h => b13 (a13 h)⟩

/-- Appending to a pool keeps its entry 0. -/
theorem head?_append_of_head? (names added : List Name) (h : names.head? = some []) :
    (names ++ added).head? = some [] := by
  cases names with
  | nil => simp at h
  | cons n rest => simpa using h

/-- Writing the name of a symbol of the table changes no other field. -/
theorem map_set_symbol_name (symbols : List Symbol) (i name : Nat) :
    (symbols.set i { symbols.getD i Symbol.zero with name := name }).map
        (fun symbol => { symbol with name := 0 })
      = symbols.map (fun symbol => { symbol with name := 0 }) := by
  induction symbols generalizing i with
  | nil => rfl
  | cons symbol rest ih =>
    cases i with
    | zero => rfl
    | succ i =>
      simp only [List.set_cons_succ, List.map_cons, List.getD_cons_succ]
      rw [ih i]

/-- Writing the name of a type changes no other field. -/
theorem map_modify_type_name (name : Nat) :
    ∀ (types : List TypeRecord) (index : Nat),
      (types.modify (fun type => { type with name := name }) index).map
          (fun type => { type with name := 0 })
        = types.map (fun type => { type with name := 0 }) := by
  intro types
  induction types with
  | nil => intro index; simp
  | cons type rest ih =>
    intro index
    cases index with
    | zero => simp
    | succ index =>
      simp only [List.modify_succ_cons, List.map_cons, ih index]

/-- `assignTypeName` keeps the frame. -/
theorem assignTypeName_frame (t : TDS) (index : Nat) (name : Name) :
    PassFrame t (assignTypeName t index name) := by
  refine ⟨rfl, rfl, rfl, rfl, rfl, rfl, rfl, map_modify_type_name _ _ _, rfl, rfl, rfl, ?_, ?_⟩
  · show t.names.length ≤ (t.names ++ [name]).length
    rw [List.length_append]
    exact Nat.le_add_right _ _
  · exact head?_append_of_head? _ _

/-- `renameReservedWords` keeps the frame. -/
theorem renameReservedWords_frame (t : TDS) : PassFrame t (renameReservedWords t) := by
  refine ⟨rfl, rfl, rfl, rfl, rfl, rfl, rfl, rfl, rfl, rfl, rfl, ?_, ?_⟩
  · show t.names.length ≤ (t.names.map _).length
    rw [List.length_map]
  · intro h
    show (t.names.map _).head? = some []
    cases hn : t.names with
    | nil => rw [hn] at h; simp at h
    | cons n rest =>
      rw [hn] at h
      simp only [List.head?_cons, Option.some.injEq] at h
      subst h
      have h0 : ([] : Name) ∉ RESERVED_NAMES := by decide
      simp only [List.map_cons, List.head?_cons, if_neg h0]

/-- One step of `makeGlobalSymbolsUnique` keeps the frame. -/
theorem makeGlobalSymbolUnique_frame (t u : TDS) (seen seen' : List Name) (i : Nat)
    (h : makeGlobalSymbolUnique t seen i = some (u, seen')) : PassFrame t u := by
  unfold makeGlobalSymbolUnique at h
  split at h
  · simp only [Option.some.injEq, Prod.mk.injEq] at h
    rw [← h.1]
    exact PassFrame.refl t
  · simp only at h
    split at h
    · split at h
      · simp at h
      · split at h
        · simp at h
        · simp only [Option.some.injEq, Prod.mk.injEq] at h
          rw [← h.1]
          refine ⟨map_set_symbol_name _ _ _, rfl, rfl, rfl, rfl, rfl, rfl, rfl, rfl, rfl, rfl,
            ?_, ?_⟩
          · simp only [List.length_append]
            exact Nat.le_add_right _ _
          · exact head?_append_of_head? _ _
    · simp only [Option.some.injEq, Prod.mk.injEq] at h
      rw [← h.1]
      exact PassFrame.refl t

/-- The loop of `makeGlobalSymbolsUnique` keeps the frame. -/
theorem makeGlobalSymbolsUniqueLoop_frame :
    ∀ (n i : Nat) (t u : TDS) (seen : List Name),
      makeGlobalSymbolsUniqueLoop n i t seen = some u → PassFrame t u := by
  intro n
  induction n with
  | zero =>
    intro i t u seen h
    simp only [makeGlobalSymbolsUniqueLoop, Option.some.injEq] at h
    rw [← h]
    exact PassFrame.refl t
  | succ n ih =>
    intro i t u seen h
    simp only [makeGlobalSymbolsUniqueLoop] at h
    cases hs : makeGlobalSymbolUnique t seen i with
    | none => rw [hs] at h; simp at h
    | some r =>
      obtain ⟨t1, seen1⟩ := r
      rw [hs] at h
      exact (makeGlobalSymbolUnique_frame _ _ _ _ _ hs).trans (ih _ _ _ _ h)

/-- The loop of `assignMissingTypeNames` keeps the frame. -/
theorem assignMissingTypeNamesLoop_frame :
    ∀ (fuel index : Nat) (t u : TDS),
      assignMissingTypeNamesLoop fuel index t = some u → PassFrame t u := by
  intro fuel
  induction fuel with
  | zero => intro index t u h; simp [assignMissingTypeNamesLoop] at h
  | succ fuel ih =>
    intro index t u h
    by_cases hlt : index < t.types.length
    · obtain ⟨t', hcase, heq⟩ := assignMissingTypeNamesLoop_succ fuel index t hlt
      rw [heq] at h
      have h2 := ih _ _ _ h
      rcases hcase with h1 | ⟨name, -, -, h1⟩
      · subst h1
        exact h2
      · subst h1
        exact (assignTypeName_frame t index name).trans h2
    · have hn : (TypeIterator.mk t.types index).hasNext = false := by
        simp only [TypeIterator.hasNext, decide_eq_false_iff_not]
        exact hlt
      simp only [assignMissingTypeNamesLoop, hn, Bool.not_false, if_true,
        Option.some.injEq] at h
      rw [← h]
      exact PassFrame.refl t

/-- The loop of `applyPS10Specific` keeps the frame. -/
theorem applyPS10SpecificLoop_frame :
    ∀ (fuel index : Nat) (t u : TDS),
      applyPS10SpecificLoop fuel index t = some u → PassFrame t u := by
  intro fuel
  induction fuel with
  | zero => intro index t u h; simp [applyPS10SpecificLoop] at h
  | succ fuel ih =>
    intro index t u h
    by_cases hlt : index < t.types.length
    · obtain ⟨t', hcase, heq⟩ := applyPS10SpecificLoop_succ fuel index t hlt
      rw [heq] at h
      have h2 := ih _ _ _ h
      rcases hcase with h1 | h1
      · subst h1
        exact h2
      · subst h1
        exact (assignTypeName_frame t index _).trans h2
    · have hn : (TypeIterator.mk t.types index).hasNext = false := by
        simp only [TypeIterator.hasNext, decide_eq_false_iff_not]
        exact hlt
      simp only [applyPS10SpecificLoop, hn, Bool.not_false, if_true, Option.some.injEq] at h
      rw [← h]
      exact PassFrame.refl t

/-- The replacement `applyPS10Specific` starts with keeps the frame. -/
theorem replaceFirst_frame (t : TDS) :
    PassFrame t { t with names := replaceFirst (ascii "A$Type") (ascii "$PPoint") t.names } := by
  refine ⟨rfl, rfl, rfl, rfl, rfl, rfl, rfl, rfl, rfl, rfl, rfl, ?_, ?_⟩
  · show t.names.length ≤ (replaceFirst _ _ t.names).length
    rw [replaceFirst_length]
  · intro h
    show (replaceFirst _ _ t.names).head? = some []
    cases hn : t.names with
    | nil => rw [hn] at h; simp at h
    | cons n rest =>
      rw [hn] at h
      simp only [List.head?_cons, Option.some.injEq] at h
      subst h
      have h0 : ¬ ([] : Name) = ascii "A$Type" := by decide
      simp only [replaceFirst, if_neg h0, List.head?_cons]

/-- Claim C27: each of the four passes, when it returns, leaves every
structural table with the same entries in the same order, except for the
field `name` of the symbols and of the types; the name pool is not shorter
after the pass, and its entry 0 is still the empty string. -/
theorem passes_frame (t u : TDS) :
    PassFrame t (renameReservedWords t)
    ∧ (makeGlobalSymbolsUnique t = some u → PassFrame t u)
    ∧ (assignMissingTypeNames t = some u → PassFrame t u)
    ∧ (applyPS10Specific t = some u → PassFrame t u) := by
  refine ⟨renameReservedWords_frame t, ?_, ?_, ?_⟩
  · exact makeGlobalSymbolsUniqueLoop_frame _ _ _ _ _
  · exact assignMissingTypeNamesLoop_frame _ _ _ _
  · intro h
    exact (replaceFirst_frame t).trans (applyPS10SpecificLoop_frame _ _ _ _ h)

/-- The frame at `reclassifiedInput`, where `makeGlobalSymbolsUnique` returns a
model that differs from its argument: a symbol was renamed and the pool grew. -/
theorem passes_frame_witness :
    ∃ u, makeGlobalSymbolsUnique reclassifiedInput = some u
      ∧ u ≠ reclassifiedInput
      ∧ PassFrame reclassifiedInput u :=
  ⟨(makeGlobalSymbolsUnique reclassifiedInput).getD TDS.init, by decide, by decide,
    (passes_frame reclassifiedInput
      ((makeGlobalSymbolsUnique reclassifiedInput).getD TDS.init)).2.1 (by decide)⟩

/-! ## GenerateSymbols -/

/-- The test that skips a local, in the words of the spec. -/
theorem local_condition (segment offset : Nat) (isGlobal : Bool) :
    ((decide (0 = segment) && decide (0 = offset)) || isGlobal)
      = !(!(decide (segment = 0) && decide (offset = 0)) && !isGlobal) := by
  by_cases hs : segment = 0 <;> by_cases ho : offset = 0 <;> cases isGlobal <;>
    simp [hs, ho, eq_comm]

/-- The commands of the loop over `j` for one scope: a `make_local` for each
local index of the scope whose symbol does not have both segment and offset 0
and is not global, in order. -/
theorem GenerateLocals_spec (t : TDS) (depth : Nat) (scope : Scope) :
    ∀ (js : List Nat) (commands : List Command),
      GenerateLocals t depth scope js = some commands →
      List.Forall₂
        (fun localIndex command => ∃ localType,
          typeString t depth (t.symbols.getD localIndex Symbol.zero).type = some localType
          ∧ command = Command.make_local
              (toInt16 (t.symbols.getD localIndex Symbol.zero).offset)
              (cstr (t.names.getD (t.symbols.getD localIndex Symbol.zero).name []))
              (cstr localType))
        ((js.map (fun j => (scope.index + j) % 65536)).filter (fun localIndex =>
          !(decide ((t.symbols.getD localIndex Symbol.zero).segment = 0)
              && decide ((t.symbols.getD localIndex Symbol.zero).offset = 0))
            && !isGlobalSymbol t localIndex))
        commands := by
  intro js
  induction js with
  | nil =>
    intro commands h
    simp only [GenerateLocals, Option.some.injEq] at h
    subst h
    exact List.Forall₂.nil
  | cons j rest ih =>
    intro commands h
    simp only [GenerateLocals] at h
    rw [List.map_cons, List.filter_cons]
    rw [local_condition] at h
    cases hc : (!(decide ((t.symbols.getD ((scope.index + j) % 65536) Symbol.zero).segment = 0)
          && decide ((t.symbols.getD ((scope.index + j) % 65536) Symbol.zero).offset = 0))
        && !isGlobalSymbol t ((scope.index + j) % 65536))
    · rw [hc] at h
      simp only [Bool.not_false, if_true] at h
      simp only [Bool.false_eq_true, if_false]
      exact ih commands h
    · rw [hc] at h
      simp only [Bool.not_true, Bool.false_eq_true, if_false] at h
      simp only [if_true]
      cases ht : typeString t depth (t.symbols.getD ((scope.index + j) % 65536) Symbol.zero).type with
      | none => rw [ht] at h; simp at h
      | some localType =>
        rw [ht] at h
        simp only at h
        cases hr : GenerateLocals t depth scope rest with
        | none => rw [hr] at h; simp at h
        | some more =>
          rw [hr] at h
          simp only [Option.map_some', Option.some.injEq] at h
          subst h
          exact List.Forall₂.cons ⟨localType, ht, rfl⟩ (ih more hr)

/-- The commands of the loop over the scopes for the symbol `i`: those of the
scopes whose symbol is `i`, in order. -/
theorem GenerateScopes_spec (t : TDS) (depth i : Nat) :
    ∀ (scopes : List Scope) (commands : List Command),
      GenerateScopes t depth i scopes = some commands →
      List.Forall₂
        (fun localIndex command => ∃ localType,
          typeString t depth (t.symbols.getD localIndex Symbol.zero).type = some localType
          ∧ command = Command.make_local
              (toInt16 (t.symbols.getD localIndex Symbol.zero).offset)
              (cstr (t.names.getD (t.symbols.getD localIndex Symbol.zero).name []))
              (cstr localType))
        ((scopes.filter (fun scope => decide (scope.symbol = i))).flatMap (fun scope =>
          ((List.range scope.count).map (fun j => (scope.index + j) % 65536)).filter
            (fun localIndex =>
              !(decide ((t.symbols.getD localIndex Symbol.zero).segment = 0)
                  && decide ((t.symbols.getD localIndex Symbol.zero).offset = 0))
                && !isGlobalSymbol t localIndex)))
        commands := by
  intro scopes
  induction scopes with
  | nil =>
    intro commands h
    simp only [GenerateScopes, Option.some.injEq] at h
    subst h
    exact List.Forall₂.nil
  | cons scope rest ih =>
    intro commands h
    simp only [GenerateScopes] at h
    rw [List.filter_cons]
    split at h
    · rename_i hne
      have : decide (scope.symbol = i) = false := by
        simp only [decide_eq_false_iff_not]
        exact fun e => hne e.symm
      rw [this]
      exact ih commands h
    · rename_i heq
      have heq' : scope.symbol = i := by
        by_contra hc
        exact heq (fun e => hc e.symm)
      have : decide (scope.symbol = i) = true := by
        simp only [decide_eq_true_eq]
        exact heq'
      rw [this]
      simp only [if_true, List.flatMap_cons]
      cases hl : GenerateLocals t depth scope (List.range scope.count) with
      | none => rw [hl] at h; simp at h
      | some first =>
        rw [hl] at h
        simp only at h
        cases hr : GenerateScopes t depth i rest with
        | none => rw [hr] at h; simp at h
        | some more =>
          rw [hr] at h
          simp only [Option.map_some', Option.some.injEq] at h
          subst h
          exact List.rel_append (GenerateLocals_spec t depth scope _ _ hl) (ih more hr)

/-- Without wrap-around of the 16-bit local index, the indices of the loops
are those of the spec. -/
theorem specLocalIndices_eq (t : TDS) (i : Nat)
    (h : ∀ scope ∈ t.scopes, scope.symbol = i → scope.index + scope.count ≤ 65536) :
    (t.scopes.filter (fun scope => decide (scope.symbol = i))).flatMap (fun scope =>
        ((List.range scope.count).map (fun j => (scope.index + j) % 65536)).filter
          (fun localIndex =>
            !(decide ((t.symbols.getD localIndex Symbol.zero).segment = 0)
                && decide ((t.symbols.getD localIndex Symbol.zero).offset = 0))
              && !isGlobalSymbol t localIndex))
      = specLocalIndices t i := by
  unfold specLocalIndices
  apply List.flatMap_congr
  intro scope hs
  obtain ⟨hmem, hsym⟩ := List.mem_filter.1 hs
  have hb := h scope hmem (by simpa using hsym)
  congr 1
  apply List.map_congr_left
  intro j hj
  have := List.mem_range.1 hj
  exact Nat.mod_eq_of_lt (by omega)

/-- The loop over `j` returns when `typeString` returns for the type of every
local it prints. -/
theorem GenerateLocals_isSome (t : TDS) (depth : Nat) (scope : Scope) :
    ∀ js : List Nat,
      (∀ localIndex ∈ (js.map (fun j => (scope.index + j) % 65536)).filter (fun localIndex =>
          !(decide ((t.symbols.getD localIndex Symbol.zero).segment = 0)
              && decide ((t.symbols.getD localIndex Symbol.zero).offset = 0))
            && !isGlobalSymbol t localIndex),
        (typeString t depth (t.symbols.getD localIndex Symbol.zero).type).isSome = true) →
      (GenerateLocals t depth scope js).isSome = true := by
  intro js
  induction js with
  | nil => intro _; rfl
  | cons j rest ih =>
    intro h
    rw [List.map_cons, List.filter_cons] at h
    simp only [GenerateLocals]
    rw [local_condition]
    cases hc : (!(decide ((t.symbols.getD ((scope.index + j) % 65536) Symbol.zero).segment = 0)
          && decide ((t.symbols.getD ((scope.index + j) % 65536) Symbol.zero).offset = 0))
        && !isGlobalSymbol t ((scope.index + j) % 65536))
    · rw [hc] at h
      simp only [Bool.false_eq_true, if_false] at h
      simp only [Bool.not_false, if_true]
      exact ih h
    · rw [hc] at h
      simp only [if_true] at h
      simp only [Bool.not_true, Bool.false_eq_true, if_false]
      have h1 := h _ (List.mem_cons_self _ _)
      have h2 := ih (fun L hL => h L (List.mem_cons_of_mem _ hL))
      obtain ⟨localType, ht⟩ := Option.isSome_iff_exists.1 h1
      obtain ⟨more, hm⟩ := Option.isSome_iff_exists.1 h2
      rw [ht, hm]
      rfl

/-- The loop over the scopes returns when `typeString` returns for the type of
every local it prints. -/
theorem GenerateScopes_isSome (t : TDS) (depth i : Nat) :
    ∀ scopes : List Scope,
      (∀ localIndex ∈ (scopes.filter (fun scope => decide (scope.symbol = i))).flatMap
          (fun scope =>
            ((List.range scope.count).map (fun j => (scope.index + j) % 65536)).filter
              (fun localIndex =>
                !(decide ((t.symbols.getD localIndex Symbol.zero).segment = 0)
                    && decide ((t.symbols.getD localIndex Symbol.zero).offset = 0))
                  && !isGlobalSymbol t localIndex)),
        (typeString t depth (t.symbols.getD localIndex Symbol.zero).type).isSome = true) →
      (GenerateScopes t depth i scopes).isSome = true := by
  intro scopes
  induction scopes with
  | nil => intro _; rfl
  | cons scope rest ih =>
    intro h
    rw [List.filter_cons] at h
    simp only [GenerateScopes]
    by_cases hs : scope.symbol = i
    · have hd : decide (scope.symbol = i) = true := by simpa using hs
      rw [hd] at h
      simp only [if_true, List.flatMap_cons] at h
      have hne : ¬ i ≠ scope.symbol := fun hc => hc hs.symm
      rw [if_neg hne]
      have h1 := GenerateLocals_isSome t depth scope (List.range scope.count)
        (fun L hL => h L (List.mem_append_left _ hL))
      have h2 := ih (fun L hL => h L (List.mem_append_right _ hL))
      obtain ⟨first, hf⟩ := Option.isSome_iff_exists.1 h1
      obtain ⟨more, hm⟩ := Option.isSome_iff_exists.1 h2
      rw [hf, hm]
      rfl
    · have hd : decide (scope.symbol = i) = false := by simpa using hs
      rw [hd] at h
      simp only [Bool.false_eq_true, if_false] at h
      have hne : i ≠ scope.symbol := fun hc => hs hc.symm
      rw [if_pos hne]
      exact ih h

/-- Every command of the loop over the scopes is a `make_local`. -/
theorem GenerateScopes_make_local (t : TDS) (depth i : Nat) (scopes : List Scope)
    (commands : List Command) (h : GenerateScopes t depth i scopes = some commands) :
    ∀ command ∈ commands, ∃ offset name type, command = Command.make_local offset name type := by
  have hf := GenerateScopes_spec t depth i scopes commands h
  generalize (scopes.filter (fun scope => decide (scope.symbol = i))).flatMap _ = indices at hf
  clear h
  induction hf with
  | nil => intro c hc; exact absurd hc (List.not_mem_nil c)
  | cons hhead _ ih =>
    intro c hc
    rcases List.mem_cons.1 hc with hc | hc
    · obtain ⟨localType, -, hcmd⟩ := hhead
      exact ⟨_, _, _, hc.trans hcmd⟩
    · exact ih c hc

/-- `GenerateSymbol` on a symbol that is not global: nothing. -/
theorem GenerateSymbol_of_not_global (t : TDS) (depth i : Nat)
    (h : isGlobalSymbol t i = false) : GenerateSymbol t depth i = some [] := by
  simp only [GenerateSymbol, h, Bool.not_false, if_true]

/-- `GenerateSymbol` on a global symbol whose type string does not come. -/
theorem GenerateSymbol_of_none (t : TDS) (depth i : Nat) (h : isGlobalSymbol t i = true)
    (ht : typeString t depth (t.symbols.getD i Symbol.zero).type = none) :
    GenerateSymbol t depth i = none := by
  simp only [GenerateSymbol, h, Bool.not_true, Bool.false_eq_true, if_false, ht]

/-- `GenerateSymbol` on a global symbol with the type string `typeStr`. -/
theorem GenerateSymbol_of_global (t : TDS) (depth i : Nat) (typeStr : Name)
    (h : isGlobalSymbol t i = true)
    (ht : typeString t depth (t.symbols.getD i Symbol.zero).type = some typeStr) :
    GenerateSymbol t depth i =
      if (t.symbols.getD i Symbol.zero).segment &&& 0x4000 ≠ 0 then
        some [.make_import
          ((cstr (t.names.getD (t.symbols.getD i Symbol.zero).offset []) ++ ascii "_"
            ++ decimal ((t.symbols.getD i Symbol.zero).segment &&& 0x3FFF)).take 63)
          (cstr (t.names.getD (t.symbols.getD i Symbol.zero).name [])) (cstr typeStr)]
      else if (t.executable.segments.getD (t.symbols.getD i Symbol.zero).segment
          Executable.Segment.zero).flags &&& 1 ≠ 0 then
        some [.make_data (t.symbols.getD i Symbol.zero).segment
          (t.symbols.getD i Symbol.zero).offset
          (cstr (t.names.getD (t.symbols.getD i Symbol.zero).name [])) (cstr typeStr)
          (t.types.getD (t.symbols.getD i Symbol.zero).type TypeRecord.zero).size]
      else
        (GenerateScopes t depth i t.scopes).map (fun commands =>
          Command.make_func (t.symbols.getD i Symbol.zero).segment
            (t.symbols.getD i Symbol.zero).offset
            (cstr (t.names.getD (t.symbols.getD i Symbol.zero).name [])) (cstr typeStr)
            :: commands) := by
  simp only [GenerateSymbol, h, Bool.not_true, Bool.false_eq_true, if_false, ht]

/-- The loop over the symbols puts the commands of the symbols one after the
other. -/
theorem GenerateSymbolsLoop_eq (t : TDS) (depth : Nat) :
    ∀ (indices : List Nat) (commands : List Command),
      GenerateSymbolsLoop t depth indices = some commands →
      commands = indices.flatMap (fun i => (GenerateSymbol t depth i).getD []) := by
  intro indices
  induction indices with
  | nil =>
    intro commands h
    simp only [GenerateSymbolsLoop, Option.some.injEq] at h
    exact h.symm
  | cons i rest ih =>
    intro commands h
    simp only [GenerateSymbolsLoop] at h
    cases hs : GenerateSymbol t depth i with
    | none => rw [hs] at h; simp at h
    | some first =>
      rw [hs] at h
      simp only at h
      cases hr : GenerateSymbolsLoop t depth rest with
      | none => rw [hr] at h; simp at h
      | some more =>
        rw [hr] at h
        simp only [Option.map_some', Option.some.injEq] at h
        rw [List.flatMap_cons, hs, ← ih more hr, ← h]
        rfl

set_option maxRecDepth 100000 in
/-- Claim C22 at the input `longImportInput`: the symbol is global and
imported, and `names[offset]`, `_` and the ordinal make a string of 72
characters; the imported name of the `make_import` line is its first 63
characters, 63 letters `A`, because the buffer `importedName` has 64 bytes. -/
theorem GenerateSymbol_longImport_counterexample :
    isGlobalSymbol longImportInput 1 = true
    ∧ GenerateSymbol longImportInput 1 1
      = some [.make_import (List.replicate 63 0x41) (ascii "f") (ascii "void")]
    ∧ (longImportInput.names.getD 1 [] ++ ascii "_" ++ decimal (0x4003 &&& 0x3FFF)).length = 72
    ∧ longImportInput.names.getD 1 [] ++ ascii "_" ++ decimal (0x4003 &&& 0x3FFF)
      ≠ List.replicate 63 0x41 := by
  decide

/-- Claim C22, with the imported name as the code makes it. For a symbol that
is not global `GenerateSymbols` emits nothing. For a global symbol it emits
nothing when `typeString` does not return for its type (within `depth`), and
otherwise exactly one top-level command: when bit 0x4000 of the segment is
set, a `make_import` whose imported name is the first 63 characters of
`names[offset]`, `_` and the decimal of `segment & 0x3FFF` (all strings read
up to their first NUL); otherwise a `make_data` when bit 0 of the flags of
`executable.segments[segment]` is set; otherwise a `make_func`, followed
only by `make_local` commands. The commands of `GenerateSymbols` are those
of the symbols 1, 2, ... one after the other, and an empty line. -/
theorem GenerateSymbols_contract (t : TDS) (depth i : Nat) :
    (isGlobalSymbol t i = false → GenerateSymbol t depth i = some [])
    ∧ (isGlobalSymbol t i = true →
        typeString t depth (t.symbols.getD i Symbol.zero).type = none →
        GenerateSymbol t depth i = none)
    ∧ (isGlobalSymbol t i = true →
        ∀ typeStr, typeString t depth (t.symbols.getD i Symbol.zero).type = some typeStr →
          ((t.symbols.getD i Symbol.zero).segment &&& 0x4000 ≠ 0 →
            GenerateSymbol t depth i
              = some [.make_import
                  ((cstr (t.names.getD (t.symbols.getD i Symbol.zero).offset []) ++ ascii "_"
                    ++ decimal ((t.symbols.getD i Symbol.zero).segment &&& 0x3FFF)).take 63)
                  (cstr (t.names.getD (t.symbols.getD i Symbol.zero).name []))
                  (cstr typeStr)])
          ∧ ((t.symbols.getD i Symbol.zero).segment &&& 0x4000 = 0 →
              (t.executable.segments.getD (t.symbols.getD i Symbol.zero).segment
                Executable.Segment.zero).flags &&& 1 ≠ 0 →
              GenerateSymbol t depth i
                = some [.make_data (t.symbols.getD i Symbol.zero).segment
                    (t.symbols.getD i Symbol.zero).offset
                    (cstr (t.names.getD (t.symbols.getD i Symbol.zero).name []))
                    (cstr typeStr)
                    (t.types.getD (t.symbols.getD i Symbol.zero).type TypeRecord.zero).size])
          ∧ ((t.symbols.getD i Symbol.zero).segment &&& 0x4000 = 0 →
              (t.executable.segments.getD (t.symbols.getD i Symbol.zero).segment
                Executable.Segment.zero).flags &&& 1 = 0 →
              ∀ commands, GenerateSymbol t depth i = some commands →
                ∃ locals,
                  commands
                    = Command.make_func (t.symbols.getD i Symbol.zero).segment
                        (t.symbols.getD i Symbol.zero).offset
                        (cstr (t.names.getD (t.symbols.getD i Symbol.zero).name []))
                        (cstr typeStr) :: locals
                  ∧ ∀ command ∈ locals,
                      ∃ offset name type, command = Command.make_local offset name type))
    ∧ (∀ commands, GenerateSymbols t depth = some commands →
        commands
          = (List.range' 1 (t.symbols.length - 1)).flatMap
              (fun k => (GenerateSymbol t depth k).getD [])
            ++ [.text (ascii "\n")]) := by
  refine ⟨GenerateSymbol_of_not_global t depth i, GenerateSymbol_of_none t depth i, ?_, ?_⟩
  · intro hg typeStr ht
    have hcase := GenerateSymbol_of_global t depth i typeStr hg ht
    refine ⟨fun h1 => ?_, fun h1 h2 => ?_, fun h1 h2 commands hc => ?_⟩
    · rw [hcase, if_pos h1]
    · rw [hcase, if_neg (fun h => h h1), if_pos h2]
    · rw [hcase, if_neg (fun h => h h1), if_neg (fun h => h h2)] at hc
      cases hs : GenerateScopes t depth i t.scopes with
      | none => rw [hs] at hc; simp at hc
      | some locals =>
        rw [hs] at hc
        simp only [Option.map_some', Option.some.injEq] at hc
        exact ⟨locals, hc.symm, GenerateScopes_make_local t depth i t.scopes locals hs⟩
  · intro commands h
    unfold GenerateSymbols at h
    cases hl : GenerateSymbolsLoop t depth (List.range' 1 (t.symbols.length - 1)) with
    | none => rw [hl] at h; simp at h
    | some all =>
      rw [hl] at h
      simp only [Option.map_some', Option.some.injEq] at h
      rw [← h, GenerateSymbolsLoop_eq t depth _ all hl]

/-- Claim C22 on an import of ordinal 3 from the module `KERNEL`, in a model
without executable segments. -/
theorem GenerateSymbols_contract_witness :
    GenerateSymbol
        { TDS.init with
          symbols := [Symbol.zero, ⟨2, 0, 1, 0x4003, 0⟩],
          types := [TypeRecord.zero],
          names := [[], ascii "KERNEL", ascii "f"] }
        1 1
      = some [.make_import (ascii "KERNEL_3") (ascii "f") (ascii "void")] :=
  (((GenerateSymbols_contract
      { TDS.init with
        symbols := [Symbol.zero, ⟨2, 0, 1, 0x4003, 0⟩],
        types := [TypeRecord.zero],
        names := [[], ascii "KERNEL", ascii "f"] }
      1 1).2.2.1 (by decide) (ascii "void") (by decide)).1 (by decide)).trans (by decide)

/-- Claim C30: for a global symbol `i` that is not imported and whose
executable segment is not a data segment, and scopes of `i` whose local
indices `index + j` stay below 65536, the commands `GenerateSymbols` emits
for `i` are its `make_func` line and then one `make_local` for each local
index `index + j` (`j` below `count`) of the scopes with `symbol == i`, in
scope order then `j` order, whose symbol does not have both segment and offset
0 and is not global; the offset argument is the offset of the local as a
signed 16-bit integer. The commands come when `typeString` returns for the
type of `i` and of each of these locals. For a symbol `k` that is not global,
or imported, or in a data segment, no `make_local` is among the commands. -/
theorem GenerateSymbol_locals (t : TDS) (depth i : Nat)
    (hg : isGlobalSymbol t i = true)
    (himport : (t.symbols.getD i Symbol.zero).segment &&& 0x4000 = 0)
    (hcode : (t.executable.segments.getD (t.symbols.getD i Symbol.zero).segment
      Executable.Segment.zero).flags &&& 1 = 0)
    (hrange : ∀ scope ∈ t.scopes, scope.symbol = i → scope.index + scope.count ≤ 65536) :
    (∀ commands, GenerateSymbol t depth i = some commands →
      ∃ typeStr locals,
        typeString t depth (t.symbols.getD i Symbol.zero).type = some typeStr
        ∧ commands
          = Command.make_func (t.symbols.getD i Symbol.zero).segment
              (t.symbols.getD i Symbol.zero).offset
              (cstr (t.names.getD (t.symbols.getD i Symbol.zero).name [])) (cstr typeStr)
            :: locals
        ∧ List.Forall₂
          (fun localIndex command => ∃ localType,
            typeString t depth (t.symbols.getD localIndex Symbol.zero).type = some localType
            ∧ command = Command.make_local
                (toInt16 (t.symbols.getD localIndex Symbol.zero).offset)
                (cstr (t.names.getD (t.symbols.getD localIndex Symbol.zero).name []))
                (cstr localType))
          (specLocalIndices t i) locals)
    ∧ ((typeString t depth (t.symbols.getD i Symbol.zero).type).isSome = true →
        (∀ localIndex ∈ specLocalIndices t i,
          (typeString t depth (t.symbols.getD localIndex Symbol.zero).type).isSome = true) →
        (GenerateSymbol t depth i).isSome = true)
    ∧ (∀ (k : Nat) (commands : List Command),
        GenerateSymbol t depth k = some commands →
        (isGlobalSymbol t k = false
          ∨ (t.symbols.getD k Symbol.zero).segment &&& 0x4000 ≠ 0
          ∨ (t.executable.segments.getD (t.symbols.getD k Symbol.zero).segment
              Executable.Segment.zero).flags &&& 1 ≠ 0) →
        ∀ command ∈ commands, ∀ (offset : Int) (name type : Name),
          command ≠ Command.make_local offset name type) := by
  refine ⟨?_, ?_, ?_⟩
  · intro commands hc
    cases ht : typeString t depth (t.symbols.getD i Symbol.zero).type with
    | none =>
      rw [GenerateSymbol_of_none t depth i hg ht] at hc
      simp at hc
    | some typeStr =>
      rw [GenerateSymbol_of_global t depth i typeStr hg ht, if_neg (fun h => h himport),
        if_neg (fun h => h hcode)] at hc
      cases hs : GenerateScopes t depth i t.scopes with
      | none => rw [hs] at hc; simp at hc
      | some locals =>
        rw [hs] at hc
        simp only [Option.map_some', Option.some.injEq] at hc
        refine ⟨typeStr, locals, rfl, hc.symm, ?_⟩
        rw [← specLocalIndices_eq t i hrange]
        exact GenerateScopes_spec t depth i t.scopes locals hs
  · intro h1 h2
    obtain ⟨typeStr, ht⟩ := Option.isSome_iff_exists.1 h1
    rw [GenerateSymbol_of_global t depth i typeStr hg ht, if_neg (fun h => h himport),
      if_neg (fun h => h hcode)]
    rw [← specLocalIndices_eq t i hrange] at h2
    obtain ⟨locals, hl⟩ := Option.isSome_iff_exists.1 (GenerateScopes_isSome t depth i t.scopes h2)
    rw [hl]
    rfl
  · intro k commands hc hk command hmem offset name type
    cases hgk : isGlobalSymbol t k with
    | false =>
      rw [GenerateSymbol_of_not_global t depth k hgk] at hc
      simp only [Option.some.injEq] at hc
      subst hc
      simp at hmem
    | true =>
      have hk2 : (t.symbols.getD k Symbol.zero).segment &&& 0x4000 ≠ 0
          ∨ (t.executable.segments.getD (t.symbols.getD k Symbol.zero).segment
              Executable.Segment.zero).flags &&& 1 ≠ 0 := by
        rcases hk with h | h
        · rw [hgk] at h
          cases h
        · exact h
      cases ht : typeString t depth (t.symbols.getD k Symbol.zero).type with
      | none =>
        rw [GenerateSymbol_of_none t depth k hgk ht] at hc
        simp at hc
      | some typeStr =>
        rw [GenerateSymbol_of_global t depth k typeStr hgk ht] at hc
        by_cases h1 : (t.symbols.getD k Symbol.zero).segment &&& 0x4000 ≠ 0
        · rw [if_pos h1] at hc
          simp only [Option.some.injEq] at hc
          subst hc
          simp only [List.mem_singleton] at hmem
          subst hmem
          intro hne
          cases hne
        · rw [if_neg h1] at hc
          have h2 := hk2.resolve_left h1
          rw [if_pos h2] at hc
          simp only [Option.some.injEq] at hc
          subst hc
          simp only [List.mem_singleton] at hmem
          subst hmem
          intro hne
          cases hne

set_option maxRecDepth 100000 in
/-- Claim C30 on `localsInput`: after the `make_func` line of `main` comes one
`make_local`, for `loc`, with the offset -2; the symbol with segment and
offset 0 and the global symbol `origin` get none. -/
theorem GenerateSymbol_locals_witness :
    GenerateSymbol localsInput 1 1
      = some [.make_func 2 0x20 (ascii "main") (ascii "function near C returns Unknown"),
          .make_local (-2) (ascii "loc") (ascii "float")]
    ∧ specLocalIndices localsInput 1 = [2]
    ∧ (GenerateSymbol localsInput 1 1).isSome = true :=
  ⟨by decide, by decide,
    (GenerateSymbol_locals localsInput 1 1 (by decide) (by decide) (by decide)
      (by decide)).2.1 (by decide) (by decide)⟩

/-! ## GenerateTypes -/

/-- The members for which a command is emitted are the first members of the list. -/
theorem specEmittedMembers_prefix :
    ∀ members : List Member,
      specEmittedMembers members = members.take (specEmittedMembers members).length := by
  intro members
  induction members with
  | nil => rfl
  | cons member rest ih =>
    simp only [specEmittedMembers]
    split
    · rfl
    · split
      · rfl
      · simp only [List.length_cons, List.take_succ_cons]
        rw [← ih]

/-- The commands of the loop over the members: one for each member of the run,
in order; for an enum an `add_enum_member`, for a struct a `make_struc_member`
with the size of the type of the member, the element size `GetElementSize`
gives, and the name and flags of the type. -/
theorem GenerateTypesMembers_spec (t : TDS) (depth : Nat) (isEnum : Bool) :
    ∀ (members : List Member) (offset : Nat) (commands : List Command),
      GenerateTypesMembers t depth isEnum members offset = some commands →
      List.Forall₂
        (fun member command =>
          (isEnum = true
            ∧ command = Command.add_enum_member (cstr (t.names.getD member.name []))
                member.type)
          ∨ (isEnum = false
            ∧ ∃ memberOffset typeName typeFlags,
                GetTypeName t depth member.type = some typeName
                ∧ GetTypeFlags t depth member.type = some typeFlags
                ∧ command = Command.make_struc_member (cstr (t.names.getD member.name []))
                    memberOffset typeName (t.types.getD member.type TypeRecord.zero).size
                    (GetElementSize t member.type) typeFlags))
        (specEmittedMembers members) commands := by
  intro members
  induction members with
  | nil =>
    intro offset commands h
    simp only [GenerateTypesMembers, Option.some.injEq] at h
    subst h
    exact List.Forall₂.nil
  | cons member rest ih =>
    intro offset commands h
    simp only [GenerateTypesMembers] at h
    simp only [specEmittedMembers]
    by_cases h40 : member.info = 0x40
    · rw [if_pos h40.symm] at h
      rw [if_pos h40]
      simp only [Option.some.injEq] at h
      subst h
      exact List.Forall₂.nil
    · rw [if_neg (fun e => h40 e.symm)] at h
      rw [if_neg h40]
      cases isEnum with
      | true =>
        simp only [if_true] at h
        by_cases h80 : member.info = 0x80
        · rw [if_pos h80.symm] at h
          rw [if_pos h80]
          simp only [Option.some.injEq] at h
          subst h
          exact List.Forall₂.cons (Or.inl ⟨rfl, rfl⟩) List.Forall₂.nil
        · rw [if_neg (fun e => h80 e.symm)] at h
          rw [if_neg h80]
          cases hr : GenerateTypesMembers t depth true rest ((offset + 0) % 65536) with
          | none => rw [hr] at h; simp at h
          | some more =>
            rw [hr] at h
            simp only [Option.map_some', Option.some.injEq] at h
            subst h
            exact List.Forall₂.cons (Or.inl ⟨rfl, rfl⟩) (ih _ _ hr)
      | false =>
        simp only [Bool.false_eq_true, if_false] at h
        cases hn : GetTypeName t depth member.type with
        | none => rw [hn] at h; simp at h
        | some typeName =>
          cases hf : GetTypeFlags t depth member.type with
          | none => rw [hn, hf] at h; simp at h
          | some typeFlags =>
            rw [hn, hf] at h
            simp only at h
            by_cases h80 : member.info = 0x80
            · rw [if_pos h80.symm] at h
              rw [if_pos h80]
              simp only [Option.some.injEq] at h
              subst h
              exact List.Forall₂.cons (Or.inr ⟨rfl, _, _, _, hn, hf, rfl⟩) List.Forall₂.nil
            · rw [if_neg (fun e => h80 e.symm)] at h
              rw [if_neg h80]
              cases hr : GenerateTypesMembers t depth false rest
                  ((offset + (t.types.getD member.type TypeRecord.zero).size) % 65536) with
              | none => rw [hr] at h; simp at h
              | some more =>
                rw [hr] at h
                simp only [Option.map_some', Option.some.injEq] at h
                subst h
                exact List.Forall₂.cons (Or.inr ⟨rfl, _, _, _, hn, hf, rfl⟩) (ih _ _ hr)

/-- The loop over the members returns when `GetTypeName` and `GetTypeFlags`
return for the type of each member of the run; for an enum it always returns. -/
theorem GenerateTypesMembers_isSome (t : TDS) (depth : Nat) (isEnum : Bool) :
    ∀ (members : List Member) (offset : Nat),
      (isEnum = true ∨ ∀ member ∈ specEmittedMembers members,
        (GetTypeName t depth member.type).isSome = true
        ∧ (GetTypeFlags t depth member.type).isSome = true) →
      (GenerateTypesMembers t depth isEnum members offset).isSome = true := by
  intro members
  induction members with
  | nil => intro offset _; rfl
  | cons member rest ih =>
    intro offset h
    simp only [GenerateTypesMembers]
    simp only [specEmittedMembers] at h
    by_cases h40 : member.info = 0x40
    · rw [if_pos h40.symm]
      rfl
    · rw [if_neg (fun e => h40 e.symm)]
      rw [if_neg h40] at h
      cases isEnum with
      | true =>
        simp only [if_true]
        by_cases h80 : member.info = 0x80
        · rw [if_pos h80.symm]
          rfl
        · rw [if_neg (fun e => h80 e.symm)]
          obtain ⟨more, hm⟩ := Option.isSome_iff_exists.1 (ih ((offset + 0) % 65536) (Or.inl rfl))
          rw [hm]
          rfl
      | false =>
        simp only [Bool.false_eq_true, if_false]
        have h' : ∀ m ∈ (if member.info = 0x80 then [member]
            else member :: specEmittedMembers rest),
            (GetTypeName t depth m.type).isSome = true
            ∧ (GetTypeFlags t depth m.type).isSome = true := by
          rcases h with h | h
          · exact absurd h (by decide)
          · exact h
        have hm : member ∈ (if member.info = 0x80 then [member]
            else member :: specEmittedMembers rest) := by
          split <;> exact List.mem_cons_self _ _
        obtain ⟨typeName, hn⟩ := Option.isSome_iff_exists.1 (h' member hm).1
        obtain ⟨typeFlags, hf⟩ := Option.isSome_iff_exists.1 (h' member hm).2
        rw [hn, hf]
        simp only
        by_cases h80 : member.info = 0x80
        · rw [if_pos h80.symm]
          rfl
        · rw [if_neg (fun e => h80 e.symm)]
          rw [if_neg h80] at h'
          obtain ⟨more, hmore⟩ := Option.isSome_iff_exists.1
            (ih ((offset + (t.types.getD member.type TypeRecord.zero).size) % 65536)
              (Or.inr (fun m hmem => h' m (List.mem_cons_of_mem _ hmem))))
          rw [hmore]
          rfl

/-- The offsets of the `make_struc_member` commands: command `k` is for member
`k` of the list, with the sum of the sizes of the types of the members before
it, added to the offset at the start, modulo 2^16. -/
theorem GenerateTypesMembers_offsets (t : TDS) (depth : Nat) :
    ∀ (members : List Member) (offset : Nat) (commands : List Command),
      offset < 65536 →
      GenerateTypesMembers t depth false members offset = some commands →
      ∀ (k : Nat) (command : Command), commands.get? k = some command →
        ∃ member name typeName typeFlags,
          members.get? k = some member
          ∧ command = Command.make_struc_member name
              ((offset + ((members.take k).map
                (fun m => (t.types.getD m.type TypeRecord.zero).size)).sum) % 65536)
              typeName (t.types.getD member.type TypeRecord.zero).size
              (GetElementSize t member.type) typeFlags := by
  intro members
  induction members with
  | nil =>
    intro offset commands _ h k command hk
    simp only [GenerateTypesMembers, Option.some.injEq] at h
    subst h
    simp at hk
  | cons member rest ih =>
    intro offset commands hlt h k command hk
    simp only [GenerateTypesMembers, Bool.false_eq_true, if_false] at h
    by_cases h40 : member.info = 0x40
    · rw [if_pos h40.symm] at h
      simp only [Option.some.injEq] at h
      subst h
      simp at hk
    · rw [if_neg (fun e => h40 e.symm)] at h
      cases hn : GetTypeName t depth member.type with
      | none => rw [hn] at h; simp at h
      | some typeName =>
        cases hf : GetTypeFlags t depth member.type with
        | none => rw [hn, hf] at h; simp at h
        | some typeFlags =>
          rw [hn, hf] at h
          simp only at h
          have hmod : offset % 65536 = offset := Nat.mod_eq_of_lt hlt
          cases k with
          | zero =>
            have hc : commands.get? 0
                = some (Command.make_struc_member (cstr (t.names.getD member.name []))
                    offset typeName (t.types.getD member.type TypeRecord.zero).size
                    (GetElementSize t member.type) typeFlags) := by
              by_cases h80 : member.info = 0x80
              · rw [if_pos h80.symm] at h
                simp only [Option.some.injEq] at h
                rw [← h]
                rfl
              · rw [if_neg (fun e => h80 e.symm)] at h
                cases hr : GenerateTypesMembers t depth false rest
                    ((offset + (t.types.getD member.type TypeRecord.zero).size) % 65536) with
                | none => rw [hr] at h; simp at h
                | some more =>
                  rw [hr] at h
                  simp only [Option.map_some', Option.some.injEq] at h
                  rw [← h]
                  rfl
            rw [hc] at hk
            simp only [Option.some.injEq] at hk
            refine ⟨member, cstr (t.names.getD member.name []), typeName, typeFlags, rfl, ?_⟩
            rw [← hk]
            simp only [List.take_zero, List.map_nil, List.sum_nil, Nat.add_zero, hmod]
          | succ k =>
            by_cases h80 : member.info = 0x80
            · rw [if_pos h80.symm] at h
              simp only [Option.some.injEq] at h
              rw [← h] at hk
              simp at hk
            · rw [if_neg (fun e => h80 e.symm)] at h
              cases hr : GenerateTypesMembers t depth false rest
                  ((offset + (t.types.getD member.type TypeRecord.zero).size) % 65536) with
              | none => rw [hr] at h; simp at h
              | some more =>
                rw [hr] at h
                simp only [Option.map_some', Option.some.injEq] at h
                rw [← h] at hk
                simp only [List.get?_cons_succ] at hk
                obtain ⟨member', name, typeName', typeFlags', hm, hcmd⟩ :=
                  ih _ more (Nat.mod_lt _ (by decide)) hr k command hk
                refine ⟨member', name, typeName', typeFlags', by simpa using hm, ?_⟩
                rw [hcmd]
                simp only [List.take_succ_cons, List.map_cons, List.sum_cons]
                congr 1
                omega

/-- `GenerateType` on a struct or an enum: the command that creates the type,
then the commands of its members, from its start index on. -/
theorem GenerateType_of_kind (t : TDS) (depth : Nat) (i : TypeIterator) (type : TypeRecord)
    (hi : i.type = some type) (hk : type.isStruct = true ∨ type.isEnum = true) :
    GenerateType t depth i
      = (GenerateTypesMembers t depth type.isEnum
          (t.members.drop (if type.isEnum = true then
            (t.types.getD (i.index + 1) TypeRecord.zero).rawWord 2 else type.recordWord))
          0).map
        (fun commands =>
          (if type.isEnum = true then Command.add_enum (cstr (t.names.getD type.name []))
            else Command.make_struc (cstr (t.names.getD type.name []))) :: commands) := by
  have hc : (!type.isStruct && !type.isEnum) = false := by
    rcases hk with h | h <;> simp [h]
  simp only [GenerateType, hi, Option.getD_some, hc, Bool.false_eq_true, if_false]

/-- A struct is not an enum. -/
theorem isEnum_of_isStruct (type : TypeRecord) (h : type.isStruct = true) :
    type.isEnum = false := by
  simp only [TypeRecord.isStruct, TypeRecord.isEnum, decide_eq_true_eq,
    decide_eq_false_iff_not] at h ⊢
  omega

set_option maxRecDepth 100000 in
/-- Claim C23 at the input `memberFlagsInput`: the first member of the struct
`S` has bit 0x40 of `info` set (`info` is 0x41), and yet a command is emitted
for it and for the member after it. -/
theorem GenerateType_flagged_counterexample :
    (memberFlagsInput.members.getD 1 Member.zero).info &&& 0x40 = 0x40
    ∧ GenerateType memberFlagsInput 1 { types := memberFlagsInput.types, index := 3 }
      = some [.make_struc (ascii "S"),
          .make_struc_member (ascii "x") 0 (ascii "int16_t") 2 (-1) (ascii "FF_WORD"),
          .make_struc_member (ascii "s") 2 (ascii "char") 256 1 (ascii "FF_ASCI")] := by
  decide

/-- Claim C23, with the tests the code makes (`info` equal to 0x40, `info`
equal to 0x80): for a struct or an enum the iterator presents, whose member
start index is `recordWord` for a struct and word 2 of the following slot for
an enum, the commands `GenerateTypes` emits are the command that creates the
type and then one command for each member of the run `specEmittedMembers`
gives, in order: the members from the start index up to, and without, the
first one whose `info` is 0x40, or up to, and with, the first one whose
`info` is 0x80, or up to the end of the member table. The commands come when
`GetTypeName` and `GetTypeFlags` return for the types of these members (for an
enum, always). -/
theorem GenerateType_members (t : TDS) (depth : Nat) (i : TypeIterator) (type : TypeRecord)
    (hi : i.type = some type) (hk : type.isStruct = true ∨ type.isEnum = true) :
    (∀ commands, GenerateType t depth i = some commands →
      ∃ rest,
        commands
          = (if type.isEnum = true then Command.add_enum (cstr (t.names.getD type.name []))
              else Command.make_struc (cstr (t.names.getD type.name []))) :: rest
        ∧ List.Forall₂
          (fun member command =>
            (type.isEnum = true
              ∧ command = Command.add_enum_member (cstr (t.names.getD member.name []))
                  member.type)
            ∨ (type.isEnum = false
              ∧ ∃ memberOffset typeName typeFlags,
                  command = Command.make_struc_member (cstr (t.names.getD member.name []))
                    memberOffset typeName (t.types.getD member.type TypeRecord.zero).size
                    (GetElementSize t member.type) typeFlags))
          (specEmittedMembers (t.members.drop (if type.isEnum = true then
            (t.types.getD (i.index + 1) TypeRecord.zero).rawWord 2 else type.recordWord)))
          rest)
    ∧ ((type.isEnum = true
        ∨ ∀ member ∈ specEmittedMembers (t.members.drop (if type.isEnum = true then
            (t.types.getD (i.index + 1) TypeRecord.zero).rawWord 2 else type.recordWord)),
          (GetTypeName t depth member.type).isSome = true
          ∧ (GetTypeFlags t depth member.type).isSome = true) →
      (GenerateType t depth i).isSome = true) := by
  rw [GenerateType_of_kind t depth i type hi hk]
  constructor
  · intro commands h
    cases hm : GenerateTypesMembers t depth type.isEnum
        (t.members.drop (if type.isEnum = true then
          (t.types.getD (i.index + 1) TypeRecord.zero).rawWord 2 else type.recordWord)) 0 with
    | none => rw [hm] at h; simp at h
    | some rest =>
      rw [hm] at h
      simp only [Option.map_some', Option.some.injEq] at h
      refine ⟨rest, h.symm, ?_⟩
      refine List.Forall₂.imp ?_ (GenerateTypesMembers_spec t depth _ _ _ _ hm)
      intro member command hr
      rcases hr with hr | ⟨he, o, n, f, -, -, hc⟩
      · exact Or.inl hr
      · exact Or.inr ⟨he, o, n, f, hc⟩
  · intro h
    obtain ⟨rest, hr⟩ := Option.isSome_iff_exists.1
      (GenerateTypesMembers_isSome t depth type.isEnum _ 0 h)
    rw [hr]
    rfl

set_option maxRecDepth 100000 in
/-- Claim C23 on a struct `P` with the members `x` (info 0), `y` (info 0x80) and
`z`: commands for `x` and `y` only. -/
theorem GenerateType_members_witness :
    GenerateType
        { TDS.init with
          types := [TypeRecord.zero, ⟨5, 0, 2, 0, 0⟩, ⟨0, 0x80, 0xFFFF, 0x7F, 0⟩,
            ⟨0x1E, 1, 4, 0, 1⟩],
          members := [Member.zero, ⟨0, 2, 1⟩, ⟨0x80, 3, 1⟩, ⟨0, 4, 1⟩],
          names := [[], ascii "P", ascii "x", ascii "y", ascii "z"] }
        1 { types := [TypeRecord.zero, ⟨5, 0, 2, 0, 0⟩, ⟨0, 0x80, 0xFFFF, 0x7F, 0⟩,
            ⟨0x1E, 1, 4, 0, 1⟩], index := 3 }
      = some [.make_struc (ascii "P"),
          .make_struc_member (ascii "x") 0 (ascii "int16_t") 2 (-1) (ascii "FF_WORD"),
          .make_struc_member (ascii "y") 2 (ascii "int16_t") 2 (-1) (ascii "FF_WORD")]
    ∧ (GenerateType
        { TDS.init with
          types := [TypeRecord.zero, ⟨5, 0, 2, 0, 0⟩, ⟨0, 0x80, 0xFFFF, 0x7F, 0⟩,
            ⟨0x1E, 1, 4, 0, 1⟩],
          members := [Member.zero, ⟨0, 2, 1⟩, ⟨0x80, 3, 1⟩, ⟨0, 4, 1⟩],
          names := [[], ascii "P", ascii "x", ascii "y", ascii "z"] }
        1 { types := [TypeRecord.zero, ⟨5, 0, 2, 0, 0⟩, ⟨0, 0x80, 0xFFFF, 0x7F, 0⟩,
            ⟨0x1E, 1, 4, 0, 1⟩], index := 3 }).isSome = true :=
  ⟨by decide,
    (GenerateType_members
      { TDS.init with
        types := [TypeRecord.zero, ⟨5, 0, 2, 0, 0⟩, ⟨0, 0x80, 0xFFFF, 0x7F, 0⟩,
          ⟨0x1E, 1, 4, 0, 1⟩],
        members := [Member.zero, ⟨0, 2, 1⟩, ⟨0x80, 3, 1⟩, ⟨0, 4, 1⟩],
        names := [[], ascii "P", ascii "x", ascii "y", ascii "z"] }
      1 { types := [TypeRecord.zero, ⟨5, 0, 2, 0, 0⟩, ⟨0, 0x80, 0xFFFF, 0x7F, 0⟩,
          ⟨0x1E, 1, 4, 0, 1⟩], index := 3 }
      ⟨0x1E, 1, 4, 0, 1⟩ (by decide) (by decide)).2 (by decide)⟩

set_option maxRecDepth 100000 in
/-- Claim C24 at the input `memberFlagsInput`: the type of the member `s` is a
`PASCAL string` (kind 3), not an array, and the element size of its
`make_struc_member` command is 1. -/
theorem GetElementSize_pascalString_counterexample :
    (memberFlagsInput.types.getD (memberFlagsInput.members.getD 2 Member.zero).type
      TypeRecord.zero).isArray = false
    ∧ GenerateTypesMembers memberFlagsInput 1 false (memberFlagsInput.members.drop 2) 0
      = some [.make_struc_member (ascii "s") 0 (ascii "char") 256 1 (ascii "FF_ASCI")] := by
  decide

/-- Claim C24, with the case of the `PASCAL string`: `GetElementSize` gives 1
for a type of kind 3, for an array (kind 0x1C) the size of the type whose
index is word 0 of the slot that follows the array, and -1 for every other
type; and the element size of the `make_struc_member` command of a member is
what `GetElementSize` gives for the type of the member. -/
theorem GetElementSize_contract (t : TDS) :
    (∀ typeIndex,
      GetElementSize t typeIndex
        = if (t.types.getD typeIndex TypeRecord.zero).id = 3 then 1
          else if (t.types.getD typeIndex TypeRecord.zero).isArray = true then
            (((t.types.getD ((t.types.getD (typeIndex + 1) TypeRecord.zero).rawWord 0)
              TypeRecord.zero).size : Nat) : Int)
          else -1)
    ∧ (∀ (depth : Nat) (members : List Member) (offset : Nat) (commands : List Command),
        GenerateTypesMembers t depth false members offset = some commands →
        List.Forall₂
          (fun member command =>
            ∃ memberName memberOffset typeName memberSize typeFlags,
              command = Command.make_struc_member memberName memberOffset typeName memberSize
                (GetElementSize t member.type) typeFlags)
          (specEmittedMembers members) commands) := by
  constructor
  · intro typeIndex
    unfold GetElementSize TypeRecord.isArray
    simp only [decide_eq_true_eq]
    by_cases h3 : (t.types.getD typeIndex TypeRecord.zero).id = 3
    · rw [if_pos h3, if_pos h3]
    · rw [if_neg h3, if_neg h3]
      by_cases ha : (t.types.getD typeIndex TypeRecord.zero).id = 0x1C
      · rw [if_pos ha, if_pos ha.symm]
      · rw [if_neg ha, if_neg (fun e => ha e.symm)]
  · intro depth members offset commands h
    refine List.Forall₂.imp ?_ (GenerateTypesMembers_spec t depth false members offset commands h)
    intro member command hr
    rcases hr with ⟨he, -⟩ | ⟨-, o, n, f, -, -, hc⟩
    · exact absurd he (by decide)
    · exact ⟨_, o, n, _, f, hc⟩

set_option maxRecDepth 100000 in
/-- Claim C24 on a struct member whose type is an array of `signed int`: the
element size is 2, the size of the type at index 1, which word 0 of the slot
after the array names. -/
theorem GetElementSize_contract_witness :
    GetElementSize
        { TDS.init with
          types := [TypeRecord.zero, ⟨5, 0, 2, 0, 0⟩, ⟨0, 0x80, 0xFFFF, 0x7F, 0⟩,
            ⟨0x1C, 0, 20, 0, 1⟩, ⟨1, 0, 0, 0, 0⟩] }
        3 = 2
    ∧ GetElementSize
        { TDS.init with
          types := [TypeRecord.zero, ⟨5, 0, 2, 0, 0⟩, ⟨0, 0x80, 0xFFFF, 0x7F, 0⟩,
            ⟨0x1C, 0, 20, 0, 1⟩, ⟨1, 0, 0, 0, 0⟩] }
        1 = -1 :=
  ⟨((GetElementSize_contract
      { TDS.init with
        types := [TypeRecord.zero, ⟨5, 0, 2, 0, 0⟩, ⟨0, 0x80, 0xFFFF, 0x7F, 0⟩,
          ⟨0x1C, 0, 20, 0, 1⟩, ⟨1, 0, 0, 0, 0⟩] }).1 3).trans (by decide),
    by decide⟩

/-- Claim C29: for a struct the iterator presents, command `k` after the
`make_struc` command is the `make_struc_member` of the member at index
`recordWord + k`; its offset argument is the sum of the sizes of the types of
the `k` members before it, modulo 2^16 (0 for the first one), and its size
argument is the size of the type of the member. -/
theorem GenerateType_offsets (t : TDS) (depth : Nat) (i : TypeIterator) (type : TypeRecord)
    (hi : i.type = some type) (hs : type.isStruct = true) :
    ∀ commands, GenerateType t depth i = some commands →
      commands.get? 0 = some (Command.make_struc (cstr (t.names.getD type.name [])))
      ∧ ∀ (k : Nat) (command : Command), commands.get? (k + 1) = some command →
        ∃ member name typeName typeFlags,
          t.members.get? (type.recordWord + k) = some member
          ∧ command = Command.make_struc_member name
              ((((t.members.drop type.recordWord).take k).map
                (fun m => (t.types.getD m.type TypeRecord.zero).size)).sum % 65536)
              typeName (t.types.getD member.type TypeRecord.zero).size
              (GetElementSize t member.type) typeFlags := by
  intro commands h
  have he := isEnum_of_isStruct type hs
  rw [GenerateType_of_kind t depth i type hi (Or.inl hs), he] at h
  simp only [Bool.false_eq_true, if_false] at h
  cases hm : GenerateTypesMembers t depth false (t.members.drop type.recordWord) 0 with
  | none => rw [hm] at h; simp at h
  | some rest =>
    rw [hm] at h
    simp only [Option.map_some', Option.some.injEq] at h
    subst h
    refine ⟨rfl, ?_⟩
    intro k command hk
    simp only [List.get?_cons_succ] at hk
    obtain ⟨member, name, typeName, typeFlags, hmem, hcmd⟩ :=
      GenerateTypesMembers_offsets t depth _ 0 rest (by decide) hm k command hk
    refine ⟨member, name, typeName, typeFlags, ?_, ?_⟩
    · rw [← hmem]
      simp only [List.get?_eq_getElem?, List.getElem?_drop]
    · rw [hcmd, Nat.zero_add]

set_option maxRecDepth 100000 in
/-- Claim C29 on `offsetsInput`: the offsets are 0, 2, 40002 and 4466, the sum
70002 of the three sizes before the last member modulo 2^16. -/
theorem GenerateType_offsets_witness :
    GenerateType offsetsInput 1 { types := offsetsInput.types, index := 4 }
      = some [.make_struc (ascii "P"),
          .make_struc_member (ascii "a") 0 (ascii "float") 2 (-1) (ascii "0"),
          .make_struc_member (ascii "b") 2 (ascii "float") 40000 (-1) (ascii "0"),
          .make_struc_member (ascii "c") 40002 (ascii "float") 30000 (-1) (ascii "0"),
          .make_struc_member (ascii "d") 4466 (ascii "float") 2 (-1) (ascii "0")]
    ∧ ∃ member name typeName typeFlags,
        offsetsInput.members.get? (1 + 3) = some member
        ∧ Command.make_struc_member (ascii "d") 4466 (ascii "float") 2 (-1) (ascii "0")
          = Command.make_struc_member name
              ((((offsetsInput.members.drop 1).take 3).map
                (fun m => (offsetsInput.types.getD m.type TypeRecord.zero).size)).sum % 65536)
              typeName (offsetsInput.types.getD member.type TypeRecord.zero).size
              (GetElementSize offsetsInput member.type) typeFlags :=
  ⟨by decide,
    (GenerateType_offsets offsetsInput 1 { types := offsetsInput.types, index := 4 }
      ⟨0x1E, 1, 4, 0, 1⟩ (by decide) (by decide)
      [.make_struc (ascii "P"),
        .make_struc_member (ascii "a") 0 (ascii "float") 2 (-1) (ascii "0"),
        .make_struc_member (ascii "b") 2 (ascii "float") 40000 (-1) (ascii "0"),
        .make_struc_member (ascii "c") 40002 (ascii "float") 30000 (-1) (ascii "0"),
        .make_struc_member (ascii "d") 4466 (ascii "float") 2 (-1) (ascii "0")]
      (by decide)).2 3 _ (by decide)⟩

/-! ## GenerateSources -/

/-- Once set, `startOffset` is kept. -/
theorem foldl_startOffset_of_ne (offsets : List Nat) (start : Nat) (h : start ≠ 65535) :
    offsets.foldl (fun s o => if 65535 = s then o else s) start = start := by
  induction offsets with
  | nil => rfl
  | cons o rest ih =>
    rw [List.foldl_cons, if_neg (fun e => h e.symm)]
    exact ih

/-- The loop over the lines, when `j` can reach the bound without wrapping
around: a `make_src_line` for each line index from `j` up to the bound;
`startOffset` becomes the first offset seen while it is 0xFFFF, `endOffset`
the last offset seen. -/
theorem GenerateLines_spec (t : TDS) (codeSegment : Nat) :
    ∀ (n fuel j startOffset endOffset : Nat), n < fuel → j + n ≤ 65535 →
      GenerateLines t codeSegment (j + n) fuel j startOffset endOffset
        = some ((List.range' j n).map (fun k =>
              Command.make_src_line codeSegment (t.lines.getD k Line.zero).offset
                (t.lines.getD k Line.zero).line),
            ((List.range' j n).map (fun k => (t.lines.getD k Line.zero).offset)).foldl
              (fun s o => if 65535 = s then o else s) startOffset,
            (((List.range' j n).map (fun k => (t.lines.getD k Line.zero).offset)).getLast?).getD
              endOffset) := by
  intro n
  induction n with
  | zero =>
    intro fuel j startOffset endOffset hf _
    obtain ⟨fuel, rfl⟩ : ∃ m, fuel = m + 1 := ⟨fuel - 1, by omega⟩
    simp only [GenerateLines, Nat.add_zero, Nat.lt_irrefl, if_false]
    rfl
  | succ n ih =>
    intro fuel j startOffset endOffset hf hb
    obtain ⟨fuel, rfl⟩ : ∃ m, fuel = m + 1 := ⟨fuel - 1, by omega⟩
    have hlt : j < j + (n + 1) := by omega
    have hmod : (j + 1) % 65536 = j + 1 := Nat.mod_eq_of_lt (by omega)
    have hbound : j + (n + 1) = (j + 1) + n := by omega
    simp only [GenerateLines, hlt, if_true, hmod]
    rw [hbound, ih fuel (j + 1) _ _ (by omega) (by omega)]
    simp only [Option.map_some', List.range'_succ, List.map_cons, List.foldl_cons]
    congr 2
    congr 1
    cases n with
    | zero => rfl
    | succ n =>
      simp only [List.range'_succ, List.map_cons, List.getLast?_cons_cons]
      cases h : (List.map (fun k => (t.lines.getD k Line.zero).offset)
        (List.range' (j + 1 + 1) n)).getLast? <;> simp [List.getLast?_cons, h]

/-- The minimum of a list whose elements are all at least `a`, taken from `a`. -/
theorem foldl_min_of_le (offsets : List Nat) (a : Nat) (h : ∀ x ∈ offsets, a ≤ x) :
    offsets.foldl min a = a := by
  induction offsets with
  | nil => rfl
  | cons o rest ih =>
    rw [List.foldl_cons, Nat.min_eq_left (h o (List.mem_cons_self _ _))]
    exact ih (fun x hx => h x (List.mem_cons_of_mem _ hx))

/-- The maximum of a list in non-decreasing order is its last element. -/
theorem foldl_max_of_sorted :
    ∀ (offsets : List Nat) (a : Nat), offsets.Pairwise (fun x y => x ≤ y) →
      (∀ x ∈ offsets, a ≤ x) → offsets.foldl max a = (offsets.getLast?).getD a := by
  intro offsets
  induction offsets with
  | nil => intro a _ _; rfl
  | cons o rest ih =>
    intro a hs ha
    rw [List.foldl_cons, Nat.max_eq_right (ha o (List.mem_cons_self _ _))]
    rw [ih o (List.pairwise_cons.1 hs).2 (fun x hx => (List.pairwise_cons.1 hs).1 x hx)]
    cases rest with
    | nil => rfl
    | cons r rest' =>
      rw [List.getLast?_cons_cons]
      cases hl : (r :: rest').getLast? with
      | none => simp at hl
      | some x => rfl

/-- The offsets of a slice of lines: the first and the last one. -/
theorem slice_offsets (t : TDS) (j n : Nat) :
    ((List.range' j (n + 1)).map (fun k => (t.lines.getD k Line.zero).offset)).head?
      = some (t.lines.getD j Line.zero).offset
    ∧ ((List.range' j (n + 1)).map (fun k => (t.lines.getD k Line.zero).offset)).getLast?
      = some (t.lines.getD (j + n) Line.zero).offset := by
  constructor
  · rfl
  · rw [List.getLast?_eq_getElem?, List.length_map, List.length_range', Nat.add_sub_cancel,
      List.getElem?_map, List.getElem?_range' _ _ (Nat.lt_succ_self n)]
    simp only [Nat.one_mul, Option.map_some']

set_option maxRecDepth 100000 in
/-- Claim C25 at the input `unsortedLinesInput`: the slice is lines 1 and 2,
with the offsets 5 and 3. The `make_src_file` command has the start offset 5,
the offset of the first line, and the end offset 4, one more than the offset
of the last line; the minimum is 3 and one more than the maximum is 6. -/
theorem GenerateSource_unsorted_counterexample :
    GenerateSource unsortedLinesInput (unsortedLinesInput.correlations.getD 1 Correlation.zero)
      = some [.make_src_line 2 5 10, .make_src_line 2 3 11,
          .make_src_file 2 5 4 (ascii "A.PAS"), .text (ascii "\n")]
    ∧ specMinOffset [5, 3] = 3 ∧ specMaxOffset [5, 3] + 1 = 6 := by
  decide

/-- The records of an in-range slice of the line table. -/
theorem slice_eq_map_range (t : TDS) :
    ∀ (n j : Nat), j + n ≤ t.lines.length →
      (t.lines.drop j).take n = (List.range' j n).map (fun k => t.lines.getD k Line.zero) := by
  intro n
  induction n with
  | zero => intro j _; rfl
  | succ n ih =>
    intro j h
    have hj : j < t.lines.length := by omega
    rw [List.drop_eq_getElem_cons hj, List.take_succ_cons, ih (j + 1) (by omega),
      List.range'_succ, List.map_cons, List.getD_eq_getElem _ _ hj]

/-- Claim C25, with the offsets the code takes: for a correlation record whose
slice of the line table is not empty, lies inside the table and ends before
index 65536 (so that the 16-bit loop variable reaches the bound), and whose
first and last lines have offsets other than 0xFFFF, `GenerateSources` emits
one `make_src_line` for each line of the slice, in order, and then a
`make_src_file` whose start offset is the offset of the first line of the
slice and whose end offset is one more than the offset of the last line. When
the offsets do not decrease along the slice, these are the minimum of the
offsets and one more than their maximum. -/
theorem GenerateSource_contract (t : TDS) (corr : Correlation)
    (hcount : 0 < corr.lineCount)
    (hrange : corr.lineIndex + corr.lineCount ≤ t.lines.length)
    (hbound : corr.lineIndex + corr.lineCount < 65536)
    (hfirst : (t.lines.getD corr.lineIndex Line.zero).offset ≠ 65535)
    (hlast : (t.lines.getD (corr.lineIndex + corr.lineCount - 1) Line.zero).offset < 65535) :
    (∃ (codeSegment : Nat) (filename : Name),
      GenerateSource t corr
        = some (((t.lines.drop corr.lineIndex).take corr.lineCount).map (fun line =>
              Command.make_src_line codeSegment line.offset line.line)
            ++ [.make_src_file codeSegment
                  (t.lines.getD corr.lineIndex Line.zero).offset
                  ((t.lines.getD (corr.lineIndex + corr.lineCount - 1) Line.zero).offset + 1)
                  filename,
                .text (ascii "\n")]))
    ∧ ((((t.lines.drop corr.lineIndex).take corr.lineCount).map
          (fun line => line.offset)).Pairwise (fun x y => x ≤ y) →
        (t.lines.getD corr.lineIndex Line.zero).offset
          = specMinOffset (((t.lines.drop corr.lineIndex).take corr.lineCount).map
              (fun line => line.offset))
        ∧ (t.lines.getD (corr.lineIndex + corr.lineCount - 1) Line.zero).offset
          = specMaxOffset (((t.lines.drop corr.lineIndex).take corr.lineCount).map
              (fun line => line.offset))) := by
  obtain ⟨n, hn⟩ : ∃ n, corr.lineCount = n + 1 := ⟨corr.lineCount - 1, by omega⟩
  have hlast' : corr.lineIndex + corr.lineCount - 1 = corr.lineIndex + n := by omega
  obtain ⟨hhead, hgl⟩ := slice_offsets t corr.lineIndex n
  rw [slice_eq_map_range t corr.lineCount corr.lineIndex hrange]
  simp only [List.map_map]
  have hcomp : ((fun line : Line => line.offset) ∘ fun k => t.lines.getD k Line.zero)
      = fun k => (t.lines.getD k Line.zero).offset := rfl
  rw [hcomp]
  constructor
  · refine ⟨(t.segments.getD corr.segmentIndex Segment.zero).codeSegment,
      cstr (EraseSubString (ascii "\\BP\\PROPAS\\")
        (EraseSubString (ascii "CHASM.SRC\\")
          (t.names.getD (t.sources.getD corr.fileIndex Source.zero).name []))), ?_⟩
    unfold GenerateSource
    simp only
    rw [GenerateLines_spec t _ corr.lineCount 65536 corr.lineIndex 65535 0 (by omega)
      (by omega)]
    simp only
    rw [hlast'] at hlast ⊢
    rw [hn, hgl]
    have hstart : ((List.range' corr.lineIndex (n + 1)).map
        (fun k => (t.lines.getD k Line.zero).offset)).foldl
          (fun s o => if 65535 = s then o else s) 65535
        = (t.lines.getD corr.lineIndex Line.zero).offset := by
      rw [List.range'_succ, List.map_cons, List.foldl_cons, if_pos rfl]
      exact foldl_startOffset_of_ne _ _ hfirst
    rw [hstart]
    simp only [Option.getD_some, if_pos hlast]
    rfl
  · intro hs
    rw [hlast', hn] at *
    constructor
    · unfold specMinOffset
      rw [List.range'_succ, List.map_cons, List.headD_cons, List.foldl_cons, Nat.min_self]
      rw [List.range'_succ, List.map_cons] at hs
      exact (foldl_min_of_le _ _ (List.pairwise_cons.1 hs).1).symm
    · unfold specMaxOffset
      rw [foldl_max_of_sorted _ 0 hs (fun _ _ => Nat.zero_le _), hgl]
      rfl

set_option maxRecDepth 100000 in
/-- Claim C25 on a table of three lines and the slice of lines 1 and 2, with
the offsets 3 and 5: the start offset is 3 and the end offset 6. -/
theorem GenerateSource_contract_witness :
    ∃ (codeSegment : Nat) (filename : Name),
      GenerateSource { unsortedLinesInput with lines := [Line.zero, ⟨10, 3⟩, ⟨11, 5⟩] }
          ⟨1, 1, 1, 2⟩
        = some [.make_src_line codeSegment 3 10, .make_src_line codeSegment 5 11,
          .make_src_file codeSegment 3 6 filename, .text (ascii "\n")] :=
  (GenerateSource_contract { unsortedLinesInput with lines := [Line.zero, ⟨10, 3⟩, ⟨11, 5⟩] }
    ⟨1, 1, 1, 2⟩ (by decide) (by decide) (by decide) (by decide) (by decide)).1

/-! ## The end-to-end scenario -/

set_option maxRecDepth 100000 in
/-- C26: `TDS::load` on `pointInput` (one data segment, the types `int16_t` with
its extended slot and the struct `Point` of size 4, the members `x` and `y` of
which only `y` carries 0x80, the global symbol `origin` of the struct type in
segment 1) returns true with the model `pointModel`, and for every prelude and
every depth bound of at least 1 the generator returns the script listed here:
it holds exactly one `make_struc`, for `Point`, exactly two
`make_struc_member`, with offsets 0 and 2 in this order, and exactly one
`make_data`, which names `origin` and whose type `struct 'Point' ` contains
`struct 'Point'`. -/
theorem pointInput_script (tds2ida_py : Name) (depth : Nat) :
    load TDS.init (some (File.ofBytes pointInput)) = some (true, pointModel)
    ∧ pointModel.executable.segments.map (fun s => s.flags &&& 1) = [0, 1]
    ∧ ∃ commands, GenerateScript tds2ida_py pointModel (depth + 1) = some commands
      ∧ commands = [Command.text tds2ida_py] ++ GeneratePS10Specifics
          ++ [Command.make_struc (ascii "Point"),
              Command.make_struc_member (ascii "x") 0 (ascii "int16_t") 2 (-1) (ascii "FF_WORD"),
              Command.make_struc_member (ascii "y") 2 (ascii "int16_t") 2 (-1) (ascii "FF_WORD"),
              Command.text (ascii "\n"),
              Command.make_data 1 0x10 (ascii "origin") (ascii "struct 'Point' ") 4,
              Command.text (ascii "\n"),
              Command.text (ascii "refresh_idaview_anyway()\n")]
      ∧ commands.filterMap
            (fun c => match c with
              | Command.make_struc typeName => some typeName
              | _ => none)
          = [ascii "Point"]
      ∧ commands.filterMap
            (fun c => match c with
              | Command.make_struc_member _ offset _ _ _ _ => some offset
              | _ => none)
          = [0, 2]
      ∧ commands.filterMap
            (fun c => match c with
              | Command.make_data _ _ name type _ => some (name, type)
              | _ => none)
          = [(ascii "origin", ascii "struct 'Point' ")]
      ∧ List.IsInfix (ascii "struct 'Point'") (ascii "struct 'Point' ")
      ∧ printScript commands
          = tds2ida_py ++ printScript GeneratePS10Specifics
            ++ ascii "struc = make_struc(\"Point\")\n"
            ++ ascii "make_struc_member(struc, 'x', 0, 'int16_t', 2, -1, FF_WORD)\n"
            ++ ascii "make_struc_member(struc, 'y', 2, 'int16_t', 2, -1, FF_WORD)\n"
            ++ ascii "\n"
            ++ ascii "make_data(1, 0x0010, \"origin\", \"struct 'Point' \", 4)\n"
            ++ ascii "\n"
            ++ ascii "refresh_idaview_anyway()\n" := by
  refine ⟨by decide, by decide, _, ?_, rfl, ?_, ?_, ?_, ⟨[], [32], by decide⟩, ?_⟩
  · rfl
  · rfl
  · rfl
  · rfl
  · simp only [printScript.eq_1 (_ ++ _), List.flatMap_append, List.flatMap_cons, List.flatMap_nil,
      Command.print, List.append_assoc, List.append_nil]
    refine congrArg (fun rest => tds2ida_py ++ rest) ?_
    refine congrArg (fun rest => printScript GeneratePS10Specifics ++ rest) ?_
    decide

/-! ## The layout of the tables -/

/-- A call that follows successful calls runs on the state they left. -/
theorem andThen_true (t : TDS) (f : File) (next : TDS → File → Bool × TDS × File) :
    andThen (true, t, f) next = next t f := rfl

/-- The table `symbols` after its load, when the declared records fit in what is left. -/
theorem loadSymbols_of_le (t : TDS) (f : File)
    (h : t.header.symbolCount * 9 ≤ f.data.length - f.pos) :
    loadSymbols t f
      = (true,
          { t with symbols := t.symbols ++ specTable Symbol f.data f.pos t.header.symbolCount },
          { f with pos := f.pos + t.header.symbolCount * 9 }) := by
  have hc : Entry.count Symbol t.header * Entry.size Symbol = t.header.symbolCount * 9 := rfl
  have h1 := loadTable_of_le t.header f t.symbols (by rw [hc]; exact h)
  unfold loadSymbols
  rw [h1]
  simp only [specTable, List.append_assoc, List.singleton_append]
  rfl

/-- The table `modules` after its load, when the declared records fit in what is left. -/
theorem loadModules_of_le (t : TDS) (f : File)
    (h : t.header.moduleCount * 16 ≤ f.data.length - f.pos) :
    loadModules t f
      = (true,
          { t with modules := t.modules ++ specTable Module f.data f.pos t.header.moduleCount },
          { f with pos := f.pos + t.header.moduleCount * 16 }) := by
  have hc : Entry.count Module t.header * Entry.size Module = t.header.moduleCount * 16 := rfl
  have h1 := loadTable_of_le t.header f t.modules (by rw [hc]; exact h)
  unfold loadModules
  rw [h1]
  simp only [specTable, List.append_assoc, List.singleton_append]
  rfl

/-- The table `sources` after its load, when the declared records fit in what is left. -/
theorem loadSources_of_le (t : TDS) (f : File)
    (h : t.header.sourceCount * 6 ≤ f.data.length - f.pos) :
    loadSources t f
      = (true,
          { t with sources := t.sources ++ specTable Source f.data f.pos t.header.sourceCount },
          { f with pos := f.pos + t.header.sourceCount * 6 }) := by
  have hc : Entry.count Source t.header * Entry.size Source = t.header.sourceCount * 6 := rfl
  have h1 := loadTable_of_le t.header f t.sources (by rw [hc]; exact h)
  unfold loadSources
  rw [h1]
  simp only [specTable, List.append_assoc, List.singleton_append]
  rfl

/-- The table `lines` after its load, when the declared records fit in what is left. -/
theorem loadLines_of_le (t : TDS) (f : File)
    (h : t.header.lineCount * 4 ≤ f.data.length - f.pos) :
    loadLines t f
      = (true,
          { t with lines := t.lines ++ specTable Line f.data f.pos t.header.lineCount },
          { f with pos := f.pos + t.header.lineCount * 4 }) := by
  have hc : Entry.count Line t.header * Entry.size Line = t.header.lineCount * 4 := rfl
  have h1 := loadTable_of_le t.header f t.lines (by rw [hc]; exact h)
  unfold loadLines
  rw [h1]
  simp only [specTable, List.append_assoc, List.singleton_append]
  rfl

/-- The table `scopes` after its load, when the declared records fit in what is left. -/
theorem loadScopes_of_le (t : TDS) (f : File)
    (h : t.header.scopeCount * 12 ≤ f.data.length - f.pos) :
    loadScopes t f
      = (true,
          { t with scopes := t.scopes ++ specTable Scope f.data f.pos t.header.scopeCount },
          { f with pos := f.pos + t.header.scopeCount * 12 }) := by
  have hc : Entry.count Scope t.header * Entry.size Scope = t.header.scopeCount * 12 := rfl
  have h1 := loadTable_of_le t.header f t.scopes (by rw [hc]; exact h)
  unfold loadScopes
  rw [h1]
  simp only [specTable, List.append_assoc, List.singleton_append]
  rfl

/-- The table `segments` after its load, when the declared records fit in what is left. -/
theorem loadSegments_of_le (t : TDS) (f : File)
    (h : t.header.segmentCount * 16 ≤ f.data.length - f.pos) :
    loadSegments t f
      = (true,
          { t with segments := t.segments ++ specTable Segment f.data f.pos t.header.segmentCount },
          { f with pos := f.pos + t.header.segmentCount * 16 }) := by
  have hc : Entry.count Segment t.header * Entry.size Segment = t.header.segmentCount * 16 := rfl
  have h1 := loadTable_of_le t.header f t.segments (by rw [hc]; exact h)
  unfold loadSegments
  rw [h1]
  simp only [specTable, List.append_assoc, List.singleton_append]
  rfl

/-- The table `correlations` after its load, when the declared records fit in what is left. -/
theorem loadCorrelations_of_le (t : TDS) (f : File)
    (h : t.header.correlationCount * 8 ≤ f.data.length - f.pos) :
    loadCorrelations t f
      = (true,
          { t with correlations := t.correlations ++ specTable Correlation f.data f.pos t.header.correlationCount },
          { f with pos := f.pos + t.header.correlationCount * 8 }) := by
  have hc : Entry.count Correlation t.header * Entry.size Correlation = t.header.correlationCount * 8 := rfl
  have h1 := loadTable_of_le t.header f t.correlations (by rw [hc]; exact h)
  unfold loadCorrelations
  rw [h1]
  simp only [specTable, List.append_assoc, List.singleton_append]
  rfl

/-- The table `types` after its load, when the declared records fit in what is left. -/
theorem loadTypes_of_le (t : TDS) (f : File)
    (h : t.header.typeCount * 8 ≤ f.data.length - f.pos) :
    loadTypes t f
      = (true,
          { t with types := t.types ++ specTable TypeRecord f.data f.pos t.header.typeCount },
          { f with pos := f.pos + t.header.typeCount * 8 }) := by
  have hc : Entry.count TypeRecord t.header * Entry.size TypeRecord = t.header.typeCount * 8 := rfl
  have h1 := loadTable_of_le t.header f t.types (by rw [hc]; exact h)
  unfold loadTypes
  rw [h1]
  simp only [specTable, List.append_assoc, List.singleton_append]
  rfl

/-- The table `members` after its load, when the declared records fit in what is left. -/
theorem loadMembers_of_le (t : TDS) (f : File)
    (h : t.header.memberCount * 5 ≤ f.data.length - f.pos) :
    loadMembers t f
      = (true,
          { t with members := t.members ++ specTable Member f.data f.pos t.header.memberCount },
          { f with pos := f.pos + t.header.memberCount * 5 }) := by
  have hc : Entry.count Member t.header * Entry.size Member = t.header.memberCount * 5 := rfl
  have h1 := loadTable_of_le t.header f t.members (by rw [hc]; exact h)
  unfold loadMembers
  rw [h1]
  simp only [specTable, List.append_assoc, List.singleton_append]
  rfl

/-- The table `scopeClasses` after its load, when the declared records fit in what is left. -/
theorem loadScopeClasses_of_le (t : TDS) (f : File)
    (h : t.header.scopeClassCount * 4 ≤ f.data.length - f.pos) :
    loadScopeClasses t f
      = (true,
          { t with scopeClasses := t.scopeClasses ++ specTable ScopeClass f.data f.pos t.header.scopeClassCount },
          { f with pos := f.pos + t.header.scopeClassCount * 4 }) := by
  have hc : Entry.count ScopeClass t.header * Entry.size ScopeClass = t.header.scopeClassCount * 4 := rfl
  have h1 := loadTable_of_le t.header f t.scopeClasses (by rw [hc]; exact h)
  unfold loadScopeClasses
  rw [h1]
  simp only [specTable, List.append_assoc, List.singleton_append]
  rfl

/-- The table `moduleClasses` after its load, when the declared records fit in what is left. -/
theorem loadModuleClasses_of_le (t : TDS) (f : File)
    (h : t.header.moduleClassCount * 8 ≤ f.data.length - f.pos) :
    loadModuleClasses t f
      = (true,
          { t with moduleClasses := t.moduleClasses ++ specTable ModuleClass f.data f.pos t.header.moduleClassCount },
          { f with pos := f.pos + t.header.moduleClassCount * 8 }) := by
  have hc : Entry.count ModuleClass t.header * Entry.size ModuleClass = t.header.moduleClassCount * 8 := rfl
  have h1 := loadTable_of_le t.header f t.moduleClasses (by rw [hc]; exact h)
  unfold loadModuleClasses
  rw [h1]
  simp only [specTable, List.append_assoc, List.singleton_append]
  rfl

/-- The eleven tables after the chain of loads, when all declared records fit:
each table is decoded where the table before it ended. -/
theorem loadTables_of_le (t : TDS) (f : File)
    (h : t.header.recordBytes ≤ f.data.length - f.pos) :
    loadTables t f
      = (true,
          { t with
            symbols := t.symbols ++ specTable Symbol f.data f.pos t.header.symbolCount,
            modules := t.modules ++ specTable Module f.data
              (f.pos + t.header.symbolCount * 9) t.header.moduleCount,
            sources := t.sources ++ specTable Source f.data
              (f.pos + t.header.symbolCount * 9 + t.header.moduleCount * 16)
              t.header.sourceCount,
            lines := t.lines ++ specTable Line f.data
              (f.pos + t.header.symbolCount * 9 + t.header.moduleCount * 16
                + t.header.sourceCount * 6)
              t.header.lineCount,
            scopes := t.scopes ++ specTable Scope f.data
              (f.pos + t.header.symbolCount * 9 + t.header.moduleCount * 16
                + t.header.sourceCount * 6 + t.header.lineCount * 4)
              t.header.scopeCount,
            segments := t.segments ++ specTable Segment f.data
              (f.pos + t.header.symbolCount * 9 + t.header.moduleCount * 16
                + t.header.sourceCount * 6 + t.header.lineCount * 4 + t.header.scopeCount * 12)
              t.header.segmentCount,
            correlations := t.correlations ++ specTable Correlation f.data
              (f.pos + t.header.symbolCount * 9 + t.header.moduleCount * 16
                + t.header.sourceCount * 6 + t.header.lineCount * 4 + t.header.scopeCount * 12
                + t.header.segmentCount * 16)
              t.header.correlationCount,
            types := t.types ++ specTable TypeRecord f.data
              (f.pos + t.header.symbolCount * 9 + t.header.moduleCount * 16
                + t.header.sourceCount * 6 + t.header.lineCount * 4 + t.header.scopeCount * 12
                + t.header.segmentCount * 16 + t.header.correlationCount * 8)
              t.header.typeCount,
            members := t.members ++ specTable Member f.data
              (f.pos + t.header.symbolCount * 9 + t.header.moduleCount * 16
                + t.header.sourceCount * 6 + t.header.lineCount * 4 + t.header.scopeCount * 12
                + t.header.segmentCount * 16 + t.header.correlationCount * 8
                + t.header.typeCount * 8)
              t.header.memberCount,
            scopeClasses := t.scopeClasses ++ specTable ScopeClass f.data
              (f.pos + t.header.symbolCount * 9 + t.header.moduleCount * 16
                + t.header.sourceCount * 6 + t.header.lineCount * 4 + t.header.scopeCount * 12
                + t.header.segmentCount * 16 + t.header.correlationCount * 8
                + t.header.typeCount * 8 + t.header.memberCount * 5)
              t.header.scopeClassCount,
            moduleClasses := t.moduleClasses ++ specTable ModuleClass f.data
              (f.pos + t.header.symbolCount * 9 + t.header.moduleCount * 16
                + t.header.sourceCount * 6 + t.header.lineCount * 4 + t.header.scopeCount * 12
                + t.header.segmentCount * 16 + t.header.correlationCount * 8
                + t.header.typeCount * 8 + t.header.memberCount * 5
                + t.header.scopeClassCount * 4)
              t.header.moduleClassCount },
          { f with pos := f.pos + t.header.symbolCount * 9 + t.header.moduleCount * 16
              + t.header.sourceCount * 6 + t.header.lineCount * 4 + t.header.scopeCount * 12
              + t.header.segmentCount * 16 + t.header.correlationCount * 8
              + t.header.typeCount * 8 + t.header.memberCount * 5
              + t.header.scopeClassCount * 4 + t.header.moduleClassCount * 8 }) := by
  unfold Header.recordBytes at h
  unfold loadTables
  simp only []
  rw [loadSymbols_of_le t f (by omega), andThen_true]
  rw [loadModules_of_le _ _ (by simp only []; omega), andThen_true]
  rw [loadSources_of_le _ _ (by simp only []; omega), andThen_true]
  rw [loadLines_of_le _ _ (by simp only []; omega), andThen_true]
  rw [loadScopes_of_le _ _ (by simp only []; omega), andThen_true]
  rw [loadSegments_of_le _ _ (by simp only []; omega), andThen_true]
  rw [loadCorrelations_of_le _ _ (by simp only []; omega), andThen_true]
  rw [loadTypes_of_le _ _ (by simp only []; omega), andThen_true]
  rw [loadMembers_of_le _ _ (by simp only []; omega), andThen_true]
  rw [loadScopeClasses_of_le _ _ (by simp only []; omega), andThen_true]
  rw [loadModuleClasses_of_le _ _ (by simp only []; omega)]

/-- Result of `loadDebugInfo` when it succeeds: the stream is left right after
the 16 bytes of the signature. -/
theorem loadDebugInfo_of_true (e : Executable) (f : File)
    (h : (Executable.loadDebugInfo e f).1 = true) :
    0 ≤ Executable.tdsOffset e.newHeader.sectorAlignmentShift e.segments
    ∧ Executable.loadDebugInfo e f
      = (true, e,
          { f with
            pos := (Executable.tdsOffset e.newHeader.sectorAlignmentShift e.segments).toNat + 16,
            eof := false }) := by
  obtain ⟨h0, h1, h2⟩ := (Executable.loadDebugInfo_fst e f).mp h
  refine ⟨h0, ?_⟩
  unfold Executable.loadDebugInfo
  simp only
  generalize Executable.tdsOffset e.newHeader.sectorAlignmentShift e.segments = t at h0 h1 h2 ⊢
  have hs : File.seek f t Origin.SEEK_SET = (true, { f with pos := t.toNat, eof := false }) := by
    unfold File.seek
    have : ¬ t < 0 := by omega
    simp [this]
  rw [hs]
  simp only
  have hlen : Executable.DEBUG_INFO_HEADER.length = 16 := rfl
  rw [hlen, File.read_of_le _ _ (by simp only []; omega)]
  simp only [h2, ne_eq, not_true_eq_false, if_false]

/-- Result of `Executable::load` when it succeeds: the stream is left 16 bytes
after `tdsOffset`, which is not negative. -/
theorem executable_load_of_true (e : Executable) (f : File)
    (h : (Executable.load e f).1 = true) :
    0 ≤ Executable.tdsOffset (Executable.load e f).2.1.newHeader.sectorAlignmentShift
        (Executable.load e f).2.1.segments
    ∧ (Executable.load e f).2.2
      = { data := f.data,
          pos := (Executable.tdsOffset (Executable.load e f).2.1.newHeader.sectorAlignmentShift
            (Executable.load e f).2.1.segments).toNat + 16,
          eof := false } := by
  obtain ⟨a1, a2, a3, a4⟩ := (Executable.load_fst e f).mp h
  have b1 := (Executable.loadOldHeader_fst e f).mp a1
  have r1 := Executable.loadOldHeader_true e f b1.1 b1.2
  rw [r1] at a2 a3 a4
  simp only at a2 a3 a4
  have b2 := (Executable.loadNewHeader_fst _ _).mp a2
  have r2 := Executable.loadNewHeader_true _ _ b2.1 b2.2
  rw [r2] at a3 a4
  simp only at a3 a4
  have b3 := (Executable.loadSegments_fst _ _).mp a3
  have r3 := Executable.loadSegments_true _ _ b3
  rw [r3] at a4
  simp only at a4
  obtain ⟨c0, r4⟩ := loadDebugInfo_of_true _ _ a4
  unfold Executable.load
  rw [r1]
  simp only
  rw [r2]
  simp only
  rw [r3]
  simp only
  rw [r4]
  exact ⟨c0, rfl⟩

/-- The four passes in a row keep the frame. -/
theorem postProcess_frame (t u : TDS) (h : postProcess t = some u) : PassFrame t u := by
  unfold postProcess at h
  cases h1 : makeGlobalSymbolsUnique (renameReservedWords t) with
  | none => rw [h1] at h; simp at h
  | some a =>
    rw [h1] at h
    simp only [Option.some_bind] at h
    cases h2 : assignMissingTypeNames a with
    | none => rw [h2] at h; simp at h
    | some b =>
      rw [h2] at h
      simp only [Option.some_bind] at h
      exact (renameReservedWords_frame t).trans
        ((makeGlobalSymbolsUniqueLoop_frame _ _ _ _ _ h1).trans
          ((assignMissingTypeNamesLoop_frame _ _ _ _ h2).trans
            ((replaceFirst_frame b).trans (applyPS10SpecificLoop_frame _ _ _ _ h))))

/-- The first part of `TDS::load` when `Executable::load` succeeded and left the
stream `f1`, and the header `hd` and the records it declares are readable: the
header is read at the position of `f1`, each table is loaded where the one
before it ended, and the stream is left `dataCount` bytes after the last. -/
theorem loadStructure_layout (t : TDS) (file : File) (e : Executable) (f1 : File)
    (hd : Header) (hhd : hd = Header.decode ((f1.data.drop f1.pos).take Header.size))
    (hl : t.executable.load file = (true, e, f1))
    (h64 : Header.size ≤ f1.data.length - f1.pos)
    (hrec : hd.recordBytes ≤ f1.data.length - (f1.pos + Header.size)) :
    loadStructure t (some file)
      = ({ t with
            executable := e,
            header := hd,
            symbols := t.symbols ++ specTable Symbol f1.data (f1.pos + Header.size) hd.symbolCount,
            modules := t.modules ++ specTable Module f1.data
              (f1.pos + Header.size + hd.symbolCount * 9) hd.moduleCount,
            sources := t.sources ++ specTable Source f1.data
              (f1.pos + Header.size + hd.symbolCount * 9 + hd.moduleCount * 16) hd.sourceCount,
            lines := t.lines ++ specTable Line f1.data
              (f1.pos + Header.size + hd.symbolCount * 9 + hd.moduleCount * 16
                + hd.sourceCount * 6)
              hd.lineCount,
            scopes := t.scopes ++ specTable Scope f1.data
              (f1.pos + Header.size + hd.symbolCount * 9 + hd.moduleCount * 16
                + hd.sourceCount * 6 + hd.lineCount * 4)
              hd.scopeCount,
            segments := t.segments ++ specTable Segment f1.data
              (f1.pos + Header.size + hd.symbolCount * 9 + hd.moduleCount * 16
                + hd.sourceCount * 6 + hd.lineCount * 4 + hd.scopeCount * 12)
              hd.segmentCount,
            correlations := t.correlations ++ specTable Correlation f1.data
              (f1.pos + Header.size + hd.symbolCount * 9 + hd.moduleCount * 16
                + hd.sourceCount * 6 + hd.lineCount * 4 + hd.scopeCount * 12
                + hd.segmentCount * 16)
              hd.correlationCount,
            types := t.types ++ specTable TypeRecord f1.data
              (f1.pos + Header.size + hd.symbolCount * 9 + hd.moduleCount * 16
                + hd.sourceCount * 6 + hd.lineCount * 4 + hd.scopeCount * 12
                + hd.segmentCount * 16 + hd.correlationCount * 8)
              hd.typeCount,
            members := t.members ++ specTable Member f1.data
              (f1.pos + Header.size + hd.symbolCount * 9 + hd.moduleCount * 16
                + hd.sourceCount * 6 + hd.lineCount * 4 + hd.scopeCount * 12
                + hd.segmentCount * 16 + hd.correlationCount * 8 + hd.typeCount * 8)
              hd.memberCount,
            scopeClasses := t.scopeClasses ++ specTable ScopeClass f1.data
              (f1.pos + Header.size + hd.symbolCount * 9 + hd.moduleCount * 16
                + hd.sourceCount * 6 + hd.lineCount * 4 + hd.scopeCount * 12
                + hd.segmentCount * 16 + hd.correlationCount * 8 + hd.typeCount * 8
                + hd.memberCount * 5)
              hd.scopeClassCount,
            moduleClasses := t.moduleClasses ++ specTable ModuleClass f1.data
              (f1.pos + Header.size + hd.symbolCount * 9 + hd.moduleCount * 16
                + hd.sourceCount * 6 + hd.lineCount * 4 + hd.scopeCount * 12
                + hd.segmentCount * 16 + hd.correlationCount * 8 + hd.typeCount * 8
                + hd.memberCount * 5 + hd.scopeClassCount * 4)
              hd.moduleClassCount },
          some
            { data := f1.data,
              pos := f1.pos + Header.size + hd.symbolCount * 9 + hd.moduleCount * 16
                + hd.sourceCount * 6 + hd.lineCount * 4 + hd.scopeCount * 12
                + hd.segmentCount * 16 + hd.correlationCount * 8 + hd.typeCount * 8
                + hd.memberCount * 5 + hd.scopeClassCount * 4 + hd.moduleClassCount * 8
                + hd.dataCount,
              eof := false }) := by
  simp only [loadStructure]
  rw [hl]
  simp only
  rw [File.read_of_le _ _ h64]
  simp only
  rw [← hhd]
  rw [loadTables_of_le { t with executable := e, header := hd }
    { f1 with pos := f1.pos + Header.size } hrec]
  simp only
  rw [File.seek_cur_natCast]

/-- C28: when `TDS::load` returns true on a byte stream, with `offset` the
value of `tdsOffset`, the TDS header is decoded from the 64 bytes at
`offset + 16`, and the eleven tables were loaded as the zeroed record 0
followed by records decoded from consecutive byte ranges: the symbols start at
`offset + 16 + 64`, and the modules, sources, lines, scopes, segments,
correlations, types, members, scope classes and module classes each start where
the table before ends, the records taking 9, 16, 6, 4, 12, 16, 8, 8, 5, 4 and
8 bytes; the last record ends inside the stream; `loadNames` is called with the
stream `dataCount` bytes after that end, so that the pool is read from there;
and the passes that give the returned model keep the tables but for the name
fields. -/
theorem load_layout (data : List Byte) (u : TDS)
    (h : load TDS.init (some (File.ofBytes data)) = some (true, u)) :
    ∃ (v : TDS) (offset : Nat),
      v.executable = (Executable.load Executable.init (File.ofBytes data)).2.1
      ∧ (offset : Int)
        = Executable.tdsOffset v.executable.newHeader.sectorAlignmentShift v.executable.segments
      ∧ v.header = Header.decode ((data.drop (offset + 16)).take 64)
      ∧ [Entry.size Symbol, Entry.size Module, Entry.size Source, Entry.size Line,
          Entry.size Scope, Entry.size Segment, Entry.size Correlation, Entry.size TypeRecord,
          Entry.size Member, Entry.size ScopeClass, Entry.size ModuleClass]
        = [9, 16, 6, 4, 12, 16, 8, 8, 5, 4, 8]
      ∧ (let header := v.header
        let symbols := offset + 16 + 64
        let modules := symbols + header.symbolCount * 9
        let sources := modules + header.moduleCount * 16
        let lines := sources + header.sourceCount * 6
        let scopes := lines + header.lineCount * 4
        let segments := scopes + header.scopeCount * 12
        let correlations := segments + header.segmentCount * 16
        let types := correlations + header.correlationCount * 8
        let members := types + header.typeCount * 8
        let scopeClasses := members + header.memberCount * 5
        let moduleClasses := scopeClasses + header.scopeClassCount * 4
        let finish := moduleClasses + header.moduleClassCount * 8
        finish ≤ data.length
        ∧ v.symbols = specTable Symbol data symbols header.symbolCount
        ∧ v.modules = specTable Module data modules header.moduleCount
        ∧ v.sources = specTable Source data sources header.sourceCount
        ∧ v.lines = specTable Line data lines header.lineCount
        ∧ v.scopes = specTable Scope data scopes header.scopeCount
        ∧ v.segments = specTable Segment data segments header.segmentCount
        ∧ v.correlations = specTable Correlation data correlations header.correlationCount
        ∧ v.types = specTable TypeRecord data types header.typeCount
        ∧ v.members = specTable Member data members header.memberCount
        ∧ v.scopeClasses = specTable ScopeClass data scopeClasses header.scopeClassCount
        ∧ v.moduleClasses = specTable ModuleClass data moduleClasses header.moduleClassCount
        ∧ v.names = []
        ∧ loadStructure TDS.init (some (File.ofBytes data))
          = (v, some { data := data, pos := finish + header.dataCount, eof := false })
        ∧ postProcess { v with names := specNamePool (data.drop (finish + header.dataCount)) }
          = some u
        ∧ PassFrame { v with names := specNamePool (data.drop (finish + header.dataCount)) }
            u) := by
  have hs := load_eq_true_imp _ _ u h
  obtain ⟨e1, e2, e3⟩ := (loadStructure_isSome_iff TDS.init (File.ofBytes data)).mp hs
  obtain ⟨p0, p1⟩ := executable_load_of_true TDS.init.executable (File.ofBytes data) e1
  have hinit : TDS.init.executable = Executable.init := rfl
  rw [hinit] at e1 e2 e3 p0 p1
  rcases hr : Executable.load Executable.init (File.ofBytes data) with ⟨b, e, f1⟩
  rw [hr] at e1 e2 e3 p0 p1
  simp only at e1 e2 e3 p0 p1
  subst e1
  subst p1
  simp only [File.ofBytes] at e2 e3
  have hpos := Int.toNat_of_nonneg p0
  generalize (Executable.tdsOffset e.newHeader.sectorAlignmentShift e.segments).toNat = T at *
  obtain ⟨hd, hhd⟩ : ∃ hd, hd = Header.decode ((data.drop (T + 16)).take Header.size) :=
    ⟨_, rfl⟩
  rw [← hhd] at e3
  have hls := loadStructure_layout TDS.init (File.ofBytes data) e _ hd hhd hr e2 e3
  have hpost : ∀ (v : TDS) (pos : Nat), v.names = [] →
      loadStructure TDS.init (some (File.ofBytes data))
        = (v, some { data := data, pos := pos, eof := false }) →
      postProcess { v with names := specNamePool (data.drop pos) } = some u := by
    intro v pos hn hv
    unfold load at h
    rw [hv] at h
    simp only at h
    have hspec := loadNames_spec v data pos
    rw [hn, List.nil_append] at hspec
    cases hl : loadNames v { data := data, pos := pos, eof := false } with
    | none => rw [hl] at hspec; simp at hspec
    | some r =>
      rcases r with ⟨t1, f1⟩
      rw [hl] at hspec h
      simp only [Option.map_some', Option.some.injEq] at hspec
      subst hspec
      simp only at h
      cases hp : postProcess { v with names := specNamePool (data.drop pos) } with
      | none => rw [hp] at h; simp at h
      | some w =>
        rw [hp] at h
        simp only [Option.some.injEq, Prod.mk.injEq, true_and] at h
        rw [h]
  have hu := hpost _ _ rfl hls
  simp only [Header.recordBytes, Header.size] at e2 e3
  refine ⟨(loadStructure TDS.init (some (File.ofBytes data))).1, T, ?_⟩
  rw [hls]
  refine ⟨rfl, hpos, hhd, rfl, ?_⟩
  intro header symbols modules sources lines scopes segments correlations types members
    scopeClasses moduleClasses finish
  refine ⟨?_, rfl, rfl, rfl, rfl, rfl, rfl, rfl, rfl, rfl, rfl, rfl, rfl, rfl, hu,
    postProcess_frame _ _ hu⟩
  show T + 16 + 64 + hd.symbolCount * 9 + hd.moduleCount * 16 + hd.sourceCount * 6
    + hd.lineCount * 4 + hd.scopeCount * 12 + hd.segmentCount * 16
    + hd.correlationCount * 8 + hd.typeCount * 8 + hd.memberCount * 5
    + hd.scopeClassCount * 4 + hd.moduleClassCount * 8 ≤ data.length
  omega

set_option maxRecDepth 100000 in
/-- C28 at `layoutInput`, whose sector alignment shift is 39 and whose header
declares a record in every table and three data bytes: the load returns true
with the model `layoutModel`, the tables lie one after the other from byte
136 + 16 + 64 = 216 on, and the name pool is read from byte 3 after the end of
the module-class record. -/
theorem load_layout_witness :
    load TDS.init (some (File.ofBytes layoutInput)) = some (true, layoutModel)
    ∧ ∃ (v : TDS) (offset : Nat),
      v.executable = (Executable.load Executable.init (File.ofBytes layoutInput)).2.1
      ∧ (offset : Int)
        = Executable.tdsOffset v.executable.newHeader.sectorAlignmentShift v.executable.segments
      ∧ v.header = Header.decode ((layoutInput.drop (offset + 16)).take 64)
      ∧ [Entry.size Symbol, Entry.size Module, Entry.size Source, Entry.size Line,
          Entry.size Scope, Entry.size Segment, Entry.size Correlation, Entry.size TypeRecord,
          Entry.size Member, Entry.size ScopeClass, Entry.size ModuleClass]
        = [9, 16, 6, 4, 12, 16, 8, 8, 5, 4, 8]
      ∧ (let header := v.header
        let symbols := offset + 16 + 64
        let modules := symbols + header.symbolCount * 9
        let sources := modules + header.moduleCount * 16
        let lines := sources + header.sourceCount * 6
        let scopes := lines + header.lineCount * 4
        let segments := scopes + header.scopeCount * 12
        let correlations := segments + header.segmentCount * 16
        let types := correlations + header.correlationCount * 8
        let members := types + header.typeCount * 8
        let scopeClasses := members + header.memberCount * 5
        let moduleClasses := scopeClasses + header.scopeClassCount * 4
        let finish := moduleClasses + header.moduleClassCount * 8
        finish ≤ layoutInput.length
        ∧ v.symbols = specTable Symbol layoutInput symbols header.symbolCount
        ∧ v.modules = specTable Module layoutInput modules header.moduleCount
        ∧ v.sources = specTable Source layoutInput sources header.sourceCount
        ∧ v.lines = specTable Line layoutInput lines header.lineCount
        ∧ v.scopes = specTable Scope layoutInput scopes header.scopeCount
        ∧ v.segments = specTable Segment layoutInput segments header.segmentCount
        ∧ v.correlations = specTable Correlation layoutInput correlations header.correlationCount
        ∧ v.types = specTable TypeRecord layoutInput types header.typeCount
        ∧ v.members = specTable Member layoutInput members header.memberCount
        ∧ v.scopeClasses = specTable ScopeClass layoutInput scopeClasses header.scopeClassCount
        ∧ v.moduleClasses = specTable ModuleClass layoutInput moduleClasses header.moduleClassCount
        ∧ v.names = []
        ∧ loadStructure TDS.init (some (File.ofBytes layoutInput))
          = (v, some { data := layoutInput, pos := finish + header.dataCount, eof := false })
        ∧ postProcess { v with names := specNamePool (layoutInput.drop (finish + header.dataCount)) }
          = some layoutModel
        ∧ PassFrame { v with names := specNamePool (layoutInput.drop (finish + header.dataCount)) }
            layoutModel) :=
  ⟨by decide, load_layout layoutInput layoutModel (by decide)⟩

/-! ## The kinds without additional text -/

/-- Claim C32: for a type of the table whose kind is none of 3, 4, 5, 6, 8, 9,
10, 22, 25, 35 and 53 and whose name index is in the pool, `typeString` gives
the text of the kind, followed by the name between ` '` and `' ` when the name
is not empty, and nothing else; the text of the kind is `Bad Type ID` for a
kind of 64 or more and the entry of the kind in the table `TYPE_NAMES`, which
has 64 entries, otherwise. -/
theorem typeString_other_kinds (t : TDS) (depth typeIndex : Nat) (type : TypeRecord)
    (name : Name)
    (ht : t.types.get? typeIndex = some type) (hn : t.names.get? type.name = some name)
    (hk : type.id ∉ [3, 4, 5, 6, 8, 9, 10, 22, 25, 35, 53]) :
    typeString t (depth + 1) typeIndex
      = some ((if 64 ≤ type.id then ascii "Bad Type ID" else TYPE_NAMES.getD type.id [])
          ++ (if name = [] then [] else ascii " '" ++ name ++ ascii "' "))
    ∧ TYPE_NAMES.length = 64 := by
  have hlen : TYPE_NAMES.length = 64 := by decide
  refine ⟨?_, hlen⟩
  simp only [List.mem_cons, List.mem_singleton, List.not_mem_nil, or_false, not_or] at hk
  obtain ⟨k3, k4, k5, k6, k8, k9, k10, k22, k25, k35, k53⟩ := hk
  rw [typeString_succ t depth typeIndex type name ht hn]
  have hr : ¬ (type.id = 4 ∨ type.id = 5 ∨ type.id = 6 ∨ type.id = 8 ∨ type.id = 9
      ∨ type.id = 10) := by omega
  have hp : ¬ (type.id = 22 ∨ type.id = 25 ∨ type.id = 53) := by omega
  rw [if_neg k3, if_neg hr, if_neg hp, if_neg k35]
  unfold GetTypeString
  rw [hlen]
  by_cases h64 : 64 ≤ type.id
  · rw [if_neg (by omega), if_pos h64]
  · rw [if_pos (by omega), if_neg h64]

/-- Claim C32 on an anonymous struct, on a union named `U` and on a type of the
kind 200. -/
theorem typeString_other_kinds_witness :
    typeString
        { TDS.init with
          names := [[], ascii "U"],
          types := [TypeRecord.zero, ⟨0x1E, 0, 4, 0, 0⟩, ⟨0x1F, 1, 4, 0, 0⟩, ⟨200, 1, 0, 7, 9⟩] }
        1 2
      = some (ascii "union 'U' ")
    ∧ typeString
        { TDS.init with
          names := [[], ascii "U"],
          types := [TypeRecord.zero, ⟨0x1E, 0, 4, 0, 0⟩, ⟨0x1F, 1, 4, 0, 0⟩, ⟨200, 1, 0, 7, 9⟩] }
        1 3
      = some (ascii "Bad Type ID 'U' ")
    ∧ typeString
        { TDS.init with
          names := [[], ascii "U"],
          types := [TypeRecord.zero, ⟨0x1E, 0, 4, 0, 0⟩, ⟨0x1F, 1, 4, 0, 0⟩, ⟨200, 1, 0, 7, 9⟩] }
        1 1
      = some (ascii "struct") :=
  ⟨((typeString_other_kinds
      { TDS.init with
        names := [[], ascii "U"],
        types := [TypeRecord.zero, ⟨0x1E, 0, 4, 0, 0⟩, ⟨0x1F, 1, 4, 0, 0⟩, ⟨200, 1, 0, 7, 9⟩] }
      0 2 ⟨0x1F, 1, 4, 0, 0⟩ (ascii "U") (by decide) (by decide) (by decide)).1).trans
      (by decide),
    by decide, by decide⟩

/-! ## Inputs on which the code goes wrong -/

/-- The loop over the lines does not end when its bound is 65536 or more: the
16-bit variable `j` stays below the bound. -/
theorem GenerateLines_never_ends (t : TDS) (codeSegment bound : Nat) (hb : 65536 ≤ bound) :
    ∀ (fuel j startOffset endOffset : Nat), j < 65536 →
      GenerateLines t codeSegment bound fuel j startOffset endOffset = none := by
  intro fuel
  induction fuel with
  | zero => intro j startOffset endOffset _; rfl
  | succ fuel ih =>
    intro j startOffset endOffset hj
    have hlt : j < bound := by omega
    simp only [GenerateLines, hlt, if_true]
    rw [ih _ _ _ (Nat.mod_lt _ (by decide))]
    rfl

/-- The body of the loop over the correlations does not return for a
correlation whose slice ends at line 65535. -/
theorem GenerateSource_never_ends (t : TDS) (corr : Correlation)
    (hj : corr.lineIndex < 65536) (hb : 65536 ≤ corr.lineIndex + corr.lineCount) :
    GenerateSource t corr = none := by
  unfold GenerateSource
  simp only []
  rw [GenerateLines_never_ends t _ _ hb 65536 corr.lineIndex 65535 0 hj]

/-- Claim C34 at the input `fullLinesInput`: the line table has 65536 entries
and the slice of correlation 1 is the line 65535, inside the table; the bound
of the loop is 65536, above every value of the 16-bit `j`, so the loop over
the lines does not end, whatever the fuel, and `GenerateSources` does not
return. -/
theorem GenerateSources_fullLines_never_ends :
    fullLinesInput.lines.length = 65536
    ∧ (fullLinesInput.correlations.getD 1 Correlation.zero).lineIndex
        + (fullLinesInput.correlations.getD 1 Correlation.zero).lineCount
      ≤ fullLinesInput.lines.length
    ∧ (∀ fuel j startOffset endOffset, j < 65536 →
        GenerateLines fullLinesInput 0 65536 fuel j startOffset endOffset = none)
    ∧ GenerateSource fullLinesInput (fullLinesInput.correlations.getD 1 Correlation.zero) = none
    ∧ GenerateSources fullLinesInput = none := by
  have hlen : fullLinesInput.lines.length = 65536 := by
    show (List.replicate 65536 Line.zero).length = 65536
    rw [List.length_replicate]
  have hc : fullLinesInput.correlations.getD 1 Correlation.zero = ⟨0, 0, 65535, 1⟩ := rfl
  have hs : GenerateSource fullLinesInput ⟨0, 0, 65535, 1⟩ = none :=
    GenerateSource_never_ends _ _ (by show (65535 : Nat) < 65536; decide)
      (by show (65536 : Nat) ≤ 65535 + 1; decide)
  refine ⟨hlen, ?_, GenerateLines_never_ends fullLinesInput 0 65536 (by decide), ?_, ?_⟩
  · rw [hlen, hc]
    show (65535 : Nat) + 1 ≤ 65536
    decide
  · rw [hc]
    exact hs
  · have hd : fullLinesInput.correlations.drop 1 = [⟨0, 0, 65535, 1⟩] := rfl
    unfold GenerateSources
    rw [hd]
    rw [GenerateSourcesLoop, hs]

set_option maxRecDepth 100000 in
/-- Claim C35 at the input `strayInput`: `TDS::load` returns true; in the model
it leaves, symbol 1 (offset 1, segment 5) is global, because its offset is not
0 and is below the 5 names of the pool, and bit 0x4000 of its segment is
clear; the executable segment table has 2 entries, so the segment 5 is outside
of it. -/
theorem isGlobalSymbol_strayInput_out_of_range :
    (load TDS.init (some (File.ofBytes strayInput))).map (fun r => r.1) = some true
    ∧ (load TDS.init (some (File.ofBytes strayInput))).map
        (fun r => r.2.symbols.getD 1 Symbol.zero) = some ⟨4, 3, 1, 5, 0⟩
    ∧ (load TDS.init (some (File.ofBytes strayInput))).map
        (fun r => (r.2.names.length, r.2.executable.segments.length)) = some (5, 2)
    ∧ (load TDS.init (some (File.ofBytes strayInput))).map
        (fun r => isGlobalSymbol r.2 1) = some true
    ∧ (load TDS.init (some (File.ofBytes strayInput))).map
        (fun r => (r.2.symbols.getD 1 Symbol.zero).segment &&& 0x4000) = some 0
    ∧ (load TDS.init (some (File.ofBytes strayInput))).map
        (fun r => decide ((r.2.symbols.getD 1 Symbol.zero).segment
          < r.2.executable.segments.length)) = some false := by
  refine ⟨by decide, by decide, by decide, by decide, by decide, by decide⟩

/-- Claim C36: `renameReservedWords` keeps the classification, which does not
look at the text of a name. The other three passes do not. At the input
`reclassifiedInput` symbol 1 is not global before `makeGlobalSymbolsUnique`
and global after it, and at the input `appendingInput` symbol 1 is not global
before `assignMissingTypeNames` and before `applyPS10Specific`, and global
after each of them: the symbol is unchanged, the pool has grown from 2 to 3
entries, and the offset 2 of the symbol is compared with the size of the
pool. -/
theorem isGlobalSymbol_not_stable :
    (∀ t i, isGlobalSymbol (renameReservedWords t) i = isGlobalSymbol t i)
    ∧ isGlobalSymbol reclassifiedInput 1 = false
    ∧ (makeGlobalSymbolsUnique reclassifiedInput).map
        (fun u => (isGlobalSymbol u 1, u.symbols.getD 1 Symbol.zero, u.names.length))
      = some (true, reclassifiedInput.symbols.getD 1 Symbol.zero, 3)
    ∧ isGlobalSymbol appendingInput 1 = false
    ∧ (assignMissingTypeNames appendingInput).map
        (fun u => (isGlobalSymbol u 1, u.symbols.getD 1 Symbol.zero, u.names.length))
      = some (true, appendingInput.symbols.getD 1 Symbol.zero, 3)
    ∧ (applyPS10Specific appendingInput).map
        (fun u => (isGlobalSymbol u 1, u.symbols.getD 1 Symbol.zero, u.names.length))
      = some (true, appendingInput.symbols.getD 1 Symbol.zero, 3) := by
  refine ⟨?_, by decide, by decide, by decide, by decide, by decide⟩
  intro t i
  simp only [isGlobalSymbol, renameReservedWords, List.length_map]

set_option maxRecDepth 100000 in
/-- Claim C37 at the input `longNameModel`, the model the passes get from
`longNameInput`, whose name indices are in range: the two symbols are global
and share a name of 255 letters. Every candidate the 256-byte buffer holds
for the second symbol is the name itself, which is in the set of the names
seen, so the search for an unused candidate does not end, whatever the fuel,
and `makeGlobalSymbolsUnique` does not return. -/
theorem makeGlobalSymbolsUnique_longNameModel_never_ends :
    (loadStructure TDS.init (some (File.ofBytes longNameInput))).1.symbols
      = longNameModel.symbols
    ∧ (loadStructure TDS.init (some (File.ofBytes longNameInput))).1.executable.segments
      = longNameModel.executable.segments
    ∧ specNamePool (longNameInput.drop 234) = longNameModel.names
    ∧ (∀ symbol ∈ longNameModel.symbols, symbol.name < longNameModel.names.length)
    ∧ (∀ counter, formatNewName (List.replicate 255 0x41) counter = List.replicate 255 0x41)
    ∧ (∀ fuel counter,
        findNewName [List.replicate 255 0x41] (List.replicate 255 0x41) fuel counter = none)
    ∧ makeGlobalSymbolsUnique longNameModel = none := by
  have hf : ∀ counter,
      formatNewName (List.replicate 255 0x41) counter = List.replicate 255 0x41 :=
    fun counter => formatNewName_long _ counter
      (fun h => absurd (List.eq_of_mem_replicate h) (by decide)) (List.length_replicate _ _)
  refine ⟨by decide, by decide, by decide, by decide, hf, ?_, ?_⟩
  · intro fuel counter
    apply findNewName_none
    intro c
    rw [hf c]
    exact List.mem_singleton_self _
  · exact makeGlobalSymbolsUnique_longName longNameModel rfl rfl rfl

/-! ## The stored name index -/

/-- `makeGlobalSymbolsUnique` on two global symbols of segment 1 that share the
name `n`, when the first candidate differs from `n` and the vector `names`
has room: the second symbol gets the size of the pool modulo 65536 as name
index, and the candidate is appended. -/
theorem makeGlobalSymbolsUnique_pair (t : TDS) (n : Name)
    (hs : t.symbols = [Symbol.zero, ⟨1, 0, 0, 1, 0⟩, ⟨1, 0, 0, 1, 0⟩])
    (he : t.executable.segments.length = 2)
    (hn : t.names.getD 1 [] = n) (hf : formatNewName n 0 ≠ n)
    (hroom : ¬ t.names.length = namesCapacity t) :
    makeGlobalSymbolsUnique t
      = some { t with
          symbols := [Symbol.zero, ⟨1, 0, 0, 1, 0⟩, ⟨t.names.length % 65536, 0, 0, 1, 0⟩],
          names := t.names ++ [formatNewName n 0] } := by
  have hg1 : isGlobalSymbol t 1 = true := by
    simp [isGlobalSymbol, hs, he]
  have hg2 : isGlobalSymbol t 2 = true := by
    simp [isGlobalSymbol, hs, he]
  have hname1 : t.names.getD (t.symbols.getD 1 Symbol.zero).name [] = n := by
    rw [hs]
    exact hn
  have hname2 : t.names.getD (t.symbols.getD 2 Symbol.zero).name [] = n := by
    rw [hs]
    exact hn
  have step1 : makeGlobalSymbolUnique t [] 1 = some (t, [n]) := by
    unfold makeGlobalSymbolUnique
    simp only [hg1, Bool.not_true, Bool.false_eq_true, if_false, hname1, List.not_mem_nil]
    rfl
  have hfind : findNewName [n] n 4294967296 0 = some (formatNewName n 0) :=
    findNewName_least [n] n 0 (by decide)
      (fun h => hf (List.mem_singleton.1 h))
      (fun j hj => absurd hj (Nat.not_lt_zero j)) 4294967296 0 (Nat.le_refl 0) (by decide)
  have step2 : makeGlobalSymbolUnique t [n] 2
      = some ({ t with
          symbols := [Symbol.zero, ⟨1, 0, 0, 1, 0⟩, ⟨t.names.length % 65536, 0, 0, 1, 0⟩],
          names := t.names ++ [formatNewName n 0] },
        ([n].insert (formatNewName n 0)).insert n) := by
    unfold makeGlobalSymbolUnique
    simp only [hg2, Bool.not_true, Bool.false_eq_true, if_false, hname2,
      List.mem_singleton, if_true, hfind, hroom]
    rw [hs]
    rfl
  unfold makeGlobalSymbolsUnique
  have hl : t.symbols.length - 1 = 2 := by rw [hs]; rfl
  rw [hl]
  simp only [makeGlobalSymbolsUniqueLoop, step1, step2]

/-- Claim C38 at the input `fullPoolSymbolsInput`, whose pool has 65536
entries: the second of the two global symbols named `n` is renamed; the name
`n$0` is appended to the pool as entry 65536, and the name index stored in the
symbol is 0, the index of the empty string. -/
theorem makeGlobalSymbolsUnique_fullPool_counterexample :
    fullPoolSymbolsInput.names.length = 65536
    ∧ makeGlobalSymbolsUnique fullPoolSymbolsInput
      = some { fullPoolSymbolsInput with
          symbols := [Symbol.zero, ⟨1, 0, 0, 1, 0⟩, ⟨0, 0, 0, 1, 0⟩],
          names := fullPoolSymbolsInput.names ++ [ascii "n$0"] }
    ∧ (fullPoolSymbolsInput.names ++ [ascii "n$0"]).getD 0 [] = []
    ∧ (fullPoolSymbolsInput.names ++ [ascii "n$0"]).getD 65536 [] = ascii "n$0" := by
  have hlen : fullPoolSymbolsInput.names.length = 65536 := by
    show (([] : Name) :: List.replicate 65535 (ascii "n")).length = 65536
    rw [List.length_cons, List.length_replicate]
  have hcap : namesCapacity fullPoolSymbolsInput = 98304 := by
    unfold namesCapacity
    rw [hlen]
    show grownCapacity 65536 3 65536 = 98304
    decide
  refine ⟨hlen, ?_, rfl, ?_⟩
  · have h := makeGlobalSymbolsUnique_pair fullPoolSymbolsInput (ascii "n") rfl rfl rfl
      (by decide) (by rw [hlen, hcap]; decide)
    rw [hlen] at h
    exact h
  · rw [List.getD_eq_getElem?_getD, List.getElem?_append_right (by rw [hlen]), hlen]
    rfl

/-- Claim C38, for a pool of fewer than 65536 entries. Where
`makeGlobalSymbolsUnique` changes the model at symbol `i`, it appends one name
to the pool and stores the size the pool had, modulo 65536, as the name index
of the symbol; `assignMissingTypeNames` and `applyPS10Specific` change the
model at a type only by `assignTypeName`, which appends the name to the pool
and stores the size the pool had, modulo 65536, as the name index of the
type. When the pool had fewer than 65536 entries (and the symbol or type is in
its table), the entry of the pool at the stored index is the name
appended. -/
theorem stored_name_index :
    (∀ (t u : TDS) (seen seen' : List Name) (i : Nat),
      makeGlobalSymbolUnique t seen i = some (u, seen') →
      u = t
      ∨ ∃ newName,
          u.names = t.names ++ [newName]
          ∧ u.symbols
            = t.symbols.set i { t.symbols.getD i Symbol.zero with name := t.names.length % 65536 }
          ∧ (i < t.symbols.length → t.names.length < 65536 →
              u.names.getD (u.symbols.getD i Symbol.zero).name [] = newName))
    ∧ (∀ (t : TDS) (index : Nat) (name : Name),
        (assignTypeName t index name).names = t.names ++ [name]
        ∧ (assignTypeName t index name).types
          = t.types.modify (fun type => { type with name := t.names.length % 65536 }) index
        ∧ (index < t.types.length → t.names.length < 65536 →
            (assignTypeName t index name).names.getD
              ((assignTypeName t index name).types.getD index TypeRecord.zero).name [] = name))
    ∧ (∀ (fuel index : Nat) (t : TDS), index < t.types.length →
        ∃ t', (t' = t ∨ ∃ name, t' = assignTypeName t index name)
          ∧ assignMissingTypeNamesLoop (fuel + 1) index t
            = assignMissingTypeNamesLoop fuel (TypeIterator.mk t'.types index).advance.index t')
    ∧ (∀ (fuel index : Nat) (t : TDS), index < t.types.length →
        ∃ t', (t' = t ∨ t' = assignTypeName t index (ascii "Free_vert$Element"))
          ∧ applyPS10SpecificLoop (fuel + 1) index t
            = applyPS10SpecificLoop fuel (TypeIterator.mk t'.types index).advance.index t') := by
  refine ⟨?_, ?_, ?_, ?_⟩
  · intro t u seen seen' i h
    unfold makeGlobalSymbolUnique at h
    split at h
    · simp only [Option.some.injEq, Prod.mk.injEq] at h
      exact Or.inl h.1.symm
    · simp only at h
      split at h
      · split at h
        · simp at h
        · rename_i newName hf
          split at h
          · simp at h
          · simp only [Option.some.injEq, Prod.mk.injEq] at h
            refine Or.inr ⟨newName, ?_, ?_, ?_⟩
            · rw [← h.1]
            · rw [← h.1]
            · intro hi hpool
              rw [← h.1]
              simp only [List.getD_eq_getElem?_getD, List.getElem?_set_self hi,
                Option.getD_some, Nat.mod_eq_of_lt hpool]
              rw [List.getElem?_append_right (Nat.le_refl _), Nat.sub_self]
              rfl
      · simp only [Option.some.injEq, Prod.mk.injEq] at h
        exact Or.inl h.1.symm
  · intro t index name
    refine ⟨rfl, rfl, ?_⟩
    intro hi hpool
    simp only [assignTypeName, List.getD_eq_getElem?_getD, List.getElem?_modify_eq,
      List.getElem?_eq_getElem hi, Option.map_some', Option.getD_some,
      Nat.mod_eq_of_lt hpool, Functor.map]
    rw [List.getElem?_append_right (Nat.le_refl _), Nat.sub_self]
    rfl
  · intro fuel index t h
    obtain ⟨t', hcase, heq⟩ := assignMissingTypeNamesLoop_succ fuel index t h
    refine ⟨t', ?_, heq⟩
    rcases hcase with h1 | ⟨name, -, -, h1⟩
    · exact Or.inl h1
    · exact Or.inr ⟨name, h1⟩
  · intro fuel index t h
    exact applyPS10SpecificLoop_succ fuel index t h

/-- Claim C38 on a pool of 2 entries: the struct at index 1 gets the name index
2, where the name appended is. -/
theorem stored_name_index_witness :
    (assignTypeName
        { TDS.init with types := [TypeRecord.zero, ⟨0x1E, 0, 4, 0, 0⟩], names := [[], ascii "a"] }
        1 (ascii "a$Type")).names.getD
      ((assignTypeName
        { TDS.init with types := [TypeRecord.zero, ⟨0x1E, 0, 4, 0, 0⟩], names := [[], ascii "a"] }
        1 (ascii "a$Type")).types.getD 1 TypeRecord.zero).name []
      = ascii "a$Type"
    ∧ ((assignTypeName
        { TDS.init with types := [TypeRecord.zero, ⟨0x1E, 0, 4, 0, 0⟩], names := [[], ascii "a"] }
        1 (ascii "a$Type")).types.getD 1 TypeRecord.zero).name = 2 :=
  ⟨(stored_name_index.2.1
      { TDS.init with types := [TypeRecord.zero, ⟨0x1E, 0, 4, 0, 0⟩], names := [[], ascii "a"] }
      1 (ascii "a$Type")).2.2 (by decide) (by decide),
    by decide⟩

/-! ## applyPS10Specific -/

/-- The type table after `assignTypeName`: the record at `index` has the size of
the pool, modulo 65536, as name index; every other record is as it was. -/
theorem assignTypeName_getD (t : TDS) (index : Nat) (name : Name) (k : Nat) :
    (assignTypeName t index name).types.getD k TypeRecord.zero
      = if k = index ∧ index < t.types.length then
          { t.types.getD k TypeRecord.zero with name := t.names.length % 65536 }
        else t.types.getD k TypeRecord.zero := by
  simp only [assignTypeName, List.getD_eq_getElem?_getD]
  by_cases hk : k = index
  · subst hk
    by_cases hlt : k < t.types.length
    · rw [if_pos ⟨rfl, hlt⟩]
      simp only [List.getElem?_modify_eq, List.getElem?_eq_getElem hlt, Option.map_some',
        Option.getD_some, Functor.map]
    · rw [if_neg (fun h => hlt h.2)]
      simp only [List.getElem?_modify_eq, List.getElem?_eq_none (Nat.le_of_not_lt hlt),
        Option.map_none', Functor.map]
  · rw [if_neg (fun h => hk h.1)]
    rw [List.getElem?_modify_ne _ _ (fun h => hk h.symm)]

/-- The test of the loop of `applyPS10Specific` skips a type exactly when the
type is not an anonymous struct of size 4. -/
theorem specFallbackType_not (type : TypeRecord) :
    (decide (0 ≠ type.name) || !type.isStruct || decide (4 ≠ type.size))
      = !specFallbackType type := by
  unfold specFallbackType
  by_cases h1 : type.name = 0 <;> by_cases h3 : type.size = 4 <;>
    cases type.isStruct <;> simp [h1, h3, eq_comm]

/-- The loop of `applyPS10Specific` on a table whose index is past the end. -/
theorem applyPS10SpecificLoop_of_not_lt (fuel p : Nat) (t : TDS) (h : ¬ p < t.types.length) :
    applyPS10SpecificLoop (fuel + 1) p t = some t := by
  have hn : (TypeIterator.mk t.types p).hasNext = false := by
    simp only [TypeIterator.hasNext, decide_eq_false_iff_not]
    exact h
  simp only [applyPS10SpecificLoop, hn, Bool.not_false, if_true]

/-- One iteration of the loop of `applyPS10Specific` at an index inside the
table: an anonymous struct of size 4 gets the name `Free_vert$Element`, every
other type is left as it is, and the loop goes on at the next index the walker
visits. -/
theorem applyPS10SpecificLoop_step (fuel p : Nat) (t : TDS) (h : p < t.types.length) :
    applyPS10SpecificLoop (fuel + 1) p t
      = applyPS10SpecificLoop fuel
          (if (t.types.getD p TypeRecord.zero).hasExtendedTypeInfo then p + 2 else p + 1)
          (if specFallbackType (t.types.getD p TypeRecord.zero) = true then
            assignTypeName t p (ascii "Free_vert$Element") else t) := by
  have hn : (TypeIterator.mk t.types p).hasNext = true := by
    simp only [TypeIterator.hasNext, decide_eq_true_eq]
    exact h
  have htype : (TypeIterator.mk t.types p).type.getD TypeRecord.zero
      = t.types.getD p TypeRecord.zero := by
    rw [TypeIterator.type_eq]
    simp only [List.getD_eq_getElem?_getD, List.get?_eq_getElem?]
  simp only [applyPS10SpecificLoop, hn, Bool.not_true, Bool.false_eq_true, if_false, htype]
  rw [specFallbackType_not]
  by_cases hc : specFallbackType (t.types.getD p TypeRecord.zero) = true
  · have hs : (t.types.getD p TypeRecord.zero).isStruct = true := by
      simp only [specFallbackType, Bool.and_eq_true] at hc
      exact hc.1.2
    rw [if_pos hc, hc]
    simp only [Bool.not_true, Bool.false_eq_true, if_false]
    have hlen : p < (assignTypeName t p (ascii "Free_vert$Element")).types.length := by
      simp only [assignTypeName, List.length_modify]
      exact h
    rw [TypeIterator.advance_mk _ _ hlen]
    have hx : ((assignTypeName t p (ascii "Free_vert$Element")).types.getD p
        TypeRecord.zero).hasExtendedTypeInfo
        = (t.types.getD p TypeRecord.zero).hasExtendedTypeInfo := by
      apply hasExtendedTypeInfo_congr
      rw [assignTypeName_getD, if_pos ⟨rfl, h⟩]
    rw [hx]
  · rw [if_neg hc]
    have hc' : specFallbackType (t.types.getD p TypeRecord.zero) = false := by
      simpa using hc
    rw [hc']
    simp only [Bool.not_false, if_true]
    rw [TypeIterator.advance_mk _ _ h]

/-- The loop of `applyPS10Specific` from the index `p` returns; it keeps the
kinds of the table; and when the pool it leaves has at most 65536 entries,
every anonymous struct of size 4 among the types the walker visits from `p`
has got a name index at or past the old end of the pool whose entry is
`Free_vert$Element`, and every other record of the table is as it was. -/
theorem applyPS10SpecificLoop_spec :
    ∀ (fuel p : Nat) (t : TDS), t.types.length - p ≤ fuel →
      ∃ u, applyPS10SpecificLoop (fuel + 1) p t = some u
        ∧ u.types.map (fun type => type.id) = t.types.map (fun type => type.id)
        ∧ (u.names.length ≤ 65536 → ∀ k,
            (k ∈ (TypeIterator.walk fuel { types := t.types, index := p }).map
                (fun it => it.index) →
              specFallbackType (t.types.getD k TypeRecord.zero) = true →
                t.names.length ≤ (u.types.getD k TypeRecord.zero).name
                ∧ u.names.getD (u.types.getD k TypeRecord.zero).name []
                  = ascii "Free_vert$Element"
                ∧ u.types.getD k TypeRecord.zero
                  = { t.types.getD k TypeRecord.zero with
                      name := (u.types.getD k TypeRecord.zero).name })
            ∧ (¬ (k ∈ (TypeIterator.walk fuel { types := t.types, index := p }).map
                  (fun it => it.index)
                ∧ specFallbackType (t.types.getD k TypeRecord.zero) = true) →
                u.types.getD k TypeRecord.zero = t.types.getD k TypeRecord.zero)) := by
  intro fuel
  induction fuel with
  | zero =>
    intro p t hp
    have hlt : ¬ p < t.types.length := by omega
    refine ⟨t, applyPS10SpecificLoop_of_not_lt 0 p t hlt, rfl, ?_⟩
    intro _ k
    refine ⟨?_, fun _ => rfl⟩
    intro hmem
    simp [TypeIterator.walk] at hmem
  | succ fuel ih =>
    intro p t hp
    by_cases hlt : p < t.types.length
    · have hstep := applyPS10SpecificLoop_step (fuel + 1) p t hlt
      obtain ⟨p', hp'⟩ : ∃ p', p' = (if (t.types.getD p TypeRecord.zero).hasExtendedTypeInfo
          then p + 2 else p + 1) := ⟨_, rfl⟩
      obtain ⟨t', ht'⟩ : ∃ t', t' = (if specFallbackType (t.types.getD p TypeRecord.zero) = true
          then assignTypeName t p (ascii "Free_vert$Element") else t) := ⟨_, rfl⟩
      rw [← hp', ← ht'] at hstep
      have hpp : p < p' := by
        rw [hp']
        split <;> omega
      have hkinds : t'.types.map (fun type => type.id) = t.types.map (fun type => type.id) := by
        rw [ht']
        split
        · exact map_id_modify_name _ _ _
        · rfl
      have hlen : t'.types.length = t.types.length := by
        have := congrArg List.length hkinds
        simpa using this
      have hnames : t.names.length ≤ t'.names.length := by
        rw [ht']
        split
        · simp only [assignTypeName, List.length_append, List.length_singleton]
          omega
        · exact Nat.le_refl _
      have hother : ∀ k, k ≠ p →
          t'.types.getD k TypeRecord.zero = t.types.getD k TypeRecord.zero := by
        intro k hk
        rw [ht']
        split
        · rw [assignTypeName_getD, if_neg (fun h => hk h.1)]
        · rfl
      obtain ⟨u, hu, hku, hprop⟩ := ih p' t' (by omega)
      obtain ⟨added, hadd, -⟩ := applyPS10SpecificLoop_names _ _ _ _ hu
      have hwalk : (TypeIterator.walk (fuel + 1) { types := t.types, index := p }).map
          (fun it => it.index)
          = p :: (TypeIterator.walk fuel { types := t.types, index := p' }).map
            (fun it => it.index) := by
        rw [TypeIterator.walk_succ_of_lt t.types p fuel hlt, ← hp']
        rfl
      have hcongr := walk_congr t.types t'.types hkinds fuel p'
      have hnotin : p ∉ (TypeIterator.walk fuel { types := t.types, index := p' }).map
          (fun it => it.index) := by
        intro hmem
        have := (TypeIterator.walk_spec t.types fuel p' (by omega)).1 p hmem
        omega
      refine ⟨u, hstep.trans hu, hku.trans hkinds, ?_⟩
      intro hpool k
      rw [hwalk]
      have hP := hprop hpool k
      rw [hcongr] at hP
      by_cases hkp : k = p
      · subst hkp
        have hsame : u.types.getD k TypeRecord.zero = t'.types.getD k TypeRecord.zero :=
          hP.2 (fun h => hnotin h.1)
        by_cases hc : specFallbackType (t.types.getD k TypeRecord.zero) = true
        · have ht'' : t' = assignTypeName t k (ascii "Free_vert$Element") := by
            rw [ht', if_pos hc]
          have hun : u.names = t.names ++ (ascii "Free_vert$Element" :: added) := by
            rw [hadd, ht'']
            simp only [assignTypeName, List.append_assoc, List.singleton_append]
          have hsmall : t.names.length < 65536 := by
            have := congrArg List.length hun
            simp only [List.length_append, List.length_cons] at this
            omega
          have hrec : u.types.getD k TypeRecord.zero
              = { t.types.getD k TypeRecord.zero with name := t.names.length } := by
            rw [hsame, ht'', assignTypeName_getD, if_pos ⟨rfl, hlt⟩, Nat.mod_eq_of_lt hsmall]
          refine ⟨fun _ _ => ⟨?_, ?_, ?_⟩, fun h => absurd ⟨List.mem_cons_self _ _, hc⟩ h⟩
          · rw [hrec]
          · rw [hrec, hun]
            simp only [List.getD_eq_getElem?_getD]
            rw [List.getElem?_append_right (Nat.le_refl _), Nat.sub_self]
            simp only [List.getElem?_cons_zero, Option.getD_some]
          · rw [hrec]
        · have ht'' : t' = t := by rw [ht', if_neg hc]
          refine ⟨fun _ h => absurd h hc, fun _ => ?_⟩
          rw [hsame, ht'']
      · rw [hother k hkp] at hP
        have hmem : k ∈ p :: (TypeIterator.walk fuel { types := t.types, index := p' }).map
              (fun it => it.index)
            ↔ k ∈ (TypeIterator.walk fuel { types := t.types, index := p' }).map
              (fun it => it.index) := by
          simp only [List.mem_cons, hkp, false_or]
        rw [hmem]
        refine ⟨fun h1 h2 => ?_, hP.2⟩
        obtain ⟨a1, a2, a3⟩ := hP.1 h1 h2
        exact ⟨Nat.le_trans hnames a1, a2, a3⟩
    · refine ⟨t, applyPS10SpecificLoop_of_not_lt _ p t hlt, rfl, ?_⟩
      intro _ k
      rw [TypeIterator.walk_of_not_lt t.types p _ hlt]
      refine ⟨?_, fun _ => rfl⟩
      intro hmem
      simp at hmem

/-- The test of `applyPS10Specific`, field by field. -/
theorem specFallbackType_iff (type : TypeRecord) :
    specFallbackType type = true ↔ type.id = 0x1E ∧ type.size = 4 ∧ type.name = 0 := by
  simp only [specFallbackType, TypeRecord.isStruct, Bool.and_eq_true, decide_eq_true_eq]
  constructor
  · rintro ⟨⟨h1, h2⟩, h3⟩
    exact ⟨h2.symm, h3, h1⟩
  · rintro ⟨h2, h3, h1⟩
    exact ⟨⟨h1, h2.symm⟩, h3⟩

/-- `replaceFirst` leaves a pool without the entry `old` as it is. -/
theorem replaceFirst_of_not_mem (old new : Name) :
    ∀ names : List Name, old ∉ names → replaceFirst old new names = names := by
  intro names
  induction names with
  | nil => intro _; rfl
  | cons name rest ih =>
    intro h
    simp only [List.mem_cons, not_or] at h
    simp only [replaceFirst]
    rw [if_neg (fun e => h.1 e.symm), ih h.2]

/-- `applyPS10Specific` on a table with one anonymous struct of size 4, at
index 1: the name index written is the size of the pool modulo 65536. -/
theorem applyPS10Specific_single (t : TDS)
    (ht : t.types = [TypeRecord.zero, ⟨0x1E, 0, 4, 0, 0⟩])
    (hn : ascii "A$Type" ∉ t.names) :
    applyPS10Specific t
      = some { t with
          types := [TypeRecord.zero, ⟨0x1E, t.names.length % 65536, 4, 0, 0⟩],
          names := t.names ++ [ascii "Free_vert$Element"] } := by
  unfold applyPS10Specific
  simp only []
  rw [replaceFirst_of_not_mem _ _ _ hn]
  have hl : t.types.length + 1 = 2 + 1 := by rw [ht]; rfl
  have hi : (typeIterator t).index = 1 := rfl
  have ht0 : ({ t with names := t.names } : TDS) = t := rfl
  rw [ht0, hl, hi, applyPS10SpecificLoop_step 2 1 t (by rw [ht]; decide)]
  have hfb : specFallbackType (t.types.getD 1 TypeRecord.zero) = true := by
    rw [ht]
    rfl
  have hx : (t.types.getD 1 TypeRecord.zero).hasExtendedTypeInfo = false := by
    rw [ht]
    rfl
  rw [if_pos hfb, hx]
  simp only [Bool.false_eq_true, if_false]
  rw [applyPS10SpecificLoop_of_not_lt 1 2 _ (by
    simp only [assignTypeName, List.length_modify]
    rw [ht]
    decide)]
  simp only [assignTypeName, ht]
  rfl

/-- Claim C31 at the input `fullPoolStructInput`, whose pool has 65536 entries:
the walker visits the anonymous struct of size 4 at index 1; the name
`Free_vert$Element` is appended to the pool as entry 65536, and the name index
written to the type is 0: the struct is still anonymous, and the entry of the
pool at its name index is the empty string. -/
theorem applyPS10Specific_fullPool_counterexample :
    fullPoolStructInput.names.length = 65536
    ∧ TypeIterator.visited fullPoolStructInput.types = [1]
    ∧ applyPS10Specific fullPoolStructInput
      = some { fullPoolStructInput with
          types := [TypeRecord.zero, ⟨0x1E, 0, 4, 0, 0⟩],
          names := fullPoolStructInput.names ++ [ascii "Free_vert$Element"] }
    ∧ (fullPoolStructInput.names ++ [ascii "Free_vert$Element"]).getD 0 [] = [] := by
  have hlen : fullPoolStructInput.names.length = 65536 := by
    show (([] : Name) :: List.replicate 65535 (ascii "n")).length = 65536
    rw [List.length_cons, List.length_replicate]
  refine ⟨hlen, by decide, ?_, rfl⟩
  have hn : ascii "A$Type" ∉ fullPoolStructInput.names := by
    show ascii "A$Type" ∉ ([] : Name) :: List.replicate 65535 (ascii "n")
    intro h
    rcases List.mem_cons.1 h with h | h
    · exact absurd h (by decide)
    · exact absurd (List.eq_of_mem_replicate h) (by decide)
  have h := applyPS10Specific_single fullPoolStructInput rfl hn
  rw [hlen] at h
  exact h

/-- Claim C31, with the bound on the pool it needs: on a pool with at least
its entry 0, `applyPS10Specific` returns and keeps the size of the type table;
when the pool it leaves has at most 65536 entries, every struct (kind 0x1E) of
size 4 with name 0 that the walker visits has got a name index that is not 0
and whose pool entry is `Free_vert$Element`, its other fields being as they
were, and every other record of the type table is as it was. -/
theorem applyPS10Specific_contract (t : TDS) (hne : t.names ≠ []) :
    ∃ u, applyPS10Specific t = some u
      ∧ u.types.length = t.types.length
      ∧ (u.names.length ≤ 65536 → ∀ k,
          (k ∈ TypeIterator.visited t.types →
            (t.types.getD k TypeRecord.zero).id = 0x1E →
            (t.types.getD k TypeRecord.zero).size = 4 →
            (t.types.getD k TypeRecord.zero).name = 0 →
              (u.types.getD k TypeRecord.zero).name ≠ 0
              ∧ u.names.getD (u.types.getD k TypeRecord.zero).name []
                = ascii "Free_vert$Element"
              ∧ u.types.getD k TypeRecord.zero
                = { t.types.getD k TypeRecord.zero with
                    name := (u.types.getD k TypeRecord.zero).name })
          ∧ (¬ (k ∈ TypeIterator.visited t.types
              ∧ (t.types.getD k TypeRecord.zero).id = 0x1E
              ∧ (t.types.getD k TypeRecord.zero).size = 4
              ∧ (t.types.getD k TypeRecord.zero).name = 0) →
              u.types.getD k TypeRecord.zero = t.types.getD k TypeRecord.zero)) := by
  have hlen0 : (replaceFirst (ascii "A$Type") (ascii "$PPoint") t.names).length
      = t.names.length := replaceFirst_length _ _ _
  have hpos : 0 < t.names.length := List.length_pos.2 hne
  obtain ⟨u, hu, hk, hprop⟩ := applyPS10SpecificLoop_spec t.types.length 1
    { t with names := replaceFirst (ascii "A$Type") (ascii "$PPoint") t.names } (by
      show t.types.length - 1 ≤ t.types.length
      omega)
  refine ⟨u, hu, ?_, ?_⟩
  · have := congrArg List.length hk
    simpa using this
  · intro hpool k
    obtain ⟨h1, h2⟩ := hprop hpool k
    refine ⟨?_, ?_⟩
    · intro hv hid hsize hname
      obtain ⟨a1, a2, a3⟩ := h1 hv ((specFallbackType_iff _).2 ⟨hid, hsize, hname⟩)
      refine ⟨?_, a2, a3⟩
      have a1' : t.names.length ≤ (u.types.getD k TypeRecord.zero).name := by
        rw [← hlen0]
        exact a1
      omega
    · intro hnot
      apply h2
      rintro ⟨hv, hc⟩
      exact hnot ⟨hv, (specFallbackType_iff _).1 hc⟩

/-- Claim C31 on `appendingInput`: the struct at index 1 gets the name index 2,
whose pool entry is `Free_vert$Element`. -/
theorem applyPS10Specific_contract_witness :
    appendingInput.names ≠ []
    ∧ applyPS10Specific appendingInput
      = some { appendingInput with
          types := [TypeRecord.zero, ⟨0x1E, 2, 4, 0, 0⟩],
          names := [[], ascii "a", ascii "Free_vert$Element"] }
    ∧ ∃ u, applyPS10Specific appendingInput = some u
      ∧ u.types.length = appendingInput.types.length
      ∧ (u.names.length ≤ 65536 → ∀ k,
          (k ∈ TypeIterator.visited appendingInput.types →
            (appendingInput.types.getD k TypeRecord.zero).id = 0x1E →
            (appendingInput.types.getD k TypeRecord.zero).size = 4 →
            (appendingInput.types.getD k TypeRecord.zero).name = 0 →
              (u.types.getD k TypeRecord.zero).name ≠ 0
              ∧ u.names.getD (u.types.getD k TypeRecord.zero).name []
                = ascii "Free_vert$Element"
              ∧ u.types.getD k TypeRecord.zero
                = { appendingInput.types.getD k TypeRecord.zero with
                    name := (u.types.getD k TypeRecord.zero).name })
          ∧ (¬ (k ∈ TypeIterator.visited appendingInput.types
              ∧ (appendingInput.types.getD k TypeRecord.zero).id = 0x1E
              ∧ (appendingInput.types.getD k TypeRecord.zero).size = 4
              ∧ (appendingInput.types.getD k TypeRecord.zero).name = 0) →
              u.types.getD k TypeRecord.zero = appendingInput.types.getD k TypeRecord.zero)) :=
  ⟨by decide, by decide, applyPS10Specific_contract appendingInput (by decide)⟩

/-! ## Termination of typeString -/

/-- `typeString` on an index past the end of the table. -/
theorem typeString_of_le (t : TDS) (depth typeIndex : Nat) (h : t.types.length ≤ typeIndex) :
    typeString t (depth + 1) typeIndex = some [] := by
  rw [typeString, if_pos h]

/-- `typeString` on a type of the table whose name index is outside the pool. -/
theorem typeString_of_name_le (t : TDS) (depth typeIndex : Nat)
    (h : typeIndex < t.types.length)
    (hn : t.names.length ≤ (t.types.getD typeIndex TypeRecord.zero).name) :
    typeString t (depth + 1) typeIndex
      = some (GetTypeString (t.types.getD typeIndex TypeRecord.zero).id) := by
  rw [typeString, if_neg (Nat.not_le.2 h)]
  simp only []
  rw [if_pos hn]

/-- The shape of a call of `typeString`: either it returns the same string at
every bound of one or more, or the type has a reference and the call returns
what the call on the type referred to returns, put into a text. -/
theorem typeString_shape (t : TDS) (typeIndex : Nat) :
    (∃ s, ∀ depth, typeString t (depth + 1) typeIndex = some s)
    ∨ (∃ j f, specReference t typeIndex = some j
        ∧ ∀ depth, typeString t (depth + 1) typeIndex = (typeString t depth j).map f) := by
  by_cases hlt : typeIndex < t.types.length
  · by_cases hn : (t.types.getD typeIndex TypeRecord.zero).name < t.names.length
    · obtain ⟨type, htype⟩ : ∃ type, t.types.get? typeIndex = some type :=
        ⟨_, List.get?_eq_get hlt⟩
      have hget : t.types.getD typeIndex TypeRecord.zero = type := by
        rw [List.getD_eq_getElem?_getD, ← List.get?_eq_getElem?, htype]
        rfl
      rw [hget] at hn
      obtain ⟨name, hname⟩ : ∃ name, t.names.get? type.name = some name :=
        ⟨_, List.get?_eq_get hn⟩
      have hs := fun depth => typeString_succ t depth typeIndex type name htype hname
      have href : specReference t typeIndex
          = if type.id = 22 ∨ type.id = 25 ∨ type.id = 53 then some type.recordWord
            else if type.id = 35 ∧ type.recordWord ≠ 0 then some type.recordWord
            else none := by
        simp only [specReference, if_pos hlt, hget]
      obtain ⟨pre, hpre⟩ : ∃ pre, ∀ r : Nat → Option Name,
          functionTypeString r type
            = if 0 = type.recordWord then some (pre ++ ascii "Unknown")
              else (r type.recordWord).map (fun returned => pre ++ returned) :=
        ⟨_, fun _ => rfl⟩
      by_cases h3 : type.id = 3
      · exact Or.inl ⟨_, fun depth => (hs depth).trans (if_pos h3)⟩
      · by_cases hr : type.id = 4 ∨ type.id = 5 ∨ type.id = 6 ∨ type.id = 8 ∨ type.id = 9
            ∨ type.id = 10
        · exact Or.inl ⟨_, fun depth => (hs depth).trans ((if_neg h3).trans (if_pos hr))⟩
        · by_cases hp : type.id = 22 ∨ type.id = 25 ∨ type.id = 53
          · refine Or.inr ⟨type.recordWord, _, ?_, fun depth =>
              (hs depth).trans ((if_neg h3).trans ((if_neg hr).trans (if_pos hp)))⟩
            rw [href, if_pos hp]
          · by_cases hf : type.id = 35
            · by_cases h0 : 0 = type.recordWord
              · left
                have hall : ∀ depth, typeString t (depth + 1) typeIndex
                    = some (GetTypeString type.id
                      ++ (if name = [] then [] else ascii " '" ++ name ++ ascii "' ")
                      ++ (pre ++ ascii "Unknown")) := by
                  intro depth
                  rw [hs depth, if_neg h3, if_neg hr, if_neg hp, if_pos hf, hpre, if_pos h0]
                  rfl
                exact ⟨_, hall⟩
              · right
                have hall : ∀ depth, typeString t (depth + 1) typeIndex
                    = (typeString t depth type.recordWord).map (fun returned =>
                      GetTypeString type.id
                        ++ (if name = [] then [] else ascii " '" ++ name ++ ascii "' ")
                        ++ (pre ++ returned)) := by
                  intro depth
                  rw [hs depth, if_neg h3, if_neg hr, if_neg hp, if_pos hf, hpre, if_neg h0,
                    Option.map_map]
                  rfl
                refine ⟨type.recordWord, _, ?_, hall⟩
                rw [href, if_neg hp, if_pos ⟨hf, fun e => h0 e.symm⟩]
            · exact Or.inl ⟨_, fun depth => (hs depth).trans
                ((if_neg h3).trans ((if_neg hr).trans ((if_neg hp).trans (if_neg hf))))⟩
    · left
      exact ⟨_, fun depth => typeString_of_name_le t depth typeIndex hlt (Nat.le_of_not_lt hn)⟩
  · left
    exact ⟨_, fun depth => typeString_of_le t depth typeIndex (Nat.le_of_not_lt hlt)⟩

/-- A call of `typeString` that returns within a bound returns the same string
within every larger bound. -/
theorem typeString_mono (t : TDS) :
    ∀ (depth typeIndex : Nat) (s : Name), typeString t depth typeIndex = some s →
      typeString t (depth + 1) typeIndex = some s := by
  intro depth
  induction depth with
  | zero =>
    intro typeIndex s h
    simp [typeString] at h
  | succ depth ih =>
    intro typeIndex s h
    rcases typeString_shape t typeIndex with ⟨s', hs⟩ | ⟨j, f, -, hs⟩
    · rw [hs] at h ⊢
      exact h
    · rw [hs] at h ⊢
      cases hj : typeString t depth j with
      | none => rw [hj] at h; simp at h
      | some x =>
        rw [hj] at h
        rw [ih j x hj]
        exact h

/-- A call of `typeString` that returns within a bound returns the same string
within every bound that is not smaller. -/
theorem typeString_mono_le (t : TDS) (depth typeIndex : Nat) (s : Name)
    (h : typeString t depth typeIndex = some s) :
    ∀ depth', depth ≤ depth' → typeString t depth' typeIndex = some s := by
  intro depth' hle
  induction depth' with
  | zero =>
    have : depth = 0 := by omega
    rw [← this]
    exact h
  | succ d ih =>
    rcases Nat.eq_or_lt_of_le hle with heq | hlt
    · rw [← heq]
      exact h
    · exact typeString_mono t d typeIndex s (ih (by omega))

/-- A call of `typeString` returns within the bound `k` when fewer than `k`
references can be followed from the type. -/
theorem typeString_of_specFollow (t : TDS) :
    ∀ (k typeIndex : Nat), specFollow t k typeIndex = none →
      ∃ s, typeString t k typeIndex = some s := by
  intro k
  induction k with
  | zero =>
    intro typeIndex h
    simp [specFollow] at h
  | succ k ih =>
    intro typeIndex h
    rcases typeString_shape t typeIndex with ⟨s, hs⟩ | ⟨j, f, href, hs⟩
    · exact ⟨s, hs k⟩
    · rw [specFollow, href, Option.some_bind] at h
      obtain ⟨x, hx⟩ := ih j h
      exact ⟨f x, by rw [hs, hx]; rfl⟩

/-- References followed one after the other. -/
theorem specFollow_add (t : TDS) :
    ∀ (a b typeIndex : Nat),
      specFollow t (a + b) typeIndex = (specFollow t a typeIndex).bind (specFollow t b) := by
  intro a
  induction a with
  | zero =>
    intro b typeIndex
    rw [Nat.zero_add]
    rfl
  | succ a ih =>
    intro b typeIndex
    have hab : a + 1 + b = (a + b) + 1 := by omega
    rw [hab, specFollow, specFollow]
    cases specReference t typeIndex with
    | none => rfl
    | some j =>
      simp only [Option.some_bind]
      exact ih b j

/-- A type with a reference is a type of the table. -/
theorem specReference_lt (t : TDS) (typeIndex j : Nat)
    (h : specReference t typeIndex = some j) : typeIndex < t.types.length := by
  by_contra hc
  simp [specReference, hc] at h

/-- Without a cycle, no more references can be followed from a type than there
are types with a reference: a longer chain would pass twice through one of
them. -/
theorem specFollow_bounded (t : TDS) (h : specAcyclic t) (S : Finset Nat)
    (hS : ∀ j r, specReference t j = some r → j ∈ S) (typeIndex : Nat) :
    specFollow t (S.card + 1) typeIndex = none := by
  by_contra hne
  obtain ⟨z, hz⟩ := Option.ne_none_iff_exists'.1 hne
  have hprefix : ∀ m, m ≤ S.card →
      ∃ x, specFollow t m typeIndex = some x ∧ x ∈ S := by
    intro m hm
    obtain ⟨k, hk⟩ : ∃ k, S.card + 1 = m + (k + 1) := ⟨S.card - m, by omega⟩
    rw [hk, specFollow_add] at hz
    cases hx : specFollow t m typeIndex with
    | none => rw [hx] at hz; simp at hz
    | some x =>
      rw [hx, Option.some_bind, specFollow] at hz
      cases hr : specReference t x with
      | none => rw [hr] at hz; simp at hz
      | some r => exact ⟨x, rfl, hS x r hr⟩
  have hmaps : ∀ m ∈ Finset.range (S.card + 1),
      (specFollow t m typeIndex).getD 0 ∈ S := by
    intro m hm
    obtain ⟨x, hx, hxS⟩ := hprefix m (by
      have := Finset.mem_range.1 hm
      omega)
    rw [hx]
    exact hxS
  obtain ⟨a, ha, b, hb, hab, heq⟩ :=
    Finset.exists_ne_map_eq_of_card_lt_of_maps_to
      (by rw [Finset.card_range]; omega) hmaps
  have key : ∀ a b, a ≤ S.card → b ≤ S.card → a < b →
      (specFollow t a typeIndex).getD 0 = (specFollow t b typeIndex).getD 0 → False := by
    intro a b ha hb hlt heq
    obtain ⟨xa, hxa, -⟩ := hprefix a ha
    obtain ⟨xb, hxb, -⟩ := hprefix b hb
    rw [hxa, hxb] at heq
    simp only [Option.getD_some] at heq
    obtain ⟨k, hk⟩ : ∃ k, b = a + (k + 1) := ⟨b - a - 1, by omega⟩
    rw [hk, specFollow_add, hxa, Option.some_bind] at hxb
    rw [← heq] at hxb
    exact h xa k hxb
  have ha' : a ≤ S.card := by
    have := Finset.mem_range.1 ha
    omega
  have hb' : b ≤ S.card := by
    have := Finset.mem_range.1 hb
    omega
  rcases Nat.lt_or_gt_of_ne hab with hlt | hgt
  · exact key a b ha' hb' hlt heq
  · exact key b a hb' ha' hgt heq.symm

/-- Claim C33: when the reference relation of the type table has no cycle,
`typeString` returns for every index, with at most `types.size()` calls nested
in the first one: the bound `types.size() + 1` on the calls (the first one
counted) is enough, and every larger bound gives the same string. When the
entry 0 of the table has no reference, as in every table that was loaded, and
the table is not empty, the bound `types.size()` is enough. -/
theorem typeString_terminates (t : TDS) (h : specAcyclic t) (typeIndex : Nat) :
    (∃ s, typeString t (t.types.length + 1) typeIndex = some s
      ∧ ∀ depth, t.types.length + 1 ≤ depth → typeString t depth typeIndex = some s)
    ∧ (specReference t 0 = none → 0 < t.types.length →
        ∃ s, typeString t t.types.length typeIndex = some s) := by
  constructor
  · have hb := specFollow_bounded t h (Finset.range t.types.length)
      (fun j r hr => Finset.mem_range.2 (specReference_lt t j r hr)) typeIndex
    rw [Finset.card_range] at hb
    obtain ⟨s, hs⟩ := typeString_of_specFollow t _ typeIndex hb
    exact ⟨s, hs, typeString_mono_le t _ typeIndex s hs⟩
  · intro h0 hpos
    have hb := specFollow_bounded t h ((Finset.range t.types.length).erase 0)
      (fun j r hr => by
        rw [Finset.mem_erase, Finset.mem_range]
        refine ⟨?_, specReference_lt t j r hr⟩
        intro hj
        rw [hj, h0] at hr
        cases hr) typeIndex
    rw [Finset.card_erase_of_mem (Finset.mem_range.2 hpos), Finset.card_range,
      Nat.sub_add_cancel hpos] at hb
    exact typeString_of_specFollow t _ typeIndex hb

/-- A table whose references all go to larger indices has no cycle. -/
theorem specAcyclic_of_increasing (t : TDS)
    (h : ∀ i j, specReference t i = some j → i < j) : specAcyclic t := by
  have key : ∀ k i x, specFollow t (k + 1) i = some x → i < x := by
    intro k
    induction k with
    | zero =>
      intro i x hx
      rw [specFollow] at hx
      cases hr : specReference t i with
      | none => rw [hr] at hx; simp at hx
      | some j =>
        rw [hr, Option.some_bind, specFollow] at hx
        have := h i j hr
        simp only [Option.some.injEq] at hx
        omega
    | succ k ih =>
      intro i x hx
      rw [specFollow] at hx
      cases hr : specReference t i with
      | none => rw [hr] at hx; simp at hx
      | some j =>
        rw [hr, Option.some_bind] at hx
        have h1 := h i j hr
        have h2 := ih j x hx
        omega
  intro i k hc
  exact Nat.lt_irrefl i (key k i i hc)

/-- The references of `chainInput` go to larger indices. -/
theorem chainInput_increasing : ∀ i j, specReference chainInput i = some j → i < j := by
  intro i j h
  have hi : i < 5 := specReference_lt chainInput i j h
  interval_cases i
  · rw [show specReference chainInput 0 = none from by decide] at h
    cases h
  · rw [show specReference chainInput 1 = some 2 from by decide] at h
    simp only [Option.some.injEq] at h
    omega
  · rw [show specReference chainInput 2 = some 3 from by decide] at h
    simp only [Option.some.injEq] at h
    omega
  · rw [show specReference chainInput 3 = none from by decide] at h
    cases h
  · rw [show specReference chainInput 4 = none from by decide] at h
    cases h

/-- Claim C33 on `chainInput`, a table of 5 entries without a cycle: the call on
the pointer at index 1 returns with 2 calls nested in it, within the bounds 6
and 5, and does not return within the bound 2. -/
theorem typeString_terminates_witness :
    specAcyclic chainInput
    ∧ typeString chainInput 3 1
      = some (ascii "far pointer function near C returns signed char")
    ∧ typeString chainInput 2 1 = none
    ∧ (∃ s, typeString chainInput (chainInput.types.length + 1) 1 = some s
        ∧ ∀ depth, chainInput.types.length + 1 ≤ depth → typeString chainInput depth 1 = some s)
    ∧ (specReference chainInput 0 = none → 0 < chainInput.types.length →
        ∃ s, typeString chainInput chainInput.types.length 1 = some s) :=
  ⟨specAcyclic_of_increasing chainInput chainInput_increasing, by decide, by decide,
    typeString_terminates chainInput
      (specAcyclic_of_increasing chainInput chainInput_increasing) 1⟩

end TDS

end OpenChasm
